import Mathlib

/-!
Transport core of the incident.io Go client.

A shallow embedding of `incidentio.go` (package `incidentio`): request
construction (`Client.NewRequest`), execution (`Client.Do`), status
classification and error-envelope decoding (`CheckResponse`,
`ErrorResponse`), the `Timestamp` codec, the constructor `NewClient` with
its options, and the resource methods `UsersService.List`, the methods of
`IncidentsService`, and `SchedulesService.List` and `ListEntries`, with the
request options of `Create` and `Update` as the encoder writes them and the
decoder reads them back.

Go values are embedded as follows.

* Go strings and byte slices are Lean `String`s and `List Char`s (the text is
  taken as valid UTF-8).
* `int` is `Int`, with the 64-bit range checked where a number is converted.
* The `*http.Response` that `Do`, `CheckResponse` and the `ErrorResponse`
  share is explicit state: `CheckResponse` returns the response as it leaves
  it, and the pointer field of the `ErrorResponse` is a `ResponseRef`.
* A response body is a stream: the chunks it delivers and the way it ends.
* The parts of the Go standard library that the package calls are modelled
  after their documented behaviour where the claims depend on it
  (`http.Header`, `http.NewRequest`, the scanner and the decoder of
  `encoding/json`, `io.ReadAll`, `io.Copy`), and are parameters otherwise:
  `net/url` (`URLLib`), the JSON encoder of a request body, the round trip of
  the HTTP client (`HTTPClient`), and what a decode target does with a write
  or a parsed value (`TargetOps`).
* For `net/url` there is `plainURLLib`: `url.Parse`, `ResolveReference` and
  `String` after the source of the package, on texts that are UTF-8 when
  unescaped and hosts that are not in brackets. For the body encoder there is
  `encodeJSON`, the encoder on the JSON value a body encodes to.
* A `time.Time` is its date, time of day and zone offset; `Format` and
  `Parse` are embedded for the layout `time.RFC3339`.
* A slice or map that may be nil is an `Option`; a map is the list of its
  entries in increasing order of the keys; a value held in an `interface{}`
  is a `Dyn`.
-/

set_option autoImplicit false

namespace Incidentio

/-! ## Errors -/

/-- One sub-error of the error envelope: the anonymous element type of
`ErrorResponse.Errors`, with its nested `Source.Pointer`. -/
structure SubError where
  Code : String := ""
  Detail : String := ""
  SourcePointer : String := ""
  deriving DecidableEq, Repr

/-- The `net/url.URL` record (exported fields). -/
structure URL where
  Scheme : String := ""
  Opaque : String := ""
  User : Option (String × Option String) := none
  Host : String := ""
  Path : String := ""
  RawPath : String := ""
  OmitHost : Bool := false
  ForceQuery : Bool := false
  RawQuery : String := ""
  Fragment : String := ""
  RawFragment : String := ""
  deriving DecidableEq, Repr

/-- The `http.Header` map: canonical key to list of values. Each key occurs at
most once. -/
abbrev Header := List (String × List String)

/-- The part of `http.Request` the package reads or writes. `URL` is a pointer
(`none` is nil); `Body` is `none` when no body reader was given. -/
structure Request where
  Method : String := ""
  URL : Option URL := none
  Header : Header := []
  Body : Option (List Char) := none
  deriving DecidableEq, Repr

/-- The metadata part of `http.Response`: status code, headers and the
originating request (a pointer, `none` is nil). The body stream is kept
separately, see `Body`. -/
structure Response where
  StatusCode : Int := 0
  Header : Header := []
  Request : Option Request := none
  deriving DecidableEq, Repr

/-- The value of the pointer field `ErrorResponse.Response`. -/
inductive ResponseRef where
  /-- The nil pointer. -/
  | null
  /-- The response that was handed to `CheckResponse`; the caller of
  `CheckResponse` holds the same pointer. -/
  | original
  /-- A response allocated by the JSON decoder, distinct from the original. -/
  | allocated (r : Response)
  deriving DecidableEq, Repr

/-- The Go struct `ErrorResponse`. -/
structure ErrorResponse where
  Response : ResponseRef := .null
  Type_ : String := ""
  Status : Int := 0
  Detail : String := ""
  Errors : List SubError := []
  deriving DecidableEq, Repr

/-- Go `error` values, by dynamic type. -/
inductive Error where
  /-- An error made outside this package and `encoding/json`: by `net/url`,
  `net/http`, the transport, a reader or writer, or a marshaler. -/
  | foreign (msg : String)
  /-- A `*json.SyntaxError`. -/
  | malformed (msg : String)
  /-- The value `io.EOF`. -/
  | eof
  /-- The value `io.ErrUnexpectedEOF`. -/
  | unexpectedEOF
  /-- An error of `encoding/json` met while storing a parsed value into the
  target (`*json.UnmarshalTypeError`, `*json.InvalidUnmarshalError`). -/
  | unmarshal (msg : String)
  /-- An `*ErrorResponse`. -/
  | api (e : ErrorResponse)
  deriving DecidableEq, Repr

/-- Whether the dynamic type of the error is `*ErrorResponse`. -/
def Error.isErrorResponse : Error → Bool
  | .api _ => true
  | _ => false

/-- Outcome of a Go call returning `(T, error)` that may also panic. -/
inductive Result (α : Type) where
  | ok (a : α)
  | err (e : Error)
  /-- A run-time panic (nil pointer dereference). -/
  | crash
  deriving DecidableEq, Repr

/-- The body of a response as a stream: the chunks that successive `Read`
calls deliver, and what ends the stream: `none` for `io.EOF`, or the message
of the error with which the transport breaks the stream off (an
`Error.foreign`). -/
structure Body where
  chunks : List (List Char) := []
  readErr : Option String := none
  deriving DecidableEq, Repr

/-- All the bytes of the stream. -/
def Body.data (b : Body) : List Char :=
  b.chunks.flatten

/-! ## `http.Header` -/

/-- `textproto.validHeaderFieldByte`: the token characters of RFC 7230. -/
def validHeaderFieldByte (c : Char) : Bool :=
  c.isAlphanum || "!#$%&*+-.^_|~".toList.contains c || c.toNat = 39 || c.toNat = 96

/-- Letter case of `textproto.canonicalMIMEHeaderKey`: upper case at the start
and after a hyphen, lower case elsewhere. -/
def canonicalCase : Bool → List Char → List Char
  | _, [] => []
  | upper, c :: cs =>
    (if upper then c.toUpper else c.toLower) :: canonicalCase (c = '-') cs

/-- `textproto.CanonicalMIMEHeaderKey`: a key holding a byte that is not a
token character is returned unchanged. -/
def CanonicalMIMEHeaderKey (s : String) : String :=
  if s.toList.all validHeaderFieldByte then String.mk (canonicalCase true s.toList) else s

/-- `Header.Set`: the values of the canonical key are replaced by the single
value. -/
def Header.Set (h : Header) (key value : String) : Header :=
  (CanonicalMIMEHeaderKey key, [value]) ::
    h.filter (fun p => p.1 != CanonicalMIMEHeaderKey key)

/-- `Header.Values`: all values of the canonical key, `[]` when the key is
absent. -/
def Header.Values (h : Header) (key : String) : List String :=
  (h.lookup (CanonicalMIMEHeaderKey key)).getD []

/-- `Header.Get`: the first value of the canonical key, `""` when absent. -/
def Header.Get (h : Header) (key : String) : String :=
  (Header.Values h key).headD ""

/-! ## Request construction -/

/-- The functions of `net/url` used by the package. -/
structure URLLib where
  /-- `url.Parse`. -/
  Parse : String → Except Error URL
  /-- `(*URL).ResolveReference`, receiver first. -/
  ResolveReference : URL → URL → URL
  /-- `(*URL).String`. -/
  String : URL → String

/-- `(*URL).Parse`: parse `ref`, then resolve it against the receiver. The
receiver is a pointer; `ResolveReference` reads it only when the reference has
no scheme, which is where a nil receiver panics. -/
def URL.ParseRef (lib : URLLib) (u : Option URL) (ref : String) : Result URL :=
  match lib.Parse ref with
  | .error e => .err e
  | .ok refURL =>
    match u with
    | some base => .ok (lib.ResolveReference base refURL)
    | none => if refURL.Scheme = "" then .crash else .ok (lib.ResolveReference {} refURL)

/-- `http.validMethod`: a non-empty token. -/
def validMethod (method : String) : Bool :=
  method.length > 0 && method.toList.all validHeaderFieldByte

/-- `http.removeEmptyPort`: `strings.TrimSuffix(host, ":")` when `hasPort(host)`,
that is when the last colon comes after the last closing bracket; a host that
ends in a colon always has a port in that sense. -/
def removeEmptyPort (host : String) : String :=
  match host.toList.reverse with
  | ':' :: rest => String.mk rest.reverse
  | _ => host

/-- `http.NewRequest(method, url, body)`: the method defaults to GET and must
be a token, the URL is parsed again, and the request starts with an empty
header map. -/
def httpNewRequest (lib : URLLib) (method url : String) (body : Option (List Char)) :
    Except Error Request :=
  let method := if method = "" then "GET" else method
  if !validMethod method then .error (.foreign "net/http: invalid method")
  else
    match lib.Parse url with
    | .error e => .error e
    | .ok u =>
      .ok { Method := method, URL := some { u with Host := removeEmptyPort u.Host },
            Header := [], Body := body }

/-- What `(*http.Client).Do` returns for a request. -/
inductive TransportResult where
  /-- `client.Do` returned a non-nil error (the response it may return with it
  is to be ignored). -/
  | failed (err : Error) (resp : Option Response)
  /-- `client.Do` returned a response and its body stream. -/
  | received (resp : Response) (body : Body)

/-- The `*http.Client` held by the client: its timeout in seconds and what a
round trip of a request gives. -/
structure HTTPClient where
  Timeout : Nat := 30
  Do : Request → TransportResult

/-- The configuration fields of the Go struct `Client` (the service
back-references are left out). `BaseURL` is a pointer, `none` is nil. -/
structure Client where
  client : HTTPClient
  BaseURL : Option URL
  UserAgent : String
  apiKey : String

/-- `Client.NewRequest(method, urlStr, body)`. `body` is `none` for a nil
interface; `encode escapeHTML b` is the output of a `json.Encoder` with the
given HTML-escaping mode on `b`. -/
def Client.NewRequest {B : Type} (lib : URLLib) (encode : Bool → B → Except Error (List Char))
    (c : Client) (method urlStr : String) (body : Option B) : Result Request :=
  match URL.ParseRef lib c.BaseURL urlStr with
  | .err e => .err e
  | .crash => .crash
  | .ok u =>
    -- var buf io.ReadWriter; if body != nil { ... enc.SetEscapeHTML(false); enc.Encode(body) }
    let buf : Except Error (Option (List Char)) :=
      match body with
      | none => .ok none
      | some b =>
        match encode false b with
        | .error e => .error e
        | .ok bytes => .ok (some bytes)
    match buf with
    | .error e => .err e
    | .ok buf =>
      match httpNewRequest lib method (lib.String u) buf with
      | .error e => .err e
      | .ok req =>
        let req : Request :=
          if body.isSome then { req with Header := req.Header.Set "Content-Type" "application/json" }
          else req
        let req := { req with Header := req.Header.Set "Accept" "application/json" }
        let req := { req with Header := req.Header.Set "User-Agent" c.UserAgent }
        let req := { req with Header := req.Header.Set "Authorization" ("Bearer " ++ c.apiKey) }
        .ok req

/-! ## `encoding/json`: the scanner

The scanner of `encoding/json` (`scanner.go`) reads its input one byte at a
time and keeps a stack of the open arrays and objects. The machine below
follows its states; in addition to accepting or rejecting it builds the value
that the decoder reads from the same bytes. -/

/-- A parsed JSON value. A number keeps its literal text, which is what the
decoder hands to `strconv`. -/
inductive JSON where
  | null
  | bool (b : Bool)
  | num (lit : String)
  | str (s : String)
  | arr (elems : List JSON)
  | obj (members : List (String × JSON))
  deriving Repr

/-- Whether the value is an array or an object. -/
def JSON.isContainer : JSON → Bool
  | .arr _ => true
  | .obj _ => true
  | _ => false

/-- `json.isSpace`. -/
def isSpace (c : Char) : Bool :=
  c = ' ' || c = '\t' || c = '\r' || c = '\n'

/-- Value of a hexadecimal digit. -/
def hexVal (c : Char) : Option Nat :=
  if '0' ≤ c ∧ c ≤ '9' then some (c.toNat - 48)
  else if 'a' ≤ c ∧ c ≤ 'f' then some (c.toNat - 87)
  else if 'A' ≤ c ∧ c ≤ 'F' then some (c.toNat - 55)
  else none

/-- A unit of a string literal after escape processing: a character, or the
16-bit value of a `\uXXXX` escape. -/
inductive StrUnit where
  | char (c : Char)
  | unit (n : Nat)

/-- First pass of `json.unquote`: resolve the escapes of the raw content of a
string literal that the scanner accepted. -/
def unescape : List Char → List StrUnit
  | [] => []
  | '\\' :: 'u' :: a :: b :: c :: d :: rest =>
    .unit ((((hexVal a).getD 0 * 16 + (hexVal b).getD 0) * 16 + (hexVal c).getD 0) * 16
      + (hexVal d).getD 0) :: unescape rest
  | '\\' :: e :: rest =>
    .char (if e = 'b' then Char.ofNat 8 else if e = 'f' then Char.ofNat 12
      else if e = 'n' then '\n' else if e = 'r' then '\r' else if e = 't' then '\t'
      else e) :: unescape rest
  | c :: rest => .char c :: unescape rest

/-- `utf16.IsSurrogate`. -/
def isSurrogate (n : Nat) : Bool :=
  0xD800 ≤ n && n < 0xE000

/-- Second pass of `json.unquote`: a high surrogate followed at once by a low
surrogate escape is one character; any other surrogate is U+FFFD. -/
def combineUnits : List StrUnit → List Char
  | [] => []
  | .char c :: rest => c :: combineUnits rest
  | .unit hi :: .unit lo :: rest =>
    if isSurrogate hi then
      if hi < 0xDC00 ∧ 0xDC00 ≤ lo ∧ lo < 0xE000 then
        Char.ofNat ((hi - 0xD800) * 1024 + (lo - 0xDC00) + 0x10000) :: combineUnits rest
      else Char.ofNat 0xFFFD :: combineUnits (.unit lo :: rest)
    else Char.ofNat hi :: combineUnits (.unit lo :: rest)
  | .unit n :: rest =>
    (if isSurrogate n then Char.ofNat 0xFFFD else Char.ofNat n) :: combineUnits rest

/-- `json.unquote` on the raw content of an accepted string literal. -/
def unquote (raw : List Char) : String :=
  String.mk (combineUnits (unescape raw))

/-- An open array or object, with what has been read of it (latest first). -/
inductive Frame where
  /-- In an array. -/
  | arr (elems : List JSON)
  /-- In an object, at a key. -/
  | key (members : List (String × JSON))
  /-- In an object, after the key `k`, before its colon. -/
  | colon (members : List (String × JSON)) (k : String)
  /-- In an object, at the value of key `k`. -/
  | value (members : List (String × JSON)) (k : String)
  /-- In an object, after a key:value pair. -/
  | pair (members : List (String × JSON))

/-- The state function of the scanner (`scanner.step`), with the text read of
the current literal (latest first). -/
inductive Lex where
  /-- State `stateBeginValue`, or `stateBeginValueOrEmpty` after `[`. -/
  | beginValue (orEmpty : Bool)
  /-- State `stateBeginString`, or `stateBeginStringOrEmpty` after `{`. -/
  | beginKey (orEmpty : Bool)
  /-- State `stateInString`. -/
  | inString (acc : List Char)
  /-- State `stateInStringEsc`. -/
  | inStringEsc (acc : List Char)
  /-- States `stateInStringEscU` to `stateInStringEscU123`, `n` digits read. -/
  | inStringU (acc : List Char) (n : Nat)
  /-- State `stateNeg`. -/
  | neg (acc : List Char)
  /-- State `state0`. -/
  | zero (acc : List Char)
  /-- State `state1`. -/
  | int (acc : List Char)
  /-- State `stateDot`. -/
  | dot (acc : List Char)
  /-- State `stateDot0`. -/
  | dot0 (acc : List Char)
  /-- State `stateE`. -/
  | exp (acc : List Char)
  /-- State `stateESign`. -/
  | expSign (acc : List Char)
  /-- State `stateE0`. -/
  | exp0 (acc : List Char)
  /-- States `stateT` to `stateNul`: the letters still to come of a literal. -/
  | word (rest : List Char) (v : JSON)
  /-- State `stateEndValue`. -/
  | endValue

/-- The scanner: open containers (innermost first) and state function. -/
structure Scanner where
  stack : List Frame
  lex : Lex

/-- Outcome of one byte. -/
inductive Step where
  | next (s : Scanner)
  /-- The top-level value is complete; `consumed` tells whether the byte
  belongs to it. -/
  | done (v : JSON) (consumed : Bool)
  | fail (msg : String)

/-- `maxNestingDepth` of `scanner.go`. -/
def maxNestingDepth : Nat := 10000

/-- A value is complete: it goes to the innermost open container, or it is
the top-level value. -/
def complete (stack : List Frame) (v : JSON) (consumed : Bool) : Step :=
  match stack with
  | [] => .done v consumed
  | .arr es :: s => .next ⟨.arr (v :: es) :: s, .endValue⟩
  | .key ms :: s =>
    match v with
    | .str k => .next ⟨.colon ms k :: s, .endValue⟩
    | _ => .fail "looking for beginning of object key string"
  | .value ms k :: s => .next ⟨.pair ((k, v) :: ms) :: s, .endValue⟩
  | _ => .fail "JSON decoder out of sync"

/-- Function `stateEndValue`: after a value, inside a container. -/
def stepEndValue (stack : List Frame) (c : Char) : Step :=
  if isSpace c then .next ⟨stack, .endValue⟩
  else
    match stack with
    | .colon ms k :: s =>
      if c = ':' then .next ⟨.value ms k :: s, .beginValue false⟩
      else .fail "after object key"
    | .pair ms :: s =>
      if c = ',' then .next ⟨.key ms :: s, .beginKey false⟩
      else if c = '\x7d' then complete s (.obj ms.reverse) true
      else .fail "after object key:value pair"
    | .arr es :: s =>
      if c = ',' then .next ⟨.arr es :: s, .beginValue false⟩
      else if c = ']' then complete s (.arr es.reverse) true
      else .fail "after array element"
    | _ => .fail "after top-level value"

/-- A number literal ends before the byte `c`, which is then read in
`stateEndValue`. -/
def endNumber (stack : List Frame) (acc : List Char) (c : Char) : Step :=
  match complete stack (.num (String.mk acc.reverse)) false with
  | .next s => stepEndValue s.stack c
  | r => r

/-- Function `pushParseState`: open a container unless the nesting is too deep. -/
def push (stack : List Frame) (f : Frame) (lex : Lex) : Step :=
  if stack.length + 1 ≤ maxNestingDepth then .next ⟨f :: stack, lex⟩
  else .fail "exceeded max depth"

/-- Function `stateBeginValue`. -/
def stepBeginValue (stack : List Frame) (c : Char) : Step :=
  if c = '\x7b' then push stack (.key []) (.beginKey true)
  else if c = '[' then push stack (.arr []) (.beginValue true)
  else if c = '"' then .next ⟨stack, .inString []⟩
  else if c = '-' then .next ⟨stack, .neg [c]⟩
  else if c = '0' then .next ⟨stack, .zero [c]⟩
  else if c = 't' then .next ⟨stack, .word ['r', 'u', 'e'] (.bool true)⟩
  else if c = 'f' then .next ⟨stack, .word ['a', 'l', 's', 'e'] (.bool false)⟩
  else if c = 'n' then .next ⟨stack, .word ['u', 'l', 'l'] .null⟩
  else if '1' ≤ c ∧ c ≤ '9' then .next ⟨stack, .int [c]⟩
  else .fail "looking for beginning of value"

/-- One byte through the scanner. -/
def step (s : Scanner) (c : Char) : Step :=
  match s.lex with
  | .beginValue orEmpty =>
    if isSpace c then .next s
    else if orEmpty ∧ c = ']' then
      match s.stack with
      | .arr _ :: st => complete st (.arr []) true
      | _ => .fail "JSON decoder out of sync"
    else stepBeginValue s.stack c
  | .beginKey orEmpty =>
    if isSpace c then .next s
    else if orEmpty ∧ c = '\x7d' then
      match s.stack with
      | .key _ :: st => complete st (.obj []) true
      | _ => .fail "JSON decoder out of sync"
    else if c = '"' then .next ⟨s.stack, .inString []⟩
    else .fail "looking for beginning of object key string"
  | .inString acc =>
    if c = '"' then complete s.stack (.str (unquote acc.reverse)) true
    else if c = '\\' then .next ⟨s.stack, .inStringEsc (c :: acc)⟩
    else if c.toNat < 32 then .fail "in string literal"
    else .next ⟨s.stack, .inString (c :: acc)⟩
  | .inStringEsc acc =>
    if c = 'b' ∨ c = 'f' ∨ c = 'n' ∨ c = 'r' ∨ c = 't' ∨ c = '\\' ∨ c = '/' ∨ c = '"' then
      .next ⟨s.stack, .inString (c :: acc)⟩
    else if c = 'u' then .next ⟨s.stack, .inStringU (c :: acc) 0⟩
    else .fail "in string escape code"
  | .inStringU acc n =>
    if (hexVal c).isSome then
      if n = 3 then .next ⟨s.stack, .inString (c :: acc)⟩
      else .next ⟨s.stack, .inStringU (c :: acc) (n + 1)⟩
    else .fail "in \\u hexadecimal character escape"
  | .neg acc =>
    if c = '0' then .next ⟨s.stack, .zero (c :: acc)⟩
    else if '1' ≤ c ∧ c ≤ '9' then .next ⟨s.stack, .int (c :: acc)⟩
    else .fail "in numeric literal"
  | .int acc =>
    if '0' ≤ c ∧ c ≤ '9' then .next ⟨s.stack, .int (c :: acc)⟩
    else if c = '.' then .next ⟨s.stack, .dot (c :: acc)⟩
    else if c = 'e' ∨ c = 'E' then .next ⟨s.stack, .exp (c :: acc)⟩
    else endNumber s.stack acc c
  | .zero acc =>
    if c = '.' then .next ⟨s.stack, .dot (c :: acc)⟩
    else if c = 'e' ∨ c = 'E' then .next ⟨s.stack, .exp (c :: acc)⟩
    else endNumber s.stack acc c
  | .dot acc =>
    if '0' ≤ c ∧ c ≤ '9' then .next ⟨s.stack, .dot0 (c :: acc)⟩
    else .fail "after decimal point in numeric literal"
  | .dot0 acc =>
    if '0' ≤ c ∧ c ≤ '9' then .next ⟨s.stack, .dot0 (c :: acc)⟩
    else if c = 'e' ∨ c = 'E' then .next ⟨s.stack, .exp (c :: acc)⟩
    else endNumber s.stack acc c
  | .exp acc =>
    if c = '+' ∨ c = '-' then .next ⟨s.stack, .expSign (c :: acc)⟩
    else if '0' ≤ c ∧ c ≤ '9' then .next ⟨s.stack, .exp0 (c :: acc)⟩
    else .fail "in exponent of numeric literal"
  | .expSign acc =>
    if '0' ≤ c ∧ c ≤ '9' then .next ⟨s.stack, .exp0 (c :: acc)⟩
    else .fail "in exponent of numeric literal"
  | .exp0 acc =>
    if '0' ≤ c ∧ c ≤ '9' then .next ⟨s.stack, .exp0 (c :: acc)⟩
    else endNumber s.stack acc c
  | .word rest v =>
    match rest with
    | [] => .fail "JSON decoder out of sync"
    | [x] => if c = x then complete s.stack v true else .fail "in literal"
    | x :: xs => if c = x then .next ⟨s.stack, .word xs v⟩ else .fail "in literal"
  | .endValue => stepEndValue s.stack c

/-- What reading a byte sequence from the start of a value gives. -/
inductive Scan where
  /-- A complete value, and the bytes after it. -/
  | value (v : JSON) (rest : List Char)
  /-- A byte that cannot continue a value (a `*json.SyntaxError`). -/
  | invalid (msg : String)
  /-- The bytes end before the value does. -/
  | incomplete
  deriving Repr

/-- Run the scanner over the bytes. At the end of the input a top-level
number is complete (the scanner is fed a space, `scanner.eof`). -/
def scan : Scanner → List Char → Scan
  | s, [] =>
    match s.stack, s.lex with
    | [], .zero acc => .value (.num (String.mk acc.reverse)) []
    | [], .int acc => .value (.num (String.mk acc.reverse)) []
    | [], .dot0 acc => .value (.num (String.mk acc.reverse)) []
    | [], .exp0 acc => .value (.num (String.mk acc.reverse)) []
    | _, _ => .incomplete
  | s, c :: cs =>
    match step s c with
    | .next s2 => scan s2 cs
    | .done v true => .value v cs
    | .done v false => .value v (c :: cs)
    | .fail msg => .invalid msg

/-- Scan one value from the start of `data`. -/
def scanValue (data : List Char) : Scan :=
  scan ⟨[], .beginValue false⟩ data

/-- The syntax check of `json.Unmarshal` (`checkValid`) together with the
value read: the whole of `data` must be one value and white space. -/
def parseDocument (data : List Char) : Except Error JSON :=
  match scanValue data with
  | .value v rest =>
    if rest.all isSpace then .ok v
    else .error (.malformed "invalid character after top-level value")
  | .invalid msg => .error (.malformed msg)
  | .incomplete => .error (.malformed "unexpected end of JSON input")

/-- `Decoder.readValue` of `json.NewDecoder(body)`: the first value of the
stream. White space before it is skipped and what follows it is left unread.
A value that is not an array or object ends at the byte after it, so when the
stream breaks off right after such a value the read error is returned;
at a clean end the value stands. With no complete value, the stream error is
returned, `io.EOF` when only white space was read and `io.ErrUnexpectedEOF`
otherwise. -/
def decoderReadValue (body : Body) : Except Error JSON :=
  match scanValue body.data with
  | .value v rest =>
    match rest, v.isContainer, body.readErr with
    | [], false, some e => .error (.foreign e)
    | _, _, _ => .ok v
  | .invalid msg => .error (.malformed msg)
  | .incomplete =>
    match body.readErr with
    | some e => .error (.foreign e)
    | none => if body.data.all isSpace then .error .eof else .error .unexpectedEOF

/-- `io.ReadAll(body)`: the bytes read and the error, nil at a clean end. The
slice returned is never nil. -/
def ioReadAll (body : Body) : List Char × Option Error :=
  (body.data, body.readErr.map .foreign)

/-! ## `encoding/json`: storing a value into Go data

`decodeState.value` stores a parsed value into a Go value of a given type. A
JSON value of the wrong kind for the destination is recorded as an
`*json.UnmarshalTypeError` and leaves the destination as it was, and decoding
goes on with the next element; `null` leaves strings, numbers, booleans and
structs as they were and sets pointers, slices, maps and interfaces to nil. -/

/-- Value of a non-empty string of decimal digits. -/
def decimalValue : List Char → Option Nat
  | [] => none
  | cs => cs.foldl (fun acc c =>
      match acc with
      | none => none
      | some n => if '0' ≤ c ∧ c ≤ '9' then some (n * 10 + (c.toNat - 48)) else none) (some 0)

/-- `strconv.ParseInt(lit, 10, 64)` on the text of a JSON number: an integer
literal in the range of `int64`; a fraction, an exponent or an overflow is an
error. -/
def parseInt64 (lit : String) : Option Int :=
  match lit.toList with
  | '-' :: ds =>
    match decimalValue ds with
    | some n => if n ≤ 2 ^ 63 then some (-(n : Int)) else none
    | none => none
  | ds =>
    match decimalValue ds with
    | some n => if n < 2 ^ 63 then some (n : Int) else none
    | none => none

/-- Store into a `string`. -/
def decodeString (v : JSON) (old : String) : String :=
  match v with
  | .str s => s
  | _ => old

/-- Store into an `int` (64 bits). -/
def decodeInt (v : JSON) (old : Int) : Int :=
  match v with
  | .num lit => (parseInt64 lit).getD old
  | _ => old

/-- Store into a `bool`. -/
def decodeBool (v : JSON) (old : Bool) : Bool :=
  match v with
  | .bool b => b
  | _ => old

/-- Case folding of `encoding/json` for field names (`foldName`): ASCII
letters to upper case, and the two other runes whose fold is an ASCII letter,
U+017F to `S` and U+212A to `K`. -/
def foldRune (c : Char) : Char :=
  if 'a' ≤ c ∧ c ≤ 'z' then Char.ofNat (c.toNat - 32)
  else if c.toNat = 0x17F then 'S'
  else if c.toNat = 0x212A then 'K'
  else c

/-- Whether the object key `key` selects the struct field of JSON name `name`
(an ASCII name): the same text up to case folding. -/
def fieldMatches (name key : String) : Bool :=
  key.toList.map foldRune == name.toList.map foldRune

/-- Store an array into a slice (`decodeState.array`): element `i` is decoded
onto the element already at index `i`, or onto the zero value beyond the old
length, and the slice gets the length of the array. -/
def decodeElems {α : Type} (zero : α) (dec : JSON → α → α) : List JSON → List α → List α
  | [], _ => []
  | v :: vs, [] => dec v zero :: decodeElems zero dec vs []
  | v :: vs, x :: xs => dec v x :: decodeElems zero dec vs xs

/-- Store into a slice: an array element by element, `null` as the nil slice. -/
def decodeSlice {α : Type} (zero : α) (dec : JSON → α → α) (v : JSON) (old : List α) : List α :=
  match v with
  | .arr es => decodeElems zero dec es old
  | .null => []
  | _ => old

/-- Store into a struct-valued destination by the members of an object, in
the order of the text; anything but an object leaves it as it was. -/
def decodeStruct {α : Type} (field : String → JSON → α → α) (v : JSON) (old : α) : α :=
  match v with
  | .obj ms => ms.foldl (fun acc m => field m.1 m.2 acc) old
  | _ => old

/-- Store into a pointer: `null` sets it to nil, any other value is stored
into the pointee, which is allocated first when the pointer is nil. -/
def decodePtr {α : Type} (zero : α) (dec : JSON → α → α) (v : JSON) (old : Option α) : Option α :=
  match v with
  | .null => none
  | _ => some (dec v (old.getD zero))

/-- Store into a `map[string][]string` (`http.Header`): every member sets the
entry of its key to a freshly decoded slice; `null` gives the nil map. -/
def decodeHeader (v : JSON) (old : Header) : Header :=
  match v with
  | .obj ms => ms.foldl (fun h m =>
      (m.1, decodeSlice "" decodeString m.2 []) :: h.filter (fun p => p.1 != m.1)) old
  | .null => []
  | _ => old

/-- The field of the element struct of `ErrorResponse.Errors` selected by a key. -/
def SubError.field (key : String) (v : JSON) (e : SubError) : SubError :=
  if fieldMatches "code" key then { e with Code := decodeString v e.Code }
  else if fieldMatches "detail" key then { e with Detail := decodeString v e.Detail }
  else if fieldMatches "source" key then
    { e with SourcePointer := decodeStruct (fun k x p =>
        if fieldMatches "pointer" k then decodeString x p else p) v e.SourcePointer }
  else e

/-- The field of `url.URL` selected by a key. -/
def URL.field (key : String) (v : JSON) (u : URL) : URL :=
  if fieldMatches "Scheme" key then { u with Scheme := decodeString v u.Scheme }
  else if fieldMatches "Opaque" key then { u with Opaque := decodeString v u.Opaque }
  else if fieldMatches "User" key then { u with User := decodePtr ("", none) (fun _ x => x) v u.User }
  else if fieldMatches "Host" key then { u with Host := decodeString v u.Host }
  else if fieldMatches "Path" key then { u with Path := decodeString v u.Path }
  else if fieldMatches "RawPath" key then { u with RawPath := decodeString v u.RawPath }
  else if fieldMatches "OmitHost" key then { u with OmitHost := decodeBool v u.OmitHost }
  else if fieldMatches "ForceQuery" key then { u with ForceQuery := decodeBool v u.ForceQuery }
  else if fieldMatches "RawQuery" key then { u with RawQuery := decodeString v u.RawQuery }
  else if fieldMatches "Fragment" key then { u with Fragment := decodeString v u.Fragment }
  else if fieldMatches "RawFragment" key then { u with RawFragment := decodeString v u.RawFragment }
  else u

/-- The field of `http.Request` selected by a key, for the fields of
`Request`; `Body` is an interface, which `null` sets to nil and into which no
other value can be stored. -/
def Request.field (key : String) (v : JSON) (r : Request) : Request :=
  if fieldMatches "Method" key then { r with Method := decodeString v r.Method }
  else if fieldMatches "URL" key then
    { r with URL := decodePtr {} (decodeStruct URL.field) v r.URL }
  else if fieldMatches "Header" key then { r with Header := decodeHeader v r.Header }
  else if fieldMatches "Body" key then
    match v with
    | .null => { r with Body := none }
    | _ => r
  else r

/-- The field of `http.Response` selected by a key, for the fields of
`Response`. The other fields of `http.Response` are not part of the state:
a member addressed to one of them is passed over. (Of those, `TLS` reaches
types with their own unmarshalers, whose failure ends the whole decoding at
once; bodies with such a member are outside what this function describes.) -/
def Response.field (key : String) (v : JSON) (r : Response) : Response :=
  if fieldMatches "StatusCode" key then { r with StatusCode := decodeInt v r.StatusCode }
  else if fieldMatches "Header" key then { r with Header := decodeHeader v r.Header }
  else if fieldMatches "Request" key then
    { r with Request := decodePtr {} (decodeStruct Request.field) v r.Request }
  else r

/-- The state `json.Unmarshal(data, errorResponse)` works on in
`CheckResponse`: the `ErrorResponse` and the response it was built for, which
the field `Response` points to as long as it is `.original`. -/
structure ErrorState where
  errorResponse : ErrorResponse
  r : Response
  deriving DecidableEq, Repr

/-- The field of `ErrorResponse` selected by a key. The field `Response` has
no `json` tag, so the key `Response` selects it: the pointer is set to nil by
`null`, and any other value is stored into the response it points to. -/
def ErrorResponse.field (key : String) (v : JSON) (s : ErrorState) : ErrorState :=
  let e := s.errorResponse
  if fieldMatches "Response" key then
    match v, e.Response with
    | .null, _ => { s with errorResponse := { e with Response := .null } }
    | _, .original => { s with r := decodeStruct Response.field v s.r }
    | _, .allocated a =>
      { s with errorResponse := { e with Response := .allocated (decodeStruct Response.field v a) } }
    | _, .null =>
      { s with errorResponse := { e with Response := .allocated (decodeStruct Response.field v {}) } }
  else if fieldMatches "type" key then
    { s with errorResponse := { e with Type_ := decodeString v e.Type_ } }
  else if fieldMatches "status" key then
    { s with errorResponse := { e with Status := decodeInt v e.Status } }
  else if fieldMatches "detail" key then
    { s with errorResponse := { e with Detail := decodeString v e.Detail } }
  else if fieldMatches "errors" key then
    { s with errorResponse :=
        { e with Errors := decodeSlice {} (decodeStruct SubError.field) v e.Errors } }
  else s

/-- `json.Unmarshal(data, errorResponse)`, for its effect (the error it
returns is dropped by `CheckResponse`): data that is not one JSON value
changes nothing, otherwise the value is stored into the struct. -/
def jsonUnmarshalErrorResponse (data : List Char) (s : ErrorState) : ErrorState :=
  match parseDocument data with
  | .error _ => s
  | .ok v => decodeStruct ErrorResponse.field v s

/-! ## Status classification and execution -/

/-- `CheckResponse(r)`: nil for a status in [200, 299]; otherwise an
`*ErrorResponse` pointing to `r`, filled from the body when the body can be
read to its end. Returns the response as the call leaves it, and the error. -/
def CheckResponse (r : Response) (body : Body) : Response × Option ErrorResponse :=
  if 200 ≤ r.StatusCode ∧ r.StatusCode ≤ 299 then (r, none)
  else
    let errorResponse : ErrorResponse := { Response := .original }
    match ioReadAll body with
    | (data, none) =>
      let s := jsonUnmarshalErrorResponse data ⟨errorResponse, r⟩
      (s.r, some s.errorResponse)
    | (_, some _) => (r, some errorResponse)

/-- The decode target `v interface{}` of `Do`, by the cases the code
distinguishes. -/
inductive Target (W T : Type) where
  /-- The nil interface. -/
  | absent
  /-- A value that implements `io.Writer`. -/
  | writer (w : W)
  /-- Any other value, handed to the JSON decoder. -/
  | value (t : T)
  deriving DecidableEq, Repr

/-- What the types of the targets do. -/
structure TargetOps (W T : Type) where
  /-- The method `Write` of the writer: the writer after the call and the
  error (a short write included). -/
  write : W → List Char → W × Option Error
  /-- `decodeState.unmarshal(v)`: storing a parsed value into the target. -/
  unmarshal : JSON → T → T × Option Error

/-- `io.Copy(w, body)`: every non-empty chunk read is written, up to the first
failed write; the error is that of the write or else that of the stream. -/
def ioCopy {W : Type} (write : W → List Char → W × Option Error) (w : W) :
    List (List Char) → Option String → W × Option Error
  | [], readErr => (w, readErr.map .foreign)
  | chunk :: rest, readErr =>
    if chunk.isEmpty then ioCopy write w rest readErr
    else
      match write w chunk with
      | (w2, some e) => (w2, some e)
      | (w2, none) => ioCopy write w2 rest readErr

/-- `json.NewDecoder(body).Decode(v)`: read one value from the stream, then
store it. -/
def jsonDecode {T : Type} (unmarshal : JSON → T → T × Option Error) (body : Body) (t : T) :
    T × Option Error :=
  match decoderReadValue body with
  | .error e => (t, some e)
  | .ok j => unmarshal j t

/-- What `Do` returns, and the target as the call leaves it. -/
structure DoResult (W T : Type) where
  resp : Option Response
  err : Option Error
  target : Target W T
  deriving DecidableEq, Repr

/-- `Client.Do(ctx, req, v)`. The context travels with the request to the
transport, whose outcome is `c.client.Do req`. -/
def Client.Do {W T : Type} (ops : TargetOps W T) (c : Client) (req : Request)
    (v : Target W T) : DoResult W T :=
  match c.client.Do req with
  -- if err != nil { return nil, err }
  | .failed err _ => ⟨none, some err, v⟩
  | .received resp body =>
    match CheckResponse resp body with
    -- if err != nil { return resp, err }
    | (resp, some e) => ⟨some resp, some (.api e), v⟩
    | (resp, none) =>
      -- if v != nil && resp.StatusCode != http.StatusNoContent
      if resp.StatusCode ≠ 204 then
        match v with
        | .absent => ⟨some resp, none, v⟩
        | .writer w =>
          -- io.Copy(w, resp.Body): its results are not looked at
          ⟨some resp, none, .writer (ioCopy ops.write w body.chunks body.readErr).1⟩
        | .value t =>
          -- err = json.NewDecoder(resp.Body).Decode(v)
          let (t2, err) := jsonDecode ops.unmarshal body t
          ⟨some resp, err, .value t2⟩
      else ⟨some resp, none, v⟩

/-! ## `net/url`

`url.Parse`, `(*URL).String` and `(*URL).ResolveReference` after the source of
the package `net/url`. A Go string is a byte string; a Lean string is a text,
so an unescaped text whose bytes are not UTF-8 has no value here, and
`urlUnescape` answers it with an error of its own. A host in brackets (an IPv6
literal), whose validation differs between Go releases, is answered in the
same way. -/

/-- The `encoding` modes of `net/url`. -/
inductive Encoding where
  | path
  | pathSegment
  | host
  | zone
  | userPassword
  | queryComponent
  | fragment
  deriving DecidableEq, Repr

/-- `url.shouldEscape(c, mode)`; a character outside ASCII stands for its
bytes, all from 0x80 on, which every mode escapes. -/
def shouldEscape (c : Char) (mode : Encoding) : Bool :=
  -- §2.3 Unreserved characters (alphanum)
  if c.isAlphanum then false
  else if (mode = .host ∨ mode = .zone) ∧
      c ∈ ['!', '$', '&', Char.ofNat 39, '(', ')', '*', '+', ',', ';', '=', ':', '[', ']', '<',
        '>', '"'] then false
  -- §2.3 Unreserved characters (mark)
  else if c ∈ ['-', '_', '.', '~'] then false
  -- §2.2 Reserved characters (reserved)
  else if c ∈ ['$', '&', '+', ',', '/', ':', ';', '=', '?', '@'] then
    match mode with
    | .path => c = '?'
    | .pathSegment => c = '/' ∨ c = ';' ∨ c = ',' ∨ c = '?'
    | .userPassword => c = '@' ∨ c = '/' ∨ c = '?' ∨ c = ':'
    | .queryComponent => true
    | .fragment => false
    | .host => true
    | .zone => true
  else if mode = .fragment ∧ c ∈ ['!', '(', ')', '*'] then false
  -- Everything else must be escaped.
  else true

/-- Upper-case hexadecimal digit of a value below 16 (`upperhex` in
`net/url`). -/
def upperHexDigit (n : Nat) : Char :=
  "0123456789ABCDEF".toList.getD n '0'

/-- The bytes of a character in UTF-8. -/
def utf8Bytes (c : Char) : List Nat :=
  let v := c.toNat
  if v < 0x80 then [v]
  else if v < 0x800 then [0xC0 + v / 64, 0x80 + v % 64]
  else if v < 0x10000 then [0xE0 + v / 4096, 0x80 + v / 64 % 64, 0x80 + v % 64]
  else [0xF0 + v / 262144, 0x80 + v / 4096 % 64, 0x80 + v / 64 % 64, 0x80 + v % 64]

/-- `url.escape(s, mode)`: a character that `shouldEscape` names is written as
`%XX` for each of its bytes (a space as `+` in a query component), any other
character as it is. -/
def escape (s : List Char) (mode : Encoding) : List Char :=
  s.flatMap fun c =>
    if shouldEscape c mode then
      if c = ' ' ∧ mode = .queryComponent then ['+']
      else (utf8Bytes c).flatMap fun b => ['%', upperHexDigit (b / 16), upperHexDigit (b % 16)]
    else [c]

/-- What `url.unescape` writes for a text, unit by unit: a character of the
text (also the character of an escape of a byte below 0x80), or the byte of
an escape from 0x80 on. The errors are those of the first pass of
`url.unescape`: an `EscapeError` for a `%` that two hexadecimal digits do not
follow, in a host for an escape of an ASCII byte other than `%25`, in a zone
for an escape of a byte that a host must escape, and an `InvalidHostError`
for an ASCII character that a host must escape. -/
def unescapeUnits : List Char → Encoding → Except Error (List (Char ⊕ Nat))
  | [], _ => .ok []
  | '%' :: a :: b :: rest, mode =>
    match hexVal a, hexVal b with
    | some x, some y =>
      if mode = .host ∧ x < 8 ∧ ¬ (a = '2' ∧ b = '5') then .error (.foreign "invalid URL escape")
      else if mode = .zone ∧ ¬ (a = '2' ∧ b = '5') ∧ 16 * x + y ≠ 32 ∧
          shouldEscape (Char.ofNat (16 * x + y)) .host then
        .error (.foreign "invalid URL escape")
      else
        (unescapeUnits rest mode).map fun units =>
          (if 16 * x + y < 128 then .inl (Char.ofNat (16 * x + y)) else .inr (16 * x + y)) :: units
    | _, _ => .error (.foreign "invalid URL escape")
  | '%' :: _, _ => .error (.foreign "invalid URL escape")
  | '+' :: rest, mode =>
    (unescapeUnits rest mode).map fun units =>
      .inl (if mode = .queryComponent then ' ' else '+') :: units
  | c :: rest, mode =>
    if (mode = .host ∨ mode = .zone) ∧ c.toNat < 0x80 ∧ shouldEscape c .host then
      .error (.foreign "invalid character in host name")
    else (unescapeUnits rest mode).map fun units => .inl c :: units

/-- A continuation byte of UTF-8. -/
def continuationByte (b : Nat) : Bool :=
  0x80 ≤ b && b < 0xC0

/-- The text that the units are in UTF-8, read unit by unit. A character of
the text stands for itself; the bytes of escapes must be whole characters in
UTF-8, and `pending` holds what a character begun by a leading byte still
needs: the number of continuation bytes to come, the value read so far, and
the least value that is not overlong. The result is `none` when the bytes are
not UTF-8. -/
def assembleFrom : Option (Nat × Nat × Nat) → List (Char ⊕ Nat) → Option (List Char)
  | none, [] => some []
  | some _, [] => none
  | none, .inl c :: rest => (assembleFrom none rest).map (c :: ·)
  | some _, .inl _ :: _ => none
  | none, .inr b :: rest =>
    if 0xC2 ≤ b ∧ b < 0xE0 then assembleFrom (some (0, b - 0xC0, 0x80)) rest
    else if 0xE0 ≤ b ∧ b < 0xF0 then assembleFrom (some (1, b - 0xE0, 0x800)) rest
    else if 0xF0 ≤ b ∧ b < 0xF5 then assembleFrom (some (2, b - 0xF0, 0x10000)) rest
    else none
  | some (more, value, least), .inr b :: rest =>
    if continuationByte b then
      let value := value * 64 + (b - 0x80)
      match more with
      | 0 =>
        if least ≤ value ∧ value < 0x110000 ∧ ¬ (0xD800 ≤ value ∧ value < 0xE000) then
          (assembleFrom none rest).map (Char.ofNat value :: ·)
        else none
      | more + 1 => assembleFrom (some (more, value, least)) rest
    else none

/-- The text that the units are in UTF-8. -/
def assemble (units : List (Char ⊕ Nat)) : Option (List Char) :=
  assembleFrom none units

/-- `url.unescape(s, mode)`. The last error is not one of Go: it stands for a
result that is not UTF-8. -/
def urlUnescape (s : List Char) (mode : Encoding) : Except Error (List Char) :=
  match unescapeUnits s mode with
  | .error e => .error e
  | .ok units =>
    match assemble units with
    | some text => .ok text
    | none => .error (.foreign "net/url: unescaped bytes that are not UTF-8 are not embedded")

/-- `url.validEncoded(s, mode)`. -/
def validEncoded (s : List Char) (mode : Encoding) : Bool :=
  s.all fun c =>
    c ∈ ['!', '$', '&', Char.ofNat 39, '(', ')', '*', '+', ',', ';', '=', ':', '@', '[', ']', '%']
      || !shouldEscape c mode

/-- `(*URL).setPath(p)`: `Path` is the unescaped `p`, and `RawPath` is `p`
unless `p` is the default escaping of `Path`. -/
def URL.setPath (u : URL) (p : List Char) : Except Error URL :=
  match urlUnescape p .path with
  | .error e => .error e
  | .ok path =>
    .ok { u with Path := String.mk path,
                 RawPath := if escape path .path = p then "" else String.mk p }

/-- `(*URL).EscapedPath()`. -/
def URL.EscapedPath (u : URL) : List Char :=
  if u.RawPath ≠ "" ∧ validEncoded u.RawPath.toList .path = true ∧
      (urlUnescape u.RawPath.toList .path).toOption = some u.Path.toList then u.RawPath.toList
  else if u.Path = "*" then ['*']
  else escape u.Path.toList .path

/-- `(*URL).setFragment(f)`. -/
def URL.setFragment (u : URL) (f : List Char) : Except Error URL :=
  match urlUnescape f .fragment with
  | .error e => .error e
  | .ok frag =>
    .ok { u with Fragment := String.mk frag,
                 RawFragment := if escape frag .fragment = f then "" else String.mk f }

/-- `(*URL).EscapedFragment()`. -/
def URL.EscapedFragment (u : URL) : List Char :=
  if u.RawFragment ≠ "" ∧ validEncoded u.RawFragment.toList .fragment = true ∧
      (urlUnescape u.RawFragment.toList .fragment).toOption = some u.Fragment.toList then
    u.RawFragment.toList
  else escape u.Fragment.toList .fragment

/-- The loop of `url.getScheme(rawURL)` from an index on: `acc` holds the
characters before the index (reversed), which are all letters, digits, `+`,
`-` or `.`. The result is the scheme and the text after its colon, or no
scheme and the whole text. -/
def getSchemeLoop (rawURL : List Char) : List Char → List Char →
    Except Error (List Char × List Char)
  | _, [] => .ok ([], rawURL)
  | acc, c :: cs =>
    if c.isAlpha then getSchemeLoop rawURL (c :: acc) cs
    else if c.isDigit ∨ c = '+' ∨ c = '-' ∨ c = '.' then
      if acc = [] then .ok ([], rawURL) else getSchemeLoop rawURL (c :: acc) cs
    else if c = ':' then
      if acc = [] then .error (.foreign "missing protocol scheme") else .ok (acc.reverse, cs)
    else
      -- we have encountered an invalid character, so there is no valid scheme
      .ok ([], rawURL)

/-- `url.getScheme(rawURL)`. -/
def getScheme (rawURL : List Char) : Except Error (List Char × List Char) :=
  getSchemeLoop rawURL [] rawURL

/-- `url.validOptionalPort(port)`: empty, or a colon and digits. -/
def validOptionalPort (port : List Char) : Bool :=
  match port with
  | [] => true
  | c :: rest => c = ':' && rest.all Char.isDigit

/-- `url.parseHost(host)` for a host that does not begin with a bracket: the
text from the last colon on is to be a port, and the host is unescaped. -/
def parseHost (host : List Char) : Except Error (List Char) :=
  if host.head? = some '[' then
    .error (.foreign "net/url: a host in brackets is not embedded")
  else if ':' ∈ host ∧
      validOptionalPort (':' :: (host.reverse.takeWhile (· != ':')).reverse) = false then
    .error (.foreign "invalid port after host")
  else urlUnescape host .host

/-- `url.validUserinfo(s)`. -/
def validUserinfo (s : List Char) : Bool :=
  s.all fun r =>
    r.isAlphanum ||
      r ∈ ['-', '.', '_', ':', '~', '!', '$', '&', Char.ofNat 39, '(', ')', '*', '+', ',', ';', '=',
        '%', '@']

/-- `url.parseAuthority(authority)`: the user, `none` without an `@`, with
the password when the user information has a colon, and the host. -/
def parseAuthority (authority : List Char) :
    Except Error (Option (String × Option String) × String) :=
  -- i := strings.LastIndex(authority, "@")
  let hostText := if '@' ∈ authority then (authority.reverse.takeWhile (· != '@')).reverse
    else authority
  match parseHost hostText with
  | .error e => .error e
  | .ok host =>
    if '@' ∈ authority then
      let userinfo := ((authority.reverse.dropWhile (· != '@')).drop 1).reverse
      if !validUserinfo userinfo then .error (.foreign "net/url: invalid userinfo")
      else if ':' ∈ userinfo then
        match urlUnescape (userinfo.takeWhile (· != ':')) .userPassword with
        | .error e => .error e
        | .ok username =>
          match urlUnescape ((userinfo.dropWhile (· != ':')).drop 1) .userPassword with
          | .error e => .error e
          | .ok password =>
            .ok (some (String.mk username, some (String.mk password)), String.mk host)
      else
        match urlUnescape userinfo .userPassword with
        | .error e => .error e
        | .ok username => .ok (some (String.mk username, none), String.mk host)
    else .ok (none, String.mk host)

/-- `stringContainsCTLByte` on one character: a byte below 0x20, or 0x7f. -/
def isCTL (c : Char) : Bool :=
  c.toNat < 0x20 || c.toNat = 0x7f

/-- `url.parse(rawURL, viaRequest)` for `viaRequest` false, on a text without
`#`. -/
def parse (rawURL : List Char) : Except Error URL :=
  if rawURL.any isCTL then .error (.foreign "net/url: invalid control character in URL")
  else if rawURL = ['*'] then .ok { Path := "*" }
  else
    -- Split off possible leading "http:", "mailto:", etc.
    match getScheme rawURL with
    | .error e => .error e
    | .ok (scheme, rest) =>
      let scheme := scheme.map Char.toLower
      -- strings.HasSuffix(rest, "?") && strings.Count(rest, "?") == 1
      let forceQuery : Bool := rest.getLast? = some '?' && rest.count '?' = 1
      let query := if forceQuery then [] else (rest.dropWhile (· != '?')).drop 1
      let rest := if forceQuery then rest.dropLast else rest.takeWhile (· != '?')
      if rest.head? ≠ some '/' ∧ scheme ≠ [] then
        -- We consider rootless paths per RFC 3986 as opaque.
        .ok { Scheme := String.mk scheme, Opaque := String.mk rest, ForceQuery := forceQuery,
              RawQuery := String.mk query }
      else if rest.head? ≠ some '/' ∧ ':' ∈ rest.takeWhile (· != '/') then
        .error (.foreign "first path segment in URL cannot contain colon")
      else if (scheme ≠ [] ∨ rest.take 3 ≠ ['/', '/', '/']) ∧ rest.take 2 = ['/', '/'] then
        let authority := (rest.drop 2).takeWhile (· != '/')
        let rest := (rest.drop 2).dropWhile (· != '/')
        match parseAuthority authority with
        | .error e => .error e
        | .ok (user, host) =>
          URL.setPath { Scheme := String.mk scheme, User := user, Host := host,
                        ForceQuery := forceQuery, RawQuery := String.mk query } rest
      else
        -- OmitHost is set to true when rawURL has an empty host (authority).
        URL.setPath { Scheme := String.mk scheme,
                      OmitHost := decide (scheme ≠ [] ∧ rest.head? = some '/'),
                      ForceQuery := forceQuery, RawQuery := String.mk query } rest

/-- `url.Parse(rawURL)`: the text is cut at the first `#`, the part before it
is parsed, and a fragment that is not empty is set. The errors are those that
`url.Error` wraps. -/
def urlParse (s : String) : Except Error URL :=
  let u := s.toList.takeWhile (· != '#')
  let frag := (s.toList.dropWhile (· != '#')).drop 1
  match parse u with
  | .error e => .error e
  | .ok url => if frag = [] then .ok url else url.setFragment frag

/-- `(*Userinfo).String()`. -/
def userinfoString (user : String × Option String) : List Char :=
  escape user.1.toList .userPassword ++
    match user.2 with
    | some password => ':' :: escape password.toList .userPassword
    | none => []

/-- `(*URL).String()`: the scheme and a colon; then the opaque part, or `//`
with user and host (left out when there is neither scheme, host nor user, or
a host to omit, or nothing to follow), a slash before a path that has none
when there is a host, `./` before a first segment with a colon when nothing
is written yet, and the escaped path; `?` and the query; `#` and the escaped
fragment. -/
def URL.String (u : URL) : String :=
  let scheme := if u.Scheme ≠ "" then u.Scheme.toList ++ [':'] else []
  let hier :=
    if u.Opaque ≠ "" then u.Opaque.toList
    else
      let authority :=
        if (u.Scheme ≠ "" ∨ u.Host ≠ "" ∨ u.User.isSome) ∧
            ¬ (u.OmitHost = true ∧ u.Host = "" ∧ u.User = none) then
          (if u.Host ≠ "" ∨ u.Path ≠ "" ∨ u.User.isSome then ['/', '/'] else []) ++
            (match u.User with
              | some user => userinfoString user ++ ['@']
              | none => []) ++
            (if u.Host ≠ "" then escape u.Host.toList .host else [])
        else []
      let path := u.EscapedPath
      let slash := if path ≠ [] ∧ path.head? ≠ some '/' ∧ u.Host ≠ "" then ['/'] else []
      let dot :=
        if scheme ++ authority ++ slash = [] ∧ ':' ∈ path.takeWhile (· != '/') then ['.', '/']
        else []
      authority ++ slash ++ dot ++ path
  let query := if u.ForceQuery = true ∨ u.RawQuery ≠ "" then '?' :: u.RawQuery.toList else []
  let fragment := if u.Fragment ≠ "" then '#' :: u.EscapedFragment else []
  String.mk (scheme ++ hier ++ query ++ fragment)

/-- The segments of a path between slashes, with the segment being read in
`cur` (reversed): what the loop of `strings.Cut(remaining, "/")` goes
through. -/
def segmentsAux : List Char → List Char → List (List Char)
  | cur, [] => [cur.reverse]
  | cur, c :: cs => if c = '/' then cur.reverse :: segmentsAux [] cs else segmentsAux (c :: cur) cs

/-- The part of `base` up to and including its last slash (`base[:i+1]` in
`url.resolvePath`), nothing when it has no slash. -/
def dirOf (base : List Char) : List Char :=
  (base.reverse.dropWhile (· != '/')).reverse

/-- The loop of `url.resolvePath` over the elements between slashes: `dst` is
the text written so far, which begins with the slash written before the loop;
`.` is dropped, `..` takes back the last element written, and any other
element is written, after a slash unless it is the first. -/
def resolveElems : List Char → Bool → List (List Char) → List Char
  | dst, _, [] => dst
  | dst, first, elem :: rest =>
    if elem = ['.'] then resolveElems dst false rest
    else if elem = ['.', '.'] then
      -- str := dst.String()[1:]; index := strings.LastIndexByte(str, '/')
      let str := dst.drop 1
      if '/' ∈ str then resolveElems ('/' :: (dirOf str).dropLast) first rest
      else resolveElems ['/'] true rest
    else resolveElems (dst ++ (if first then elem else '/' :: elem)) false rest

/-- The path `full` that `url.resolvePath(base, ref)` starts from: the base
path for an empty reference, the reference path itself when it begins with a
slash, else the base path up to its last slash followed by the reference
path. -/
def mergePath (base ref : List Char) : List Char :=
  if ref = [] then base
  else if ref.head? = some '/' then ref
  else dirOf base ++ ref

/-- `url.resolvePath(base, ref)`: the merged path with its dot segments
removed. -/
def resolvePath (base ref : List Char) : List Char :=
  let full := mergePath base ref
  if full = [] then []
  else
    let elems := segmentsAux [] full
    let dst := resolveElems ['/'] true elems
    let dst :=
      if elems.getLast? = some ['.'] ∨ elems.getLast? = some ['.', '.'] then dst ++ ['/'] else dst
    -- We wrote an initial '/', but we don't want two.
    match dst with
    | _ :: '/' :: r => '/' :: r
    | r => r

/-- The URL after `url.setPath(p)` with the error ignored, as
`ResolveReference` calls it: an error leaves the URL as it was. -/
def URL.withPath (u : URL) (p : List Char) : URL :=
  match u.setPath p with
  | .ok url => url
  | .error _ => u

/-- `(*URL).ResolveReference(ref)`. -/
def URL.ResolveReference (u ref : URL) : URL :=
  let url := if ref.Scheme = "" then { ref with Scheme := u.Scheme } else ref
  if ref.Scheme ≠ "" ∨ ref.Host ≠ "" ∨ ref.User.isSome then
    -- The "absoluteURI" or "net_path" cases.
    url.withPath (resolvePath ref.EscapedPath [])
  else if ref.Opaque ≠ "" then
    { url with User := none, Host := "", Path := "" }
  else
    let url :=
      if ref.Path = "" ∧ ref.ForceQuery = false ∧ ref.RawQuery = "" then
        let url := { url with RawQuery := u.RawQuery }
        if ref.Fragment = "" then
          { url with Fragment := u.Fragment, RawFragment := u.RawFragment }
        else url
      else url
    if ref.Path = "" ∧ u.Opaque ≠ "" then
      { url with Opaque := u.Opaque, User := none, Host := "", Path := "" }
    else
      -- The "abs_path" or "rel_path" cases.
      URL.withPath { url with Host := u.Host, User := u.User }
        (resolvePath u.EscapedPath ref.EscapedPath)

/-- The package `net/url` as the client uses it: `url.Parse`,
`ResolveReference` and `String`. -/
def plainURLLib : URLLib where
  Parse := urlParse
  ResolveReference := URL.ResolveReference
  String := URL.String

/-- No element of the path between slashes is `.` or `..`. -/
def noDotSegment (path : List Char) : Prop :=
  ∀ seg ∈ segmentsAux [] path, seg ≠ ['.'] ∧ seg ≠ ['.', '.']

instance (path : List Char) : Decidable (noDotSegment path) := by
  unfold noDotSegment
  exact inferInstance

/-- A text that `url.unescape` accepts as a path. -/
def readablePath (s : List Char) : Bool :=
  (urlUnescape s .path).toOption.isSome

/-- A character of a scheme after the first, as `url.Parse` returns it: a
lower-case letter, a digit, `+`, `-` or `.`. -/
def schemeChar (c : Char) : Bool :=
  c.isLower || c.isDigit || c = '+' || c = '-' || c = '.'

/-- A scheme as `url.Parse` returns it: a lower-case letter, then lower-case
letters, digits, `+`, `-` and `.`. -/
def validScheme (s : List Char) : Bool :=
  match s with
  | [] => false
  | c :: rest => c.isLower && rest.all schemeChar

/-- A character of a host as `url.Parse` returns it: one that a host keeps
unescaped, a `%` (written `%25`), or a character outside ASCII. -/
def hostChar (c : Char) : Bool :=
  !shouldEscape c .host || c = '%' || decide (0x80 ≤ c.toNat)

/-- A host as `url.Parse` returns it for an authority that is not in
brackets: not empty and more than a colon, made of the characters of a host,
with at most one colon, after which there are digits only (the port, which
may be empty). -/
def validHost (h : List Char) : Bool :=
  !h.isEmpty && h != [':'] && h.head? != some '[' && h.all hostChar &&
    (!decide (':' ∈ h) || validOptionalPort (':' :: (h.reverse.takeWhile (· != ':')).reverse)) &&
    decide (h.count ':' ≤ 1)

/-- The user information and the host as `(*URL).String` writes them. -/
def authorityText (user : Option (String × Option String)) (host : List Char) : List Char :=
  (match user with
    | some user => userinfoString user ++ ['@']
    | none => []) ++ escape host .host

/-- An absolute URL with a host, as `url.Parse` returns it for a text whose
host is not in brackets: a scheme, a host, with or without user information,
no opaque part, and a query without `#` and control characters. Path and
fragment are any. -/
def URL.Absolute (u : URL) : Prop :=
  validScheme u.Scheme.toList = true ∧ validHost u.Host.toList = true ∧ u.Opaque = "" ∧
    u.RawQuery.toList.all (fun c => c != '#' && !isCTL c) = true

instance (u : URL) : Decidable u.Absolute := by
  unfold URL.Absolute
  exact inferInstance

/-- Characters of a path that is written as it is: letters, digits, `-`, `_`,
`.` and `/`. -/
def plainPathChar (c : Char) : Bool :=
  c.isAlphanum || c = '-' || c = '_' || c = '.' || c = '/'

/-- The URL that a request has for a path string that is a path only: the
path resolved against the base URL, with the host as `http.NewRequest` keeps
it, without an empty port. -/
def requestURL (base : URL) (path : String) : URL :=
  { URL.ResolveReference base { Path := path } with Host := removeEmptyPort base.Host }

/-- The base URL `http://127.0.0.1:8080` of a test server, followed by the
given path and query. -/
def localURLWith (path query : String) : URL :=
  { Scheme := "http", Host := "127.0.0.1:8080", Path := path, RawQuery := query }

/-- The text `<base>` of a base URL: the URL without query and fragment, with
the host as `http.NewRequest` keeps it. -/
def baseText (base : URL) : String :=
  URL.String
    { base with
      Host := removeEmptyPort base.Host, ForceQuery := false, RawQuery := "", Fragment := "",
      RawFragment := "" }

/-- The base URL `https://api.incident.io/api%2F`, as `url.Parse` returns it:
the path `/api/`, written `/api%2F`. -/
def escapedSlashBaseURL : URL :=
  { Scheme := "https", Host := "api.incident.io", Path := "/api/", RawPath := "/api%2F" }

/-- The base URL `https://user:p%40w@bücher.example:8443/v2/`, as `url.Parse`
returns it: user information, a host outside ASCII and a port. -/
def userBaseURL : URL :=
  { Scheme := "https", User := some ("user", some "p@w"), Host := "bücher.example:8443",
    Path := "/v2/" }

/-- The encoder of the empty struct `struct{}{}`: `{}` and the newline that
`Encoder.Encode` appends, whatever the escaping mode. -/
def encodeEmptyStruct : Bool → Unit → Except Error (List Char) :=
  fun _ _ => .ok ['\x7b', '\x7d', '\n']

/-- A transport that fails every round trip. -/
def offlineHTTPClient : HTTPClient :=
  { Do := fun _ => .failed (.foreign "dial tcp: connection refused") none }

/-- The configuration of `NewClient("test-key")`, default base URL and agent,
over the transport that fails. -/
def exampleClient : Client :=
  { client := offlineHTTPClient
    BaseURL := some { Scheme := "https", Host := "api.incident.io", Path := "/" }
    UserAgent := "incidentio-go-client/1.0.0"
    apiKey := "test-key" }

/-- The client of the examples with another base URL, as `WithBaseURL` or an
assignment to `BaseURL` sets it. -/
def clientAt (base : URL) : Client :=
  { exampleClient with BaseURL := some base }

/-- The base URL `https://api.incident.io` followed by the given path and
query. -/
def baseURLWith (path query : String) : URL :=
  { Scheme := "https", Host := "api.incident.io", Path := path, RawQuery := query }

/-- A transport that answers every request with the given status and body
text, delivered in one chunk, as a test server does. -/
def cannedHTTPClient (status : Int) (text : String) : HTTPClient :=
  { Do := fun req => .received { StatusCode := status, Request := some req } ⟨[text.toList], none⟩ }

/-- The client of the examples over a given transport. -/
def clientOver (h : HTTPClient) : Client :=
  { exampleClient with client := h }

/-- The request `GET https://api.incident.io/v2/incidents` without a body. -/
def incidentsGetRequest : Request :=
  { Method := "GET"
    URL := some { Scheme := "https", Host := "api.incident.io", Path := "/v2/incidents" }
    Header := [("Authorization", ["Bearer test-key"]),
               ("User-Agent", ["incidentio-go-client/1.0.0"]),
               ("Accept", ["application/json"])]
    Body := none }

/-- The request `POST https://api.incident.io/v2/incidents` with the body of
`struct{}{}`. -/
def incidentsPostRequest : Request :=
  { Method := "POST"
    URL := some { Scheme := "https", Host := "api.incident.io", Path := "/v2/incidents" }
    Header := [("Authorization", ["Bearer test-key"]),
               ("User-Agent", ["incidentio-go-client/1.0.0"]),
               ("Accept", ["application/json"]),
               ("Content-Type", ["application/json"])]
    Body := some ['\x7b', '\x7d', '\n'] }

/-- The request `GET https://api.incident.io/v2/users` as `NewRequest` builds it. -/
def usersRequest : Request :=
  { Method := "GET"
    URL := some { Scheme := "https", Host := "api.incident.io", Path := "/v2/users" }
    Header := [("Authorization", ["Bearer test-key"]),
               ("User-Agent", ["incidentio-go-client/1.0.0"]),
               ("Accept", ["application/json"])] }

/-! ## The decode target of `UsersService.List` -/

/-- The Go struct `User`; `Slack` is a pointer to a struct of two strings. -/
structure User where
  ID : String := ""
  Name : String := ""
  Email : String := ""
  Role : String := ""
  Slack : Option (String × String) := none
  deriving DecidableEq, Repr

/-- The local `result` of `UsersService.List`: `struct { Users []*User }`. -/
structure UsersResult where
  Users : List (Option User) := []
  deriving DecidableEq, Repr

/-- The field of the struct under `User.Slack` selected by a key. -/
def slackField (key : String) (v : JSON) (s : String × String) : String × String :=
  if fieldMatches "user_id" key then (decodeString v s.1, s.2)
  else if fieldMatches "team_id" key then (s.1, decodeString v s.2)
  else s

/-- The field of `User` selected by a key. -/
def User.field (key : String) (v : JSON) (u : User) : User :=
  if fieldMatches "id" key then { u with ID := decodeString v u.ID }
  else if fieldMatches "name" key then { u with Name := decodeString v u.Name }
  else if fieldMatches "email" key then { u with Email := decodeString v u.Email }
  else if fieldMatches "role" key then { u with Role := decodeString v u.Role }
  else if fieldMatches "slack" key then
    { u with Slack := decodePtr ("", "") (decodeStruct slackField) v u.Slack }
  else u

/-- The field of the `result` struct selected by a key. -/
def UsersResult.field (key : String) (v : JSON) (r : UsersResult) : UsersResult :=
  if fieldMatches "users" key then
    { r with Users := decodeSlice none (decodePtr {} (decodeStruct User.field)) v r.Users }
  else r

/-- Whether a value can be stored into a `string`. -/
def fitsString : JSON → Bool
  | .str _ => true
  | .null => true
  | _ => false

/-- Whether a value can be stored into a struct (or a pointer to one) whose
members are checked by `fitsField`. -/
def fitsStruct (fitsField : String → JSON → Bool) : JSON → Bool
  | .obj ms => ms.all fun m => fitsField m.1 m.2
  | .null => true
  | _ => false

/-- Whether a value can be stored into a slice whose elements are checked by
`fitsElem`. -/
def fitsSlice (fitsElem : JSON → Bool) : JSON → Bool
  | .arr es => es.all fitsElem
  | .null => true
  | _ => false

/-- Whether the member `key: v` can be stored into a `User`. -/
def User.fits (key : String) (v : JSON) : Bool :=
  if fieldMatches "id" key || fieldMatches "name" key || fieldMatches "email" key
      || fieldMatches "role" key then fitsString v
  else if fieldMatches "slack" key then
    fitsStruct (fun k x =>
      if fieldMatches "user_id" k || fieldMatches "team_id" k then fitsString x else true) v
  else true

/-- Whether the member `key: v` can be stored into the `result` struct. -/
def UsersResult.fits (key : String) (v : JSON) : Bool :=
  if fieldMatches "users" key then fitsSlice (fitsStruct User.fits) v else true

/-- Target operations for `UsersService.List`: the target is `&result`, and a
byte buffer stands for the writer (`Write` appends and does not fail).
Storing reports an `*json.UnmarshalTypeError` when some value does not fit. -/
def usersOps : TargetOps (List Char) UsersResult :=
  { write := fun w chunk => (w ++ chunk, none)
    unmarshal := fun j t =>
      (decodeStruct UsersResult.field j t,
       if fitsStruct UsersResult.fits j then none
       else some (.unmarshal "json: cannot unmarshal value into Go struct field")) }

/-! ## The error envelope on the wire -/

/-- The body of the error test of the package: status 404, one sub-error. -/
def body404 : String :=
  "\x7b\"type\":\"validation_error\",\"status\":404,\"detail\":\"Incident not found\",\"errors\":[\x7b\"code\":\"not_found\",\"detail\":\"No incident with ID \x27not-found\x27\",\"source\":\x7b\"pointer\":\"/id\"\x7d\x7d]\x7d"

/-- The value that `body404` denotes. -/
def envelope404 : JSON :=
  .obj [("type", .str "validation_error"), ("status", .num "404"),
        ("detail", .str "Incident not found"),
        ("errors", .arr [.obj [("code", .str "not_found"),
                               ("detail", .str "No incident with ID \x27not-found\x27"),
                               ("source", .obj [("pointer", .str "/id")])]])]

/-- The sub-error of `body404`. -/
def subError404 : SubError :=
  { Code := "not_found", Detail := "No incident with ID \x27not-found\x27", SourcePointer := "/id" }

/-- The `ErrorResponse` that `body404` decodes to. -/
def errorResponse404 : ErrorResponse :=
  { Response := .original, Type_ := "validation_error", Status := 404,
    Detail := "Incident not found", Errors := [subError404] }

/-- The value `v` is a sub-error object of the wire shape, with the content
of `e`: the members `code`, `detail` and `source: {pointer}`, in any order. -/
def IsSubErrorJSON (v : JSON) (e : SubError) : Prop :=
  ∃ ms, v = .obj ms ∧
    ms.Perm [("code", .str e.Code), ("detail", .str e.Detail),
             ("source", .obj [("pointer", .str e.SourcePointer)])]

/-- The value `v` is an error envelope of the wire shape: the members `type`,
`status`, `detail` and `errors`, in any order, with an integer `status` of
value `status` and the sub-errors `errors`, in their order. -/
def IsEnvelopeJSON (v : JSON) (type : String) (status : Int) (detail : String)
    (errors : List SubError) : Prop :=
  ∃ ms lit vs, v = .obj ms ∧ parseInt64 lit = some status ∧
    List.Forall₂ IsSubErrorJSON vs errors ∧
    ms.Perm [("type", .str type), ("status", .num lit), ("detail", .str detail),
             ("errors", .arr vs)]

/-- Whether the body is a JSON object with a member whose key selects the
field `Response` of `ErrorResponse`. -/
def addressesResponse (data : List Char) : Bool :=
  match parseDocument data with
  | .ok (.obj ms) => ms.any fun m => fieldMatches "Response" m.1
  | _ => false

/-- Whether the bytes begin, white space aside, with a complete JSON value. -/
def startsWithValue (data : List Char) : Bool :=
  match scanValue data with
  | .value _ _ => true
  | _ => false

/-- A transport that answers every request with the given status and a body
delivered in the given chunks. -/
def chunkedHTTPClient (status : Int) (chunks : List String) : HTTPClient :=
  { Do := fun req =>
      .received { StatusCode := status, Request := some req } ⟨chunks.map String.toList, none⟩ }

/-! ## `ErrorResponse.Error` -/

/-- The response a `ResponseRef` points to, `original` being the response the
`ErrorResponse` was built for; `none` for the nil pointer. -/
def ResponseRef.deref (ref : ResponseRef) (original : Response) : Option Response :=
  match ref with
  | .null => none
  | .original => some original
  | .allocated a => some a

/-- Verb `%v` of `fmt` on a `*url.URL`: the method `String`, and `<nil>` for
the nil pointer. -/
def formatURL (lib : URLLib) : Option URL → String
  | none => "<nil>"
  | some u => lib.String u

/-- Verb `%d` of `fmt` on an `int`: its decimal digits, with a minus sign when
negative. -/
def formatInt (n : Int) : String :=
  toString n

/-- `(*ErrorResponse).Error()`, with `original` the response the
`ErrorResponse` was built for. `r.Response.Request.Method` dereferences both
pointers. -/
def ErrorResponse.Error (lib : URLLib) (e : ErrorResponse) (original : Incidentio.Response) :
    Result String :=
  match e.Response.deref original with
  | none => .crash
  | some resp =>
    match resp.Request with
    | none => .crash
    | some req =>
      -- fmt.Sprintf("%v %v: %d %v", Method, URL, StatusCode, Detail)
      .ok (req.Method ++ " " ++ formatURL lib req.URL ++ ": " ++ formatInt resp.StatusCode
        ++ " " ++ e.Detail)

/-! ## Resource methods -/

/-- The Go struct `ListOptions`. -/
structure ListOptions where
  PageSize : Int := 0
  After : String := ""
  deriving DecidableEq, Repr

/-- What a resource method returns: the result, the response and the error. -/
structure CallResult (R : Type) where
  result : R
  resp : Option Response
  err : Option Error
  deriving DecidableEq, Repr

/-- How a call ends: it returns, or it panics. -/
inductive Outcome (α : Type) where
  | returned (a : α)
  | crashed
  deriving DecidableEq, Repr

/-- The encoder for calls without a body: there is no value to encode. -/
def encodeNothing : Bool → Empty → Except Error (List Char) :=
  fun _ b => nomatch b

/-- `UsersService.List(ctx, _)`. The result is `[]*User`; the nil slice is
`[]`. -/
def UsersService.List (lib : URLLib) (c : Client) (_opts : Option ListOptions) :
    Outcome (CallResult (List (Option User))) :=
  let u := "v2/users"
  match Client.NewRequest lib encodeNothing c "GET" u none with
  | .crash => .crashed
  -- if err != nil { return nil, nil, err }
  | .err e => .returned ⟨[], none, some e⟩
  | .ok req =>
    -- var result struct { Users []*User }; resp, err := s.client.Do(ctx, req, &result)
    let d := Client.Do usersOps c req (.value ({} : UsersResult))
    match d.err, d.target with
    -- if err != nil { return nil, resp, err }
    | some e, _ => .returned ⟨[], d.resp, some e⟩
    -- return result.Users, resp, nil
    | none, .value result => .returned ⟨result.Users, d.resp, none⟩
    | none, _ => .returned ⟨[], d.resp, none⟩

/-- The local `result` of `IncidentsService.Get`: `struct { Incident *Incident }`,
over a type `I` for the Go struct `Incident`. -/
structure IncidentResult (I : Type) where
  Incident : Option I := none

/-- Target operations for `&result` in `IncidentsService.Get`, given how a
parsed value is stored into the struct; the target is no writer. -/
def incidentOps {I : Type}
    (unmarshal : JSON → IncidentResult I → IncidentResult I × Option Error) :
    TargetOps Empty (IncidentResult I) :=
  { write := fun w _ => nomatch w
    unmarshal := unmarshal }

/-- `IncidentsService.Get(ctx, id)`. -/
def IncidentsService.Get {I : Type} (lib : URLLib)
    (unmarshal : JSON → IncidentResult I → IncidentResult I × Option Error)
    (c : Client) (id : String) : Outcome (CallResult (Option I)) :=
  -- u := fmt.Sprintf("v2/incidents/%s", id)
  let u := "v2/incidents/" ++ id
  match Client.NewRequest lib encodeNothing c "GET" u none with
  | .crash => .crashed
  | .err e => .returned ⟨none, none, some e⟩
  | .ok req =>
    let d := Client.Do (incidentOps unmarshal) c req (.value ({} : IncidentResult I))
    match d.err, d.target with
    | some e, _ => .returned ⟨none, d.resp, some e⟩
    | none, .value result => .returned ⟨result.Incident, d.resp, none⟩
    | none, _ => .returned ⟨none, d.resp, none⟩

/-- The fields `ID` and `Name` of the Go struct `Incident`, for worked
examples of `IncidentsService.Get`. -/
structure IncidentHead where
  ID : String := ""
  Name : String := ""
  deriving DecidableEq, Repr

/-- The field of `IncidentHead` selected by a key. -/
def IncidentHead.field (key : String) (v : JSON) (i : IncidentHead) : IncidentHead :=
  if fieldMatches "id" key then { i with ID := decodeString v i.ID }
  else if fieldMatches "name" key then { i with Name := decodeString v i.Name }
  else i

/-- Storing into `struct { Incident *Incident }` for bodies whose incident
object has the members `id` and `name` only, both strings. -/
def unmarshalIncidentHead (j : JSON) (r : IncidentResult IncidentHead) :
    IncidentResult IncidentHead × Option Error :=
  (decodeStruct (fun key v (acc : IncidentResult IncidentHead) =>
      if fieldMatches "incident" key then
        { acc with Incident := decodePtr {} (decodeStruct IncidentHead.field) v acc.Incident }
      else acc) j r,
   if fitsStruct (fun key v =>
        if fieldMatches "incident" key then
          fitsStruct (fun k x =>
            if fieldMatches "id" k || fieldMatches "name" k then fitsString x else true) v
        else true) j then none
   else some (.unmarshal "json: cannot unmarshal value into Go struct field"))

/-- The request `GET https://api.incident.io/v2/incidents/I1`. -/
def incidentGetRequest : Request :=
  { Method := "GET"
    URL := some { Scheme := "https", Host := "api.incident.io", Path := "/v2/incidents/I1" }
    Header := [("Authorization", ["Bearer test-key"]),
               ("User-Agent", ["incidentio-go-client/1.0.0"]),
               ("Accept", ["application/json"])] }

/-- A body with one user and one incident, as a test server for both
endpoints could send it. -/
def bodyUserAndIncident : String :=
  "\x7b\"users\":[\x7b\"id\":\"U1\",\"name\":\"Ann\"\x7d],\"incident\":\x7b\"id\":\"I1\",\"name\":\"DB down\"\x7d\x7d"

/-! ## `encoding/json`: the encoder -/

/-- Lower-case hexadecimal digit of a value below 16 (`hex` in `encode.go`). -/
def hexDigit (n : Nat) : Char :=
  "0123456789abcdef".toList.getD n '0'

/-- What the encoder writes for one character of a string
(`appendString` in `encode.go`): quote and backslash get a backslash, control
characters their short escape or `\u00XX`, U+2028 and U+2029 their `\u`
escape, and with `escapeHTML` the characters `<`, `>` and `&` become
`\u003c`, `\u003e` and `\u0026`; every other character is written as it is. -/
def encodeRune (escapeHTML : Bool) (c : Char) : List Char :=
  if c = '"' ∨ c = '\\' then ['\\', c]
  else if c.toNat = 8 then ['\\', 'b']
  else if c.toNat = 12 then ['\\', 'f']
  else if c = '\n' then ['\\', 'n']
  else if c = '\r' then ['\\', 'r']
  else if c = '\t' then ['\\', 't']
  else if c.toNat < 32 ∨ (escapeHTML ∧ (c = '<' ∨ c = '>' ∨ c = '&')) then
    ['\\', 'u', '0', '0', hexDigit (c.toNat / 16), hexDigit (c.toNat % 16)]
  else if c.toNat = 0x2028 ∨ c.toNat = 0x2029 then
    ['\\', 'u', '2', '0', '2', hexDigit (c.toNat % 16)]
  else [c]

/-- The JSON string literal of a Go string (`appendString`). -/
def encodeString (escapeHTML : Bool) (s : List Char) : List Char :=
  '"' :: s.flatMap (encodeRune escapeHTML) ++ ['"']

mutual
/-- The compact text the encoder writes for a value: a struct or map is the
object of its members in the order written, a number is its literal. -/
def JSON.render (escapeHTML : Bool) : JSON → List Char
  | .null => ['n', 'u', 'l', 'l']
  | .bool b => if b then ['t', 'r', 'u', 'e'] else ['f', 'a', 'l', 's', 'e']
  | .num lit => lit.toList
  | .str s => encodeString escapeHTML s.toList
  | .arr es => '[' :: renderElems escapeHTML es ++ [']']
  | .obj ms => '\x7b' :: renderMembers escapeHTML ms ++ ['\x7d']
/-- The elements of an array, separated by commas. -/
def renderElems (escapeHTML : Bool) : List JSON → List Char
  | [] => []
  | [v] => JSON.render escapeHTML v
  | v :: w :: rest => JSON.render escapeHTML v ++ ',' :: renderElems escapeHTML (w :: rest)
/-- The members of an object, separated by commas. -/
def renderMembers (escapeHTML : Bool) : List (String × JSON) → List Char
  | [] => []
  | [(k, v)] => encodeString escapeHTML k.toList ++ ':' :: JSON.render escapeHTML v
  | (k, v) :: m :: rest =>
    encodeString escapeHTML k.toList ++ ':' :: JSON.render escapeHTML v
      ++ ',' :: renderMembers escapeHTML (m :: rest)
end

/-- `Encoder.Encode` with the given escaping mode on a body whose encoding is
the value `j`: the compact text and a newline. -/
def encodeJSON (escapeHTML : Bool) (j : JSON) : Except Error (List Char) :=
  .ok (JSON.render escapeHTML j ++ ['\n'])

mutual
/-- The string values of a value, nested ones included. -/
def JSON.strings : JSON → List String
  | .str s => [s]
  | .arr es => elemStrings es
  | .obj ms => memberStrings ms
  | _ => []
/-- The string values in the elements of an array. -/
def elemStrings : List JSON → List String
  | [] => []
  | v :: rest => JSON.strings v ++ elemStrings rest
/-- The string values in the members of an object. -/
def memberStrings : List (String × JSON) → List String
  | [] => []
  | (_, v) :: rest => JSON.strings v ++ memberStrings rest
end

/-- `json.Unmarshal(data, &s)` for a `string` variable holding `s`: the value
of a string literal is stored, `null` leaves the variable as it is, and
anything else is an error. -/
def jsonUnmarshalString (data : List Char) (s : String) : String × Option Error :=
  match parseDocument data with
  | .error e => (s, some e)
  | .ok (.str x) => (x, none)
  | .ok .null => (s, none)
  | .ok _ => (s, some (.unmarshal "json: cannot unmarshal value into Go value of type string"))

/-! ## `time.Time` and the layout `time.RFC3339`

A `time.Time` is an instant together with a location. It is embedded by what
its methods `Date`, `Clock`, `Nanosecond` and `Zone` return: the calendar date
and clock time in its location, and the offset of that location from UTC at
the instant. Formatting and parsing with a layout work on exactly these. -/

/-- A `time.Time`: date and time of day in its location, nanosecond, and the
offset of the location in seconds east of UTC. -/
structure Time where
  year : Int := 1
  month : Nat := 1
  day : Nat := 1
  hour : Nat := 0
  min : Nat := 0
  sec : Nat := 0
  nsec : Nat := 0
  offset : Int := 0
  deriving DecidableEq, Repr

/-- `time.isLeap`. -/
def isLeap (year : Int) : Bool :=
  year % 4 = 0 && (year % 100 != 0 || year % 400 = 0)

/-- `time.daysIn`: the number of days of a month of a year. -/
def daysIn (month : Nat) (year : Int) : Nat :=
  if month = 2 then (if isLeap year then 29 else 28)
  else if month = 4 ∨ month = 6 ∨ month = 9 ∨ month = 11 then 30
  else 31

/-- The values that are times: a date of the calendar and a time of day. -/
def Time.Valid (t : Time) : Prop :=
  1 ≤ t.month ∧ t.month ≤ 12 ∧ 1 ≤ t.day ∧ t.day ≤ daysIn t.month t.year ∧
    t.hour < 24 ∧ t.min < 60 ∧ t.sec < 60 ∧ t.nsec < 1000000000

instance (t : Time) : Decidable t.Valid := by
  unfold Time.Valid
  exact inferInstance

/-- `Time.Truncate(time.Second)`: the same second, without the fraction. -/
def Time.truncateToSecond (t : Time) : Time :=
  { t with nsec := 0 }

/-- Days from 1970-01-01 to a date of the proleptic Gregorian calendar. -/
def daysFromCivil (year : Int) (month day : Nat) : Int :=
  let y := if month ≤ 2 then year - 1 else year
  let era := y / 400
  let yoe := y - era * 400
  let mp : Int := if month ≤ 2 then (month : Int) + 9 else (month : Int) - 3
  let doy := (153 * mp + 2) / 5 + (day : Int) - 1
  let doe := yoe * 365 + yoe / 4 - yoe / 100 + doy
  era * 146097 + doe - 719468

/-- `Time.Unix`: seconds of the instant since 1970-01-01T00:00:00Z. -/
def Time.unix (t : Time) : Int :=
  daysFromCivil t.year t.month t.day * 86400 + (t.hour : Int) * 3600 + (t.min : Int) * 60
    + (t.sec : Int) - t.offset

/-- `Time.Equal`: the same instant, whatever the locations. -/
def Time.Equal (t u : Time) : Bool :=
  t.unix = u.unix && t.nsec = u.nsec

/-- The character of a decimal digit. -/
def digitChar (d : Nat) : Char :=
  Char.ofNat (48 + d)

/-- `time.appendInt(b, x, width)`: the decimal digits of `x`, padded with
zeros to the width, after a minus sign when `x` is negative. -/
def appendInt (x : Int) (width : Nat) : List Char :=
  let u := x.natAbs
  let sign := if x < 0 then ['-'] else []
  if width = 2 ∧ u < 100 then sign ++ [digitChar (u / 10), digitChar (u % 10)]
  else if width = 4 ∧ u < 10000 then
    sign ++ [digitChar (u / 1000), digitChar (u / 100 % 10), digitChar (u / 10 % 10),
             digitChar (u % 10)]
  else
    let digits := Nat.toDigits 10 u
    sign ++ List.replicate (width - digits.length) '0' ++ digits

/-- The zone of the layout element `Z07:00` in `Time.Format`: `Z` for the
offset 0, else the sign and the hours and minutes of the offset; its seconds
are cut off. -/
def formatZone (offset : Int) : List Char :=
  if offset = 0 then ['Z']
  else
    -- zone := offset / 60, rounded toward zero
    let zone : Int := Int.tdiv offset 60
    let sign := if zone < 0 then '-' else '+'
    let m := zone.natAbs
    sign :: appendInt (m / 60 : Nat) 2 ++ ':' :: appendInt (m % 60 : Nat) 2

/-- `t.Format(time.RFC3339)`, layout `2006-01-02T15:04:05Z07:00`. -/
def Time.formatRFC3339 (t : Time) : List Char :=
  appendInt t.year 4 ++ '-' :: appendInt t.month 2 ++ '-' :: appendInt t.day 2
    ++ 'T' :: appendInt t.hour 2 ++ ':' :: appendInt t.min 2 ++ ':' :: appendInt t.sec 2
    ++ formatZone t.offset

/-- Value of a decimal digit character. -/
def digitVal (c : Char) : Nat :=
  c.toNat - 48

/-- `time.getnum(s, fixed)`: a number of two digits, or of one digit when the
second character is no digit and `fixed` is false. -/
def getnum (s : List Char) (fixed : Bool) : Option (Nat × List Char) :=
  match s with
  | a :: b :: rest =>
    if a.isDigit then
      if b.isDigit then some (digitVal a * 10 + digitVal b, rest)
      else if fixed then none else some (digitVal a, b :: rest)
    else none
  | [a] => if a.isDigit ∧ ¬fixed then some (digitVal a, []) else none
  | [] => none

/-- The year of the layout element `2006`: four characters, all digits. -/
def parseYear (s : List Char) : Option (Nat × List Char) :=
  match s with
  | a :: b :: c :: d :: rest =>
    if a.isDigit ∧ b.isDigit ∧ c.isDigit ∧ d.isDigit then
      some (((digitVal a * 10 + digitVal b) * 10 + digitVal c) * 10 + digitVal d, rest)
    else none
  | _ => none

/-- A literal character of the layout. -/
def skipChar (c : Char) (s : List Char) : Option (List Char) :=
  match s with
  | x :: rest => if x = c then some rest else none
  | [] => none

/-- `time.parseNanoseconds` on the digits after the separator: the first
nine count, as billionths of a second. -/
def fractionNanos (digits : List Char) : Nat :=
  ((digits.take 9).foldl (fun acc c => acc * 10 + digitVal c) 0) * 10 ^ (9 - (digits.take 9).length)

/-- The fraction of a second that may follow the seconds although the layout
has none: a period or a comma and at least one digit. -/
def parseFraction (s : List Char) : Nat × List Char :=
  match s with
  | sep :: d :: rest =>
    if (sep = '.' ∨ sep = ',') ∧ d.isDigit then
      (fractionNanos (d :: rest.takeWhile Char.isDigit), rest.dropWhile Char.isDigit)
    else (0, s)
  | _ => (0, s)

/-- The zone of the layout element `Z07:00` in `time.Parse`: `Z`, or a sign,
two digits, a colon and two digits, with hours up to 24 and minutes up to 60. -/
def parseZone (s : List Char) : Option (Int × List Char) :=
  match s with
  | 'Z' :: rest => some (0, rest)
  | sign :: h1 :: h2 :: colon :: m1 :: m2 :: rest =>
    if colon = ':' ∧ h1.isDigit ∧ h2.isDigit ∧ m1.isDigit ∧ m2.isDigit then
      let hr := digitVal h1 * 10 + digitVal h2
      let mm := digitVal m1 * 10 + digitVal m2
      if hr > 24 ∨ mm > 60 then none
      else if sign = '+' then some ((((hr * 60 + mm) * 60 : Nat) : Int), rest)
      else if sign = '-' then some (-(((hr * 60 + mm) * 60 : Nat) : Int), rest)
      else none
    else none
  | _ => none

/-- `time.Parse(time.RFC3339, s)`, as the general layout parser reads the
layout `2006-01-02T15:04:05Z07:00`: the month, day, minute and second have two
digits, the hour one or two; a fraction of a second may follow the seconds;
nothing may follow the zone; the date must exist. `none` is a
`*time.ParseError`. -/
def timeParseRFC3339 (s : List Char) : Option Time :=
  match parseYear s with
  | none => none
  | some (year, s) =>
  match skipChar '-' s with
  | none => none
  | some s =>
  match getnum s true with
  | none => none
  | some (month, s) =>
  if month = 0 ∨ 12 < month then none else
  match skipChar '-' s with
  | none => none
  | some s =>
  match getnum s true with
  | none => none
  | some (day, s) =>
  match skipChar 'T' s with
  | none => none
  | some s =>
  match getnum s false with
  | none => none
  | some (hour, s) =>
  if 24 ≤ hour then none else
  match skipChar ':' s with
  | none => none
  | some s =>
  match getnum s true with
  | none => none
  | some (min, s) =>
  if 60 ≤ min then none else
  match skipChar ':' s with
  | none => none
  | some s =>
  match getnum s true with
  | none => none
  | some (sec, s) =>
  if 60 ≤ sec then none else
  match parseFraction s with
  | (nsec, s) =>
  match parseZone s with
  | none => none
  | some (offset, s) =>
  if s ≠ [] then none
  else if day < 1 ∨ daysIn month year < day then none
  else some { year := year, month := month, day := day, hour := hour, min := min, sec := sec,
              nsec := nsec, offset := offset }

/-! ## `Timestamp` -/

/-- The Go struct `Timestamp`, which embeds a `time.Time`. -/
structure Timestamp where
  Time : Time := {}
  deriving DecidableEq, Repr

/-- `(*Timestamp).UnmarshalJSON(data)`: the timestamp as the call leaves it,
and the error. -/
def Timestamp.UnmarshalJSON (t : Timestamp) (data : List Char) : Timestamp × Option Error :=
  -- var s string; if err := json.Unmarshal(data, &s); err != nil { return err }
  match jsonUnmarshalString data "" with
  | (_, some err) => (t, some err)
  | (s, none) =>
    -- parsedTime, err := time.Parse(time.RFC3339, s)
    match timeParseRFC3339 s.toList with
    | none => (t, some (.foreign "parsing time: cannot parse as RFC3339"))
    | some parsedTime => ({ t with Time := parsedTime }, none)

/-- `Timestamp.MarshalJSON()`: `json.Marshal` of the formatted text, which for
a string cannot fail and escapes HTML characters. -/
def Timestamp.MarshalJSON (t : Timestamp) : List Char × Option Error :=
  (encodeString true t.Time.formatRFC3339, none)

/-! ## The date-time profile on the wire -/

/-- A number below 100 in two digits. -/
def twoDigits (n : Nat) : List Char :=
  [digitChar (n / 10), digitChar (n % 10)]

/-- A number below 10000 in four digits. -/
def fourDigits (n : Nat) : List Char :=
  [digitChar (n / 1000), digitChar (n / 100 % 10), digitChar (n / 10 % 10), digitChar (n % 10)]

/-- A zone of the profile: `Z`, or a sign with hours and minutes. -/
inductive ZoneText where
  | utc
  | numeric (negative : Bool) (hours minutes : Nat)
  deriving DecidableEq, Repr

/-- The text of a zone. -/
def ZoneText.text : ZoneText → List Char
  | .utc => ['Z']
  | .numeric negative h m => (if negative then '-' else '+') :: twoDigits h ++ ':' :: twoDigits m

/-- The offset a zone denotes, in seconds east of UTC. -/
def ZoneText.offset : ZoneText → Int
  | .utc => 0
  | .numeric negative h m =>
    if negative then -(((h * 60 + m) * 60 : Nat) : Int) else (((h * 60 + m) * 60 : Nat) : Int)

/-- The fraction of a second with the given digits: nothing for no digits,
else a period and the digits. -/
def fractionText (frac : List Nat) : List Char :=
  if frac = [] then [] else '.' :: frac.map digitChar

/-- The value in nanoseconds of at most nine digits after the period; of more
digits, the first nine count (`frac.take 9`). -/
def fractionValue (frac : List Nat) : Nat :=
  frac.foldl (fun acc d => acc * 10 + d) 0 * 10 ^ (9 - frac.length)

/-- The text `YYYY-MM-DDTHH:MM:SS[.fraction](Z|±hh:mm)` of a date-time of the
profile. -/
def profileText (year month day hour min sec : Nat) (frac : List Nat) (zone : ZoneText) :
    List Char :=
  fourDigits year ++ '-' :: twoDigits month ++ '-' :: twoDigits day ++ 'T' :: twoDigits hour
    ++ ':' :: twoDigits min ++ ':' :: twoDigits sec ++ fractionText frac ++ zone.text

/-- The fields are those of a date-time of the profile: a year of four
digits, an existing date, a time of day, decimal digits for the fraction,
and a zone within a day. -/
def ProfileFields (year month day hour min sec : Nat) (frac : List Nat) (zone : ZoneText) :
    Prop :=
  year < 10000 ∧ 1 ≤ month ∧ month ≤ 12 ∧ 1 ≤ day ∧ day ≤ daysIn month year ∧
    hour < 24 ∧ min < 60 ∧ sec < 60 ∧ (∀ d ∈ frac, d < 10) ∧
    match zone with
    | .utc => True
    | .numeric _ h m => h < 24 ∧ m < 60

instance (year month day hour min sec : Nat) (frac : List Nat) (zone : ZoneText) :
    Decidable (ProfileFields year month day hour min sec frac zone) := by
  unfold ProfileFields
  cases zone <;> exact inferInstance

/-- The text is a date-time of the profile. -/
def InProfile (s : List Char) : Prop :=
  ∃ year month day hour min sec frac zone,
    ProfileFields year month day hour min sec frac zone ∧
      s = profileText year month day hour min sec frac zone

/-- A character that a JSON string literal holds as it is, on reading and on
writing (with HTML escaping): no quote, backslash or control character, and
none that the encoder escapes. -/
def plainChar (c : Char) : Bool :=
  c != '"' && c != '\\' && !decide (c.toNat < 32) && encodeRune true c == [c]

/-- The zone text of an offset of whole minutes: `Z` for 0, else sign, hours
and minutes. -/
def zoneOf (offset : Int) : ZoneText :=
  if offset = 0 then .utc
  else .numeric (decide (offset < 0)) (offset.natAbs / 3600) (offset.natAbs / 60 % 60)

/-- A time that the profile can write: a date and time with a year of four
digits and a zone offset of whole minutes, less than a day. -/
def Time.InProfileRange (t : Time) : Prop :=
  t.Valid ∧ 0 ≤ t.year ∧ t.year ≤ 9999 ∧ t.offset % 60 = 0 ∧
    -86400 < t.offset ∧ t.offset < 86400

instance (t : Time) : Decidable t.InProfileRange := by
  unfold Time.InProfileRange
  exact inferInstance

/-! ## The texts that `time.Parse` accepts for the layout -/

/-- The characters are `n` decimal digits. -/
def Digits (n : Nat) (l : List Char) : Prop :=
  l.length = n ∧ ∀ c ∈ l, c.isDigit = true

/-- A fraction as the parser takes it: nothing, or a period or a comma and at
least one digit. -/
def LaxFraction (f : List Char) : Prop :=
  f = [] ∨ ∃ sep ds, f = sep :: ds ∧ (sep = '.' ∨ sep = ',') ∧ ds ≠ [] ∧
    ∀ c ∈ ds, c.isDigit = true

/-- A zone as the parser takes it: `Z`, or a sign, two digits, a colon and two
digits. -/
def LaxZone (z : List Char) : Prop :=
  z = ['Z'] ∨ ∃ sign h m, z = sign :: (h ++ ':' :: m) ∧ (sign = '+' ∨ sign = '-') ∧
    Digits 2 h ∧ Digits 2 m

/-- The shape of the texts that the parser accepts for the layout
`2006-01-02T15:04:05Z07:00`: as the profile, but the hour may have one digit
and the fraction may begin with a comma. -/
def LaxShape (s : List Char) : Prop :=
  ∃ year month day hour min sec frac zone,
    s = year ++ '-' :: (month ++ '-' :: (day ++ 'T' :: (hour ++ ':' :: (min ++ ':' ::
      (sec ++ (frac ++ zone)))))) ∧
    Digits 4 year ∧ Digits 2 month ∧ Digits 2 day ∧ (Digits 1 hour ∨ Digits 2 hour) ∧
      Digits 2 min ∧ Digits 2 sec ∧ LaxFraction frac ∧ LaxZone zone

/-! ## Instants for worked examples -/

/-- The instant of the tests, 2021-08-17 13:28:57.801578 UTC. -/
def exampleInstant : Time :=
  { year := 2021, month := 8, day := 17, hour := 13, min := 28, sec := 57, nsec := 801578000 }

/-- The instant 2021-08-17 13:28:57 UTC, of second resolution. -/
def exampleSecond : Time :=
  { year := 2021, month := 8, day := 17, hour := 13, min := 28, sec := 57 }

/-- The first instant of the year 10000, in UTC. -/
def firstOfYear10000 : Time :=
  { year := 10000, month := 1, day := 1 }

/-- The time 13:00:00 of 2021-08-17 in a zone `seconds` east of UTC. -/
def oneOClockAt (seconds : Int) : Time :=
  { year := 2021, month := 8, day := 17, hour := 13, offset := seconds }

/-- A request body with the three characters that HTML escaping would
replace, as the value the encoder writes for it. -/
def markupBody : JSON :=
  .obj [("name", .str "a<b>&c"), ("labels", .arr [.str "x&y", .num "1"])]

/-! ## `NewClient` and its options -/

/-- The constant `defaultBaseURL`. -/
def defaultBaseURL : String := "https://api.incident.io/"

/-- The constant `userAgent`. -/
def userAgent : String := "incidentio-go-client/1.0.0"

/-- The Go type `ClientOption`, a `func(*Client)`: what it does to the client. -/
abbrev ClientOption := Client → Client

/-- `WithHTTPClient(httpClient)`. -/
def WithHTTPClient (httpClient : HTTPClient) : ClientOption :=
  fun c => { c with client := httpClient }

/-- `WithBaseURL(baseURL)`: `u, _ := url.Parse(baseURL); c.BaseURL = u`. The
error of `url.Parse` is dropped, and with an error `u` is nil. -/
def WithBaseURL (lib : URLLib) (baseURL : String) : ClientOption :=
  fun c =>
    { c with BaseURL :=
        match lib.Parse baseURL with
        | .ok u => some u
        | .error _ => none }

/-- `NewClient(apiKey, opts...)`, without the service fields. `transport` is
the round trip of the `http.Client` with the timeout of 30 seconds that the
function makes. -/
def NewClient (lib : URLLib) (transport : Request → TransportResult) (apiKey : String)
    (opts : List ClientOption) : Client :=
  -- baseURL, _ := url.Parse(defaultBaseURL)
  let baseURL :=
    match lib.Parse defaultBaseURL with
    | .ok u => some u
    | .error _ => none
  let c : Client :=
    { client := { Timeout := 30, Do := transport }
      BaseURL := baseURL
      UserAgent := userAgent
      apiKey := apiKey }
  -- for _, opt := range opts { opt(c) }
  opts.foldl (fun c opt => opt c) c

/-! ## Streams that break off and sinks that fail -/

/-- A transport that answers every request with the given status and a body
that delivers the given chunks and then breaks off with a read error. -/
def brokenHTTPClient (status : Int) (chunks : List String) (msg : String) : HTTPClient :=
  { Do := fun req =>
      .received { StatusCode := status, Request := some req }
        ⟨chunks.map String.toList, some msg⟩ }

/-- Target operations as `usersOps`, with a writer that accepts nothing: every
`Write` fails. -/
def fullSinkOps : TargetOps (List Char) UsersResult :=
  { usersOps with write := fun w _ => (w, some (.foreign "write: no space left on device")) }

/-! ## The methods of `IncidentsService` and `SchedulesService.List` -/

/-- Target operations for a local `result` struct, given how a parsed value
is stored into it; the target is no writer. -/
def structOps {R : Type} (unmarshal : JSON → R → R × Option Error) : TargetOps Empty R :=
  { write := fun w _ => nomatch w
    unmarshal := unmarshal }

/-- What a method returns after `Do` with the target `&result`: the zero
result with the response and the error when there is one, else the field of
`result` that `get` reads, with the response. -/
def afterDo {R A : Type} (zero : A) (get : R → A) (d : DoResult Empty R) : CallResult A :=
  match d.err, d.target with
  -- if err != nil { return nil, resp, err }
  | some e, _ => ⟨zero, d.resp, some e⟩
  | none, .value result => ⟨get result, d.resp, none⟩
  | none, _ => ⟨zero, d.resp, none⟩

/-- `IncidentsService.Create(ctx, opts)`. The options are a pointer to a
struct of type `O`; as the body they are an interface value that is not nil,
also when the pointer is. -/
def IncidentsService.Create {O I : Type} (lib : URLLib)
    (encode : Bool → Option O → Except Error (List Char))
    (unmarshal : JSON → IncidentResult I → IncidentResult I × Option Error)
    (c : Client) (opts : Option O) : Outcome (CallResult (Option I)) :=
  let u := "v2/incidents"
  match Client.NewRequest lib encode c "POST" u (some opts) with
  | .crash => .crashed
  | .err e => .returned ⟨none, none, some e⟩
  | .ok req =>
    .returned (afterDo none (·.Incident)
      (Client.Do (structOps unmarshal) c req (.value ({} : IncidentResult I))))

/-- `IncidentsService.Update(ctx, id, opts)`. -/
def IncidentsService.Update {O I : Type} (lib : URLLib)
    (encode : Bool → Option O → Except Error (List Char))
    (unmarshal : JSON → IncidentResult I → IncidentResult I × Option Error)
    (c : Client) (id : String) (opts : Option O) : Outcome (CallResult (Option I)) :=
  -- u := fmt.Sprintf("v2/incidents/%s", id)
  let u := "v2/incidents/" ++ id
  match Client.NewRequest lib encode c "PUT" u (some opts) with
  | .crash => .crashed
  | .err e => .returned ⟨none, none, some e⟩
  | .ok req =>
    .returned (afterDo none (·.Incident)
      (Client.Do (structOps unmarshal) c req (.value ({} : IncidentResult I))))

/-- Target operations for a call without a target. -/
def noTargetOps : TargetOps Empty Empty :=
  { write := fun w _ => nomatch w
    unmarshal := fun _ t => nomatch t }

/-- `IncidentsService.Delete(ctx, id)`: the response and the error of `Do`
with a nil target. -/
def IncidentsService.Delete (lib : URLLib) (c : Client) (id : String) :
    Outcome (Option Response × Option Error) :=
  let u := "v2/incidents/" ++ id
  match Client.NewRequest lib encodeNothing c "DELETE" u none with
  | .crash => .crashed
  | .err e => .returned (none, some e)
  | .ok req =>
    -- return s.client.Do(ctx, req, nil)
    let d := Client.Do noTargetOps c req .absent
    .returned (d.resp, d.err)

/-- The characters of an identifier that a path takes as it is: letters,
digits, `-` and `_`. -/
def idChar (c : Char) : Bool :=
  c.isAlphanum || c = '-' || c = '_'

/-- The request that `NewRequest` builds for the client `c`: method, URL and
body as given, and the headers `Content-Type` (with a body), `Accept`,
`User-Agent` and `Authorization`. -/
def requestOf (c : Client) (method : String) (u : URL) (body : Option (List Char)) : Request :=
  { Method := method
    URL := some u
    Header :=
      Header.Set (Header.Set (Header.Set
        (if body.isSome then Header.Set [] "Content-Type" "application/json" else [])
        "Accept" "application/json") "User-Agent" c.UserAgent)
        "Authorization" ("Bearer " ++ c.apiKey)
    Body := body }

/-- The URL of a request for the path `v2/incidents`. -/
def incidentsURL (base : URL) : URL :=
  requestURL base "v2/incidents"

/-- The URL of a request for the path `v2/incidents/<id>`. -/
def incidentURL (base : URL) (id : String) : URL :=
  requestURL base ("v2/incidents/" ++ id)

/-- The encoder on a pointer: `null` and a newline for the nil pointer, else
what the encoder writes for the value pointed to. -/
def encodePtr {O : Type} (encode : Bool → O → Except Error (List Char)) :
    Bool → Option O → Except Error (List Char)
  | _, none => .ok ['n', 'u', 'l', 'l', '\n']
  | escapeHTML, some o => encode escapeHTML o

/-- A client with the given base URL over a transport that answers every
request with status 204 and sends the request back with the answer. -/
def echoClientAt (base : URL) : Client :=
  { clientOver (cannedHTTPClient 204 "") with BaseURL := some base }

/-- The request `DELETE https://api.incident.io/v2/incidents/I1`. -/
def incidentDeleteRequest : Request :=
  { incidentGetRequest with Method := "DELETE" }

/-! ## `url.Values` and `SchedulesService.ListEntries` -/

/-- The Go type `url.Values`, a map from a key to its values: the entries of
the map, each key once. The order of the entries is not observable, `Encode`
sorts them. -/
abbrev Values := List (String × List String)

/-- `Values.Get`: the first value of the key, the empty string without one. -/
def Values.Get (v : Values) (key : String) : String :=
  match v.lookup key with
  | some (x :: _) => x
  | _ => ""

/-- `Values.Add`: `v[key] = append(v[key], value)`. -/
def Values.Add (v : Values) (key value : String) : Values :=
  if v.any (fun kv => kv.1 = key) then
    v.map fun kv => if kv.1 = key then (kv.1, kv.2 ++ [value]) else kv
  else v ++ [(key, [value])]

/-- The characters that `shouldEscape` leaves alone in a query component:
letters, digits, `-`, `_`, `.` and `~`. -/
def queryUnreserved (c : Char) : Bool :=
  c.isAlphanum || c = '-' || c = '_' || c = '.' || c = '~'

/-- `url.QueryEscape`: unreserved characters as they are, a space as `+`, and
every other byte of the text as `%XX`. -/
def QueryEscape (s : List Char) : List Char :=
  s.flatMap fun c =>
    if queryUnreserved c then [c]
    else if c = ' ' then ['+']
    else (String.utf8EncodeChar c).flatMap fun b =>
      ['%', upperHexDigit (b.toNat / 16), upperHexDigit (b.toNat % 16)]

/-- `url.QueryUnescape` on texts whose escapes are of bytes below 0x80: `+` is
a space and `%XX` the byte; `none` is the error for a `%` that two hexadecimal
digits do not follow, and also stands for an escape of a byte from 0x80 on,
which this embedding leaves out. -/
def queryUnescape : List Char → Option (List Char)
  | [] => some []
  | '%' :: a :: b :: rest =>
    match hexVal a, hexVal b with
    | some x, some y =>
      if 16 * x + y < 128 then (queryUnescape rest).map (Char.ofNat (16 * x + y) :: ·) else none
    | _, _ => none
  | '%' :: _ => none
  | '+' :: rest => (queryUnescape rest).map (' ' :: ·)
  | c :: rest => (queryUnescape rest).map (c :: ·)

/-- The parts of a text between occurrences of `sep`, with the part being
read in `cur` (reversed). -/
def splitChar (sep : Char) : List Char → List Char → List (List Char)
  | cur, [] => [cur.reverse]
  | cur, c :: cs =>
    if c = sep then cur.reverse :: splitChar sep [] cs else splitChar sep (c :: cur) cs

/-- `url.ParseQuery` for its value (`URL.Query` drops the error): the pairs
between `&`, each cut at its first `=`, key and value unescaped; empty pairs,
pairs with a semicolon and pairs with a malformed escape are skipped. -/
def parseQuery (query : List Char) : Values :=
  (splitChar '&' [] query).foldl (fun m pair =>
    if pair = [] ∨ ';' ∈ pair then m
    else
      let key := pair.takeWhile (· != '=')
      let value := (pair.dropWhile (· != '=')).drop 1
      match queryUnescape key, queryUnescape value with
      | some k, some v => Values.Add m (String.mk k) (String.mk v)
      | _, _ => m) []

/-- `URL.Query()`. -/
def URL.Query (u : URL) : Values :=
  parseQuery u.RawQuery.toList

/-- Order of Go strings, byte by byte, which for valid UTF-8 is the order of
the code points. -/
def keyLE : List Char → List Char → Bool
  | [], _ => true
  | _ :: _, [] => false
  | a :: as, b :: bs => decide (a.toNat < b.toNat) || (a == b && keyLE as bs)

/-- Insertion of an entry before the first entry with a key not below its
own. -/
def insertByKey (kv : String × List String) : Values → Values
  | [] => [kv]
  | x :: xs => if keyLE kv.1.toList x.1.toList then kv :: x :: xs else x :: insertByKey kv xs

/-- The entries in the order of their keys (`slices.Sort(keys)`). -/
def sortByKey (v : Values) : Values :=
  v.foldr insertByKey []

/-- The texts joined by `&`. -/
def joinAmp : List (List Char) → List Char
  | [] => []
  | [a] => a
  | a :: b :: rest => a ++ '&' :: joinAmp (b :: rest)

/-- `Values.Encode`: `key=value` for every value of every key, keys in sorted
order, both escaped, joined by `&`. -/
def Values.Encode (v : Values) : List Char :=
  joinAmp ((sortByKey v).flatMap fun kv =>
    kv.2.map fun x => QueryEscape kv.1.toList ++ '=' :: QueryEscape x.toList)

/-- The Go struct `TimeWindow`. -/
structure TimeWindow where
  StartAt : Time := {}
  EndAt : Time := {}
  deriving DecidableEq, Repr

/-- The Go struct `ScheduleEntriesOptions`; `EntryWindow` is a pointer. -/
structure ScheduleEntriesOptions where
  EntryWindow : Option TimeWindow := none
  ListOptions : ListOptions := {}
  deriving DecidableEq, Repr

/-- The local `result` of `SchedulesService.ListEntries`:
`struct { ScheduleEntries []*ScheduleEntry }`, over a type `E` for
`ScheduleEntry`. -/
structure ScheduleEntriesResult (E : Type) where
  ScheduleEntries : List (Option E) := []

/-- The request of `ListEntries` after the step that adds the time window:
with options and a window, the query of the URL is parsed, the two parameters
are added and the query is written back encoded; `none` is the panic on a
request without a URL. -/
def addEntryWindow (req : Request) (opts : Option ScheduleEntriesOptions) : Option Request :=
  -- if opts != nil && opts.EntryWindow != nil
  match opts.bind (·.EntryWindow) with
  | none => some req
  | some window =>
    match req.URL with
    | none => none
    | some u =>
      let q := u.Query
      let q := Values.Add q "entry_window[start_at]" (String.mk window.StartAt.formatRFC3339)
      let q := Values.Add q "entry_window[end_at]" (String.mk window.EndAt.formatRFC3339)
      some { req with URL := some { u with RawQuery := String.mk (Values.Encode q) } }

/-- `SchedulesService.ListEntries(ctx, scheduleID, opts)`. -/
def SchedulesService.ListEntries {E : Type} (lib : URLLib)
    (unmarshal : JSON → ScheduleEntriesResult E → ScheduleEntriesResult E × Option Error)
    (c : Client) (scheduleID : String) (opts : Option ScheduleEntriesOptions) :
    Outcome (CallResult (List (Option E))) :=
  -- u := fmt.Sprintf("v2/schedules/%s/entries", scheduleID)
  let u := "v2/schedules/" ++ scheduleID ++ "/entries"
  match Client.NewRequest lib encodeNothing c "GET" u none with
  | .crash => .crashed
  | .err e => .returned ⟨[], none, some e⟩
  | .ok req =>
    match addEntryWindow req opts with
    | none => .crashed
    | some req =>
      .returned (afterDo [] (·.ScheduleEntries)
        (Client.Do (structOps unmarshal) c req (.value ({} : ScheduleEntriesResult E))))

/-- The local `result` of `SchedulesService.Get`, `Create` and `Update`:
`struct { Schedule *Schedule }`, over a type `S` for `Schedule`. -/
structure ScheduleResult (S : Type) where
  Schedule : Option S := none

/-- The local `result` of `SchedulesService.ListOverrides`:
`struct { Overrides []*Override }`, over a type `V` for `Override`. -/
structure OverridesResult (V : Type) where
  Overrides : List (Option V) := []

/-- The local `result` of `GetOverride`, `CreateOverride` and `UpdateOverride`:
`struct { Override *Override }`. -/
structure OverrideResult (V : Type) where
  Override : Option V := none

/-- `SchedulesService.Get(ctx, id)`. -/
def SchedulesService.Get {S : Type} (lib : URLLib)
    (unmarshal : JSON → ScheduleResult S → ScheduleResult S × Option Error)
    (c : Client) (id : String) : Outcome (CallResult (Option S)) :=
  -- u := fmt.Sprintf("v2/schedules/%s", id)
  let u := "v2/schedules/" ++ id
  match Client.NewRequest lib encodeNothing c "GET" u none with
  | .crash => .crashed
  | .err e => .returned ⟨none, none, some e⟩
  | .ok req =>
    .returned (afterDo none (·.Schedule)
      (Client.Do (structOps unmarshal) c req (.value ({} : ScheduleResult S))))

/-- `SchedulesService.Create(ctx, opts)`. -/
def SchedulesService.Create {O S : Type} (lib : URLLib)
    (encode : Bool → Option O → Except Error (List Char))
    (unmarshal : JSON → ScheduleResult S → ScheduleResult S × Option Error)
    (c : Client) (opts : Option O) : Outcome (CallResult (Option S)) :=
  let u := "v2/schedules"
  match Client.NewRequest lib encode c "POST" u (some opts) with
  | .crash => .crashed
  | .err e => .returned ⟨none, none, some e⟩
  | .ok req =>
    .returned (afterDo none (·.Schedule)
      (Client.Do (structOps unmarshal) c req (.value ({} : ScheduleResult S))))

/-- `SchedulesService.Update(ctx, id, opts)`. -/
def SchedulesService.Update {O S : Type} (lib : URLLib)
    (encode : Bool → Option O → Except Error (List Char))
    (unmarshal : JSON → ScheduleResult S → ScheduleResult S × Option Error)
    (c : Client) (id : String) (opts : Option O) : Outcome (CallResult (Option S)) :=
  -- u := fmt.Sprintf("v2/schedules/%s", id)
  let u := "v2/schedules/" ++ id
  match Client.NewRequest lib encode c "PUT" u (some opts) with
  | .crash => .crashed
  | .err e => .returned ⟨none, none, some e⟩
  | .ok req =>
    .returned (afterDo none (·.Schedule)
      (Client.Do (structOps unmarshal) c req (.value ({} : ScheduleResult S))))

/-- `SchedulesService.ListOverrides(ctx, scheduleID, _)`. -/
def SchedulesService.ListOverrides {V : Type} (lib : URLLib)
    (unmarshal : JSON → OverridesResult V → OverridesResult V × Option Error)
    (c : Client) (scheduleID : String) (_opts : Option ListOptions) :
    Outcome (CallResult (List (Option V))) :=
  -- u := fmt.Sprintf("v2/schedules/%s/overrides", scheduleID)
  let u := "v2/schedules/" ++ scheduleID ++ "/overrides"
  match Client.NewRequest lib encodeNothing c "GET" u none with
  | .crash => .crashed
  | .err e => .returned ⟨[], none, some e⟩
  | .ok req =>
    .returned (afterDo [] (·.Overrides)
      (Client.Do (structOps unmarshal) c req (.value ({} : OverridesResult V))))

/-- `SchedulesService.GetOverride(ctx, scheduleID, overrideID)`. -/
def SchedulesService.GetOverride {V : Type} (lib : URLLib)
    (unmarshal : JSON → OverrideResult V → OverrideResult V × Option Error)
    (c : Client) (scheduleID overrideID : String) : Outcome (CallResult (Option V)) :=
  -- u := fmt.Sprintf("v2/schedules/%s/overrides/%s", scheduleID, overrideID)
  let u := "v2/schedules/" ++ scheduleID ++ "/overrides/" ++ overrideID
  match Client.NewRequest lib encodeNothing c "GET" u none with
  | .crash => .crashed
  | .err e => .returned ⟨none, none, some e⟩
  | .ok req =>
    .returned (afterDo none (·.Override)
      (Client.Do (structOps unmarshal) c req (.value ({} : OverrideResult V))))

/-- `SchedulesService.CreateOverride(ctx, scheduleID, opts)`. -/
def SchedulesService.CreateOverride {O V : Type} (lib : URLLib)
    (encode : Bool → Option O → Except Error (List Char))
    (unmarshal : JSON → OverrideResult V → OverrideResult V × Option Error)
    (c : Client) (scheduleID : String) (opts : Option O) : Outcome (CallResult (Option V)) :=
  -- u := fmt.Sprintf("v2/schedules/%s/overrides", scheduleID)
  let u := "v2/schedules/" ++ scheduleID ++ "/overrides"
  match Client.NewRequest lib encode c "POST" u (some opts) with
  | .crash => .crashed
  | .err e => .returned ⟨none, none, some e⟩
  | .ok req =>
    .returned (afterDo none (·.Override)
      (Client.Do (structOps unmarshal) c req (.value ({} : OverrideResult V))))

/-- `SchedulesService.UpdateOverride(ctx, scheduleID, overrideID, opts)`. -/
def SchedulesService.UpdateOverride {O V : Type} (lib : URLLib)
    (encode : Bool → Option O → Except Error (List Char))
    (unmarshal : JSON → OverrideResult V → OverrideResult V × Option Error)
    (c : Client) (scheduleID overrideID : String) (opts : Option O) :
    Outcome (CallResult (Option V)) :=
  -- u := fmt.Sprintf("v2/schedules/%s/overrides/%s", scheduleID, overrideID)
  let u := "v2/schedules/" ++ scheduleID ++ "/overrides/" ++ overrideID
  match Client.NewRequest lib encode c "PUT" u (some opts) with
  | .crash => .crashed
  | .err e => .returned ⟨none, none, some e⟩
  | .ok req =>
    .returned (afterDo none (·.Override)
      (Client.Do (structOps unmarshal) c req (.value ({} : OverrideResult V))))

/-! ## The `List` methods -/

/-- The local `result` of `IncidentsService.List`:
`struct { Incidents []*Incident }`, over a type `I` for `Incident`. -/
structure IncidentsResult (I : Type) where
  Incidents : List (Option I) := []

/-- `IncidentsService.List(ctx, _)`. -/
def IncidentsService.List {I : Type} (lib : URLLib)
    (unmarshal : JSON → IncidentsResult I → IncidentsResult I × Option Error)
    (c : Client) (_opts : Option ListOptions) : Outcome (CallResult (List (Option I))) :=
  let u := "v2/incidents"
  match Client.NewRequest lib encodeNothing c "GET" u none with
  | .crash => .crashed
  | .err e => .returned ⟨[], none, some e⟩
  | .ok req =>
    .returned (afterDo [] (·.Incidents)
      (Client.Do (structOps unmarshal) c req (.value ({} : IncidentsResult I))))

/-- The Go struct `ScheduleListOptions`, which embeds `ListOptions`. -/
structure ScheduleListOptions where
  ListOptions : ListOptions := {}
  deriving DecidableEq, Repr

/-- The local `result` of `SchedulesService.List`:
`struct { Schedules []*Schedule }`, over a type `S` for `Schedule`. -/
structure SchedulesResult (S : Type) where
  Schedules : List (Option S) := []

/-- `SchedulesService.List(ctx, _)`. -/
def SchedulesService.List {S : Type} (lib : URLLib)
    (unmarshal : JSON → SchedulesResult S → SchedulesResult S × Option Error)
    (c : Client) (_opts : Option ScheduleListOptions) :
    Outcome (CallResult (List (Option S))) :=
  let u := "v2/schedules"
  match Client.NewRequest lib encodeNothing c "GET" u none with
  | .crash => .crashed
  | .err e => .returned ⟨[], none, some e⟩
  | .ok req =>
    .returned (afterDo [] (·.Schedules)
      (Client.Do (structOps unmarshal) c req (.value ({} : SchedulesResult S))))

/-- The local `result` of `CustomFieldsService.List`:
`struct { CustomFields []*CustomField }`, over a type `F` for `CustomField`. -/
structure CustomFieldsResult (F : Type) where
  CustomFields : List (Option F) := []

/-- `CustomFieldsService.List(ctx)`. -/
def CustomFieldsService.List {F : Type} (lib : URLLib)
    (unmarshal : JSON → CustomFieldsResult F → CustomFieldsResult F × Option Error)
    (c : Client) : Outcome (CallResult (List (Option F))) :=
  let u := "v2/custom_fields"
  match Client.NewRequest lib encodeNothing c "GET" u none with
  | .crash => .crashed
  | .err e => .returned ⟨[], none, some e⟩
  | .ok req =>
    .returned (afterDo [] (·.CustomFields)
      (Client.Do (structOps unmarshal) c req (.value ({} : CustomFieldsResult F))))

/-- The local `result` of `IncidentRolesService.List`:
`struct { IncidentRoles []*IncidentRole }`, over a type `R` for `IncidentRole`. -/
structure IncidentRolesResult (R : Type) where
  IncidentRoles : List (Option R) := []

/-- `IncidentRolesService.List(ctx)`. -/
def IncidentRolesService.List {R : Type} (lib : URLLib)
    (unmarshal : JSON → IncidentRolesResult R → IncidentRolesResult R × Option Error)
    (c : Client) : Outcome (CallResult (List (Option R))) :=
  let u := "v2/incident_roles"
  match Client.NewRequest lib encodeNothing c "GET" u none with
  | .crash => .crashed
  | .err e => .returned ⟨[], none, some e⟩
  | .ok req =>
    .returned (afterDo [] (·.IncidentRoles)
      (Client.Do (structOps unmarshal) c req (.value ({} : IncidentRolesResult R))))

/-- The local `result` of `IncidentTypesService.List`:
`struct { IncidentTypes []*IncidentType }`, over a type `T` for `IncidentType`. -/
structure IncidentTypesResult (T : Type) where
  IncidentTypes : List (Option T) := []

/-- `IncidentTypesService.List(ctx)`. -/
def IncidentTypesService.List {T : Type} (lib : URLLib)
    (unmarshal : JSON → IncidentTypesResult T → IncidentTypesResult T × Option Error)
    (c : Client) : Outcome (CallResult (List (Option T))) :=
  let u := "v1/incident_types"
  match Client.NewRequest lib encodeNothing c "GET" u none with
  | .crash => .crashed
  | .err e => .returned ⟨[], none, some e⟩
  | .ok req =>
    .returned (afterDo [] (·.IncidentTypes)
      (Client.Do (structOps unmarshal) c req (.value ({} : IncidentTypesResult T))))

/-- The local `result` of `SeveritiesService.List`:
`struct { Severities []*Severity }`, over a type `V` for `Severity`. -/
structure SeveritiesResult (V : Type) where
  Severities : List (Option V) := []

/-- `SeveritiesService.List(ctx)`. -/
def SeveritiesService.List {V : Type} (lib : URLLib)
    (unmarshal : JSON → SeveritiesResult V → SeveritiesResult V × Option Error)
    (c : Client) : Outcome (CallResult (List (Option V))) :=
  let u := "v1/severities"
  match Client.NewRequest lib encodeNothing c "GET" u none with
  | .crash => .crashed
  | .err e => .returned ⟨[], none, some e⟩
  | .ok req =>
    .returned (afterDo [] (·.Severities)
      (Client.Do (structOps unmarshal) c req (.value ({} : SeveritiesResult V))))

/-- Storing into a local `result` none of whose fields the body addresses:
the struct stays as it was. -/
def unmarshalNothing {R : Type} (_j : JSON) (r : R) : R × Option Error :=
  (r, none)

/-- The request `GET https://api.incident.io/v1/severities`. -/
def severitiesRequest : Request :=
  { usersRequest with
    URL := some { Scheme := "https", Host := "api.incident.io", Path := "/v1/severities" } }

/-- What a resource method does with the outcome `d` of `Do` on the target
`&result`: with an error it returns the zero result, the response of `Do` and
that error; without one it returns the field of `result` that `get` reads, the
response of `Do` and a nil error. -/
def PassesOn {W R A : Type} (zero : A) (get : R → A) (d : DoResult W R)
    (out : Outcome (CallResult A)) : Prop :=
  (∀ e, d.err = some e → out = .returned ⟨zero, d.resp, some e⟩) ∧
    (d.err = none → ∃ result, d.target = .value result ∧
      out = .returned ⟨get result, d.resp, none⟩)

/-- The entries of `url.Values` with the two parameters of a time window, as
`ListEntries` adds them to an empty query. -/
def entryWindowValues (window : TimeWindow) : Values :=
  [("entry_window[start_at]", [String.mk window.StartAt.formatRFC3339]),
   ("entry_window[end_at]", [String.mk window.EndAt.formatRFC3339])]

/-- The URL of the request of `ListEntries` before the window is added: that
of a request for the path `v2/schedules/<id>/entries`. -/
def entriesURL (base : URL) (scheduleID : String) : URL :=
  requestURL base ("v2/schedules/" ++ scheduleID ++ "/entries")

/-- The week of the test of `ListEntries`: from 2021-08-17 to 2021-08-24,
midnight UTC. -/
def exampleWindow : TimeWindow :=
  { StartAt := { year := 2021, month := 8, day := 17 }
    EndAt := { year := 2021, month := 8, day := 24 } }

/-- The request `GET https://api.incident.io/v2/schedules/S1?x=1/entries`. -/
def entriesRequestWithQuery : Request :=
  { incidentGetRequest with
    URL := some { Scheme := "https", Host := "api.incident.io", Path := "/v2/schedules/S1",
                  RawQuery := "x=1/entries" } }

/-! ## Reading back what the encoder writes -/

/-- What the scanner does with the rest of the input once a value is complete. -/
def resume (st : Step) (cs : List Char) : Scan :=
  match st with
  | .next s => scan s cs
  | .done v _ => .value v cs
  | .fail msg => .invalid msg

/-- The states of the grammar of a JSON number (RFC 8259, section 6): at the
start, after the minus sign, after a leading zero, in the integer part, after
the decimal point, in the fraction, after the `e`, after the sign of the
exponent, in the exponent. -/
inductive NumState where
  | start | neg | zero | int | dot | dot0 | exp | expSign | exp0
  deriving DecidableEq, Repr

/-- The state after one more character of a number, `none` when the
character cannot follow. -/
def numStep : NumState → Char → Option NumState
  | .start, c =>
    if c = '-' then some .neg else if c = '0' then some .zero
    else if '1' ≤ c ∧ c ≤ '9' then some .int else none
  | .neg, c =>
    if c = '0' then some .zero else if '1' ≤ c ∧ c ≤ '9' then some .int else none
  | .zero, c =>
    if c = '.' then some .dot else if c = 'e' ∨ c = 'E' then some .exp else none
  | .int, c =>
    if '0' ≤ c ∧ c ≤ '9' then some .int else if c = '.' then some .dot
    else if c = 'e' ∨ c = 'E' then some .exp else none
  | .dot, c => if '0' ≤ c ∧ c ≤ '9' then some .dot0 else none
  | .dot0, c =>
    if '0' ≤ c ∧ c ≤ '9' then some .dot0 else if c = 'e' ∨ c = 'E' then some .exp else none
  | .exp, c =>
    if c = '+' ∨ c = '-' then some .expSign else if '0' ≤ c ∧ c ≤ '9' then some .exp0
    else none
  | .expSign, c => if '0' ≤ c ∧ c ≤ '9' then some .exp0 else none
  | .exp0, c => if '0' ≤ c ∧ c ≤ '9' then some .exp0 else none

/-- The state after the characters of a text. -/
def numRun : NumState → List Char → Option NumState
  | st, [] => some st
  | st, c :: cs =>
    match numStep st c with
    | some st2 => numRun st2 cs
    | none => none

/-- Whether the text is a JSON number: an optional minus sign, an integer part
without a leading zero, an optional fraction and an optional exponent. Every
literal that the encoder writes for a finite `float64` is one. -/
def numberLiteral (s : List Char) : Bool :=
  match numRun .start s with
  | some .zero => true
  | some .int => true
  | some .dot0 => true
  | some .exp0 => true
  | _ => false

/-- Whether a character ends a number that stands before it: it is no digit,
decimal point or `e`. -/
def endsNumber (d : Char) : Bool :=
  !(('0' ≤ d ∧ d ≤ '9') || d = '.' || d = 'e' || d = 'E')

/-- The state of the scanner that stands for a state of the number grammar,
with the text read of the literal (latest first). -/
def lexOf : NumState → List Char → Lex
  | .start, _ => .beginValue false
  | .neg, acc => .neg acc
  | .zero, acc => .zero acc
  | .int, acc => .int acc
  | .dot, acc => .dot acc
  | .dot0, acc => .dot0 acc
  | .exp, acc => .exp acc
  | .expSign, acc => .expSign acc
  | .exp0, acc => .exp0 acc

mutual
/-- Whether the numbers of a value are JSON numbers and the value opens at
most `n` containers inside one another. -/
def JSON.nests : Nat → JSON → Bool
  | _, .null => true
  | _, .bool _ => true
  | _, .num lit => numberLiteral lit.toList
  | _, .str _ => true
  | 0, .arr _ => false
  | n + 1, .arr es => elemsNest n es
  | 0, .obj _ => false
  | n + 1, .obj ms => membersNest n ms
/-- The same for every element of an array. -/
def elemsNest : Nat → List JSON → Bool
  | _, [] => true
  | n, v :: vs => JSON.nests n v && elemsNest n vs
/-- The same for every member of an object. -/
def membersNest : Nat → List (String × JSON) → Bool
  | _, [] => true
  | n, (_, v) :: ms => JSON.nests n v && membersNest n ms
end

/-! ## The request options of incidents

`CreateIncidentOptions` and `UpdateIncidentOptions` are the bodies of the
requests of `Create` and `Update`. A slice or map field is an `Option`, `none`
for nil; a map is the list of its entries in increasing order of the keys. -/

/-- The Go struct `CreateRoleAssignment`. -/
structure CreateRoleAssignment where
  IncidentRoleID : String := ""
  UserID : String := ""
  deriving DecidableEq, Repr

/-- A value held in an `interface{}`: nil, what `encoding/json` stores into
an `interface{}` (`bool`, `float64`, `string`, `[]interface{}`,
`map[string]interface{}`), the nil slice and the nil map of the last two
types, and `int` for the Go types that it never stores. A finite `float64` is
given by the literal that the encoder writes for it; its arithmetic is not
part of the embedding. -/
inductive Dyn where
  | null
  | bool (b : Bool)
  | int (n : Int)
  | float64 (lit : String)
  | str (s : String)
  /-- A `[]interface{}` that is not nil. -/
  | slice (elems : List Dyn)
  /-- A `map[string]interface{}` that is not nil. -/
  | map (entries : List (String × Dyn))
  /-- The value `[]interface{}(nil)`. -/
  | nilSlice
  /-- The value `map[string]interface{}(nil)`. -/
  | nilMap
  deriving Repr

/-- The Go struct `CreateIncidentOptions`. -/
structure CreateIncidentOptions where
  Name : String := ""
  Summary : String := ""
  IncidentTypeID : String := ""
  SeverityID : String := ""
  IncidentRoleAssignments : Option (List CreateRoleAssignment) := none
  CustomFieldValues : Option (List (String × Dyn)) := none
  Mode : String := ""
  Visibility : String := ""
  SlackChannelNameOverride : String := ""
  deriving Repr

/-- The Go struct `UpdateIncidentOptions`; the `*string` fields are `none`
for nil. -/
structure UpdateIncidentOptions where
  Name : Option String := none
  Summary : Option String := none
  Status : Option String := none
  SeverityID : Option String := none
  IncidentRoleAssignments : Option (List CreateRoleAssignment) := none
  CustomFieldValues : Option (List (String × Dyn)) := none
  deriving Repr

/-- Strict order of the keys of a map. -/
def keyLT (a b : String) : Bool :=
  keyLE a.toList b.toList && !keyLE b.toList a.toList

/-- Whether the entries are listed in strictly increasing order of the keys,
as the entries of a map are. -/
def ascending {α : Type} : List (String × α) → Bool
  | [] => true
  | m :: rest => rest.all (fun x => keyLT m.1 x.1) && ascending rest

/-- Insertion of a member before the first one with a key not below its own. -/
def insertMember {α : Type} (kv : String × α) : List (String × α) → List (String × α)
  | [] => [kv]
  | x :: xs =>
    if keyLE kv.1.toList x.1.toList then kv :: x :: xs else x :: insertMember kv xs

/-- The members in the order of their keys: the encoder writes a map with its
keys sorted. -/
def sortMembers {α : Type} (ms : List (String × α)) : List (String × α) :=
  ms.foldr insertMember []

/-- The assignment `m[k] = v` on a map. -/
def mapSet {α : Type} (k : String) (v : α) : List (String × α) → List (String × α)
  | [] => [(k, v)]
  | x :: xs =>
    if k = x.1 then (k, v) :: xs
    else if keyLE k.toList x.1.toList then (k, v) :: x :: xs
    else x :: mapSet k v xs

mutual
/-- What the encoder writes for a value held in an `interface{}`: a slice as
an array, a map as an object with the keys sorted, a nil slice or map as
`null`, an `int` in decimal, a `float64` as its literal. -/
def Dyn.toJSON : Dyn → JSON
  | .null => .null
  | .bool b => .bool b
  | .int n => .num (toString n)
  | .float64 lit => .num lit
  | .str s => .str s
  | .slice es => .arr (Dyn.toElems es)
  | .map ms => .obj (sortMembers (Dyn.toMembers ms))
  | .nilSlice => .null
  | .nilMap => .null
/-- The elements of a slice. -/
def Dyn.toElems : List Dyn → List JSON
  | [] => []
  | d :: ds => Dyn.toJSON d :: Dyn.toElems ds
/-- The entries of a map. -/
def Dyn.toMembers : List (String × Dyn) → List (String × JSON)
  | [] => []
  | (k, d) :: ms => (k, Dyn.toJSON d) :: Dyn.toMembers ms
end

mutual
/-- What the decoder stores into an empty `interface{}` (`valueInterface`):
a number as the `float64` of its literal (taken to be in range, and to be the
literal that the encoder writes for that number), an array as a
`[]interface{}`, an object as a `map[string]interface{}`. -/
def Dyn.ofJSON : JSON → Dyn
  | .null => .null
  | .bool b => .bool b
  | .num lit => .float64 lit
  | .str s => .str s
  | .arr es => .slice (Dyn.ofElems es)
  | .obj ms => .map (Dyn.ofMembers ms [])
/-- The elements of an array. -/
def Dyn.ofElems : List JSON → List Dyn
  | [] => []
  | v :: vs => Dyn.ofJSON v :: Dyn.ofElems vs
/-- The members of an object, assigned one after another to the map. -/
def Dyn.ofMembers : List (String × JSON) → List (String × Dyn) → List (String × Dyn)
  | [], m => m
  | (k, v) :: ms, m => Dyn.ofMembers ms (mapSet k (Dyn.ofJSON v) m)
end

mutual
/-- Whether a value is built from nil, booleans, finite `float64` numbers,
strings, and slices and maps that are not nil, with at most `n` slices and
maps inside one another. -/
def Dyn.plain : Nat → Dyn → Bool
  | _, .null => true
  | _, .bool _ => true
  | _, .int _ => false
  | _, .float64 lit => numberLiteral lit.toList
  | _, .str _ => true
  | _, .nilSlice => false
  | _, .nilMap => false
  | 0, .slice _ => false
  | n + 1, .slice es => Dyn.elemsPlain n es
  | 0, .map _ => false
  | n + 1, .map ms => ascending ms && Dyn.entriesPlain n ms
/-- The same for every element of a slice. -/
def Dyn.elemsPlain : Nat → List Dyn → Bool
  | _, [] => true
  | n, d :: ds => Dyn.plain n d && Dyn.elemsPlain n ds
/-- The same for every entry of a map. -/
def Dyn.entriesPlain : Nat → List (String × Dyn) → Bool
  | _, [] => true
  | n, (_, d) :: ms => Dyn.plain n d && Dyn.entriesPlain n ms
end

/-- The member of a string field tagged `omitempty`: none for the empty string. -/
def omitEmptyString (name : String) (s : String) : List (String × JSON) :=
  if s = "" then [] else [(name, .str s)]

/-- The member of a `*string` field tagged `omitempty`: none for nil. -/
def omitNilString (name : String) (s : Option String) : List (String × JSON) :=
  match s with
  | none => []
  | some x => [(name, .str x)]

/-- What the encoder writes for a `CreateRoleAssignment`. -/
def CreateRoleAssignment.toJSON (a : CreateRoleAssignment) : JSON :=
  .obj [("incident_role_id", .str a.IncidentRoleID), ("user_id", .str a.UserID)]

/-- The member of a `[]CreateRoleAssignment` field tagged `omitempty`: none
for a slice of length 0, nil or not. -/
def omitEmptyAssignments (name : String) (s : Option (List CreateRoleAssignment)) :
    List (String × JSON) :=
  match s with
  | none => []
  | some [] => []
  | some as => [(name, .arr (as.map CreateRoleAssignment.toJSON))]

/-- The member of a `map[string]interface{}` field tagged `omitempty`: none
for a map of length 0, nil or not. -/
def omitEmptyMap (name : String) (m : Option (List (String × Dyn))) : List (String × JSON) :=
  match m with
  | none => []
  | some [] => []
  | some ms => [(name, .obj (sortMembers (Dyn.toMembers ms)))]

/-- What the encoder writes for a `CreateIncidentOptions`: the fields in the
order of the struct under their JSON names, `name` and `incident_type_id`
always and the others unless empty. -/
def CreateIncidentOptions.toJSON (o : CreateIncidentOptions) : JSON :=
  .obj ([("name", .str o.Name)] ++ omitEmptyString "summary" o.Summary
    ++ [("incident_type_id", .str o.IncidentTypeID)]
    ++ omitEmptyString "severity_id" o.SeverityID
    ++ omitEmptyAssignments "incident_role_assignments" o.IncidentRoleAssignments
    ++ omitEmptyMap "custom_field_values" o.CustomFieldValues
    ++ omitEmptyString "mode" o.Mode
    ++ omitEmptyString "visibility" o.Visibility
    ++ omitEmptyString "slack_channel_name_override" o.SlackChannelNameOverride)

/-- What the encoder writes for an `UpdateIncidentOptions`: every field
unless empty. -/
def UpdateIncidentOptions.toJSON (o : UpdateIncidentOptions) : JSON :=
  .obj (omitNilString "name" o.Name ++ omitNilString "summary" o.Summary
    ++ omitNilString "status" o.Status ++ omitNilString "severity_id" o.SeverityID
    ++ omitEmptyAssignments "incident_role_assignments" o.IncidentRoleAssignments
    ++ omitEmptyMap "custom_field_values" o.CustomFieldValues)

/-- The encoder of `NewRequest` on a `CreateIncidentOptions`. -/
def CreateIncidentOptions.encode (escapeHTML : Bool) (o : CreateIncidentOptions) :
    Except Error (List Char) :=
  encodeJSON escapeHTML o.toJSON

/-- The encoder of `NewRequest` on an `UpdateIncidentOptions`. -/
def UpdateIncidentOptions.encode (escapeHTML : Bool) (o : UpdateIncidentOptions) :
    Except Error (List Char) :=
  encodeJSON escapeHTML o.toJSON

/-- Store into a slice that may be nil: an array element by element (the
empty array as an empty slice that is not nil), `null` as the nil slice. -/
def decodeNilSlice {α : Type} (zero : α) (dec : JSON → α → α) (v : JSON)
    (old : Option (List α)) : Option (List α) :=
  match v with
  | .arr es => some (decodeElems zero dec es (old.getD []))
  | .null => none
  | _ => old

/-- Store into a `map[string]interface{}`: a nil map is made first, then every
member is assigned under its key; `null` gives the nil map. -/
def decodeAnyMap (v : JSON) (old : Option (List (String × Dyn))) :
    Option (List (String × Dyn)) :=
  match v with
  | .obj ms => some (Dyn.ofMembers ms (old.getD []))
  | .null => none
  | _ => old

/-- Whether a value can be stored into a `map[string]interface{}`. -/
def fitsAnyMap : JSON → Bool
  | .obj _ => true
  | .null => true
  | _ => false

/-- The field of `CreateRoleAssignment` selected by a key. -/
def CreateRoleAssignment.field (key : String) (v : JSON) (a : CreateRoleAssignment) :
    CreateRoleAssignment :=
  if fieldMatches "incident_role_id" key then
    { a with IncidentRoleID := decodeString v a.IncidentRoleID }
  else if fieldMatches "user_id" key then { a with UserID := decodeString v a.UserID }
  else a

/-- Whether the member `key: v` can be stored into a `CreateRoleAssignment`. -/
def CreateRoleAssignment.fits (key : String) (v : JSON) : Bool :=
  if fieldMatches "incident_role_id" key || fieldMatches "user_id" key then fitsString v
  else true

/-- The field of `CreateIncidentOptions` selected by a key. -/
def CreateIncidentOptions.field (key : String) (v : JSON) (o : CreateIncidentOptions) :
    CreateIncidentOptions :=
  if fieldMatches "name" key then { o with Name := decodeString v o.Name }
  else if fieldMatches "summary" key then { o with Summary := decodeString v o.Summary }
  else if fieldMatches "incident_type_id" key then
    { o with IncidentTypeID := decodeString v o.IncidentTypeID }
  else if fieldMatches "severity_id" key then
    { o with SeverityID := decodeString v o.SeverityID }
  else if fieldMatches "incident_role_assignments" key then
    { o with IncidentRoleAssignments :=
        decodeNilSlice {} (decodeStruct CreateRoleAssignment.field) v o.IncidentRoleAssignments }
  else if fieldMatches "custom_field_values" key then
    { o with CustomFieldValues := decodeAnyMap v o.CustomFieldValues }
  else if fieldMatches "mode" key then { o with Mode := decodeString v o.Mode }
  else if fieldMatches "visibility" key then
    { o with Visibility := decodeString v o.Visibility }
  else if fieldMatches "slack_channel_name_override" key then
    { o with SlackChannelNameOverride := decodeString v o.SlackChannelNameOverride }
  else o

/-- Whether the member `key: v` can be stored into a `CreateIncidentOptions`. -/
def CreateIncidentOptions.fits (key : String) (v : JSON) : Bool :=
  if fieldMatches "name" key || fieldMatches "summary" key
      || fieldMatches "incident_type_id" key || fieldMatches "severity_id" key
      || fieldMatches "mode" key || fieldMatches "visibility" key
      || fieldMatches "slack_channel_name_override" key then fitsString v
  else if fieldMatches "incident_role_assignments" key then
    fitsSlice (fitsStruct CreateRoleAssignment.fits) v
  else if fieldMatches "custom_field_values" key then fitsAnyMap v
  else true

/-- The field of `UpdateIncidentOptions` selected by a key. -/
def UpdateIncidentOptions.field (key : String) (v : JSON) (o : UpdateIncidentOptions) :
    UpdateIncidentOptions :=
  if fieldMatches "name" key then { o with Name := decodePtr "" decodeString v o.Name }
  else if fieldMatches "summary" key then
    { o with Summary := decodePtr "" decodeString v o.Summary }
  else if fieldMatches "status" key then
    { o with Status := decodePtr "" decodeString v o.Status }
  else if fieldMatches "severity_id" key then
    { o with SeverityID := decodePtr "" decodeString v o.SeverityID }
  else if fieldMatches "incident_role_assignments" key then
    { o with IncidentRoleAssignments :=
        decodeNilSlice {} (decodeStruct CreateRoleAssignment.field) v o.IncidentRoleAssignments }
  else if fieldMatches "custom_field_values" key then
    { o with CustomFieldValues := decodeAnyMap v o.CustomFieldValues }
  else o

/-- Whether the member `key: v` can be stored into an `UpdateIncidentOptions`. -/
def UpdateIncidentOptions.fits (key : String) (v : JSON) : Bool :=
  if fieldMatches "name" key || fieldMatches "summary" key || fieldMatches "status" key
      || fieldMatches "severity_id" key then fitsString v
  else if fieldMatches "incident_role_assignments" key then
    fitsSlice (fitsStruct CreateRoleAssignment.fits) v
  else if fieldMatches "custom_field_values" key then fitsAnyMap v
  else true

/-- Storing a parsed value into a struct whose fields are stored by `field`
and checked by `fits`; an `*json.UnmarshalTypeError` is reported when some
value does not fit. -/
def unmarshalStruct {T : Type} (field : String → JSON → T → T) (fits : String → JSON → Bool)
    (j : JSON) (t : T) : T × Option Error :=
  (decodeStruct field j t,
   if fitsStruct fits j then none
   else some (.unmarshal "json: cannot unmarshal value into Go struct field"))

/-- The options of `TestIncidentsService_Create`. -/
def testCreateOptions : CreateIncidentOptions :=
  { Name := "New Database Issue"
    Summary := "Connection pool exhausted"
    IncidentTypeID := "01FH5TZRWMNAFB0DZ23FD1V96N"
    SeverityID := "01FH5TZRWMNAFB0DZ23FD1V96N"
    Mode := "real"
    Visibility := "public"
    IncidentRoleAssignments := some [
      { IncidentRoleID := "01FH5TZRWMNAFB0DZ23FD1V96N", UserID := "01FCNDV6P870EA6S7TK1DSYDG0" }]
    CustomFieldValues := some [("01FH5TZRWMNAFB0DZ23FD1V96N", .str "high-priority")] }

/-- Whether a slice is nil or has an element. -/
def nilOrNonEmpty {α : Type} : Option (List α) → Bool
  | some [] => false
  | _ => true

/-- Whether a map is nil or has an entry and its values are plain, with at
most `n` slices and maps inside one another. -/
def plainMap (n : Nat) : Option (List (String × Dyn)) → Bool
  | none => true
  | some [] => false
  | some ms => ascending ms && Dyn.entriesPlain n ms

/-- The options of `TestIncidentsService_Update`. -/
def testUpdateOptions : UpdateIncidentOptions :=
  { Status := some "resolved", Summary := some "Issue resolved" }

/-- The request that `NewRequest` builds for the options of
`TestIncidentsService_Create`. -/
def testCreateRequest : Request :=
  { incidentsPostRequest with
    Body := some (JSON.render false testCreateOptions.toJSON ++ ['\n']) }

/-- The request that `NewRequest` builds for the options of
`TestIncidentsService_Update`. -/
def testUpdateRequest : Request :=
  { Method := "PUT"
    URL := some { Scheme := "https", Host := "api.incident.io",
                  Path := "/v2/incidents/01FDAG4SAP5TYPT98WGR2N7W91" }
    Header := [("Authorization", ["Bearer test-key"]),
               ("User-Agent", ["incidentio-go-client/1.0.0"]),
               ("Accept", ["application/json"]),
               ("Content-Type", ["application/json"])]
    Body := some "\x7b\"summary\":\"Issue resolved\",\"status\":\"resolved\"\x7d\n".toList }

/-- Create options whose role assignments are an empty slice that is not nil. -/
def emptySliceOptions : CreateIncidentOptions :=
  { Name := "x", IncidentRoleAssignments := some [] }

/-- Create options with the `int` 1 as a custom field value. -/
def intValueOptions : CreateIncidentOptions :=
  { Name := "x", CustomFieldValues := some [("priority", .int 1)] }

/-- Create options with a nil `[]interface{}` as a custom field value. -/
def nilSliceValueOptions : CreateIncidentOptions :=
  { Name := "x", CustomFieldValues := some [("tags", .nilSlice)] }

/-- Create options with custom field values of every kind that is read back:
nil, a boolean, a number, a string, a slice and a map. -/
def mixedValueOptions : CreateIncidentOptions :=
  { Name := "Database \"primary\" down"
    IncidentTypeID := "T1"
    CustomFieldValues := some [
      ("affected", .slice [.str "eu-west", .str "us-east"]),
      ("details", .map [("owner", .null), ("paged", .bool true)]),
      ("score", .float64 "1.5e-7")] }

/-- The request that `NewRequest` builds for `mixedValueOptions`. -/
def mixedValueRequest : Request :=
  { incidentsPostRequest with
    Body := some ("\x7b\"name\":\"Database \\\"primary\\\" down\",\"incident_type_id\":\"T1\"," ++
      "\"custom_field_values\":\x7b\"affected\":[\"eu-west\",\"us-east\"]," ++
      "\"details\":\x7b\"owner\":null,\"paged\":true\x7d,\"score\":1.5e-7\x7d\x7d\n").toList }

/-- Update options whose custom field values are an empty map that is not nil. -/
def emptyMapOptions : UpdateIncidentOptions :=
  { Status := some "resolved", CustomFieldValues := some [] }

/-- Slices inside one another, `n + 1` of them, the innermost empty. -/
def nestedSlices : Nat → Dyn
  | 0 => .slice []
  | n + 1 => .slice [nestedSlices n]

/-- Create options with a custom field value of 9999 slices inside one
another. -/
def deepValueOptions : CreateIncidentOptions :=
  { Name := "x", CustomFieldValues := some [("k", nestedSlices 9998)] }

/-! ## Theorems -/

theorem values_set_same (h : Header) (k v : String) :
    Header.Values (Header.Set h k v) k = [v] := by
  simp [Header.Values, Header.Set, List.lookup]

theorem lookup_filter_ne (l : Header) (a b : String) (hne : a ≠ b) :
    (l.filter (fun p => p.1 != b)).lookup a = l.lookup a := by
  induction l with
  | nil => rfl
  | cons p t ih =>
    obtain ⟨x, y⟩ := p
    by_cases hx : x = b
    · subst hx
      have h1 : (a == x) = false := by simpa using hne
      simp [List.filter_cons, List.lookup, h1, ih]
    · have hx2 : (x != b) = true := by simpa using hx
      simp only [List.filter_cons, hx2, if_true, List.lookup, ih]

theorem values_set_other (h : Header) (k k2 v : String)
    (hne : CanonicalMIMEHeaderKey k2 ≠ CanonicalMIMEHeaderKey k) :
    Header.Values (Header.Set h k v) k2 = Header.Values h k2 := by
  have h1 : (CanonicalMIMEHeaderKey k2 == CanonicalMIMEHeaderKey k) = false := by
    simpa using hne
  simp only [Header.Values, Header.Set, List.lookup, h1]
  rw [lookup_filter_ne _ _ _ hne]

/-- The header map of a request that `http.NewRequest` returns is empty. -/
theorem httpNewRequest_header (lib : URLLib) (method url : String) (body : Option (List Char))
    (req : Request) (h : httpNewRequest lib method url body = .ok req) : req.Header = [] := by
  unfold httpNewRequest at h
  simp only [] at h
  generalize (if method = "" then "GET" else method) = m at h
  cases hv : validMethod m
  · simp [hv] at h
  · cases hp : lib.Parse url with
    | error e => simp [hv, hp] at h
    | ok u =>
      simp only [hv, hp, Bool.not_true, Bool.false_eq_true, if_false] at h
      cases h
      rfl

/-- The header map of a request built by `NewRequest`: the four `Set` calls
on the empty map, the first one only with a body. -/
theorem NewRequest_header {B : Type} (lib : URLLib)
    (encode : Bool → B → Except Error (List Char)) (c : Client) (method urlStr : String)
    (body : Option B) (req : Request)
    (h : Client.NewRequest lib encode c method urlStr body = .ok req) :
    req.Header =
      Header.Set (Header.Set (Header.Set
        (if body.isSome then Header.Set [] "Content-Type" "application/json" else [])
        "Accept" "application/json") "User-Agent" c.UserAgent)
        "Authorization" ("Bearer " ++ c.apiKey) := by
  unfold Client.NewRequest at h
  split at h
  · cases h
  · cases h
  · simp only [] at h
    split at h
    · cases h
    · split at h
      · cases h
      · rename_i req0 hreq0
        have h0 := httpNewRequest_header _ _ _ _ _ hreq0
        cases h
        cases hb : body.isSome <;> simp [h0]

/-- What `NewRequest` builds for the client of the examples, GET without a body. -/
theorem NewRequest_get_example :
    Client.NewRequest plainURLLib encodeEmptyStruct exampleClient "GET" "v2/incidents" none =
      .ok incidentsGetRequest := by
  decide

/-- What `NewRequest` builds for the client of the examples, POST with a body. -/
theorem NewRequest_post_example :
    Client.NewRequest plainURLLib encodeEmptyStruct exampleClient "POST" "v2/incidents" (some ()) =
      .ok incidentsPostRequest := by
  decide

/-- C1: every request that `Client.NewRequest` builds carries exactly the
headers `Authorization: Bearer <apiKey>`, `Accept: application/json` and
`User-Agent: <UserAgent>`, for every method, path and body, present or not. -/
theorem NewRequest_auth_accept_agent {B : Type} (lib : URLLib)
    (encode : Bool → B → Except Error (List Char)) (c : Client) (method urlStr : String)
    (body : Option B) (req : Request)
    (h : Client.NewRequest lib encode c method urlStr body = .ok req) :
    Header.Values req.Header "Authorization" = ["Bearer " ++ c.apiKey] ∧
    Header.Values req.Header "Accept" = ["application/json"] ∧
    Header.Values req.Header "User-Agent" = [c.UserAgent] := by
  rw [NewRequest_header lib encode c method urlStr body req h]
  refine ⟨values_set_same _ _ _, ?_, ?_⟩
  · rw [values_set_other _ _ _ _ (by decide), values_set_other _ _ _ _ (by decide)]
    exact values_set_same _ _ _
  · rw [values_set_other _ _ _ _ (by decide)]
    exact values_set_same _ _ _

/-- Witness for C1: the three headers on a request without a body and on a
request with one. -/
theorem NewRequest_auth_accept_agent_witness :
    (Client.NewRequest plainURLLib encodeEmptyStruct exampleClient "GET" "v2/incidents" none =
        .ok incidentsGetRequest ∧
      Header.Values incidentsGetRequest.Header "Authorization" =
        ["Bearer " ++ exampleClient.apiKey] ∧
      Header.Values incidentsGetRequest.Header "Accept" = ["application/json"] ∧
      Header.Values incidentsGetRequest.Header "User-Agent" = [exampleClient.UserAgent]) ∧
    (Client.NewRequest plainURLLib encodeEmptyStruct exampleClient "POST" "v2/incidents"
        (some ()) = .ok incidentsPostRequest ∧
      Header.Values incidentsPostRequest.Header "Authorization" =
        ["Bearer " ++ exampleClient.apiKey] ∧
      Header.Values incidentsPostRequest.Header "Accept" = ["application/json"] ∧
      Header.Values incidentsPostRequest.Header "User-Agent" = [exampleClient.UserAgent]) :=
  ⟨⟨NewRequest_get_example,
      NewRequest_auth_accept_agent plainURLLib encodeEmptyStruct exampleClient "GET"
        "v2/incidents" none incidentsGetRequest NewRequest_get_example⟩,
   ⟨NewRequest_post_example,
      NewRequest_auth_accept_agent plainURLLib encodeEmptyStruct exampleClient "POST"
        "v2/incidents" (some ()) incidentsPostRequest NewRequest_post_example⟩⟩

/-- C2: a request built by `Client.NewRequest` has no `Content-Type` header
when the body is nil, and exactly `Content-Type: application/json` when the
body is not nil. -/
theorem NewRequest_content_type {B : Type} (lib : URLLib)
    (encode : Bool → B → Except Error (List Char)) (c : Client) (method urlStr : String)
    (body : Option B) (req : Request)
    (h : Client.NewRequest lib encode c method urlStr body = .ok req) :
    Header.Values req.Header "Content-Type" =
      if body.isSome then ["application/json"] else [] := by
  rw [NewRequest_header lib encode c method urlStr body req h,
    values_set_other _ _ _ _ (by decide), values_set_other _ _ _ _ (by decide),
    values_set_other _ _ _ _ (by decide)]
  cases body with
  | none => rfl
  | some b => exact values_set_same _ _ _

/-- Witness for C2: no `Content-Type` on the GET request without a body,
`application/json` on the POST request with a body. -/
theorem NewRequest_content_type_witness :
    (Client.NewRequest plainURLLib encodeEmptyStruct exampleClient "GET" "v2/incidents" none =
        .ok incidentsGetRequest ∧
      Header.Values incidentsGetRequest.Header "Content-Type" = []) ∧
    (Client.NewRequest plainURLLib encodeEmptyStruct exampleClient "POST" "v2/incidents"
        (some ()) = .ok incidentsPostRequest ∧
      Header.Values incidentsPostRequest.Header "Content-Type" = ["application/json"]) :=
  ⟨⟨NewRequest_get_example,
      NewRequest_content_type plainURLLib encodeEmptyStruct exampleClient "GET"
        "v2/incidents" none incidentsGetRequest NewRequest_get_example⟩,
   ⟨NewRequest_post_example,
      NewRequest_content_type plainURLLib encodeEmptyStruct exampleClient "POST"
        "v2/incidents" (some ()) incidentsPostRequest NewRequest_post_example⟩⟩

/-! ### `CheckResponse` -/

/-- On a status in [200, 299] `CheckResponse` returns nil and leaves the
response alone, whatever the body. -/
theorem CheckResponse_success (r : Response) (body : Body)
    (hc : 200 ≤ r.StatusCode ∧ r.StatusCode ≤ 299) : CheckResponse r body = (r, none) := by
  simp [CheckResponse, hc]

/-- On any other status `CheckResponse` returns an `*ErrorResponse`. -/
theorem CheckResponse_failure (r : Response) (body : Body)
    (hc : ¬(200 ≤ r.StatusCode ∧ r.StatusCode ≤ 299)) :
    (CheckResponse r body).2.isSome = true := by
  unfold CheckResponse
  rw [if_neg hc]
  simp only [ioReadAll]
  cases body.readErr <;> rfl

/-- C3: `CheckResponse` returns nil exactly when the status code is in
[200, 299], whatever the body; on such a status it returns at once, with no
`ErrorResponse` and the response as it was, and on every other status it
returns a non-nil `*ErrorResponse`. -/
theorem CheckResponse_nil_iff_success (r : Response) (body : Body) :
    ((CheckResponse r body).2 = none ↔ (200 ≤ r.StatusCode ∧ r.StatusCode ≤ 299)) ∧
    (if 200 ≤ r.StatusCode ∧ r.StatusCode ≤ 299 then CheckResponse r body = (r, none)
     else (CheckResponse r body).2.isSome = true) := by
  by_cases hc : 200 ≤ r.StatusCode ∧ r.StatusCode ≤ 299
  · have h := CheckResponse_success r body hc
    rw [if_pos hc]
    exact ⟨⟨fun _ => hc, fun _ => by rw [h]⟩, h⟩
  · have h := CheckResponse_failure r body hc
    rw [if_neg hc]
    refine ⟨⟨fun hn => ?_, fun h2 => absurd h2 hc⟩, h⟩
    rw [hn] at h
    cases h

/-! ### Decoding a well-formed envelope -/

theorem subError_code_member (v : JSON) (e : SubError) :
    SubError.field "code" v e = { e with Code := decodeString v e.Code } := by
  simp [SubError.field, (by decide : fieldMatches "code" "code" = true)]

theorem subError_detail_member (v : JSON) (e : SubError) :
    SubError.field "detail" v e = { e with Detail := decodeString v e.Detail } := by
  simp [SubError.field, (by decide : fieldMatches "code" "detail" = false),
    (by decide : fieldMatches "detail" "detail" = true)]

theorem subError_source_member (p : String) (e : SubError) :
    SubError.field "source" (.obj [("pointer", .str p)]) e = { e with SourcePointer := p } := by
  simp [SubError.field, (by decide : fieldMatches "code" "source" = false),
    (by decide : fieldMatches "detail" "source" = false),
    (by decide : fieldMatches "source" "source" = true),
    (by decide : fieldMatches "pointer" "pointer" = true), decodeStruct, decodeString]

/-- A sub-error object of the wire shape decodes, onto the zero value, to its
content. -/
theorem decode_subError (v : JSON) (e : SubError) (h : IsSubErrorJSON v e) :
    decodeStruct SubError.field v {} = e := by
  obtain ⟨ms, rfl, hperm⟩ := h
  simp only [decodeStruct]
  rw [← List.Perm.foldl_eq' hperm.symm]
  · simp [subError_code_member, subError_detail_member, subError_source_member, decodeString]
  · intro x hx y hy z
    simp only [List.mem_cons, List.mem_singleton, List.not_mem_nil, or_false] at hx hy
    rcases hx with rfl | rfl | rfl <;> rcases hy with rfl | rfl | rfl <;>
      simp [subError_code_member, subError_detail_member, subError_source_member]

/-- The sub-error objects of an envelope decode, onto the nil slice, to the
sub-errors they denote, in the same order. -/
theorem decode_subErrors (vs : List JSON) (es : List SubError)
    (h : List.Forall₂ IsSubErrorJSON vs es) :
    decodeElems {} (decodeStruct SubError.field) vs [] = es := by
  induction h with
  | nil => rfl
  | cons hv _ ih => simp [decodeElems, decode_subError _ _ hv, ih]

theorem envelope_type_member (v : JSON) (s : ErrorState) :
    ErrorResponse.field "type" v s =
      { s with errorResponse :=
          { s.errorResponse with Type_ := decodeString v s.errorResponse.Type_ } } := by
  simp [ErrorResponse.field, (by decide : fieldMatches "Response" "type" = false),
    (by decide : fieldMatches "type" "type" = true)]

theorem envelope_status_member (v : JSON) (s : ErrorState) :
    ErrorResponse.field "status" v s =
      { s with errorResponse :=
          { s.errorResponse with Status := decodeInt v s.errorResponse.Status } } := by
  simp [ErrorResponse.field, (by decide : fieldMatches "Response" "status" = false),
    (by decide : fieldMatches "type" "status" = false),
    (by decide : fieldMatches "status" "status" = true)]

theorem envelope_detail_member (v : JSON) (s : ErrorState) :
    ErrorResponse.field "detail" v s =
      { s with errorResponse :=
          { s.errorResponse with Detail := decodeString v s.errorResponse.Detail } } := by
  simp [ErrorResponse.field, (by decide : fieldMatches "Response" "detail" = false),
    (by decide : fieldMatches "type" "detail" = false),
    (by decide : fieldMatches "status" "detail" = false),
    (by decide : fieldMatches "detail" "detail" = true)]

theorem envelope_errors_member (v : JSON) (s : ErrorState) :
    ErrorResponse.field "errors" v s =
      { s with errorResponse :=
          { s.errorResponse with
            Errors := decodeSlice {} (decodeStruct SubError.field) v s.errorResponse.Errors } } := by
  simp [ErrorResponse.field, (by decide : fieldMatches "Response" "errors" = false),
    (by decide : fieldMatches "type" "errors" = false),
    (by decide : fieldMatches "status" "errors" = false),
    (by decide : fieldMatches "detail" "errors" = false),
    (by decide : fieldMatches "errors" "errors" = true)]

/-- A well-formed envelope, stored into the fresh `ErrorResponse` of
`CheckResponse`, gives its four fields and touches nothing else. -/
theorem decode_envelope (j : JSON) (type : String) (status : Int) (detail : String)
    (errors : List SubError) (h : IsEnvelopeJSON j type status detail errors) (r : Response) :
    decodeStruct ErrorResponse.field j ⟨{ Response := .original }, r⟩ =
      ⟨{ Response := .original, Type_ := type, Status := status, Detail := detail,
         Errors := errors }, r⟩ := by
  obtain ⟨ms, lit, vs, rfl, hlit, hvs, hperm⟩ := h
  simp only [decodeStruct]
  rw [← List.Perm.foldl_eq' hperm.symm]
  · simp [envelope_type_member, envelope_status_member, envelope_detail_member,
      envelope_errors_member, decodeString, decodeInt, decodeSlice, hlit,
      decode_subErrors vs errors hvs]
  · intro x hx y hy z
    simp only [List.mem_cons, List.mem_singleton, List.not_mem_nil, or_false] at hx hy
    rcases hx with rfl | rfl | rfl | rfl <;> rcases hy with rfl | rfl | rfl | rfl <;>
      simp [envelope_type_member, envelope_status_member, envelope_detail_member,
        envelope_errors_member]

/-- `CheckResponse` on a status outside [200, 299] with a body read to its
end that is a well-formed envelope. -/
theorem CheckResponse_envelope (r : Response) (body : Body) (j : JSON) (type : String)
    (status : Int) (detail : String) (errors : List SubError)
    (hc : ¬(200 ≤ r.StatusCode ∧ r.StatusCode ≤ 299)) (hread : body.readErr = none)
    (hj : parseDocument body.data = .ok j)
    (henv : IsEnvelopeJSON j type status detail errors) :
    CheckResponse r body =
      (r, some { Response := .original, Type_ := type, Status := status, Detail := detail,
                 Errors := errors }) := by
  unfold CheckResponse
  rw [if_neg hc]
  simp only [ioReadAll, hread, Option.map_none', jsonUnmarshalErrorResponse, hj]
  rw [decode_envelope j type status detail errors henv r]

/-- The test body parses to the envelope it denotes. -/
theorem parse_body404 : parseDocument (Body.data ⟨[body404.toList], none⟩) = .ok envelope404 := by
  rfl

/-- The test body is a well-formed envelope. -/
theorem envelope404_wellFormed :
    IsEnvelopeJSON envelope404 "validation_error" 404 "Incident not found" [subError404] :=
  ⟨_, "404", _, rfl, by decide, .cons ⟨_, rfl, List.Perm.refl _⟩ .nil, List.Perm.refl _⟩

/-- C5: for a response with a status outside [200, 299] whose body is a
well-formed error envelope, the `ErrorResponse` that `CheckResponse` returns
has `Type`, `Status` and `Detail` equal to the members `type`, `status` and
`detail` of the body and `Errors` equal to its `errors`, same length and
order, each with its code, detail and source pointer. -/
theorem CheckResponse_decodes_envelope (r : Response) (body : Body) (j : JSON) (type : String)
    (status : Int) (detail : String) (errors : List SubError)
    (hc : ¬(200 ≤ r.StatusCode ∧ r.StatusCode ≤ 299)) (hread : body.readErr = none)
    (hj : parseDocument body.data = .ok j)
    (henv : IsEnvelopeJSON j type status detail errors) :
    (CheckResponse r body).2 =
      some { Response := .original, Type_ := type, Status := status, Detail := detail,
             Errors := errors } := by
  rw [CheckResponse_envelope r body j type status detail errors hc hread hj henv]

/-- Witness for C5: the 404 body of the test gives status 404, detail
`Incident not found` and one sub-error with code `not_found`. -/
theorem CheckResponse_decodes_envelope_witness :
    (¬(200 ≤ (404 : Int) ∧ (404 : Int) ≤ 299)) ∧
    parseDocument (Body.data ⟨[body404.toList], none⟩) = .ok envelope404 ∧
    IsEnvelopeJSON envelope404 "validation_error" 404 "Incident not found" [subError404] ∧
    (CheckResponse { StatusCode := 404 } ⟨[body404.toList], none⟩).2 =
      some { Response := .original, Type_ := "validation_error", Status := 404,
             Detail := "Incident not found", Errors := [subError404] } :=
  ⟨by decide, parse_body404, envelope404_wellFormed,
    CheckResponse_decodes_envelope { StatusCode := 404 } ⟨[body404.toList], none⟩ envelope404
      "validation_error" 404 "Incident not found" [subError404] (by decide) rfl parse_body404
      envelope404_wellFormed⟩

/-- C6: for a response with a status outside [200, 299] whose body is not
parseable as JSON, the empty body included, `CheckResponse` returns the one
error it has, an `*ErrorResponse` with empty `Type`, `Status` 0, empty
`Detail` and empty `Errors`, and the response is as it was. -/
theorem CheckResponse_unparseable_body (r : Response) (body : Body) (err : Error)
    (hc : ¬(200 ≤ r.StatusCode ∧ r.StatusCode ≤ 299))
    (hbad : parseDocument body.data = .error err) :
    CheckResponse r body =
      (r, some { Response := .original, Type_ := "", Status := 0, Detail := "", Errors := [] }) := by
  unfold CheckResponse
  rw [if_neg hc]
  simp only [ioReadAll]
  cases body.readErr with
  | none => simp [jsonUnmarshalErrorResponse, hbad]
  | some e => rfl

/-- Witness for C6: a 502 with an HTML body, and a 500 with an empty body. -/
theorem CheckResponse_unparseable_body_witness :
    (parseDocument (Body.data ⟨["<html>Bad Gateway</html>".toList], none⟩) =
        .error (.malformed "looking for beginning of value") ∧
      CheckResponse { StatusCode := 502 } ⟨["<html>Bad Gateway</html>".toList], none⟩ =
        ({ StatusCode := 502 },
         some { Response := .original, Type_ := "", Status := 0, Detail := "", Errors := [] })) ∧
    (parseDocument (Body.data ⟨[], none⟩) = .error (.malformed "unexpected end of JSON input") ∧
      CheckResponse { StatusCode := 500 } ⟨[], none⟩ =
        ({ StatusCode := 500 },
         some { Response := .original, Type_ := "", Status := 0, Detail := "", Errors := [] })) :=
  ⟨⟨rfl, CheckResponse_unparseable_body { StatusCode := 502 }
      ⟨["<html>Bad Gateway</html>".toList], none⟩ _ (by decide) rfl⟩,
   ⟨rfl, CheckResponse_unparseable_body { StatusCode := 500 } ⟨[], none⟩ _ (by decide) rfl⟩⟩

/-! ### `Do` -/

/-- `Do` when the transport fails. -/
theorem Do_of_failed {W T : Type} (ops : TargetOps W T) (c : Client) (req : Request)
    (v : Target W T) (err : Error) (other : Option Response)
    (h : c.client.Do req = .failed err other) :
    Client.Do ops c req v = ⟨none, some err, v⟩ := by
  simp [Client.Do, h]

/-- `Do` on a response with a status outside [200, 299]. -/
theorem Do_of_error_status {W T : Type} (ops : TargetOps W T) (c : Client) (req : Request)
    (v : Target W T) (resp : Response) (body : Body)
    (h : c.client.Do req = .received resp body)
    (hc : ¬(200 ≤ resp.StatusCode ∧ resp.StatusCode ≤ 299)) :
    ∃ e, (CheckResponse resp body).2 = some e ∧
      Client.Do ops c req v = ⟨some (CheckResponse resp body).1, some (.api e), v⟩ := by
  have hsome := CheckResponse_failure resp body hc
  cases hcr : CheckResponse resp body with
  | mk r2 e2 =>
    rw [hcr] at hsome
    cases e2 with
    | none => cases hsome
    | some e => exact ⟨e, rfl, by simp [Client.Do, h, hcr]⟩

/-- `Do` on a response with a status in [200, 299]. -/
theorem Do_of_success_status {W T : Type} (ops : TargetOps W T) (c : Client) (req : Request)
    (v : Target W T) (resp : Response) (body : Body)
    (h : c.client.Do req = .received resp body)
    (hc : 200 ≤ resp.StatusCode ∧ resp.StatusCode ≤ 299) :
    Client.Do ops c req v =
      if resp.StatusCode ≠ 204 then
        match v with
        | .absent => ⟨some resp, none, v⟩
        | .writer w => ⟨some resp, none, .writer (ioCopy ops.write w body.chunks body.readErr).1⟩
        | .value t => ⟨some resp, (jsonDecode ops.unmarshal body t).2,
            .value (jsonDecode ops.unmarshal body t).1⟩
      else ⟨some resp, none, v⟩ := by
  simp only [Client.Do, h, CheckResponse_success resp body hc]

/-- A member whose key does not select the field `Response` leaves the
response and the pointer to it as they were. -/
theorem member_keeps_response (k : String) (v : JSON) (s : ErrorState)
    (hk : fieldMatches "Response" k = false) :
    (ErrorResponse.field k v s).r = s.r ∧
      (ErrorResponse.field k v s).errorResponse.Response = s.errorResponse.Response := by
  simp only [ErrorResponse.field, hk, Bool.false_eq_true, if_false]
  split_ifs <;> exact ⟨rfl, rfl⟩

/-- Members none of which selects the field `Response` leave the response and
the pointer to it as they were. -/
theorem decode_members_keep_response (ms : List (String × JSON)) (s : ErrorState)
    (hms : (ms.any fun m => fieldMatches "Response" m.1) = false) :
    (ms.foldl (fun acc m => ErrorResponse.field m.1 m.2 acc) s).r = s.r ∧
      (ms.foldl (fun acc m => ErrorResponse.field m.1 m.2 acc) s).errorResponse.Response =
        s.errorResponse.Response := by
  induction ms generalizing s with
  | nil => exact ⟨rfl, rfl⟩
  | cons m rest ih =>
    simp only [List.any_cons, Bool.or_eq_false_iff] at hms
    have h1 := member_keeps_response m.1 m.2 s hms.1
    have h2 := ih (ErrorResponse.field m.1 m.2 s) hms.2
    simp only [List.foldl_cons]
    exact ⟨h2.1.trans h1.1, h2.2.trans h1.2⟩

/-- Unless the body addresses the field `Response`, `CheckResponse` leaves the
response as it was. -/
theorem CheckResponse_keeps_response (r : Response) (body : Body)
    (hfree : addressesResponse body.data = false) : (CheckResponse r body).1 = r := by
  unfold CheckResponse
  split
  · rfl
  · simp only [ioReadAll]
    cases body.readErr with
    | some e => rfl
    | none =>
      simp only [Option.map_none', jsonUnmarshalErrorResponse]
      unfold addressesResponse at hfree
      cases hp : parseDocument body.data with
      | error e => rfl
      | ok j =>
        rw [hp] at hfree
        cases j with
        | obj ms => exact (decode_members_keep_response ms _ hfree).1
        | _ => rfl

/-- C4, as the code has it: for every status code outside [200, 299] and every
body that is a well-formed error envelope, `Do` returns the response and a
non-nil `*ErrorResponse` whose `Status` field is the `status` member of the
body, whatever the status code of the response. -/
theorem Do_api_error_status_from_body {W T : Type} (ops : TargetOps W T) (c : Client)
    (req : Request) (v : Target W T) (resp : Response) (body : Body) (j : JSON)
    (type : String) (status : Int) (detail : String) (errors : List SubError)
    (h : c.client.Do req = .received resp body)
    (hc : ¬(200 ≤ resp.StatusCode ∧ resp.StatusCode ≤ 299)) (hread : body.readErr = none)
    (hj : parseDocument body.data = .ok j)
    (henv : IsEnvelopeJSON j type status detail errors) :
    Client.Do ops c req v =
      ⟨some resp,
       some (.api { Response := .original, Type_ := type, Status := status, Detail := detail,
                    Errors := errors }),
       v⟩ := by
  simp [Client.Do, h, CheckResponse_envelope resp body j type status detail errors hc hread hj henv]

/-- Witness for C4 as the code has it: a response with status 500 carrying
the 404 envelope gives an `ErrorResponse` with `Status` 404. -/
theorem Do_api_error_status_from_body_witness :
    (clientOver (cannedHTTPClient 500 body404)).client.Do usersRequest =
      .received { StatusCode := 500, Request := some usersRequest } ⟨[body404.toList], none⟩ ∧
    Client.Do usersOps (clientOver (cannedHTTPClient 500 body404)) usersRequest .absent =
      ⟨some { StatusCode := 500, Request := some usersRequest },
       some (.api { Response := .original, Type_ := "validation_error", Status := 404,
                    Detail := "Incident not found", Errors := [subError404] }),
       .absent⟩ :=
  ⟨rfl, Do_api_error_status_from_body usersOps (clientOver (cannedHTTPClient 500 body404))
    usersRequest .absent { StatusCode := 500, Request := some usersRequest }
    ⟨[body404.toList], none⟩ envelope404 "validation_error" 404 "Incident not found"
    [subError404] rfl (by decide) rfl parse_body404 envelope404_wellFormed⟩

/-- Counterexample to C4: the response has status code 500 and its body is the
well-formed envelope of the test, with `status` 404; `Do` returns an
`*ErrorResponse` whose `Status` is 404, not 500. -/
theorem Do_status_field_counterexample :
    parseDocument body404.toList = .ok envelope404 ∧
    IsEnvelopeJSON envelope404 "validation_error" 404 "Incident not found" [subError404] ∧
    Client.Do usersOps (clientOver (cannedHTTPClient 500 body404)) usersRequest .absent =
      ⟨some { StatusCode := 500, Request := some usersRequest },
       some (.api errorResponse404), .absent⟩ ∧
    errorResponse404.Status ≠ 500 :=
  ⟨rfl, envelope404_wellFormed, by decide, by decide⟩

/-- C7, as the code has it: when the transport returns a response, `Do`
returns that response; on a status outside [200, 299] with a body that does
not address the field `Response`, together with an `*ErrorResponse`; on a
status in [200, 299], with a nil error, except that with a structured target
and a status other than 204 the error is that of decoding the body. -/
theorem Do_returns_response_metadata {W T : Type} (ops : TargetOps W T) (c : Client)
    (req : Request) (v : Target W T) (resp : Response) (body : Body)
    (h : c.client.Do req = .received resp body)
    (hfree : ¬(200 ≤ resp.StatusCode ∧ resp.StatusCode ≤ 299) →
      addressesResponse body.data = false) :
    (Client.Do ops c req v).resp = some resp ∧
    (if 200 ≤ resp.StatusCode ∧ resp.StatusCode ≤ 299 then
      (Client.Do ops c req v).err =
        match v with
        | .value t => if resp.StatusCode = 204 then none else (jsonDecode ops.unmarshal body t).2
        | _ => none
     else (Client.Do ops c req v).err.map Error.isErrorResponse = some true) := by
  by_cases hc : 200 ≤ resp.StatusCode ∧ resp.StatusCode ≤ 299
  · rw [if_pos hc, Do_of_success_status ops c req v resp body h hc]
    by_cases h204 : resp.StatusCode = 204
    · simp only [h204, ne_eq, not_true_eq_false, if_false, if_true, true_and]
      cases v <;> rfl
    · simp only [ne_eq, h204, not_false_eq_true, if_true, if_false]
      cases v <;> exact ⟨rfl, rfl⟩
  · obtain ⟨e, _, hdo⟩ := Do_of_error_status ops c req v resp body h hc
    rw [if_neg hc, hdo, CheckResponse_keeps_response resp body (hfree hc)]
    exact ⟨rfl, rfl⟩

/-- Witness for C7 as the code has it: a 500 with the envelope of the test
gives the metadata and an `*ErrorResponse`; a 200 with a user list gives the
metadata and the (nil) error of the decoder. -/
theorem Do_returns_response_metadata_witness :
    ((Client.Do usersOps (clientOver (cannedHTTPClient 500 body404)) usersRequest
        (.value {})).resp = some { StatusCode := 500, Request := some usersRequest } ∧
      (Client.Do usersOps (clientOver (cannedHTTPClient 500 body404)) usersRequest
        (.value {})).err.map Error.isErrorResponse = some true) ∧
    ((Client.Do usersOps (clientOver (cannedHTTPClient 200 "\x7b\"users\":[]\x7d")) usersRequest
        (.value {})).resp = some { StatusCode := 200, Request := some usersRequest } ∧
      (Client.Do usersOps (clientOver (cannedHTTPClient 200 "\x7b\"users\":[]\x7d")) usersRequest
        (.value {})).err =
          (jsonDecode usersOps.unmarshal ⟨["\x7b\"users\":[]\x7d".toList], none⟩ {}).2) :=
  ⟨Do_returns_response_metadata usersOps (clientOver (cannedHTTPClient 500 body404))
      usersRequest (.value {}) { StatusCode := 500, Request := some usersRequest }
      ⟨[body404.toList], none⟩ rfl (fun _ => by decide),
   Do_returns_response_metadata usersOps
      (clientOver (cannedHTTPClient 200 "\x7b\"users\":[]\x7d")) usersRequest (.value {})
      { StatusCode := 200, Request := some usersRequest }
      ⟨["\x7b\"users\":[]\x7d".toList], none⟩ rfl (fun h => absurd (by decide) h)⟩

/-- A body with a member `Response` reaches the response that `Do` returns:
the server sent status 500, the metadata returned says 200. -/
theorem Do_response_member_example :
    Client.Do usersOps
        (clientOver (cannedHTTPClient 500 "\x7b\"Response\":\x7b\"StatusCode\":200\x7d\x7d"))
        usersRequest .absent =
      ⟨some { StatusCode := 200, Request := some usersRequest },
       some (.api { Response := .original }), .absent⟩ := by
  decide

/-- A body with the member `Response: null` clears the back-reference of the
`ErrorResponse`. -/
theorem CheckResponse_response_null_example :
    CheckResponse { StatusCode := 500 } ⟨["\x7b\"Response\":null\x7d".toList], none⟩ =
      ({ StatusCode := 500 }, some { Response := .null }) := by
  decide

/-- Counterexample to C7: on the success path the error need not be nil. The
response has status 200 and the body of the invalid-JSON test; `Do` returns
the response metadata together with a non-nil error. -/
theorem Do_success_path_error_counterexample :
    (200 ≤ (200 : Int) ∧ (200 : Int) ≤ 299) ∧
    Client.Do usersOps (clientOver (cannedHTTPClient 200 "\x7b\"invalid\": json\x7d"))
        usersRequest (.value {}) =
      ⟨some { StatusCode := 200, Request := some usersRequest },
       some (.malformed "looking for beginning of value"), .value {}⟩ := by
  decide

/-- C8: when the HTTP client returns a transport failure, `Do` returns a nil
response and exactly that error, and the decode target is as it was. -/
theorem Do_transport_failure {W T : Type} (ops : TargetOps W T) (c : Client) (req : Request)
    (v : Target W T) (err : Error) (other : Option Response)
    (h : c.client.Do req = .failed err other) :
    Client.Do ops c req v = ⟨none, some err, v⟩ :=
  Do_of_failed ops c req v err other h

/-- Witness for C8: the client whose transport refuses every connection. -/
theorem Do_transport_failure_witness :
    exampleClient.client.Do usersRequest =
      .failed (.foreign "dial tcp: connection refused") none ∧
    Client.Do usersOps exampleClient usersRequest (.value { Users := [none] }) =
      ⟨none, some (.foreign "dial tcp: connection refused"), .value { Users := [none] }⟩ :=
  ⟨rfl, Do_transport_failure usersOps exampleClient usersRequest (.value { Users := [none] })
    (.foreign "dial tcp: connection refused") none rfl⟩

/-- C9: for every body, when the status is 204, with any decode target, or
the status is in [200, 299] and there is no decode target, `Do` returns the
response metadata and a nil error and leaves the target as it was. -/
theorem Do_no_content_or_no_target {W T : Type} (ops : TargetOps W T) (c : Client)
    (req : Request) (v : Target W T) (resp : Response) (body : Body)
    (h : c.client.Do req = .received resp body)
    (hcase : resp.StatusCode = 204 ∨
      ((200 ≤ resp.StatusCode ∧ resp.StatusCode ≤ 299) ∧ v = .absent)) :
    Client.Do ops c req v = ⟨some resp, none, v⟩ := by
  rcases hcase with h204 | ⟨hc, rfl⟩
  · rw [Do_of_success_status ops c req v resp body h (by omega)]
    simp [h204]
  · rw [Do_of_success_status ops c req _ resp body h hc]
    split <;> rfl

/-- Witness for C9: a 204 with a structured target and some body text, and a
200 without a target. -/
theorem Do_no_content_or_no_target_witness :
    Client.Do usersOps (clientOver (cannedHTTPClient 204 "ignored")) usersRequest
        (.value { Users := [none] }) =
      ⟨some { StatusCode := 204, Request := some usersRequest }, none,
       .value { Users := [none] }⟩ ∧
    Client.Do usersOps (clientOver (cannedHTTPClient 200 "ignored")) usersRequest .absent =
      ⟨some { StatusCode := 200, Request := some usersRequest }, none, .absent⟩ :=
  ⟨Do_no_content_or_no_target usersOps (clientOver (cannedHTTPClient 204 "ignored"))
      usersRequest (.value { Users := [none] })
      { StatusCode := 204, Request := some usersRequest } ⟨["ignored".toList], none⟩ rfl
      (Or.inl rfl),
   Do_no_content_or_no_target usersOps (clientOver (cannedHTTPClient 200 "ignored"))
      usersRequest .absent { StatusCode := 200, Request := some usersRequest }
      ⟨["ignored".toList], none⟩ rfl (Or.inr ⟨by decide, rfl⟩)⟩

/-- C10, as the code has it: for every status in [200, 299] other than 204,
every structured decode target and every body that does not begin, white
space aside, with a complete JSON value, `Do` returns the response and a
non-nil decode error that is not an `*ErrorResponse`, and the target is as it
was. -/
theorem Do_decode_error {W T : Type} (ops : TargetOps W T) (c : Client) (req : Request)
    (t : T) (resp : Response) (body : Body)
    (h : c.client.Do req = .received resp body)
    (hc : 200 ≤ resp.StatusCode ∧ resp.StatusCode ≤ 299) (h204 : resp.StatusCode ≠ 204)
    (hbad : startsWithValue body.data = false) :
    (Client.Do ops c req (.value t)).resp = some resp ∧
    (Client.Do ops c req (.value t)).err.map Error.isErrorResponse = some false ∧
    (Client.Do ops c req (.value t)).target = .value t := by
  have hdec : ∃ e, jsonDecode ops.unmarshal body t = (t, some e) ∧
      e.isErrorResponse = false := by
    unfold jsonDecode decoderReadValue
    unfold startsWithValue at hbad
    cases hs : scanValue body.data with
    | value j rest => rw [hs] at hbad; cases hbad
    | invalid msg => exact ⟨_, rfl, rfl⟩
    | incomplete =>
      cases body.readErr with
      | some e => exact ⟨_, rfl, rfl⟩
      | none =>
        by_cases hsp : body.data.all isSpace = true
        · exact ⟨.eof, by simp [hsp], rfl⟩
        · exact ⟨.unexpectedEOF, by simp [hsp], rfl⟩
  obtain ⟨e, he, hne⟩ := hdec
  rw [Do_of_success_status ops c req _ resp body h hc, if_pos h204]
  simp [he, hne]

/-- Witness for C10 as the code has it: the body of the invalid-JSON test. -/
theorem Do_decode_error_witness :
    startsWithValue "\x7b\"invalid\": json\x7d".toList = false ∧
    (Client.Do usersOps (clientOver (cannedHTTPClient 200 "\x7b\"invalid\": json\x7d"))
        usersRequest (.value {})).resp = some { StatusCode := 200, Request := some usersRequest } ∧
    (Client.Do usersOps (clientOver (cannedHTTPClient 200 "\x7b\"invalid\": json\x7d"))
        usersRequest (.value {})).err.map Error.isErrorResponse = some false ∧
    (Client.Do usersOps (clientOver (cannedHTTPClient 200 "\x7b\"invalid\": json\x7d"))
        usersRequest (.value {})).target = .value {} :=
  ⟨rfl, Do_decode_error usersOps (clientOver (cannedHTTPClient 200 "\x7b\"invalid\": json\x7d"))
    usersRequest {} { StatusCode := 200, Request := some usersRequest }
    ⟨["\x7b\"invalid\": json\x7d".toList], none⟩ rfl (by decide) (by decide) rfl⟩

/-- Counterexample to C10: the body is a JSON object followed by further
text, which is not valid JSON; with status 200 and the structured target of
`UsersService.List`, `Do` returns no error and fills the target. -/
theorem Do_trailing_text_counterexample :
    parseDocument "\x7b\"users\":[\x7b\"id\":\"U1\"\x7d]\x7d trailing text".toList =
      .error (.malformed "invalid character after top-level value") ∧
    Client.Do usersOps
        (clientOver (cannedHTTPClient 200 "\x7b\"users\":[\x7b\"id\":\"U1\"\x7d]\x7d trailing text"))
        usersRequest (.value {}) =
      ⟨some { StatusCode := 200, Request := some usersRequest }, none,
       .value { Users := [some { ID := "U1" }] }⟩ := by
  refine ⟨rfl, ?_⟩
  decide

/-! ### Raw byte sinks -/

/-- `io.Copy` into a sink whose `Write` accepts what it is given and appends
it: the sink ends up with all the bytes of the stream after what it held. -/
theorem ioCopy_appends {W : Type} (write : W → List Char → W × Option Error)
    (contents : W → List Char)
    (hsink : ∀ w chunk, (write w chunk).2 = none ∧
      contents (write w chunk).1 = contents w ++ chunk)
    (chunks : List (List Char)) (readErr : Option String) (w : W) :
    contents (ioCopy write w chunks readErr).1 = contents w ++ chunks.flatten := by
  induction chunks generalizing w with
  | nil => simp [ioCopy]
  | cons chunk rest ih =>
    unfold ioCopy
    by_cases hempty : chunk.isEmpty = true
    · have hnil : chunk = [] := by simpa using hempty
      simp [hempty, ih, hnil]
    · obtain ⟨h1, h2⟩ := hsink w chunk
      cases hw : write w chunk with
      | mk w2 e =>
        rw [hw] at h1 h2
        simp only at h1 h2
        subst h1
        simp [hempty, ih, h2, List.append_assoc]

/-- C11: for every status in [200, 299] other than 204, `Do` with a raw byte
sink as target (a writer that accepts and appends what it is given) returns the
response and no error and leaves in the sink exactly the bytes of the body,
in order, after what the sink held, whether or not they are JSON; with a
target that is not a writer the body goes through the JSON decoder into the
target. -/
theorem Do_writer_copies_body {W T : Type} (ops : TargetOps W T) (contents : W → List Char)
    (c : Client) (req : Request) (resp : Response) (body : Body)
    (h : c.client.Do req = .received resp body)
    (hc : 200 ≤ resp.StatusCode ∧ resp.StatusCode ≤ 299) (h204 : resp.StatusCode ≠ 204)
    (hsink : ∀ w chunk, (ops.write w chunk).2 = none ∧
      contents (ops.write w chunk).1 = contents w ++ chunk) :
    (∀ w, Client.Do ops c req (.writer w) =
        ⟨some resp, none, .writer (ioCopy ops.write w body.chunks body.readErr).1⟩ ∧
      contents (ioCopy ops.write w body.chunks body.readErr).1 = contents w ++ body.data) ∧
    (∀ t, Client.Do ops c req (.value t) =
        ⟨some resp, (jsonDecode ops.unmarshal body t).2,
          .value (jsonDecode ops.unmarshal body t).1⟩) := by
  refine ⟨fun w => ⟨?_, ?_⟩, fun t => ?_⟩
  · rw [Do_of_success_status ops c req _ resp body h hc, if_pos h204]
  · exact ioCopy_appends ops.write contents hsink body.chunks body.readErr w
  · rw [Do_of_success_status ops c req _ resp body h hc, if_pos h204]

/-- Witness for C11: an HTML body in two chunks lands unchanged in a byte
buffer that already holds `>`; the same body with the target of
`UsersService.List` goes to the decoder, which rejects it. -/
theorem Do_writer_copies_body_witness :
    Client.Do usersOps (clientOver (chunkedHTTPClient 200 ["<html>", "&amp;</html>"]))
        usersRequest (.writer ['>']) =
      ⟨some { StatusCode := 200, Request := some usersRequest }, none,
       .writer "><html>&amp;</html>".toList⟩ ∧
    Client.Do usersOps (clientOver (chunkedHTTPClient 200 ["<html>", "&amp;</html>"]))
        usersRequest (.value {}) =
      ⟨some { StatusCode := 200, Request := some usersRequest },
       some (.malformed "looking for beginning of value"), .value {}⟩ :=
  have hw := Do_writer_copies_body usersOps id
    (clientOver (chunkedHTTPClient 200 ["<html>", "&amp;</html>"])) usersRequest
    { StatusCode := 200, Request := some usersRequest }
    ⟨["<html>".toList, "&amp;</html>".toList], none⟩ rfl (by decide) (by decide)
    (fun _ _ => ⟨rfl, rfl⟩)
  ⟨(hw.1 ['>']).1, hw.2 {}⟩

/-! ### `ErrorResponse.Error` -/

/-- C16: for an `ErrorResponse` that points to a response with an originating
request, `Error()` is `<METHOD> <URL>: <STATUS> <DETAIL>`: method and URL of
that request, the status code of the response in decimal, and the `Detail`
of the `ErrorResponse`. -/
theorem Error_renders_summary (lib : URLLib) (e : ErrorResponse) (original resp : Response)
    (req : Request) (u : URL) (href : e.Response.deref original = some resp)
    (hreq : resp.Request = some req) (hurl : req.URL = some u) :
    ErrorResponse.Error lib e original =
      .ok (req.Method ++ " " ++ lib.String u ++ ": " ++ toString resp.StatusCode ++ " "
        ++ e.Detail) := by
  simp [ErrorResponse.Error, href, hreq, hurl, formatURL, formatInt]

/-- Witness for C16: the summary of the test,
`GET https://api.incident.io/v2/incidents/123: 404 Incident not found`. -/
theorem Error_renders_summary_witness :
    ErrorResponse.Error plainURLLib { Response := .original, Detail := "Incident not found" }
        { StatusCode := 404,
          Request := some { Method := "GET",
                            URL := some { Scheme := "https", Host := "api.incident.io",
                                          Path := "/v2/incidents/123" } } } =
      .ok "GET https://api.incident.io/v2/incidents/123: 404 Incident not found" :=
  (Error_renders_summary plainURLLib { Response := .original, Detail := "Incident not found" }
    { StatusCode := 404,
      Request := some { Method := "GET",
                        URL := some { Scheme := "https", Host := "api.incident.io",
                                      Path := "/v2/incidents/123" } } }
    _ _ _ rfl rfl rfl).trans (by decide)

/-! ### Resource methods -/

/-- `Do` with a structured target leaves a structured target. -/
theorem Do_value_target {W T : Type} (ops : TargetOps W T) (c : Client) (req : Request) (t : T) :
    ∃ t2, (Client.Do ops c req (.value t)).target = .value t2 := by
  unfold Client.Do
  split
  · exact ⟨t, rfl⟩
  · split
    · exact ⟨t, rfl⟩
    · split
      · exact ⟨_, rfl⟩
      · exact ⟨t, rfl⟩

/-- A method that ends with `afterDo` passes on what `Do` returns. -/
theorem afterDo_passesOn {R A : Type} (zero : A) (get : R → A) (ops : TargetOps Empty R)
    (c : Client) (req : Request) (t : R) :
    PassesOn zero get (Client.Do ops c req (.value t))
      (.returned (afterDo zero get (Client.Do ops c req (.value t)))) := by
  obtain ⟨t2, ht⟩ := Do_value_target ops c req t
  constructor
  · intro e he
    simp only [afterDo, he]
  · intro he
    exact ⟨t2, ht, by simp only [afterDo, he, ht]⟩

/-- C20: every resource method that returns a result, a response and an
error, the eighteen of them, once its request is built, passes on what `Do`
returns: when `Do` returns an error, API error or decode error alike, the
method returns the nil result, the response of `Do` and that error; when `Do`
returns no error the method returns the value decoded under the envelope key
of the endpoint (the field of its local `result`), the response of `Do` and a
nil error. -/
theorem resource_methods_pass_on {F R T I S E V W OI UI OS US OV UV : Type}
    (lib : URLLib) (c : Client)
    (unF : JSON → CustomFieldsResult F → CustomFieldsResult F × Option Error)
    (unR : JSON → IncidentRolesResult R → IncidentRolesResult R × Option Error)
    (unT : JSON → IncidentTypesResult T → IncidentTypesResult T × Option Error)
    (unIs : JSON → IncidentsResult I → IncidentsResult I × Option Error)
    (unI : JSON → IncidentResult I → IncidentResult I × Option Error)
    (unSs : JSON → SchedulesResult S → SchedulesResult S × Option Error)
    (unS : JSON → ScheduleResult S → ScheduleResult S × Option Error)
    (unE : JSON → ScheduleEntriesResult E → ScheduleEntriesResult E × Option Error)
    (unVs : JSON → OverridesResult V → OverridesResult V × Option Error)
    (unV : JSON → OverrideResult V → OverrideResult V × Option Error)
    (unW : JSON → SeveritiesResult W → SeveritiesResult W × Option Error)
    (encOI : Bool → Option OI → Except Error (List Char))
    (encUI : Bool → Option UI → Except Error (List Char))
    (encOS : Bool → Option OS → Except Error (List Char))
    (encUS : Bool → Option US → Except Error (List Char))
    (encOV : Bool → Option OV → Except Error (List Char))
    (encUV : Bool → Option UV → Except Error (List Char))
    (id scheduleID overrideID : String) (listOpts : Option ListOptions)
    (schedOpts : Option ScheduleListOptions) (entryOpts : Option ScheduleEntriesOptions)
    (oi : Option OI) (ui : Option UI) (os : Option OS) (us : Option US) (ov : Option OV)
    (uv : Option UV) :
    (∀ req, Client.NewRequest lib encodeNothing c "GET" "v2/custom_fields" none = .ok req →
      PassesOn [] (·.CustomFields) (Client.Do (structOps unF) c req (.value {}))
        (CustomFieldsService.List lib unF c)) ∧
    (∀ req, Client.NewRequest lib encodeNothing c "GET" "v2/incident_roles" none = .ok req →
      PassesOn [] (·.IncidentRoles) (Client.Do (structOps unR) c req (.value {}))
        (IncidentRolesService.List lib unR c)) ∧
    (∀ req, Client.NewRequest lib encodeNothing c "GET" "v1/incident_types" none = .ok req →
      PassesOn [] (·.IncidentTypes) (Client.Do (structOps unT) c req (.value {}))
        (IncidentTypesService.List lib unT c)) ∧
    (∀ req, Client.NewRequest lib encodeNothing c "GET" "v2/incidents" none = .ok req →
      PassesOn [] (·.Incidents) (Client.Do (structOps unIs) c req (.value {}))
        (IncidentsService.List lib unIs c listOpts)) ∧
    (∀ req, Client.NewRequest lib encodeNothing c "GET" ("v2/incidents/" ++ id) none = .ok req →
      PassesOn none (·.Incident) (Client.Do (incidentOps unI) c req (.value {}))
        (IncidentsService.Get lib unI c id)) ∧
    (∀ req, Client.NewRequest lib encOI c "POST" "v2/incidents" (some oi) = .ok req →
      PassesOn none (·.Incident) (Client.Do (structOps unI) c req (.value {}))
        (IncidentsService.Create lib encOI unI c oi)) ∧
    (∀ req, Client.NewRequest lib encUI c "PUT" ("v2/incidents/" ++ id) (some ui) = .ok req →
      PassesOn none (·.Incident) (Client.Do (structOps unI) c req (.value {}))
        (IncidentsService.Update lib encUI unI c id ui)) ∧
    (∀ req, Client.NewRequest lib encodeNothing c "GET" "v2/schedules" none = .ok req →
      PassesOn [] (·.Schedules) (Client.Do (structOps unSs) c req (.value {}))
        (SchedulesService.List lib unSs c schedOpts)) ∧
    (∀ req, Client.NewRequest lib encodeNothing c "GET" ("v2/schedules/" ++ id) none = .ok req →
      PassesOn none (·.Schedule) (Client.Do (structOps unS) c req (.value {}))
        (SchedulesService.Get lib unS c id)) ∧
    (∀ req, Client.NewRequest lib encOS c "POST" "v2/schedules" (some os) = .ok req →
      PassesOn none (·.Schedule) (Client.Do (structOps unS) c req (.value {}))
        (SchedulesService.Create lib encOS unS c os)) ∧
    (∀ req, Client.NewRequest lib encUS c "PUT" ("v2/schedules/" ++ id) (some us) = .ok req →
      PassesOn none (·.Schedule) (Client.Do (structOps unS) c req (.value {}))
        (SchedulesService.Update lib encUS unS c id us)) ∧
    (∀ req req2, Client.NewRequest lib encodeNothing c "GET"
        ("v2/schedules/" ++ scheduleID ++ "/entries") none = .ok req →
      addEntryWindow req entryOpts = some req2 →
      PassesOn [] (·.ScheduleEntries) (Client.Do (structOps unE) c req2 (.value {}))
        (SchedulesService.ListEntries lib unE c scheduleID entryOpts)) ∧
    (∀ req, Client.NewRequest lib encodeNothing c "GET"
        ("v2/schedules/" ++ scheduleID ++ "/overrides") none = .ok req →
      PassesOn [] (·.Overrides) (Client.Do (structOps unVs) c req (.value {}))
        (SchedulesService.ListOverrides lib unVs c scheduleID listOpts)) ∧
    (∀ req, Client.NewRequest lib encodeNothing c "GET"
        ("v2/schedules/" ++ scheduleID ++ "/overrides/" ++ overrideID) none = .ok req →
      PassesOn none (·.Override) (Client.Do (structOps unV) c req (.value {}))
        (SchedulesService.GetOverride lib unV c scheduleID overrideID)) ∧
    (∀ req, Client.NewRequest lib encOV c "POST"
        ("v2/schedules/" ++ scheduleID ++ "/overrides") (some ov) = .ok req →
      PassesOn none (·.Override) (Client.Do (structOps unV) c req (.value {}))
        (SchedulesService.CreateOverride lib encOV unV c scheduleID ov)) ∧
    (∀ req, Client.NewRequest lib encUV c "PUT"
        ("v2/schedules/" ++ scheduleID ++ "/overrides/" ++ overrideID) (some uv) = .ok req →
      PassesOn none (·.Override) (Client.Do (structOps unV) c req (.value {}))
        (SchedulesService.UpdateOverride lib encUV unV c scheduleID overrideID uv)) ∧
    (∀ req, Client.NewRequest lib encodeNothing c "GET" "v1/severities" none = .ok req →
      PassesOn [] (·.Severities) (Client.Do (structOps unW) c req (.value {}))
        (SeveritiesService.List lib unW c)) ∧
    (∀ req, Client.NewRequest lib encodeNothing c "GET" "v2/users" none = .ok req →
      PassesOn [] (·.Users) (Client.Do usersOps c req (.value {}))
        (UsersService.List lib c listOpts)) := by
  refine ⟨?_, ?_, ?_, ?_, ?_, ?_, ?_, ?_, ?_, ?_, ?_, ?_, ?_, ?_, ?_, ?_, ?_, ?_⟩
  · intro req h
    simp only [CustomFieldsService.List, h]
    exact afterDo_passesOn _ _ _ c req _
  · intro req h
    simp only [IncidentRolesService.List, h]
    exact afterDo_passesOn _ _ _ c req _
  · intro req h
    simp only [IncidentTypesService.List, h]
    exact afterDo_passesOn _ _ _ c req _
  · intro req h
    simp only [IncidentsService.List, h]
    exact afterDo_passesOn _ _ _ c req _
  · intro req h
    obtain ⟨result, ht⟩ := Do_value_target (incidentOps unI) c req {}
    exact ⟨fun e he => by simp only [IncidentsService.Get, h, he],
      fun he => ⟨result, ht, by simp only [IncidentsService.Get, h, he, ht]⟩⟩
  · intro req h
    simp only [IncidentsService.Create, h]
    exact afterDo_passesOn _ _ _ c req _
  · intro req h
    simp only [IncidentsService.Update, h]
    exact afterDo_passesOn _ _ _ c req _
  · intro req h
    simp only [SchedulesService.List, h]
    exact afterDo_passesOn _ _ _ c req _
  · intro req h
    simp only [SchedulesService.Get, h]
    exact afterDo_passesOn _ _ _ c req _
  · intro req h
    simp only [SchedulesService.Create, h]
    exact afterDo_passesOn _ _ _ c req _
  · intro req h
    simp only [SchedulesService.Update, h]
    exact afterDo_passesOn _ _ _ c req _
  · intro req req2 h h2
    simp only [SchedulesService.ListEntries, h, h2]
    exact afterDo_passesOn _ _ _ c req2 _
  · intro req h
    simp only [SchedulesService.ListOverrides, h]
    exact afterDo_passesOn _ _ _ c req _
  · intro req h
    simp only [SchedulesService.GetOverride, h]
    exact afterDo_passesOn _ _ _ c req _
  · intro req h
    simp only [SchedulesService.CreateOverride, h]
    exact afterDo_passesOn _ _ _ c req _
  · intro req h
    simp only [SchedulesService.UpdateOverride, h]
    exact afterDo_passesOn _ _ _ c req _
  · intro req h
    simp only [SeveritiesService.List, h]
    exact afterDo_passesOn _ _ _ c req _
  · intro req h
    obtain ⟨result, ht⟩ := Do_value_target usersOps c req {}
    exact ⟨fun e he => by simp only [UsersService.List, h, he],
      fun he => ⟨result, ht, by simp only [UsersService.List, h, he, ht]⟩⟩

/-- The requests that the two methods build for the client of the examples. -/
theorem resource_requests_example (h : HTTPClient) :
    Client.NewRequest plainURLLib encodeNothing (clientOver h) "GET" "v2/users" none =
      .ok usersRequest ∧
    Client.NewRequest plainURLLib encodeNothing (clientOver h) "GET" ("v2/incidents/" ++ "I1")
      none = .ok incidentGetRequest :=
  ⟨rfl, rfl⟩

/-- Witness for C20: with a 404 envelope `UsersService.List`,
`IncidentsService.Get` and `SeveritiesService.List` return the nil result, the
response and the `*ErrorResponse`; with a malformed 200 body the first two
return the nil result, the response and the decode error. -/
theorem resource_methods_pass_on_witness :
    (UsersService.List plainURLLib (clientOver (cannedHTTPClient 404 body404)) none =
        .returned ⟨[], some { StatusCode := 404, Request := some usersRequest },
          some (.api errorResponse404)⟩ ∧
      IncidentsService.Get plainURLLib unmarshalIncidentHead
          (clientOver (cannedHTTPClient 404 body404)) "I1" =
        .returned ⟨none, some { StatusCode := 404, Request := some incidentGetRequest },
          some (.api errorResponse404)⟩ ∧
      SeveritiesService.List plainURLLib (unmarshalNothing (R := SeveritiesResult Unit))
          (clientOver (cannedHTTPClient 404 body404)) =
        .returned ⟨[], some { StatusCode := 404, Request := some severitiesRequest },
          some (.api errorResponse404)⟩) ∧
    (UsersService.List plainURLLib
          (clientOver (cannedHTTPClient 200 "\x7b\"invalid\": json\x7d")) none =
        .returned ⟨[], some { StatusCode := 200, Request := some usersRequest },
          some (.malformed "looking for beginning of value")⟩ ∧
      IncidentsService.Get plainURLLib unmarshalIncidentHead
          (clientOver (cannedHTTPClient 200 "\x7b\"invalid\": json\x7d")) "I1" =
        .returned ⟨none, some { StatusCode := 200, Request := some incidentGetRequest },
          some (.malformed "looking for beginning of value")⟩) :=
  have h404 := @resource_methods_pass_on Unit Unit Unit IncidentHead Unit Unit Unit Unit
    Unit Unit Unit Unit Unit Unit plainURLLib (clientOver (cannedHTTPClient 404 body404))
    unmarshalNothing unmarshalNothing unmarshalNothing unmarshalNothing unmarshalIncidentHead
    unmarshalNothing unmarshalNothing unmarshalNothing unmarshalNothing unmarshalNothing
    unmarshalNothing (encodePtr encodeEmptyStruct) (encodePtr encodeEmptyStruct)
    (encodePtr encodeEmptyStruct) (encodePtr encodeEmptyStruct) (encodePtr encodeEmptyStruct)
    (encodePtr encodeEmptyStruct) "I1" "S1" "O1" none none none none none none none none none
  have hbad := @resource_methods_pass_on Unit Unit Unit IncidentHead Unit Unit Unit Unit
    Unit Unit Unit Unit Unit Unit plainURLLib
    (clientOver (cannedHTTPClient 200 "\x7b\"invalid\": json\x7d"))
    unmarshalNothing unmarshalNothing unmarshalNothing unmarshalNothing unmarshalIncidentHead
    unmarshalNothing unmarshalNothing unmarshalNothing unmarshalNothing unmarshalNothing
    unmarshalNothing (encodePtr encodeEmptyStruct) (encodePtr encodeEmptyStruct)
    (encodePtr encodeEmptyStruct) (encodePtr encodeEmptyStruct) (encodePtr encodeEmptyStruct)
    (encodePtr encodeEmptyStruct) "I1" "S1" "O1" none none none none none none none none none
  ⟨⟨(h404.2.2.2.2.2.2.2.2.2.2.2.2.2.2.2.2.2 usersRequest rfl).1 _ (by decide),
    (h404.2.2.2.2.1 incidentGetRequest rfl).1 _ (by decide),
    (h404.2.2.2.2.2.2.2.2.2.2.2.2.2.2.2.2.1 severitiesRequest rfl).1 _ (by decide)⟩,
   ⟨(hbad.2.2.2.2.2.2.2.2.2.2.2.2.2.2.2.2.2 usersRequest rfl).1 _ (by decide),
    (hbad.2.2.2.2.1 incidentGetRequest rfl).1 _ (by decide)⟩⟩

/-- On a 200 with a well-formed body the two methods return the values under
`users` and `incident`. -/
theorem resource_methods_success_example :
    UsersService.List plainURLLib (clientOver (cannedHTTPClient 200 bodyUserAndIncident)) none =
      .returned ⟨[some { ID := "U1", Name := "Ann" }],
        some { StatusCode := 200, Request := some usersRequest }, none⟩ ∧
    IncidentsService.Get plainURLLib unmarshalIncidentHead
        (clientOver (cannedHTTPClient 200 bodyUserAndIncident)) "I1" =
      .returned ⟨some { ID := "I1", Name := "DB down" },
        some { StatusCode := 200, Request := some incidentGetRequest }, none⟩ :=
  ⟨by decide, by decide⟩

/-! ### Digits -/

theorem digitChar_isDigit (d : Nat) (h : d < 10) : (digitChar d).isDigit = true := by
  interval_cases d <;> rfl

theorem digitVal_digitChar (d : Nat) (h : d < 10) : digitVal (digitChar d) = d := by
  interval_cases d <;> rfl

/-- Two digits read back as the number they write. -/
theorem getnum_twoDigits (n : Nat) (h : n < 100) (rest : List Char) (fixed : Bool) :
    getnum (twoDigits n ++ rest) fixed = some (n, rest) := by
  have h1 : n / 10 < 10 := by omega
  have h2 : n % 10 < 10 := by omega
  simp only [twoDigits, List.cons_append, List.nil_append, getnum, digitChar_isDigit _ h1,
    digitChar_isDigit _ h2, digitVal_digitChar _ h1, digitVal_digitChar _ h2, if_true]
  congr 2
  omega

/-- Four digits read back as the year they write. -/
theorem parseYear_fourDigits (n : Nat) (h : n < 10000) (rest : List Char) :
    parseYear (fourDigits n ++ rest) = some (n, rest) := by
  have h1 : n / 1000 < 10 := by omega
  have h2 : n / 100 % 10 < 10 := by omega
  have h3 : n / 10 % 10 < 10 := by omega
  have h4 : n % 10 < 10 := by omega
  simp only [fourDigits, List.cons_append, List.nil_append, parseYear, digitChar_isDigit _ h1,
    digitChar_isDigit _ h2, digitChar_isDigit _ h3, digitChar_isDigit _ h4,
    digitVal_digitChar _ h1, digitVal_digitChar _ h2, digitVal_digitChar _ h3,
    digitVal_digitChar _ h4, and_self, if_true]
  congr 2
  omega

/-- The text of a zone within a day reads back as the offset it denotes. -/
theorem parseZone_text (zone : ZoneText)
    (hz : match zone with
      | .utc => True
      | .numeric _ h m => h < 24 ∧ m < 60) :
    parseZone zone.text = some (zone.offset, []) := by
  cases zone with
  | utc => rfl
  | numeric negative h m =>
    obtain ⟨hh, hm⟩ := hz
    have h1 : h / 10 < 10 := by omega
    have h2 : h % 10 < 10 := by omega
    have h3 : m / 10 < 10 := by omega
    have h4 : m % 10 < 10 := by omega
    have e1 : h / 10 * 10 + h % 10 = h := by omega
    have e2 : m / 10 * 10 + m % 10 = m := by omega
    have hr : ¬(h > 24 ∨ m > 60) := by omega
    cases negative <;>
      simp [ZoneText.text, ZoneText.offset, twoDigits, parseZone, digitChar_isDigit _ h1,
        digitChar_isDigit _ h2, digitChar_isDigit _ h3, digitChar_isDigit _ h4,
        digitVal_digitChar _ h1, digitVal_digitChar _ h2, digitVal_digitChar _ h3,
        digitVal_digitChar _ h4, e1, e2, hr]

/-- The text of a zone does not begin with a digit, a period or a comma. -/
theorem zone_text_head (zone : ZoneText) :
    ∃ c rest, zone.text = c :: rest ∧ c.isDigit = false ∧ c ≠ '.' ∧ c ≠ ',' := by
  cases zone with
  | utc => exact ⟨'Z', [], rfl, by decide, by decide, by decide⟩
  | numeric negative h m =>
    cases negative
    · exact ⟨'+', _, rfl, by decide, by decide, by decide⟩
    · exact ⟨'-', _, rfl, by decide, by decide, by decide⟩

/-- Digits before a character that is no digit: the run of digits is the
digits. -/
theorem takeWhile_digits (ds : List Nat) (hds : ∀ d ∈ ds, d < 10) (c : Char) (rest : List Char)
    (hc : c.isDigit = false) :
    (ds.map digitChar ++ c :: rest).takeWhile Char.isDigit = ds.map digitChar ∧
      (ds.map digitChar ++ c :: rest).dropWhile Char.isDigit = c :: rest := by
  induction ds with
  | nil => simp [List.takeWhile, List.dropWhile, hc]
  | cons d ds ih =>
    have hd := digitChar_isDigit d (hds d (List.mem_cons_self _ _))
    have ih2 := ih (fun x hx => hds x (List.mem_cons_of_mem _ hx))
    simp [List.takeWhile, List.dropWhile, hd, ih2.1, ih2.2]

/-- The value read from digit characters is the value of the digits. -/
theorem foldl_digitChars (ds : List Nat) (hds : ∀ d ∈ ds, d < 10) (a : Nat) :
    (ds.map digitChar).foldl (fun acc c => acc * 10 + digitVal c) a =
      ds.foldl (fun acc d => acc * 10 + d) a := by
  induction ds generalizing a with
  | nil => rfl
  | cons d ds ih =>
    simp only [List.map_cons, List.foldl_cons,
      digitVal_digitChar d (hds d (List.mem_cons_self _ _))]
    exact ih (fun x hx => hds x (List.mem_cons_of_mem _ hx)) _

/-- The digits after the period give the value in nanoseconds of the first
nine of them. -/
theorem fractionNanos_digits (ds : List Nat) (hds : ∀ d ∈ ds, d < 10) :
    fractionNanos (ds.map digitChar) = fractionValue (ds.take 9) := by
  have htake : (ds.map digitChar).take 9 = (ds.take 9).map digitChar := by
    rw [List.map_take]
  simp only [fractionNanos, fractionValue, htake, List.length_map,
    foldl_digitChars (ds.take 9) (fun d hd => hds d (List.mem_of_mem_take hd))]

/-- The fraction of the profile, followed by a zone, reads back as its value. -/
theorem parseFraction_text (frac : List Nat) (hds : ∀ d ∈ frac, d < 10) (zone : ZoneText) :
    parseFraction (fractionText frac ++ zone.text) = (fractionValue (frac.take 9), zone.text) := by
  obtain ⟨c, rest, hz, hdig, hp, hcm⟩ := zone_text_head zone
  cases frac with
  | nil =>
    rw [hz]
    simp only [fractionText, if_true, List.nil_append, fractionValue, List.take_nil,
      List.foldl_nil, Nat.zero_mul]
    cases rest with
    | nil => rfl
    | cons x xs => simp [parseFraction, hp, hcm]
  | cons d ds =>
    have hd := digitChar_isDigit d (hds d (List.mem_cons_self _ _))
    have htw := takeWhile_digits ds (fun x hx => hds x (List.mem_cons_of_mem _ hx)) c rest hdig
    have hval := fractionNanos_digits (d :: ds) hds
    rw [hz]
    simp only [fractionText, List.cons_ne_nil, if_false, List.map_cons, List.cons_append,
      parseFraction, hd, true_or, and_self, if_true, htw.1, htw.2]
    rw [← hval]
    rfl

/-- The text of a date-time of the profile parses to the date, time, fraction
(to the nanosecond) and offset it is made of. -/
theorem timeParse_profileText (year month day hour min sec : Nat) (frac : List Nat)
    (zone : ZoneText) (h : ProfileFields year month day hour min sec frac zone) :
    timeParseRFC3339 (profileText year month day hour min sec frac zone) =
      some { year := year, month := month, day := day, hour := hour, min := min, sec := sec,
             nsec := fractionValue (frac.take 9), offset := zone.offset } := by
  obtain ⟨hy, hm1, hm12, hd1, hdin, hh, hmi, hs, hfrac, hz⟩ := h
  have hday : day < 100 := by
    have : daysIn month year ≤ 31 := by
      unfold daysIn
      split_ifs <;> omega
    omega
  simp only [profileText, timeParseRFC3339, List.append_assoc, List.cons_append,
    parseYear_fourDigits year hy, skipChar, if_true,
    getnum_twoDigits month (by omega), getnum_twoDigits day hday,
    getnum_twoDigits hour (by omega), getnum_twoDigits min (by omega),
    getnum_twoDigits sec (by omega), parseFraction_text frac hfrac zone,
    parseZone_text zone hz]
  have c1 : ¬(month = 0 ∨ 12 < month) := by omega
  have c2 : ¬(24 ≤ hour) := by omega
  have c3 : ¬(60 ≤ min) := by omega
  have c4 : ¬(60 ≤ sec) := by omega
  simp only [c1, c2, c3, c4, if_false, ne_eq, not_true_eq_false]
  rw [if_neg (by omega)]

/-! ### String literals of plain characters -/

theorem unescape_plain (cs : List Char) (h : ∀ c ∈ cs, plainChar c = true) :
    unescape cs = cs.map .char := by
  induction cs with
  | nil => rfl
  | cons c rest ih =>
    have hc := h c (List.mem_cons_self _ _)
    have hne : c ≠ '\\' := by
      simp only [plainChar, Bool.and_eq_true, bne_iff_ne, ne_eq] at hc
      exact hc.1.1.2
    have ih2 := ih (fun x hx => h x (List.mem_cons_of_mem _ hx))
    unfold unescape
    split
    · rename_i heq
      cases heq
    · rename_i heq
      cases heq
      exact absurd rfl hne
    · rename_i heq
      cases heq
      exact absurd rfl hne
    · rename_i heq
      cases heq
      rw [ih2]
      rfl

theorem combineUnits_chars (cs : List Char) : combineUnits (cs.map .char) = cs := by
  induction cs with
  | nil => rfl
  | cons c rest ih => simp [combineUnits, ih]

/-- The content of a string literal of plain characters is the characters. -/
theorem unquote_plain (cs : List Char) (h : ∀ c ∈ cs, plainChar c = true) :
    unquote cs = String.mk cs := by
  simp [unquote, unescape_plain cs h, combineUnits_chars]

/-- Inside a string literal the scanner takes plain characters up to the
closing quote, and the top-level string is complete there. -/
theorem scan_plain_string (cs : List Char) (h : ∀ c ∈ cs, plainChar c = true)
    (acc rest : List Char) :
    scan ⟨[], .inString acc⟩ (cs ++ '"' :: rest) =
      .value (.str (unquote (acc.reverse ++ cs))) rest := by
  induction cs generalizing acc with
  | nil => simp [scan, step, complete]
  | cons c tail ih =>
    have hc := h c (List.mem_cons_self _ _)
    simp only [plainChar, Bool.and_eq_true, bne_iff_ne, ne_eq, Bool.not_eq_true',
      decide_eq_false_iff_not] at hc
    obtain ⟨⟨⟨h1, h2⟩, h3⟩, _⟩ := hc
    have ih2 := ih (fun x hx => h x (List.mem_cons_of_mem _ hx)) (c :: acc)
    simp only [List.cons_append, scan, step, h1, h2, h3, if_false]
    exact ih2.trans (by simp)

/-- A quoted run of plain characters is the JSON document of that string. -/
theorem parseDocument_quoted (cs : List Char) (h : ∀ c ∈ cs, plainChar c = true) :
    parseDocument ('"' :: cs ++ ['"']) = .ok (.str (String.mk cs)) := by
  have hs := scan_plain_string cs h [] []
  simp only [List.reverse_nil, List.nil_append] at hs
  simp [parseDocument, scanValue, scan, step, stepBeginValue, hs, isSpace,
    unquote_plain cs h]

/-- The encoder writes a string of plain characters between quotes, as it is. -/
theorem encodeString_plain (cs : List Char) (h : ∀ c ∈ cs, plainChar c = true) :
    encodeString true cs = '"' :: cs ++ ['"'] := by
  have hflat : cs.flatMap (encodeRune true) = cs := by
    induction cs with
    | nil => rfl
    | cons c rest ih =>
      have hc := h c (List.mem_cons_self _ _)
      simp only [plainChar, Bool.and_eq_true, beq_iff_eq] at hc
      simp [List.flatMap_cons, hc.2, ih (fun x hx => h x (List.mem_cons_of_mem _ hx))]
  simp [encodeString, hflat]

/-! ### The characters of a formatted time -/

theorem plainChar_digitChar (d : Nat) (h : d < 10) : plainChar (digitChar d) = true := by
  interval_cases d <;> decide

theorem plainChar_natDigitChar (d : Nat) (h : d < 10) : plainChar (Nat.digitChar d) = true := by
  interval_cases d <;> decide

theorem toDigitsCore_plain (fuel n : Nat) (ds : List Char)
    (hds : ∀ c ∈ ds, plainChar c = true) :
    ∀ c ∈ Nat.toDigitsCore 10 fuel n ds, plainChar c = true := by
  induction fuel generalizing n ds with
  | zero => simpa [Nat.toDigitsCore] using hds
  | succ fuel ih =>
    have hd : plainChar (Nat.digitChar (n % 10)) = true :=
      plainChar_natDigitChar _ (Nat.mod_lt _ (by decide))
    have hcons : ∀ c ∈ Nat.digitChar (n % 10) :: ds, plainChar c = true := by
      intro c hc
      rcases List.mem_cons.mp hc with rfl | hc
      · exact hd
      · exact hds c hc
    unfold Nat.toDigitsCore
    simp only
    split
    · exact hcons
    · exact ih _ _ hcons

theorem appendInt_plain (x : Int) (width : Nat) : ∀ c ∈ appendInt x width, plainChar c = true := by
  have hsign : ∀ c ∈ (if x < 0 then ['-'] else []), plainChar c = true := by
    intro c hc
    split at hc
    · simp only [List.mem_singleton] at hc
      subst hc
      decide
    · cases hc
  intro c hc
  unfold appendInt at hc
  simp only at hc
  split at hc
  · rename_i h
    rcases List.mem_append.mp hc with hc | hc
    · exact hsign c hc
    · simp only [List.mem_cons, List.mem_singleton, List.not_mem_nil, or_false] at hc
      rcases hc with rfl | rfl
      · exact plainChar_digitChar _ (by omega)
      · exact plainChar_digitChar _ (by omega)
  · split at hc
    · rename_i h
      rcases List.mem_append.mp hc with hc | hc
      · exact hsign c hc
      · simp only [List.mem_cons, List.mem_singleton, List.not_mem_nil, or_false] at hc
        rcases hc with rfl | rfl | rfl | rfl
        · exact plainChar_digitChar _ (by omega)
        · exact plainChar_digitChar _ (by omega)
        · exact plainChar_digitChar _ (by omega)
        · exact plainChar_digitChar _ (by omega)
    · rcases List.mem_append.mp hc with hc | hc
      · rcases List.mem_append.mp hc with hc | hc
        · exact hsign c hc
        · rw [List.eq_of_mem_replicate hc]
          decide
      · exact toDigitsCore_plain _ _ [] (fun _ h => by cases h) c hc

theorem plain_cons (c : Char) (l : List Char) (hc : plainChar c = true)
    (hl : ∀ x ∈ l, plainChar x = true) : ∀ x ∈ c :: l, plainChar x = true := by
  intro x hx
  rcases List.mem_cons.mp hx with rfl | hx
  · exact hc
  · exact hl x hx

theorem plain_append (a b : List Char) (ha : ∀ x ∈ a, plainChar x = true)
    (hb : ∀ x ∈ b, plainChar x = true) : ∀ x ∈ a ++ b, plainChar x = true := by
  intro x hx
  rcases List.mem_append.mp hx with hx | hx
  · exact ha x hx
  · exact hb x hx

theorem formatZone_plain (offset : Int) : ∀ c ∈ formatZone offset, plainChar c = true := by
  unfold formatZone
  split
  · exact plain_cons _ _ (by decide) (fun _ h => by cases h)
  · simp only [List.append_assoc, List.cons_append]
    exact plain_cons _ _ (by split <;> decide)
      (plain_append _ _ (appendInt_plain _ _)
        (plain_cons _ _ (by decide) (appendInt_plain _ _)))

/-- Every character of a formatted time is written and read as it is in a
JSON string. -/
theorem formatRFC3339_plain (t : Time) : ∀ c ∈ t.formatRFC3339, plainChar c = true := by
  simp only [Time.formatRFC3339, List.append_assoc, List.cons_append]
  exact plain_append _ _ (appendInt_plain _ _) <| plain_cons _ _ (by decide) <|
    plain_append _ _ (appendInt_plain _ _) <| plain_cons _ _ (by decide) <|
    plain_append _ _ (appendInt_plain _ _) <| plain_cons _ _ (by decide) <|
    plain_append _ _ (appendInt_plain _ _) <| plain_cons _ _ (by decide) <|
    plain_append _ _ (appendInt_plain _ _) <| plain_cons _ _ (by decide) <|
    plain_append _ _ (appendInt_plain _ _) (formatZone_plain _)

/-! ### Formatting and the profile -/

theorem appendInt_two (n : Nat) (h : n < 100) : appendInt (n : Int) 2 = twoDigits n := by
  have hneg : ¬((n : Int) < 0) := by omega
  simp [appendInt, twoDigits, h, hneg]

theorem appendInt_year (y : Int) (h0 : 0 ≤ y) (h1 : y ≤ 9999) :
    appendInt y 4 = fourDigits y.toNat := by
  have hneg : ¬(y < 0) := by omega
  have habs : y.natAbs = y.toNat := by omega
  have hlt : y.toNat < 10000 := by omega
  simp [appendInt, fourDigits, hneg, habs, hlt]

/-- The zone of a formatted time with an offset of whole minutes, less than a
day, is the zone text of that offset, which denotes the offset. -/
theorem formatZone_zoneOf (offset : Int) (hmin : offset % 60 = 0) (hlo : -86400 < offset)
    (hhi : offset < 86400) :
    formatZone offset = (zoneOf offset).text ∧ (zoneOf offset).offset = offset ∧
      (match zoneOf offset with
        | .utc => True
        | .numeric _ h m => h < 24 ∧ m < 60) := by
  by_cases h0 : offset = 0
  · subst h0
    exact ⟨rfl, rfl, trivial⟩
  · have hdvd : (60 : Int) ∣ offset := Int.dvd_of_emod_eq_zero hmin
    have htd : offset.tdiv 60 = offset / 60 := Int.tdiv_eq_ediv_of_dvd hdvd
    have habs : (offset / 60).natAbs = offset.natAbs / 60 := by omega
    have hh : offset.natAbs / 60 / 60 = offset.natAbs / 3600 := by omega
    have hhr : offset.natAbs / 3600 < 24 := by omega
    have hmm : offset.natAbs / 60 % 60 < 60 := by omega
    refine ⟨?_, ?_, ?_⟩
    · simp only [formatZone, h0, if_false, htd, habs, hh, zoneOf, ZoneText.text,
        appendInt_two _ (show offset.natAbs / 3600 < 100 by omega),
        appendInt_two _ (show offset.natAbs / 60 % 60 < 100 by omega)]
      by_cases hneg : offset < 0
      · have : offset / 60 < 0 := by omega
        simp [hneg, this]
      · have : ¬(offset / 60 < 0) := by omega
        simp [hneg, this]
    · simp only [zoneOf, h0, if_false, ZoneText.offset]
      by_cases hneg : offset < 0
      · simp only [hneg, decide_True, if_true]
        omega
      · simp only [hneg, decide_False, Bool.false_eq_true, if_false]
        omega
    · simp only [zoneOf, h0, if_false]
      exact ⟨hhr, hmm⟩

/-- A time in the range of the profile is formatted as the text of the profile
without a fraction. -/
theorem formatRFC3339_profile (t : Time) (h : t.InProfileRange) :
    t.formatRFC3339 =
      profileText t.year.toNat t.month t.day t.hour t.min t.sec [] (zoneOf t.offset) ∧
    ProfileFields t.year.toNat t.month t.day t.hour t.min t.sec [] (zoneOf t.offset) ∧
    (zoneOf t.offset).offset = t.offset := by
  obtain ⟨⟨hm1, hm12, hd1, hdin, hh, hmi, hs, hn⟩, hy0, hy1, hmin, hlo, hhi⟩ := h
  obtain ⟨hz1, hz2, hz3⟩ := formatZone_zoneOf t.offset hmin hlo hhi
  have hday : t.day < 100 := by
    have : daysIn t.month t.year ≤ 31 := by
      unfold daysIn
      split_ifs <;> omega
    omega
  have hyear : ((t.year.toNat : Nat) : Int) = t.year := by omega
  refine ⟨?_, ⟨by omega, hm1, hm12, hd1, (by rw [hyear]; exact hdin), hh, hmi, hs,
    (fun _ hd => by cases hd), hz3⟩, hz2⟩
  simp only [Time.formatRFC3339, profileText, appendInt_year t.year hy0 hy1,
    appendInt_two t.month (by omega), appendInt_two t.day hday, appendInt_two t.hour (by omega),
    appendInt_two t.min (by omega), appendInt_two t.sec (by omega), hz1, fractionText,
    if_true, List.append_nil]

/-- Decoding the text of a formatted time in the range of the profile gives
the time without its fraction of a second. -/
theorem unmarshal_formatted (t0 : Timestamp) (t : Time) (h : t.InProfileRange) :
    Timestamp.UnmarshalJSON t0 ('"' :: t.formatRFC3339 ++ ['"']) =
      ({ t0 with Time := t.truncateToSecond }, none) := by
  obtain ⟨htext, hfields, hoff⟩ := formatRFC3339_profile t h
  have hparse := timeParse_profileText _ _ _ _ _ _ _ _ hfields
  have hyear : ((t.year.toNat : Nat) : Int) = t.year := by
    have := h.2.1
    omega
  simp only [Timestamp.UnmarshalJSON, jsonUnmarshalString,
    parseDocument_quoted _ (formatRFC3339_plain t), String.toList]
  rw [htext, hparse]
  simp [Time.truncateToSecond, fractionValue, hoff, hyear]

/-! ### What the parser accepts -/

theorem parseYear_shape (s rest : List Char) (n : Nat) (h : parseYear s = some (n, rest)) :
    ∃ y, s = y ++ rest ∧ Digits 4 y := by
  unfold parseYear at h
  split at h
  · rename_i a b c d r
    split at h
    · rename_i hd
      cases h
      refine ⟨[a, b, c, d], rfl, rfl, ?_⟩
      intro x hx
      simp only [List.mem_cons, List.mem_singleton, List.not_mem_nil, or_false] at hx
      rcases hx with rfl | rfl | rfl | rfl
      · exact hd.1
      · exact hd.2.1
      · exact hd.2.2.1
      · exact hd.2.2.2
    · cases h
  · cases h

theorem getnum_shape (s rest : List Char) (n : Nat) (fixed : Bool)
    (h : getnum s fixed = some (n, rest)) :
    ∃ ds, s = ds ++ rest ∧ (Digits 2 ds ∨ (fixed = false ∧ Digits 1 ds)) ∧ n < 100 := by
  have hval : ∀ c : Char, c.isDigit = true → digitVal c < 10 := by
    intro c hc
    simp only [Char.isDigit, Bool.and_eq_true, decide_eq_true_eq] at hc
    have h1 : 48 ≤ c.toNat := hc.1
    have h2 : c.toNat ≤ 57 := hc.2
    unfold digitVal
    omega
  unfold getnum at h
  split at h
  · rename_i a b r
    split at h
    · rename_i ha
      split at h
      · rename_i hb
        cases h
        refine ⟨[a, b], rfl, Or.inl ⟨rfl, ?_⟩, ?_⟩
        · intro x hx
          simp only [List.mem_cons, List.mem_singleton, List.not_mem_nil, or_false] at hx
          rcases hx with rfl | rfl
          · exact ha
          · exact hb
        · have := hval a ha
          have := hval b hb
          omega
      · split at h
        · cases h
        · rename_i hfixed
          cases h
          refine ⟨[a], rfl, Or.inr ⟨by simpa using hfixed, rfl, ?_⟩, ?_⟩
          · intro x hx
            simp only [List.mem_singleton] at hx
            subst hx
            exact ha
          · have := hval a ha
            omega
    · cases h
  · rename_i a
    split at h
    · rename_i hc
      cases h
      refine ⟨[a], rfl, Or.inr ⟨by simpa using hc.2, rfl, ?_⟩, ?_⟩
      · intro x hx
        simp only [List.mem_singleton] at hx
        subst hx
        exact hc.1
      · have := hval a hc.1
        omega
    · cases h
  · cases h

theorem skipChar_shape (c : Char) (s rest : List Char) (h : skipChar c s = some rest) :
    s = c :: rest := by
  unfold skipChar at h
  split at h
  · split at h
    · rename_i hx
      cases h
      rw [hx]
    · cases h
  · cases h

theorem parseFraction_shape (s rest : List Char) (n : Nat) (h : parseFraction s = (n, rest)) :
    ∃ f, s = f ++ rest ∧ LaxFraction f := by
  unfold parseFraction at h
  split at h
  · rename_i sep d r
    split at h
    · rename_i hc
      cases h
      refine ⟨sep :: d :: r.takeWhile Char.isDigit, ?_, Or.inr ⟨sep, d :: r.takeWhile Char.isDigit,
        rfl, hc.1, by simp, ?_⟩⟩
      · simp [List.takeWhile_append_dropWhile]
      · intro x hx
        rcases List.mem_cons.mp hx with rfl | hx
        · exact hc.2
        · exact (List.mem_takeWhile_imp hx)
    · cases h
      exact ⟨[], rfl, Or.inl rfl⟩
  · cases h
    exact ⟨[], rfl, Or.inl rfl⟩

theorem parseZone_shape (s rest : List Char) (n : Int) (h : parseZone s = some (n, rest)) :
    ∃ z, s = z ++ rest ∧ LaxZone z := by
  unfold parseZone at h
  split at h
  · cases h
    exact ⟨['Z'], rfl, Or.inl rfl⟩
  · rename_i sign h1 h2 colon m1 m2 r _
    split at h
    · rename_i hc
      have hdig : Digits 2 [h1, h2] ∧ Digits 2 [m1, m2] := by
        refine ⟨⟨rfl, ?_⟩, ⟨rfl, ?_⟩⟩
        · intro x hx
          simp only [List.mem_cons, List.mem_singleton, List.not_mem_nil, or_false] at hx
          rcases hx with rfl | rfl
          · exact hc.2.1
          · exact hc.2.2.1
        · intro x hx
          simp only [List.mem_cons, List.mem_singleton, List.not_mem_nil, or_false] at hx
          rcases hx with rfl | rfl
          · exact hc.2.2.2.1
          · exact hc.2.2.2.2
      simp only at h
      split at h
      · cases h
      · split at h
        · rename_i hs
          cases h
          refine ⟨sign :: ([h1, h2] ++ ':' :: [m1, m2]), ?_, Or.inr ⟨sign, [h1, h2], [m1, m2], rfl,
            Or.inl hs, hdig.1, hdig.2⟩⟩
          simp [hc.1]
        · split at h
          · rename_i hs
            cases h
            refine ⟨sign :: ([h1, h2] ++ ':' :: [m1, m2]), ?_, Or.inr ⟨sign, [h1, h2], [m1, m2],
              rfl, Or.inr hs, hdig.1, hdig.2⟩⟩
            simp [hc.1]
          · cases h
    · cases h
  · cases h

theorem foldl_digits_lt (l : List Char) (hl : ∀ c ∈ l, c.isDigit = true) (a : Nat) :
    l.foldl (fun acc c => acc * 10 + digitVal c) a < (a + 1) * 10 ^ l.length := by
  induction l generalizing a with
  | nil => simp
  | cons c cs ih =>
    have hc : digitVal c < 10 := by
      have h := hl c (List.mem_cons_self _ _)
      simp only [Char.isDigit, Bool.and_eq_true, decide_eq_true_eq] at h
      have h1 : 48 ≤ c.toNat := h.1
      have h2 : c.toNat ≤ 57 := h.2
      unfold digitVal
      omega
    have h := ih (fun x hx => hl x (List.mem_cons_of_mem _ hx)) (a * 10 + digitVal c)
    simp only [List.foldl_cons, List.length_cons]
    refine lt_of_lt_of_le h ?_
    rw [pow_succ, ← mul_assoc]
    have : a * 10 + digitVal c + 1 ≤ (a + 1) * 10 := by omega
    calc (a * 10 + digitVal c + 1) * 10 ^ cs.length
        ≤ ((a + 1) * 10) * 10 ^ cs.length := Nat.mul_le_mul_right _ this
      _ = (a + 1) * 10 ^ cs.length * 10 := by ring

theorem fractionNanos_lt (l : List Char) (hl : ∀ c ∈ l, c.isDigit = true) :
    fractionNanos l < 1000000000 := by
  unfold fractionNanos
  have h := foldl_digits_lt (l.take 9) (fun c hc => hl c (List.mem_of_mem_take hc)) 0
  have hlen : (l.take 9).length ≤ 9 := by simp
  generalize (l.take 9).length = k at h hlen
  generalize (List.take 9 l).foldl (fun acc c => acc * 10 + digitVal c) 0 = x at h
  simp only [zero_add, one_mul] at h
  have h2 : x * 10 ^ (9 - k) < 10 ^ k * 10 ^ (9 - k) :=
    Nat.mul_lt_mul_of_pos_right h (by positivity)
  rw [← pow_add, Nat.add_sub_cancel' hlen] at h2
  exact h2

theorem parseFraction_lt (s : List Char) : (parseFraction s).1 < 1000000000 := by
  unfold parseFraction
  split
  · rename_i sep d r
    split
    · rename_i hc
      refine fractionNanos_lt _ ?_
      intro x hx
      rcases List.mem_cons.mp hx with rfl | hx
      · exact hc.2
      · exact (List.mem_takeWhile_imp hx)
    · exact Nat.zero_lt_succ _
  · exact Nat.zero_lt_succ _

theorem timeParse_shape (s : List Char) (t : Time) (h : timeParseRFC3339 s = some t) :
    LaxShape s ∧ t.Valid := by
  unfold timeParseRFC3339 at h
  split at h
  · cases h
  rename_i year s1 hyear
  split at h
  · cases h
  rename_i s2 hd1
  split at h
  · cases h
  rename_i month s3 hmonth
  split at h
  · cases h
  rename_i hmr
  split at h
  · cases h
  rename_i s4 hd2
  split at h
  · cases h
  rename_i day s5 hday
  split at h
  · cases h
  rename_i s6 hT
  split at h
  · cases h
  rename_i hour s7 hhour
  split at h
  · cases h
  rename_i hhr
  split at h
  · cases h
  rename_i s8 hc1
  split at h
  · cases h
  rename_i min s9 hmin
  split at h
  · cases h
  rename_i hminr
  split at h
  · cases h
  rename_i s10 hc2
  split at h
  · cases h
  rename_i sec s11 hsec
  split at h
  · cases h
  rename_i hsecr
  split at h
  rename_i nsec s12 hfrac
  split at h
  · cases h
  rename_i offset s13 hzone
  split at h
  · cases h
  rename_i hend
  split at h
  · cases h
  rename_i hdayr
  cases h
  have hs13 : s13 = [] := by simpa using hend
  subst hs13
  obtain ⟨y, ey, hy⟩ := parseYear_shape _ _ _ hyear
  have e1 := skipChar_shape _ _ _ hd1
  obtain ⟨mo, emo, hmo, _⟩ := getnum_shape _ _ _ _ hmonth
  have e2 := skipChar_shape _ _ _ hd2
  obtain ⟨dd, edd, hdd, _⟩ := getnum_shape _ _ _ _ hday
  have e3 := skipChar_shape _ _ _ hT
  obtain ⟨hh, ehh, hhh, _⟩ := getnum_shape _ _ _ _ hhour
  have e4 := skipChar_shape _ _ _ hc1
  obtain ⟨mi, emi, hmi, _⟩ := getnum_shape _ _ _ _ hmin
  have e5 := skipChar_shape _ _ _ hc2
  obtain ⟨se, ese, hse, _⟩ := getnum_shape _ _ _ _ hsec
  obtain ⟨f, ef, hf⟩ := parseFraction_shape _ _ _ hfrac
  obtain ⟨z, ez, hz⟩ := parseZone_shape _ _ _ hzone
  have fixedTwo : ∀ ds : List Char, (Digits 2 ds ∨ (true = false ∧ Digits 1 ds)) → Digits 2 ds := by
    intro ds hds
    rcases hds with hds | ⟨hf, _⟩
    · exact hds
    · cases hf
  constructor
  · refine ⟨y, mo, dd, hh, mi, se, f, z, ?_, hy, fixedTwo _ hmo, fixedTwo _ hdd, ?_,
      fixedTwo _ hmi, fixedTwo _ hse, hf, hz⟩
    · rw [ey, e1, emo, e2, edd, e3, ehh, e4, emi, e5, ese, ef, ez]
      simp
    · rcases hhh with hhh | ⟨_, hhh⟩
      · exact Or.inr hhh
      · exact Or.inl hhh
  · have hn : nsec < 1000000000 := by
      have := parseFraction_lt s11
      rw [hfrac] at this
      exact this
    unfold Time.Valid
    simp only
    omega

/-! ### The `Timestamp` codec -/

/-- C12, as amended: for every instant `x` whose year has four digits
(0 to 9999) and whose zone offset is a whole number of minutes, less than a day,
`MarshalJSON` returns no error, and `UnmarshalJSON` of the text it returns
succeeds and yields `x` truncated to whole seconds, in the same zone; it
yields `x` itself when `x` has no fraction of a second. -/
theorem Timestamp_round_trip (t0 x : Timestamp) (h : x.Time.InProfileRange) :
    (Timestamp.MarshalJSON x).2 = none ∧
      Timestamp.UnmarshalJSON t0 (Timestamp.MarshalJSON x).1 =
        ({ Time := x.Time.truncateToSecond }, none) ∧
      (x.Time.nsec = 0 → Timestamp.UnmarshalJSON t0 (Timestamp.MarshalJSON x).1 = (x, none)) := by
  have henc : (Timestamp.MarshalJSON x).1 = '"' :: x.Time.formatRFC3339 ++ ['"'] :=
    encodeString_plain _ (formatRFC3339_plain x.Time)
  have hdec := unmarshal_formatted t0 x.Time h
  refine ⟨rfl, ?_, ?_⟩
  · rw [henc, hdec]
  · intro hn
    rw [henc, hdec]
    obtain ⟨⟨year, month, day, hour, min, sec, nsec, offset⟩⟩ := x
    have hn2 : nsec = 0 := hn
    subst hn2
    rfl

/-- The round trip at the instant of the tests, 2021-08-17 13:28:57.801578 UTC,
and at the same instant without the fraction. -/
theorem Timestamp_round_trip_witness :
    (exampleInstant.InProfileRange ∧
      Timestamp.UnmarshalJSON {} (Timestamp.MarshalJSON ⟨exampleInstant⟩).1 =
        (⟨exampleSecond⟩, none)) ∧
    Timestamp.UnmarshalJSON {} (Timestamp.MarshalJSON ⟨exampleSecond⟩).1 =
      (⟨exampleSecond⟩, none) :=
  ⟨⟨by decide, (Timestamp_round_trip {} ⟨exampleInstant⟩ (by decide)).2.1⟩,
   (Timestamp_round_trip {} ⟨exampleSecond⟩ (by decide)).2.2 rfl⟩

/-- C12, as stated, fails for instants that the layout cannot write back in a
form it reads. The first instant of the year 10000, in UTC, is encoded as
`"10000-01-01T00:00:00Z"` without error, and decoding that text is an error:
the parser takes four digits for the year and then wants a hyphen. A time in
a zone one hour and one second east of UTC is encoded with the zone `+01:00`,
and decoding gives an instant a second away from it. -/
theorem Timestamp_round_trip_counterexample :
    (Timestamp.MarshalJSON ⟨firstOfYear10000⟩ = ("\"10000-01-01T00:00:00Z\"".toList, none) ∧
      (Timestamp.UnmarshalJSON {} (Timestamp.MarshalJSON ⟨firstOfYear10000⟩).1).2 ≠ none) ∧
    ((oneOClockAt 3601).Valid ∧
      Timestamp.MarshalJSON ⟨oneOClockAt 3601⟩ = ("\"2021-08-17T13:00:00+01:00\"".toList, none) ∧
      Timestamp.UnmarshalJSON {} (Timestamp.MarshalJSON ⟨oneOClockAt 3601⟩).1 =
        (⟨oneOClockAt 3600⟩, none) ∧
      Time.Equal (oneOClockAt 3600) (oneOClockAt 3601) = false) := by
  decide

/-- The zone of a formatted time with an offset of less than a day is a zone
of the profile: `Z`, or a sign with hours below 24 and minutes below 60. -/
theorem formatZone_inProfile (offset : Int) (hlo : -86400 < offset) (hhi : offset < 86400) :
    ∃ zone : ZoneText, formatZone offset = zone.text ∧
      (match zone with
        | .utc => True
        | .numeric _ h m => h < 24 ∧ m < 60) := by
  by_cases h0 : offset = 0
  · subst h0
    exact ⟨.utc, rfl, trivial⟩
  · have habs : (offset.tdiv 60).natAbs = offset.natAbs / 60 := Int.natAbs_tdiv offset 60
    have hh : offset.natAbs / 60 / 60 < 24 := by omega
    have hmm : offset.natAbs / 60 % 60 < 60 := by omega
    refine ⟨.numeric (decide (offset.tdiv 60 < 0)) (offset.natAbs / 60 / 60)
      (offset.natAbs / 60 % 60), ?_, hh, hmm⟩
    simp only [formatZone, h0, if_false, habs, ZoneText.text,
      appendInt_two _ (show offset.natAbs / 60 / 60 < 100 by omega),
      appendInt_two _ (show offset.natAbs / 60 % 60 < 100 by omega)]
    by_cases hneg : offset.tdiv 60 < 0
    · simp [hneg]
    · simp [hneg]

/-- A time with a year of four digits and a zone offset of less than a day is
formatted as a text of the profile. -/
theorem formatRFC3339_inProfile (t : Time) (hv : t.Valid) (hy0 : 0 ≤ t.year)
    (hy1 : t.year ≤ 9999) (hlo : -86400 < t.offset) (hhi : t.offset < 86400) :
    InProfile t.formatRFC3339 := by
  obtain ⟨hm1, hm12, hd1, hdin, hh, hmi, hs, hn⟩ := hv
  obtain ⟨zone, hz1, hz2⟩ := formatZone_inProfile t.offset hlo hhi
  have hday : t.day < 100 := by
    have : daysIn t.month t.year ≤ 31 := by
      unfold daysIn
      split_ifs <;> omega
    omega
  have hyear : ((t.year.toNat : Nat) : Int) = t.year := by omega
  refine ⟨t.year.toNat, t.month, t.day, t.hour, t.min, t.sec, [], zone,
    ⟨by omega, hm1, hm12, hd1, (by rw [hyear]; exact hdin), hh, hmi, hs,
      (fun _ hd => by cases hd), hz2⟩, ?_⟩
  simp only [Time.formatRFC3339, profileText, appendInt_year t.year hy0 hy1,
    appendInt_two t.month (by omega), appendInt_two t.day hday, appendInt_two t.hour (by omega),
    appendInt_two t.min (by omega), appendInt_two t.sec (by omega), hz1, fractionText,
    if_true, List.append_nil]

/-- C13 (amended): for every instant `x`, `Timestamp.MarshalJSON` returns no
error, and what it returns is the JSON string, a quote, the text and a quote,
of `x` formatted with the layout `time.RFC3339`, which has no fraction of a
second: instants that are the same once truncated to the second are encoded to
the same text. When the year of `x` is from 0 to 9999 and its zone offset is
less than a day, the text is one of the fixed profile; when the offset is also
of whole minutes, the text is `YYYY-MM-DDTHH:MM:SS` and the zone, with the
fields of `x`. -/
theorem MarshalJSON_second_resolution (x : Timestamp) :
    (Timestamp.MarshalJSON x).2 = none ∧
      (Timestamp.MarshalJSON x).1 = '"' :: x.Time.formatRFC3339 ++ ['"'] ∧
      parseDocument (Timestamp.MarshalJSON x).1 = .ok (.str (String.mk x.Time.formatRFC3339)) ∧
      (∀ y : Timestamp, y.Time.truncateToSecond = x.Time.truncateToSecond →
        Timestamp.MarshalJSON y = Timestamp.MarshalJSON x) ∧
      (x.Time.Valid → 0 ≤ x.Time.year → x.Time.year ≤ 9999 → -86400 < x.Time.offset →
        x.Time.offset < 86400 → InProfile x.Time.formatRFC3339) ∧
      (x.Time.InProfileRange →
        x.Time.formatRFC3339 =
          profileText x.Time.year.toNat x.Time.month x.Time.day x.Time.hour x.Time.min x.Time.sec
            [] (zoneOf x.Time.offset)) := by
  have henc : (Timestamp.MarshalJSON x).1 = '"' :: x.Time.formatRFC3339 ++ ['"'] :=
    encodeString_plain _ (formatRFC3339_plain x.Time)
  refine ⟨rfl, henc, ?_, ?_, formatRFC3339_inProfile x.Time, ?_⟩
  · rw [henc]
    exact parseDocument_quoted _ (formatRFC3339_plain x.Time)
  · intro y hy
    have h1 : y.Time.formatRFC3339 = y.Time.truncateToSecond.formatRFC3339 := rfl
    have h2 : x.Time.formatRFC3339 = x.Time.truncateToSecond.formatRFC3339 := rfl
    unfold Timestamp.MarshalJSON
    rw [h1, h2, hy]
  · intro h
    exact (formatRFC3339_profile x.Time h).1

/-- The instant of the tests, 2021-08-17 13:28:57.801578 UTC, is encoded as
`"2021-08-17T13:28:57Z"`, a text of the profile, as is the same instant
without its fraction. -/
theorem MarshalJSON_second_resolution_witness :
    exampleInstant.InProfileRange ∧
      Timestamp.MarshalJSON ⟨exampleInstant⟩ = ("\"2021-08-17T13:28:57Z\"".toList, none) ∧
      Timestamp.MarshalJSON ⟨exampleSecond⟩ = Timestamp.MarshalJSON ⟨exampleInstant⟩ ∧
      exampleInstant.formatRFC3339 = profileText 2021 8 17 13 28 57 [] .utc ∧
      InProfile exampleInstant.formatRFC3339 :=
  ⟨by decide, by decide,
    (MarshalJSON_second_resolution ⟨exampleInstant⟩).2.2.2.1 ⟨exampleSecond⟩ rfl,
    (MarshalJSON_second_resolution ⟨exampleInstant⟩).2.2.2.2.2 (by decide),
    (MarshalJSON_second_resolution ⟨exampleInstant⟩).2.2.2.2.1 (by decide) (by decide)
      (by decide) (by decide) (by decide)⟩

/-- C13, as stated, fails for instants whose year has more than four digits:
the first instant of the year 10000, in UTC, is encoded without error as
`"10000-01-01T00:00:00Z"`, which is no text of the profile: its fifth
character is a digit of the year, where the profile has the hyphen after a
year of four digits. -/
theorem MarshalJSON_second_resolution_counterexample :
    firstOfYear10000.Valid ∧
      Timestamp.MarshalJSON ⟨firstOfYear10000⟩ = ("\"10000-01-01T00:00:00Z\"".toList, none) ∧
      firstOfYear10000.formatRFC3339 = "10000-01-01T00:00:00Z".toList ∧
      ¬ InProfile firstOfYear10000.formatRFC3339 := by
  refine ⟨by decide, by decide, by decide, ?_⟩
  rintro ⟨year, month, day, hour, min, sec, frac, zone, _, heq⟩
  have h4 := congrArg (fun l => l.get? 4) heq
  have hl : firstOfYear10000.formatRFC3339.get? 4 = some '0' := by decide
  simp only [hl] at h4
  simp [profileText, fourDigits] at h4

/-- C14: for every JSON string `data` whose content is a date-time of the
profile, a year of four digits, an existing date, a time of day, any number of
digits of fraction or none, and the zone `Z` or a numeric offset,
`Timestamp.UnmarshalJSON` returns no error and sets the timestamp to the date,
time and offset of the text, with the fraction of a second to the
nanosecond. -/
theorem UnmarshalJSON_profile_text (t : Timestamp) (data : List Char)
    (year month day hour min sec : Nat) (frac : List Nat) (zone : ZoneText)
    (h : ProfileFields year month day hour min sec frac zone)
    (hdata : parseDocument data =
      .ok (.str (String.mk (profileText year month day hour min sec frac zone)))) :
    Timestamp.UnmarshalJSON t data =
      (⟨{ year := year, month := month, day := day, hour := hour, min := min, sec := sec,
          nsec := fractionValue (frac.take 9), offset := zone.offset }⟩, none) := by
  simp only [Timestamp.UnmarshalJSON, jsonUnmarshalString, hdata, String.toList,
    timeParse_profileText year month day hour min sec frac zone h]

/-- The text `"2021-08-17T13:28:57.801578Z"` of the tests is decoded to
2021-08-17 13:28:57.801578 UTC. -/
theorem UnmarshalJSON_profile_text_witness :
    ProfileFields 2021 8 17 13 28 57 [8, 0, 1, 5, 7, 8] .utc ∧
      parseDocument "\"2021-08-17T13:28:57.801578Z\"".toList =
        .ok (.str (String.mk (profileText 2021 8 17 13 28 57 [8, 0, 1, 5, 7, 8] .utc))) ∧
      Timestamp.UnmarshalJSON {} "\"2021-08-17T13:28:57.801578Z\"".toList =
        (⟨exampleInstant⟩, none) :=
  ⟨by decide, rfl,
    UnmarshalJSON_profile_text {} "\"2021-08-17T13:28:57.801578Z\"".toList 2021 8 17 13 28 57
      [8, 0, 1, 5, 7, 8] .utc (by decide) rfl⟩

/-- The fourteenth character of every text of the profile is the colon after
the two digits of the hour. -/
theorem profileText_colon (year month day hour min sec : Nat) (frac : List Nat)
    (zone : ZoneText) :
    (profileText year month day hour min sec frac zone)[13]? = some ':' := by
  simp [profileText, fourDigits, twoDigits]

/-- C15, as amended: whenever `Timestamp.UnmarshalJSON` returns no error, the
input is a JSON string, its text has the shape that `time.Parse` accepts for
the layout (four digits of year, two of month and of day, `T`, one or two
digits of hour, two of minute and of second, an optional fraction after a
period or a comma, and `Z` or a signed `hh:mm`), the text parses to an
existing date and time of day, and the timestamp is set to it. So every input
that is not a JSON string, and every JSON string whose text has not that shape
or names no existing date and time, is an error. -/
theorem UnmarshalJSON_error_unless_parsed (t : Timestamp) (data : List Char)
    (h : (Timestamp.UnmarshalJSON t data).2 = none) :
    ∃ s parsed, parseDocument data = .ok (.str s) ∧ LaxShape s.toList ∧ parsed.Valid ∧
      timeParseRFC3339 s.toList = some parsed ∧
      Timestamp.UnmarshalJSON t data = (⟨parsed⟩, none) := by
  have hempty : timeParseRFC3339 "".toList = none := by decide
  unfold Timestamp.UnmarshalJSON jsonUnmarshalString at h ⊢
  cases hdoc : parseDocument data with
  | error e =>
    rw [hdoc] at h
    cases h
  | ok v =>
    rw [hdoc] at h
    cases v with
    | str s =>
      simp only at h ⊢
      cases hparse : timeParseRFC3339 s.toList with
      | none =>
        rw [hparse] at h
        cases h
      | some parsed =>
        obtain ⟨hshape, hvalid⟩ := timeParse_shape _ _ hparse
        exact ⟨s, parsed, rfl, hshape, hvalid, hparse, rfl⟩
    | null =>
      simp only [hempty] at h
      cases h
    | bool b => cases h
    | num lit => cases h
    | arr elems => cases h
    | obj members => cases h

/-- The text of the tests is accepted with the shape and the value stated, and
the two rejected inputs of the tests, the string `"not-a-timestamp"` and the
text `not-json`, are errors, as are `null` and a number. -/
theorem UnmarshalJSON_error_unless_parsed_witness :
    ((Timestamp.UnmarshalJSON {} "\"2021-08-17T13:28:57.801578Z\"".toList).2 = none ∧
      ∃ s parsed, parseDocument "\"2021-08-17T13:28:57.801578Z\"".toList = .ok (.str s) ∧
        LaxShape s.toList ∧ parsed.Valid ∧ timeParseRFC3339 s.toList = some parsed ∧
        Timestamp.UnmarshalJSON {} "\"2021-08-17T13:28:57.801578Z\"".toList = (⟨parsed⟩, none)) ∧
    (Timestamp.UnmarshalJSON {} "\"not-a-timestamp\"".toList).2 ≠ none ∧
    (Timestamp.UnmarshalJSON {} "not-json".toList).2 ≠ none ∧
    (Timestamp.UnmarshalJSON {} "null".toList).2 ≠ none ∧
    (Timestamp.UnmarshalJSON {} "1629206937".toList).2 ≠ none :=
  ⟨⟨by decide,
    UnmarshalJSON_error_unless_parsed {} "\"2021-08-17T13:28:57.801578Z\"".toList (by decide)⟩,
   by decide, by decide, by decide, by decide⟩

/-- C15, as stated, fails: the parser is not strict. The JSON string
`"2021-08-17T1:28:57Z"`, whose hour has one digit, is no text of the profile,
in which the fourteenth character is always the colon after a two-digit hour,
and `Timestamp.UnmarshalJSON` accepts it, as one in the morning. It also
accepts a comma before the fraction and the offset `+24:60`. -/
theorem UnmarshalJSON_strict_counterexample :
    (parseDocument "\"2021-08-17T1:28:57Z\"".toList = .ok (.str "2021-08-17T1:28:57Z") ∧
      ¬ InProfile "2021-08-17T1:28:57Z".toList ∧
      Timestamp.UnmarshalJSON {} "\"2021-08-17T1:28:57Z\"".toList =
        (⟨{ exampleSecond with hour := 1 }⟩, none)) ∧
    Timestamp.UnmarshalJSON {} "\"2021-08-17T13:28:57,5+24:60\"".toList =
      (⟨{ exampleSecond with nsec := 500000000, offset := 90000 }⟩, none) := by
  refine ⟨⟨rfl, ?_, by decide⟩, by decide⟩
  rintro ⟨year, month, day, hour, min, sec, frac, zone, _, he⟩
  have h13 := profileText_colon year month day hour min sec frac zone
  rw [← he] at h13
  revert h13
  decide

/-! ### The body of a request -/

/-- The body of a request that `http.NewRequest` returns is the one given. -/
theorem httpNewRequest_body (lib : URLLib) (method url : String) (body : Option (List Char))
    (req : Request) (h : httpNewRequest lib method url body = .ok req) : req.Body = body := by
  unfold httpNewRequest at h
  simp only [] at h
  generalize (if method = "" then "GET" else method) = m at h
  cases hv : validMethod m
  · simp [hv] at h
  · cases hp : lib.Parse url with
    | error e => simp [hv, hp] at h
    | ok u =>
      simp only [hv, hp, Bool.not_true, Bool.false_eq_true, if_false] at h
      cases h
      rfl

/-- The body of a request built by `NewRequest` from a body that is not nil
is what the encoder, with HTML escaping off, wrote for it. -/
theorem NewRequest_body {B : Type} (lib : URLLib)
    (encode : Bool → B → Except Error (List Char)) (c : Client) (method urlStr : String)
    (b : B) (req : Request)
    (h : Client.NewRequest lib encode c method urlStr (some b) = .ok req) :
    ∃ bytes, encode false b = .ok bytes ∧ req.Body = some bytes := by
  unfold Client.NewRequest at h
  split at h
  · cases h
  · cases h
  · simp only [] at h
    cases he : encode false b with
    | error e =>
      rw [he] at h
      cases h
    | ok bytes =>
      rw [he] at h
      simp only [] at h
      split at h
      · cases h
      · rename_i req0 hreq0
        have h0 := httpNewRequest_body _ _ _ _ _ hreq0
        cases h
        exact ⟨bytes, rfl, h0⟩

mutual
/-- The literal of every string value of a value stands in its text. -/
theorem render_contains (e : Bool) : ∀ (j : JSON) (s : String), s ∈ j.strings →
    ∃ pre post, JSON.render e j = pre ++ encodeString e s.toList ++ post
  | .str x, s, h => by
    simp only [JSON.strings, List.mem_singleton] at h
    subst h
    exact ⟨[], [], by simp [JSON.render]⟩
  | .arr es, s, h => by
    obtain ⟨pre, post, hp⟩ := renderElems_contains e es s (by simpa [JSON.strings] using h)
    exact ⟨'[' :: pre, post ++ [']'], by simp [JSON.render, hp]⟩
  | .obj ms, s, h => by
    obtain ⟨pre, post, hp⟩ := renderMembers_contains e ms s (by simpa [JSON.strings] using h)
    exact ⟨'\x7b' :: pre, post ++ ['\x7d'], by simp [JSON.render, hp]⟩
  | .null, s, h => by simp [JSON.strings] at h
  | .bool b, s, h => by simp [JSON.strings] at h
  | .num lit, s, h => by simp [JSON.strings] at h
/-- The same for the elements of an array. -/
theorem renderElems_contains (e : Bool) : ∀ (es : List JSON) (s : String), s ∈ elemStrings es →
    ∃ pre post, renderElems e es = pre ++ encodeString e s.toList ++ post
  | [], s, h => by simp [elemStrings] at h
  | [v], s, h => by
    obtain ⟨pre, post, hp⟩ := render_contains e v s (by simpa [elemStrings] using h)
    exact ⟨pre, post, by simp [renderElems, hp]⟩
  | v :: w :: rest, s, h => by
    simp only [elemStrings, List.mem_append] at h
    rcases h with h | h
    · obtain ⟨pre, post, hp⟩ := render_contains e v s h
      exact ⟨pre, post ++ ',' :: renderElems e (w :: rest), by simp [renderElems, hp]⟩
    · obtain ⟨pre, post, hp⟩ := renderElems_contains e (w :: rest) s
        (by simpa [elemStrings] using h)
      exact ⟨JSON.render e v ++ ',' :: pre, post, by simp [renderElems, hp]⟩
/-- The same for the members of an object. -/
theorem renderMembers_contains (e : Bool) : ∀ (ms : List (String × JSON)) (s : String),
    s ∈ memberStrings ms →
    ∃ pre post, renderMembers e ms = pre ++ encodeString e s.toList ++ post
  | [], s, h => by simp [memberStrings] at h
  | [(k, v)], s, h => by
    obtain ⟨pre, post, hp⟩ := render_contains e v s (by simpa [memberStrings] using h)
    exact ⟨encodeString e k.toList ++ ':' :: pre, post, by simp [renderMembers, hp]⟩
  | (k, v) :: m :: rest, s, h => by
    simp only [memberStrings, List.mem_append] at h
    rcases h with h | h
    · obtain ⟨pre, post, hp⟩ := render_contains e v s h
      exact ⟨encodeString e k.toList ++ ':' :: pre,
        post ++ ',' :: renderMembers e (m :: rest), by simp [renderMembers, hp]⟩
    · obtain ⟨pre, post, hp⟩ := renderMembers_contains e (m :: rest) s
        (by simpa [memberStrings] using h)
      exact ⟨encodeString e k.toList ++ ':' :: (JSON.render e v ++ ',' :: pre), post,
        by simp [renderMembers, hp]⟩
end

/-- With HTML escaping off the encoder writes `<`, `>` and `&` as they are. -/
theorem encodeRune_markup (ch : Char) (h : ch = '<' ∨ ch = '>' ∨ ch = '&') :
    encodeRune false ch = [ch] := by
  rcases h with rfl | rfl | rfl <;> decide

/-- With HTML escaping off no character is written as one of the three HTML
escapes. -/
theorem encodeRune_no_markup_escape (ch : Char) :
    encodeRune false ch ≠ "\\u003c".toList ∧ encodeRune false ch ≠ "\\u003e".toList ∧
      encodeRune false ch ≠ "\\u0026".toList := by
  have hhex : ch.toNat < 32 → hexDigit (ch.toNat / 16) ≠ '3' ∧ hexDigit (ch.toNat / 16) ≠ '2' := by
    intro hlt
    have h2 : ch.toNat / 16 = 0 ∨ ch.toNat / 16 = 1 := by omega
    rcases h2 with h2 | h2 <;> rw [h2] <;> decide
  unfold encodeRune
  split_ifs with h1 h2 h3 h4 h5 h6 h7 h8
  all_goals try (simp [String.toList]; done)
  · have hlt : ch.toNat < 32 := by
      rcases h7 with h7 | h7
      · exact h7
      · exact absurd h7.1 (by decide)
    have := hhex hlt
    simp only [String.toList, ne_eq, List.cons.injEq, not_and]
    refine ⟨?_, ?_, ?_⟩ <;> intro _ _ _ _ hx <;> first | exact absurd hx this.1 | exact absurd hx this.2

/-- C19: for every body that is not nil, whose encoding is the JSON value
`j`, the body of a request built by `Client.NewRequest` is the text that the
encoder, with HTML escaping off, writes for `j`, and a newline. Every string
value of `j` stands in it as a literal in which each character is written by
the encoder without HTML escaping: `<`, `>` and `&` as they are, and no
character as `\u003c`, `\u003e` or `\u0026`. -/
theorem NewRequest_body_html_unescaped (lib : URLLib) (c : Client) (method urlStr : String)
    (j : JSON) (req : Request)
    (h : Client.NewRequest lib encodeJSON c method urlStr (some j) = .ok req) :
    req.Body = some (JSON.render false j ++ ['\n']) ∧
      (∀ s ∈ j.strings, ∃ pre post,
        req.Body = some (pre ++ '"' :: s.toList.flatMap (encodeRune false) ++ '"' :: post)) ∧
      (∀ ch : Char, ch = '<' ∨ ch = '>' ∨ ch = '&' → encodeRune false ch = [ch]) ∧
      (∀ ch : Char, encodeRune false ch ≠ "\\u003c".toList ∧
        encodeRune false ch ≠ "\\u003e".toList ∧ encodeRune false ch ≠ "\\u0026".toList) := by
  obtain ⟨bytes, hb, hreq⟩ := NewRequest_body lib encodeJSON c method urlStr j req h
  have hbytes : bytes = JSON.render false j ++ ['\n'] := by
    unfold encodeJSON at hb
    cases hb
    rfl
  subst hbytes
  refine ⟨hreq, ?_, encodeRune_markup, encodeRune_no_markup_escape⟩
  intro s hs
  obtain ⟨pre, post, hp⟩ := render_contains false j s hs
  refine ⟨pre, post ++ ['\n'], ?_⟩
  rw [hreq, hp]
  simp [encodeString]

/-- A POST request with a body holding `<`, `>` and `&`: the payload has them
as they are; with HTML escaping on, the encoder would have written escapes. -/
theorem NewRequest_body_html_unescaped_witness :
    Client.NewRequest plainURLLib encodeJSON exampleClient "POST" "v2/incidents"
        (some markupBody) =
      .ok { incidentsPostRequest with
        Body := some "\x7b\"name\":\"a<b>&c\",\"labels\":[\"x&y\",1]\x7d\n".toList } ∧
    ({ incidentsPostRequest with
        Body := some "\x7b\"name\":\"a<b>&c\",\"labels\":[\"x&y\",1]\x7d\n".toList } : Request).Body =
      some (JSON.render false markupBody ++ ['\n']) ∧
    JSON.render true markupBody =
      "\x7b\"name\":\"a\\u003cb\\u003e\\u0026c\",\"labels\":[\"x\\u0026y\",1]\x7d".toList :=
  ⟨by decide,
   (NewRequest_body_html_unescaped plainURLLib exampleClient "POST" "v2/incidents" markupBody _
      (by decide)).1,
   by decide⟩

/-! ### Characters that `net/url` leaves unescaped -/

/-- The characters that a host keeps unescaped: letters, digits and these. -/
theorem shouldEscape_host (c : Char) (h : shouldEscape c .host = false) :
    c.isAlphanum = true ∨
      c ∈ ['!', '$', '&', Char.ofNat 39, '(', ')', '*', '+', ',', ';', '=', ':', '[', ']', '<',
        '>', '"', '-', '_', '.', '~'] := by
  by_cases ha : c.isAlphanum = true
  · exact Or.inl ha
  · right
    simp only [shouldEscape, ha] at h
    simp at h
    simp
    tauto

/-- The characters that a path keeps unescaped: letters, digits and these. -/
theorem shouldEscape_path (c : Char) (h : shouldEscape c .path = false) :
    c.isAlphanum = true ∨ c ∈ ['-', '_', '.', '~', '$', '&', '+', ',', '/', ':', ';', '=', '@'] := by
  by_cases ha : c.isAlphanum = true
  · exact Or.inl ha
  · right
    simp only [shouldEscape, ha] at h
    simp at h
    simp
    tauto

/-- The characters that a fragment keeps unescaped: letters, digits and
these. -/
theorem shouldEscape_fragment (c : Char) (h : shouldEscape c .fragment = false) :
    c.isAlphanum = true ∨
      c ∈ ['-', '_', '.', '~', '$', '&', '+', ',', '/', ':', ';', '=', '?', '@', '!', '(', ')',
        '*'] := by
  by_cases ha : c.isAlphanum = true
  · exact Or.inl ha
  · right
    simp only [shouldEscape, ha] at h
    simp at h
    simp
    tauto

theorem alnum_range (c : Char) (h : c.isAlphanum = true) :
    (65 ≤ c.toNat ∧ c.toNat ≤ 90 ∨ 97 ≤ c.toNat ∧ c.toNat ≤ 122) ∨
      48 ≤ c.toNat ∧ c.toNat ≤ 57 := by
  simp only [Char.isAlphanum, Char.isAlpha, Char.isUpper, Char.isLower, Char.isDigit,
    Bool.or_eq_true, Bool.and_eq_true, decide_eq_true_eq] at h
  simp only [UInt32.le_def, BitVec.le_def] at h
  exact h

theorem alnum_ascii (c : Char) (h : c.isAlphanum = true) : c.toNat < 128 ∧ isCTL c = false := by
  have := alnum_range c h
  unfold isCTL
  constructor
  · omega
  · simp
    omega

/-- A character that a host keeps unescaped is none of `/ ? # @ %`, no
control character, and in ASCII. -/
theorem host_char_facts (c : Char) (h : shouldEscape c .host = false) :
    c ≠ '/' ∧ c ≠ '?' ∧ c ≠ '#' ∧ c ≠ '@' ∧ c ≠ '%' ∧ isCTL c = false ∧ c.toNat < 128 := by
  rcases shouldEscape_host c h with ha | hm
  · refine ⟨?_, ?_, ?_, ?_, ?_, (alnum_ascii c ha).2, (alnum_ascii c ha).1⟩ <;>
      (intro hc; subst hc; revert ha; decide)
  · have hall : ∀ d ∈ ['!', '$', '&', Char.ofNat 39, '(', ')', '*', '+', ',', ';', '=', ':', '[',
        ']', '<', '>', '"', '-', '_', '.', '~'],
        d ≠ '/' ∧ d ≠ '?' ∧ d ≠ '#' ∧ d ≠ '@' ∧ d ≠ '%' ∧ isCTL d = false ∧ d.toNat < 128 := by
      decide
    exact hall c hm

/-- A character that a path keeps unescaped is none of `? # %`, no control
character, and in ASCII. -/
theorem path_char_facts (c : Char) (h : shouldEscape c .path = false) :
    c ≠ '?' ∧ c ≠ '#' ∧ c ≠ '%' ∧ isCTL c = false ∧ c.toNat < 128 := by
  rcases shouldEscape_path c h with ha | hm
  · refine ⟨?_, ?_, ?_, (alnum_ascii c ha).2, (alnum_ascii c ha).1⟩ <;>
      (intro hc; subst hc; revert ha; decide)
  · have hall : ∀ d ∈ ['-', '_', '.', '~', '$', '&', '+', ',', '/', ':', ';', '=', '@'],
        d ≠ '?' ∧ d ≠ '#' ∧ d ≠ '%' ∧ isCTL d = false ∧ d.toNat < 128 := by
      decide
    exact hall c hm

/-- A character that a fragment keeps unescaped is not `%`, no control
character, and in ASCII. -/
theorem fragment_char_facts (c : Char) (h : shouldEscape c .fragment = false) :
    c ≠ '%' ∧ isCTL c = false ∧ c.toNat < 128 := by
  rcases shouldEscape_fragment c h with ha | hm
  · refine ⟨?_, (alnum_ascii c ha).2, (alnum_ascii c ha).1⟩
    intro hc
    subst hc
    revert ha
    decide
  · have hall : ∀ d ∈ ['-', '_', '.', '~', '$', '&', '+', ',', '/', ':', ';', '=', '?', '@', '!',
        '(', ')', '*'], d ≠ '%' ∧ isCTL d = false ∧ d.toNat < 128 := by
      decide
    exact hall c hm

theorem hexVal_upperHexDigit (k : Nat) (h : k < 16) : hexVal (upperHexDigit k) = some k := by
  interval_cases k <;> rfl

theorem upperHexDigit_alnum (k : Nat) : (upperHexDigit k).isAlphanum = true := by
  by_cases h : k < 16
  · interval_cases k <;> rfl
  · have : upperHexDigit k = '0' := by
      unfold upperHexDigit
      exact List.getD_eq_default _ _ (by simpa using Nat.le_of_not_lt h)
    rw [this]
    rfl

theorem utf8Bytes_lt (c : Char) : ∀ b ∈ utf8Bytes c, b < 256 := by
  have hv : c.toNat < 0x110000 := by
    have := c.valid
    rcases this with h | h
    · have : c.toNat < 0xD800 := h
      omega
    · exact h.2
  intro b hb
  unfold utf8Bytes at hb
  simp only [] at hb
  split_ifs at hb <;> simp at hb <;> omega

/-- Every character of an escaped text is `%`, `+`, a hexadecimal digit, or a
character of the text that the mode keeps. -/
theorem escape_mem (s : List Char) (mode : Encoding) :
    ∀ c ∈ escape s mode, c = '%' ∨ c = '+' ∨ (∃ k, c = upperHexDigit k) ∨
      (c ∈ s ∧ shouldEscape c mode = false) := by
  intro c hc
  unfold escape at hc
  rw [List.mem_flatMap] at hc
  obtain ⟨d, hd, hcd⟩ := hc
  split_ifs at hcd with h1 h2
  · rw [List.mem_singleton.mp hcd]
    exact Or.inr (Or.inl rfl)
  · rw [List.mem_flatMap] at hcd
    obtain ⟨b, _, hb⟩ := hcd
    simp only [List.mem_cons, List.mem_singleton, List.not_mem_nil, or_false] at hb
    rcases hb with hb | hb | hb
    · exact Or.inl hb
    · exact Or.inr (Or.inr (Or.inl ⟨_, hb⟩))
    · exact Or.inr (Or.inr (Or.inl ⟨_, hb⟩))
  · rw [List.mem_singleton.mp hcd]
    exact Or.inr (Or.inr (Or.inr ⟨hd, by simpa using h1⟩))

/-- A text of characters that the mode keeps is its own escaping. -/
theorem escape_clean (s : List Char) (mode : Encoding)
    (h : ∀ c ∈ s, shouldEscape c mode = false) : escape s mode = s := by
  induction s with
  | nil => rfl
  | cons x xs ih =>
    have hx := h x (List.mem_cons_self _ _)
    have := ih (fun c hc => h c (List.mem_cons_of_mem _ hc))
    unfold escape at this ⊢
    simp [List.flatMap_cons, hx, this]

theorem validEncoded_mem (s : List Char) (mode : Encoding) (h : validEncoded s mode = true) :
    ∀ c ∈ s, c ∈ ['!', '$', '&', Char.ofNat 39, '(', ')', '*', '+', ',', ';', '=', ':', '@', '[',
      ']', '%'] ∨ shouldEscape c mode = false := by
  intro c hc
  unfold validEncoded at h
  have := List.all_eq_true.mp h c hc
  simp only [Bool.or_eq_true, decide_eq_true_eq, Bool.not_eq_true'] at this
  exact this

/-- An escaped path has no `?`, no `#` and no control character. -/
theorem EscapedPath_chars (u : URL) :
    ∀ c ∈ u.EscapedPath, c ≠ '?' ∧ c ≠ '#' ∧ isCTL c = false := by
  have hlist : ∀ d ∈ ['!', '$', '&', Char.ofNat 39, '(', ')', '*', '+', ',', ';', '=', ':', '@',
      '[', ']', '%'], d ≠ '?' ∧ d ≠ '#' ∧ isCTL d = false := by decide
  intro c hc
  unfold URL.EscapedPath at hc
  split_ifs at hc with h1 h2
  · rcases validEncoded_mem _ _ h1.2.1 c hc with hm | hs
    · exact hlist c hm
    · have := path_char_facts c hs
      exact ⟨this.1, this.2.1, this.2.2.2.1⟩
  · rw [List.mem_singleton.mp hc]
    decide
  · rcases escape_mem _ _ c hc with h | h | ⟨k, h⟩ | ⟨_, h⟩
    · rw [h]
      decide
    · rw [h]
      decide
    · have ha := upperHexDigit_alnum k
      rw [← h] at ha
      refine ⟨?_, ?_, (alnum_ascii c ha).2⟩ <;> (intro hc; subst hc; revert ha; decide)
    · have := path_char_facts c h
      exact ⟨this.1, this.2.1, this.2.2.2.1⟩

theorem unescapeUnits_escape (a b : Char) (rest : List Char) (mode : Encoding) (x y : Nat)
    (ha : hexVal a = some x) (hb : hexVal b = some y) (hm : mode ≠ .host ∧ mode ≠ .zone) :
    unescapeUnits ('%' :: a :: b :: rest) mode =
      (unescapeUnits rest mode).map fun units =>
        (if 16 * x + y < 128 then .inl (Char.ofNat (16 * x + y)) else .inr (16 * x + y)) :: units := by
  simp only [unescapeUnits, ha, hb, hm.1, hm.2, false_and, if_false]

theorem unescapeUnits_percent (s : List Char) (mode : Encoding)
    (h : ∀ a b rest, s = a :: b :: rest → hexVal a = none ∨ hexVal b = none) :
    ∃ e, unescapeUnits ('%' :: s) mode = .error e := by
  match s, h with
  | [], _ => exact ⟨_, rfl⟩
  | [a], _ => exact ⟨_, rfl⟩
  | a :: b :: rest, h =>
    rcases h a b rest rfl with h | h
    · simp only [unescapeUnits, h]
      exact ⟨_, rfl⟩
    · simp only [unescapeUnits, h]
      cases hexVal a <;> exact ⟨_, rfl⟩

theorem unescapeUnits_plus (rest : List Char) (mode : Encoding) :
    unescapeUnits ('+' :: rest) mode =
      (unescapeUnits rest mode).map fun units =>
        .inl (if mode = .queryComponent then ' ' else '+') :: units := by
  simp only [unescapeUnits]

theorem unescapeUnits_char (c : Char) (rest : List Char) (mode : Encoding) (h1 : c ≠ '%')
    (h2 : c ≠ '+') :
    unescapeUnits (c :: rest) mode =
      if (mode = .host ∨ mode = .zone) ∧ c.toNat < 0x80 ∧ shouldEscape c .host then
        .error (.foreign "invalid character in host name")
      else (unescapeUnits rest mode).map fun units => .inl c :: units := by
  rw [unescapeUnits]
  · intro a b r h _
    exact h1 h
  · intro h
    exact h1 h
  · intro h
    exact h2 h

theorem assembleFrom_inl (c : Char) (rest : List (Char ⊕ Nat)) :
    assembleFrom none (.inl c :: rest) = (assembleFrom none rest).map (c :: ·) := by
  rw [assembleFrom]

theorem assembleFrom_inl_append (s : List Char) (rest : List (Char ⊕ Nat)) :
    assembleFrom none (s.map .inl ++ rest) = (assembleFrom none rest).map (s ++ ·) := by
  induction s with
  | nil => simp
  | cons x xs ih =>
    rw [List.map_cons, List.cons_append, assembleFrom_inl, ih]
    cases assembleFrom none rest <;> rfl

theorem assembleFrom_lead (b : Nat) (rest : List (Char ⊕ Nat)) :
    assembleFrom none (.inr b :: rest) =
      if 0xC2 ≤ b ∧ b < 0xE0 then assembleFrom (some (0, b - 0xC0, 0x80)) rest
      else if 0xE0 ≤ b ∧ b < 0xF0 then assembleFrom (some (1, b - 0xE0, 0x800)) rest
      else if 0xF0 ≤ b ∧ b < 0xF5 then assembleFrom (some (2, b - 0xF0, 0x10000)) rest
      else none := by
  rw [assembleFrom]

theorem assembleFrom_more (more value least b : Nat) (rest : List (Char ⊕ Nat))
    (h : continuationByte b = true) :
    assembleFrom (some (more + 1, value, least)) (.inr b :: rest) =
      assembleFrom (some (more, value * 64 + (b - 0x80), least)) rest := by
  rw [assembleFrom, if_pos h]

theorem assembleFrom_last (value least b : Nat) (rest : List (Char ⊕ Nat))
    (h : continuationByte b = true)
    (hv : least ≤ value * 64 + (b - 0x80) ∧ value * 64 + (b - 0x80) < 0x110000 ∧
      ¬ (0xD800 ≤ value * 64 + (b - 0x80) ∧ value * 64 + (b - 0x80) < 0xE000)) :
    assembleFrom (some (0, value, least)) (.inr b :: rest) =
      (assembleFrom none rest).map (Char.ofNat (value * 64 + (b - 0x80)) :: ·) := by
  rw [assembleFrom, if_pos h]
  simp only []
  rw [if_pos hv]

/-- The bytes of a character, as units, are read back as the character. -/
theorem assemble_utf8Bytes (c : Char) (tail : List (Char ⊕ Nat)) :
    assembleFrom none
        ((utf8Bytes c).map (fun b => if b < 128 then Sum.inl (Char.ofNat b) else Sum.inr b)
          ++ tail) = (assembleFrom none tail).map (c :: ·) := by
  have hvalid := c.valid
  have hv : c.toNat < 0xD800 ∨ (0xDFFF < c.toNat ∧ c.toNat < 0x110000) := hvalid
  have hcont : ∀ n, continuationByte (0x80 + n % 64) = true := by
    intro n
    unfold continuationByte
    simp
    omega
  unfold utf8Bytes
  simp only []
  split_ifs with h1 h2 h3
  · simp only [List.map_cons, List.map_nil, if_pos h1, List.cons_append, List.nil_append,
      assembleFrom_inl, Char.ofNat_toNat]
  · have e1 : ¬ (0xC0 + c.toNat / 64 < 128) := by omega
    have e2 : ¬ (0x80 + c.toNat % 64 < 128) := by omega
    simp only [List.map_cons, List.map_nil, if_neg e1, if_neg e2, List.cons_append,
      List.nil_append]
    rw [assembleFrom_lead, if_pos (by omega), assembleFrom_last _ _ _ _ (hcont _) (by omega)]
    have c3 : (0xC0 + c.toNat / 64 - 0xC0) * 64 + (0x80 + c.toNat % 64 - 0x80) = c.toNat := by
      omega
    rw [c3, Char.ofNat_toNat]
  · have e1 : ¬ (0xE0 + c.toNat / 4096 < 128) := by omega
    have e2 : ¬ (0x80 + c.toNat / 64 % 64 < 128) := by omega
    have e3 : ¬ (0x80 + c.toNat % 64 < 128) := by omega
    simp only [List.map_cons, List.map_nil, if_neg e1, if_neg e2, if_neg e3, List.cons_append,
      List.nil_append]
    rw [assembleFrom_lead, if_neg (by omega), if_pos (by omega),
      assembleFrom_more _ _ _ _ _ (hcont _), assembleFrom_last _ _ _ _ (hcont _) (by omega)]
    have c3 : ((0xE0 + c.toNat / 4096 - 0xE0) * 64 + (0x80 + c.toNat / 64 % 64 - 0x80)) * 64 +
        (0x80 + c.toNat % 64 - 0x80) = c.toNat := by
      omega
    rw [c3, Char.ofNat_toNat]
  · have e1 : ¬ (0xF0 + c.toNat / 262144 < 128) := by omega
    have e2 : ¬ (0x80 + c.toNat / 4096 % 64 < 128) := by omega
    have e3 : ¬ (0x80 + c.toNat / 64 % 64 < 128) := by omega
    have e4 : ¬ (0x80 + c.toNat % 64 < 128) := by omega
    simp only [List.map_cons, List.map_nil, if_neg e1, if_neg e2, if_neg e3, if_neg e4,
      List.cons_append, List.nil_append]
    rw [assembleFrom_lead, if_neg (by omega), if_neg (by omega), if_pos (by omega),
      assembleFrom_more _ _ _ _ _ (hcont _), assembleFrom_more _ _ _ _ _ (hcont _),
      assembleFrom_last _ _ _ _ (hcont _) (by omega)]
    have c3 : (((0xF0 + c.toNat / 262144 - 0xF0) * 64 + (0x80 + c.toNat / 4096 % 64 - 0x80)) * 64 +
        (0x80 + c.toNat / 64 % 64 - 0x80)) * 64 + (0x80 + c.toNat % 64 - 0x80) = c.toNat := by
      omega
    rw [c3, Char.ofNat_toNat]

/-! ### Unescaping -/

theorem shouldEscape_percent (mode : Encoding) : shouldEscape '%' mode = true := by
  cases mode <;> decide

/-- A text without `%`, in a mode other than that of a query component, whose
characters a host keeps when the mode is that of a host, is unescaped to
itself. -/
theorem unescapeUnits_plain (s : List Char) (mode : Encoding) (hq : mode ≠ .queryComponent)
    (h : ∀ c ∈ s, c ≠ '%' ∧ ((mode = .host ∨ mode = .zone) → shouldEscape c .host = false)) :
    unescapeUnits s mode = .ok (s.map .inl) := by
  induction s with
  | nil => rfl
  | cons x xs ih =>
    have hx := h x (List.mem_cons_self _ _)
    have ih2 := ih (fun c hc => h c (List.mem_cons_of_mem _ hc))
    by_cases hp : x = '+'
    · subst hp
      rw [unescapeUnits_plus, ih2, if_neg hq]
      rfl
    · rw [unescapeUnits_char x xs mode hx.1 hp, ih2, if_neg]
      · rfl
      · rintro ⟨hm, _, hs⟩
        rw [hx.2 hm] at hs
        cases hs

theorem urlUnescape_plain (s : List Char) (mode : Encoding) (hq : mode ≠ .queryComponent)
    (h : ∀ c ∈ s, c ≠ '%' ∧ ((mode = .host ∨ mode = .zone) → shouldEscape c .host = false)) :
    urlUnescape s mode = .ok s := by
  unfold urlUnescape
  rw [unescapeUnits_plain s mode hq h]
  have := assembleFrom_inl_append s []
  have h0 : assembleFrom none ([] : List (Char ⊕ Nat)) = some [] := rfl
  simp only [List.append_nil, h0, Option.map_some'] at this
  simp only [assemble, this]

/-- The escapes of a list of bytes are read back as the bytes. -/
theorem unescapeUnits_bytes (mode : Encoding) (hm : mode ≠ .host ∧ mode ≠ .zone)
    (rest : List Char) (bs : List Nat) (hbs : ∀ b ∈ bs, b < 256) :
    unescapeUnits
        ((bs.flatMap fun b => ['%', upperHexDigit (b / 16), upperHexDigit (b % 16)]) ++ rest) mode =
      (unescapeUnits rest mode).map fun units =>
        bs.map (fun b => if b < 128 then Sum.inl (Char.ofNat b) else Sum.inr b) ++ units := by
  induction bs with
  | nil =>
    simp only [List.flatMap_nil, List.nil_append, List.map_nil]
    cases unescapeUnits rest mode <;> rfl
  | cons b bs ih =>
    have hb : b < 256 := hbs b (List.mem_cons_self _ _)
    have ih2 := ih (fun c hc => hbs c (List.mem_cons_of_mem _ hc))
    have hval : 16 * (b / 16) + b % 16 = b := by omega
    simp only [List.flatMap_cons, List.cons_append, List.nil_append, List.append_assoc]
    rw [unescapeUnits_escape _ _ _ mode (b / 16) (b % 16)
      (hexVal_upperHexDigit _ (by omega)) (hexVal_upperHexDigit _ (by omega)) hm, ih2, hval]
    cases unescapeUnits rest mode <;> rfl

/-- The escaping of a character, in the mode of a path, a fragment or of user
information, is read back as units that make the character. -/
theorem unescapeUnits_escape_char (mode : Encoding)
    (hm : mode = .path ∨ mode = .fragment ∨ mode = .userPassword) (c : Char) :
    ∃ vs : List (Char ⊕ Nat),
      (∀ rest, unescapeUnits (escape [c] mode ++ rest) mode =
        (unescapeUnits rest mode).map fun units => vs ++ units) ∧
      ∀ tail, assembleFrom none (vs ++ tail) = (assembleFrom none tail).map (c :: ·) := by
  have hq : mode ≠ .queryComponent := by rcases hm with h | h | h <;> rw [h] <;> decide
  have hh : mode ≠ .host ∧ mode ≠ .zone := by
    rcases hm with h | h | h <;> rw [h] <;> exact ⟨by decide, by decide⟩
  by_cases hs : shouldEscape c mode = true
  · refine ⟨(utf8Bytes c).map (fun b => if b < 128 then Sum.inl (Char.ofNat b) else Sum.inr b),
      ?_, assemble_utf8Bytes c⟩
    intro rest
    have he : escape [c] mode =
        (utf8Bytes c).flatMap fun b => ['%', upperHexDigit (b / 16), upperHexDigit (b % 16)] := by
      unfold escape
      simp [hs, hq]
    rw [he]
    exact unescapeUnits_bytes mode hh rest _ (utf8Bytes_lt c)
  · refine ⟨[.inl c], ?_, fun tail => assembleFrom_inl c tail⟩
    intro rest
    have he : escape [c] mode = [c] := by
      unfold escape
      simp [hs]
    have hc : c ≠ '%' := by
      intro h
      rw [h, shouldEscape_percent] at hs
      exact hs rfl
    rw [he]
    by_cases hp : c = '+'
    · subst hp
      rw [List.singleton_append, unescapeUnits_plus, if_neg hq]
      rfl
    · rw [List.singleton_append, unescapeUnits_char c rest mode hc hp, if_neg]
      · rfl
      · rintro ⟨h1, _⟩
        rcases h1 with h1 | h1
        · exact hh.1 h1
        · exact hh.2 h1

/-- The escaping of a text is read back as units that make the text. -/
theorem unescapeUnits_escape_text (mode : Encoding)
    (hm : mode = .path ∨ mode = .fragment ∨ mode = .userPassword) (s : List Char) :
    ∃ vs : List (Char ⊕ Nat),
      (∀ rest, unescapeUnits (escape s mode ++ rest) mode =
        (unescapeUnits rest mode).map fun units => vs ++ units) ∧
      ∀ tail, assembleFrom none (vs ++ tail) = (assembleFrom none tail).map (s ++ ·) := by
  induction s with
  | nil =>
    refine ⟨[], ?_, ?_⟩
    · intro rest
      show unescapeUnits rest mode = _
      cases unescapeUnits rest mode <;> rfl
    · intro tail
      cases h : assembleFrom none tail <;> simp [h]
  | cons c s ih =>
    obtain ⟨vs, h1, h2⟩ := ih
    obtain ⟨ws, k1, k2⟩ := unescapeUnits_escape_char mode hm c
    refine ⟨ws ++ vs, ?_, ?_⟩
    · intro rest
      have he : escape (c :: s) mode = escape [c] mode ++ escape s mode := by
        unfold escape
        simp
      rw [he, List.append_assoc, k1, h1]
      cases unescapeUnits rest mode <;> simp [Except.map]
    · intro tail
      rw [List.append_assoc, k2, h2]
      cases assembleFrom none tail <;> rfl

/-- Escaping and unescaping a text, in the mode of a path, a fragment or of
user information, gives the text. -/
theorem urlUnescape_escape (mode : Encoding)
    (hm : mode = .path ∨ mode = .fragment ∨ mode = .userPassword) (s : List Char) :
    urlUnescape (escape s mode) mode = .ok s := by
  obtain ⟨vs, h1, h2⟩ := unescapeUnits_escape_text mode hm s
  have e1 := h1 []
  have e2 := h2 []
  simp only [List.append_nil] at e1 e2
  unfold urlUnescape assemble
  rw [e1]
  have : unescapeUnits [] mode = .ok [] := rfl
  have h0 : assembleFrom none ([] : List (Char ⊕ Nat)) = some [] := rfl
  simp only [h0, Option.map_some', List.append_nil] at e2
  simp only [this, Except.map, List.append_nil, e2]

/-! ### Unescaping a text part by part -/

theorem assembleFrom_pending (more value least b : Nat) (rest : List (Char ⊕ Nat)) :
    assembleFrom (some (more, value, least)) (.inr b :: rest) =
      if continuationByte b then
        match more with
        | 0 =>
          if least ≤ value * 64 + (b - 0x80) ∧ value * 64 + (b - 0x80) < 0x110000 ∧
              ¬ (0xD800 ≤ value * 64 + (b - 0x80) ∧ value * 64 + (b - 0x80) < 0xE000) then
            (assembleFrom none rest).map (Char.ofNat (value * 64 + (b - 0x80)) :: ·)
          else none
        | more + 1 => assembleFrom (some (more, value * 64 + (b - 0x80), least)) rest
      else none := by
  rw [assembleFrom]

/-- Units before and after a character of the text are read on their own. -/
theorem assembleFrom_split (c : Char) (ub : List (Char ⊕ Nat)) :
    ∀ (ua : List (Char ⊕ Nat)) (st : Option (Nat × Nat × Nat)),
      assembleFrom st (ua ++ .inl c :: ub) =
        (assembleFrom st ua).bind fun ta => (assembleFrom none ub).map fun tb => ta ++ c :: tb := by
  intro ua
  induction ua with
  | nil =>
    intro st
    cases st with
    | none =>
      rw [List.nil_append, assembleFrom_inl]
      have h0 : assembleFrom none ([] : List (Char ⊕ Nat)) = some [] := rfl
      rw [h0]
      rfl
    | some p => rfl
  | cons x xs ih =>
    intro st
    rw [List.cons_append]
    cases x with
    | inl d =>
      cases st with
      | none =>
        rw [assembleFrom_inl, assembleFrom_inl, ih]
        cases assembleFrom none xs <;> cases assembleFrom none ub <;> rfl
      | some p => rfl
    | inr b =>
      cases st with
      | none =>
        rw [assembleFrom_lead, assembleFrom_lead]
        split_ifs
        · exact ih _
        · exact ih _
        · exact ih _
        · rfl
      | some p =>
        obtain ⟨more, value, least⟩ := p
        rw [assembleFrom_pending, assembleFrom_pending]
        cases more with
        | zero =>
          simp only []
          by_cases h1 : continuationByte b = true
          · rw [if_pos h1, if_pos h1]
            split_ifs
            · rw [ih]
              cases assembleFrom none xs <;> cases assembleFrom none ub <;> rfl
            · rfl
          · rw [if_neg h1, if_neg h1]
            rfl
        | succ m =>
          simp only []
          by_cases h1 : continuationByte b = true
          · rw [if_pos h1, if_pos h1]
            exact ih _
          · rw [if_neg h1, if_neg h1]
            rfl

/-- A text before and after a slash is unescaped part by part. -/
theorem unescapeUnits_split (mode : Encoding) (hm : mode ≠ .host ∧ mode ≠ .zone)
    (b : List Char) : ∀ (n : Nat) (a : List Char), a.length ≤ n →
      unescapeUnits (a ++ '/' :: b) mode =
        (unescapeUnits a mode).bind fun ua =>
          (unescapeUnits b mode).map fun ub => ua ++ .inl '/' :: ub := by
  have hcond : ∀ c : Char,
      ¬ ((mode = .host ∨ mode = .zone) ∧ c.toNat < 0x80 ∧ shouldEscape c .host = true) := by
    rintro c ⟨h | h, _⟩
    · exact hm.1 h
    · exact hm.2 h
  intro n
  induction n with
  | zero =>
    intro a ha
    have : a = [] := List.length_eq_zero.mp (Nat.le_zero.mp ha)
    subst this
    rw [List.nil_append, unescapeUnits_char _ _ _ (by decide) (by decide), if_neg (hcond _)]
    show _ = (Except.ok []).bind _
    cases unescapeUnits b mode <;> rfl
  | succ n ih =>
    intro a ha
    match a, ha with
    | [], _ =>
      rw [List.nil_append, unescapeUnits_char _ _ _ (by decide) (by decide), if_neg (hcond _)]
      show _ = (Except.ok []).bind _
      cases unescapeUnits b mode <;> rfl
    | c :: rest, ha =>
      have hlen : rest.length ≤ n := by simpa using ha
      by_cases hp : c = '%'
      · subst hp
        match rest, hlen with
        | [], _ =>
          cases b with
          | nil => rfl
          | cons y b' =>
            show unescapeUnits ('%' :: '/' :: y :: b') mode = _
            have : hexVal '/' = none := by decide
            simp only [unescapeUnits, this]
            rfl
        | [x], _ =>
          show unescapeUnits ('%' :: x :: '/' :: b) mode = _
          have : hexVal '/' = none := by decide
          simp only [unescapeUnits, this]
          cases hexVal x <;> rfl
        | x :: y :: a', hlen =>
          have hlen2 : a'.length ≤ n := by
            simp only [List.length_cons] at hlen
            omega
          show unescapeUnits ('%' :: x :: y :: (a' ++ '/' :: b)) mode = _
          cases hx : hexVal x with
          | none =>
            simp only [unescapeUnits, hx]
            rfl
          | some vx =>
            cases hy : hexVal y with
            | none =>
              simp only [unescapeUnits, hx, hy]
              rfl
            | some vy =>
              rw [unescapeUnits_escape _ _ _ _ _ _ hx hy hm,
                unescapeUnits_escape _ _ _ _ _ _ hx hy hm, ih a' hlen2]
              cases unescapeUnits a' mode <;> cases unescapeUnits b mode <;> rfl
      · by_cases hq : c = '+'
        · subst hq
          rw [List.cons_append, unescapeUnits_plus, unescapeUnits_plus, ih rest hlen]
          cases unescapeUnits rest mode <;> cases unescapeUnits b mode <;> rfl
        · rw [List.cons_append, unescapeUnits_char _ _ _ hp hq, unescapeUnits_char _ _ _ hp hq,
            if_neg (hcond _), if_neg (hcond _), ih rest hlen]
          cases unescapeUnits rest mode <;> cases unescapeUnits b mode <;> rfl

/-- A path is unescaped part by part between its slashes. -/
theorem urlUnescape_split (a b : List Char) :
    (urlUnescape (a ++ '/' :: b) .path).toOption =
      (urlUnescape a .path).toOption.bind fun ta =>
        (urlUnescape b .path).toOption.map fun tb => ta ++ '/' :: tb := by
  have hs := unescapeUnits_split .path ⟨by decide, by decide⟩ b a.length a (Nat.le_refl _)
  unfold urlUnescape assemble
  rw [hs]
  cases ha : unescapeUnits a .path with
  | error e => rfl
  | ok ua =>
    cases hb : unescapeUnits b .path with
    | error e =>
      simp only [Except.bind, Except.map]
      cases assembleFrom none ua <;> rfl
    | ok ub =>
      simp only [Except.bind, Except.map]
      rw [assembleFrom_split]
      cases assembleFrom none ua <;> cases assembleFrom none ub <;> rfl

/-! ### Resolving a reference path -/

theorem segmentsAux_chars (P : Char → Prop) (p : List Char) :
    ∀ cur : List Char, (∀ c ∈ cur, P c) → (∀ c ∈ p, P c) →
      ∀ seg ∈ segmentsAux cur p, ∀ c ∈ seg, P c := by
  induction p with
  | nil =>
    intro cur hcur _ seg hseg c hc
    simp only [segmentsAux, List.mem_singleton] at hseg
    subst hseg
    exact hcur c (List.mem_reverse.mp hc)
  | cons x xs ih =>
    intro cur hcur hp seg hseg c hc
    have hxs : ∀ c ∈ xs, P c := fun c hc => hp c (List.mem_cons_of_mem _ hc)
    unfold segmentsAux at hseg
    split at hseg
    · rcases List.mem_cons.mp hseg with h | h
      · subst h
        exact hcur c (List.mem_reverse.mp hc)
      · exact ih [] (fun _ h => absurd h (List.not_mem_nil _)) hxs seg h c hc
    · refine ih (x :: cur) ?_ hxs seg hseg c hc
      intro d hd
      rcases List.mem_cons.mp hd with h | h
      · subst h
        exact hp _ (List.mem_cons_self _ _)
      · exact hcur d h

theorem dirOf_subset (b : List Char) : ∀ c ∈ dirOf b, c ∈ b := by
  intro c hc
  unfold dirOf at hc
  exact List.mem_reverse.mp ((List.dropWhile_suffix _).subset (List.mem_reverse.mp hc))

theorem resolveElems_chars (P : Char → Prop) (hs : P '/') (elems : List (List Char)) :
    ∀ (dst : List Char) (first : Bool), (∀ c ∈ dst, P c) →
      (∀ seg ∈ elems, ∀ c ∈ seg, P c) → ∀ c ∈ resolveElems dst first elems, P c := by
  induction elems with
  | nil =>
    intro dst first hdst _ c hc
    exact hdst c hc
  | cons e es ih =>
    intro dst first hdst helems
    have hes : ∀ seg ∈ es, ∀ c ∈ seg, P c := fun seg h => helems seg (List.mem_cons_of_mem _ h)
    have he : ∀ c ∈ e, P c := helems e (List.mem_cons_self _ _)
    unfold resolveElems
    split
    · exact ih dst false hdst hes
    · split
      · simp only []
        split
        · refine ih _ first ?_ hes
          intro c hc
          rcases List.mem_cons.mp hc with h | h
          · subst h
            exact hs
          · exact hdst c (List.mem_of_mem_drop (dirOf_subset _ c (List.mem_of_mem_dropLast h)))
        · refine ih _ true ?_ hes
          intro c hc
          rw [List.mem_singleton.mp hc]
          exact hs
      · refine ih _ false ?_ hes
        intro c hc
        rcases List.mem_append.mp hc with h | h
        · exact hdst c h
        · split at h
          · exact he c h
          · rcases List.mem_cons.mp h with h | h
            · subst h
              exact hs
            · exact he c h

theorem resolveElems_head (elems : List (List Char)) :
    ∀ (dst : List Char) (first : Bool), dst.head? = some '/' →
      (resolveElems dst first elems).head? = some '/' := by
  induction elems with
  | nil =>
    intro dst first h
    exact h
  | cons e es ih =>
    intro dst first h
    unfold resolveElems
    split
    · exact ih dst false h
    · split
      · simp only []
        split
        · exact ih _ first rfl
        · exact ih _ true rfl
      · refine ih _ false ?_
        cases dst with
        | nil => cases h
        | cons d ds => exact h

/-- Every character of a resolved path is a slash or comes from one of the
two paths. -/
theorem resolvePath_chars (P : Char → Prop) (hs : P '/') (base ref : List Char)
    (hbase : ∀ c ∈ base, P c) (href : ∀ c ∈ ref, P c) : ∀ c ∈ resolvePath base ref, P c := by
  have hfull : ∀ c ∈ mergePath base ref, P c := by
    intro c hc
    unfold mergePath at hc
    split at hc
    · exact hbase c hc
    · split at hc
      · exact href c hc
      · rcases List.mem_append.mp hc with h | h
        · exact hbase c (dirOf_subset _ c h)
        · exact href c h
  unfold resolvePath
  simp only []
  generalize mergePath base ref = full at hfull
  split
  · intro c hc
    cases hc
  · have h1 := resolveElems_chars P hs (segmentsAux [] full) ['/'] true
      (fun c hc => by rw [List.mem_singleton.mp hc]; exact hs)
      (segmentsAux_chars P full [] (fun _ h => absurd h (List.not_mem_nil _)) hfull)
    have h2 : ∀ c ∈ (if (segmentsAux [] full).getLast? = some ['.'] ∨
        (segmentsAux [] full).getLast? = some ['.', '.']
        then resolveElems ['/'] true (segmentsAux [] full) ++ ['/']
        else resolveElems ['/'] true (segmentsAux [] full)), P c := by
      intro c hc
      split at hc
      · rcases List.mem_append.mp hc with h | h
        · exact h1 c h
        · rw [List.mem_singleton.mp h]
          exact hs
      · exact h1 c hc
    generalize (if (segmentsAux [] full).getLast? = some ['.'] ∨
        (segmentsAux [] full).getLast? = some ['.', '.']
        then resolveElems ['/'] true (segmentsAux [] full) ++ ['/']
        else resolveElems ['/'] true (segmentsAux [] full)) = dst at h2
    split
    · rename_i x r
      intro c hc
      exact h2 c (List.mem_cons_of_mem _ hc)
    · exact h2

/-- A resolved path is empty or begins with a slash. -/
theorem resolvePath_head (base ref : List Char) :
    resolvePath base ref = [] ∨ (resolvePath base ref).head? = some '/' := by
  unfold resolvePath
  simp only []
  generalize mergePath base ref = full
  split
  · exact Or.inl rfl
  · right
    have h1 := resolveElems_head (segmentsAux [] full) ['/'] true rfl
    have h2 : (if (segmentsAux [] full).getLast? = some ['.'] ∨
        (segmentsAux [] full).getLast? = some ['.', '.']
        then resolveElems ['/'] true (segmentsAux [] full) ++ ['/']
        else resolveElems ['/'] true (segmentsAux [] full)).head? = some '/' := by
      split
      · cases hd : resolveElems ['/'] true (segmentsAux [] full) with
        | nil => rw [hd] at h1; cases h1
        | cons d ds => rw [hd] at h1; exact h1
      · exact h1
    generalize (if (segmentsAux [] full).getLast? = some ['.'] ∨
        (segmentsAux [] full).getLast? = some ['.', '.']
        then resolveElems ['/'] true (segmentsAux [] full) ++ ['/']
        else resolveElems ['/'] true (segmentsAux [] full)) = dst at h2
    split
    · rfl
    · exact h2

theorem segmentsAux_join (p : List Char) : ∀ cur : List Char,
    (segmentsAux cur p).flatMap (fun e => '/' :: e) = '/' :: (cur.reverse ++ p) := by
  induction p with
  | nil =>
    intro cur
    simp [segmentsAux]
  | cons x xs ih =>
    intro cur
    unfold segmentsAux
    split
    · rename_i hx
      subst hx
      simp [ih]
    · simp [ih]

theorem resolveElems_nodot (elems : List (List Char))
    (h : ∀ seg ∈ elems, seg ≠ ['.'] ∧ seg ≠ ['.', '.']) : ∀ dst : List Char,
    resolveElems dst false elems = dst ++ elems.flatMap (fun e => '/' :: e) := by
  induction elems with
  | nil =>
    intro dst
    simp [resolveElems]
  | cons e es ih =>
    intro dst
    have he := h e (List.mem_cons_self _ _)
    unfold resolveElems
    rw [if_neg he.1, if_neg he.2, ih (fun seg hs => h seg (List.mem_cons_of_mem _ hs))]
    simp

/-- A merged path that begins with a slash and has no dot segment is the
resolved path. -/
theorem resolvePath_nodot (base ref : List Char) (hhead : (mergePath base ref).head? = some '/')
    (hnodot : ∀ seg ∈ segmentsAux [] (mergePath base ref), seg ≠ ['.'] ∧ seg ≠ ['.', '.']) :
    resolvePath base ref = mergePath base ref := by
  unfold resolvePath
  simp only []
  generalize mergePath base ref = full at hhead hnodot
  have hjoin := segmentsAux_join full []
  cases full with
  | nil => cases hhead
  | cons f fs =>
    have hf : f = '/' := by simpa using hhead
    subst hf
    rw [if_neg (List.cons_ne_nil _ _)]
    cases hsegs : segmentsAux [] ('/' :: fs) with
    | nil =>
      rw [hsegs] at hjoin
      simp at hjoin
    | cons e es =>
      rw [hsegs] at hjoin hnodot
      have he := hnodot e (List.mem_cons_self _ _)
      have hes := resolveElems_nodot es (fun seg hs => hnodot seg (List.mem_cons_of_mem _ hs))
      have hdst : resolveElems ['/'] true (e :: es) = '/' :: '/' :: fs := by
        unfold resolveElems
        rw [if_neg he.1, if_neg he.2, hes]
        simpa using hjoin
      have hlast : ¬((e :: es).getLast? = some ['.'] ∨ (e :: es).getLast? = some ['.', '.']) := by
        intro hl
        rcases hl with hl | hl
        · exact (hnodot _ (List.mem_of_getLast?_eq_some hl)).1 rfl
        · exact (hnodot _ (List.mem_of_getLast?_eq_some hl)).2 rfl
      simp only [if_neg hlast, hdst]

theorem mk_eq_empty (l : List Char) : String.mk l = "" ↔ l = [] := by
  constructor
  · intro h
    exact congrArg String.data h
  · intro h
    rw [h]

theorem takeWhile_dropWhile_append (p : Char → Bool) (a b : List Char)
    (ha : ∀ c ∈ a, p c = true) (hb : ∀ c, b.head? = some c → p c = false) :
    (a ++ b).takeWhile p = a ∧ (a ++ b).dropWhile p = b := by
  induction a with
  | nil =>
    cases b with
    | nil => exact ⟨rfl, rfl⟩
    | cons x xs =>
      have hx := hb x rfl
      simp [List.takeWhile, List.dropWhile, hx]
  | cons x xs ih =>
    have hx := ha x (List.mem_cons_self _ _)
    have ih2 := ih (fun c hc => ha c (List.mem_cons_of_mem _ hc))
    simp [List.takeWhile, List.dropWhile, hx, ih2.1, ih2.2]

theorem dirOf_split (b : List Char) : ∃ rest, b = dirOf b ++ rest ∧ '/' ∉ rest := by
  refine ⟨(b.reverse.takeWhile (· != '/')).reverse, ?_, ?_⟩
  · unfold dirOf
    rw [← List.reverse_append, List.takeWhile_append_dropWhile, List.reverse_reverse]
  · intro hmem
    have h := List.mem_takeWhile_imp (List.mem_reverse.mp hmem)
    revert h
    decide

theorem dirOf_head (b : List Char) (h : b.head? = some '/') : (dirOf b).head? = some '/' := by
  obtain ⟨rest, hb, hrest⟩ := dirOf_split b
  cases hd : dirOf b with
  | nil =>
    rw [hd, List.nil_append] at hb
    rw [hb] at h
    cases rest with
    | nil => cases h
    | cons x xs =>
      simp only [List.head?_cons, Option.some.injEq] at h
      subst h
      exact absurd (List.mem_cons_self _ _) hrest
  | cons x xs =>
    rw [hd] at hb
    rw [hb] at h
    exact h

theorem dirOf_trailing_slash (b : List Char) (h : b.getLast? = some '/') : dirOf b = b := by
  unfold dirOf
  rw [← List.head?_reverse] at h
  cases hr : b.reverse with
  | nil =>
    rw [hr] at h
    cases h
  | cons x xs =>
    rw [hr] at h
    simp only [List.head?_cons, Option.some.injEq] at h
    subst h
    have : List.dropWhile (fun c => c != '/') ('/' :: xs) = '/' :: xs := by
      simp [List.dropWhile]
    rw [this, ← hr, List.reverse_reverse]

theorem mergePath_head (base ref : List Char) (h : base.head? = some '/') :
    (mergePath base ref).head? = some '/' := by
  unfold mergePath
  split
  · exact h
  · split
    · rename_i hr
      exact hr
    · have hd := dirOf_head base h
      cases hdir : dirOf base with
      | nil =>
        rw [hdir] at hd
        cases hd
      | cons x xs =>
        rw [hdir] at hd
        exact hd

/-- The URL of a request that `http.NewRequest` returns is the parsed text,
without an empty port. -/
theorem httpNewRequest_url (lib : URLLib) (method url : String) (body : Option (List Char))
    (req : Request) (h : httpNewRequest lib method url body = .ok req) :
    ∃ u, lib.Parse url = .ok u ∧ req.URL = some { u with Host := removeEmptyPort u.Host } := by
  unfold httpNewRequest at h
  simp only [] at h
  generalize (if method = "" then "GET" else method) = m at h
  cases hv : validMethod m
  · simp [hv] at h
  · cases hp : lib.Parse url with
    | error e => simp [hv, hp] at h
    | ok u =>
      simp only [hv, hp, Bool.not_true, Bool.false_eq_true, if_false] at h
      cases h
      exact ⟨u, rfl, rfl⟩

/-- The URL of a request built by `NewRequest`: the reference resolved
against the base URL, printed, and parsed again by `http.NewRequest`. -/
theorem NewRequest_url {B : Type} (lib : URLLib)
    (encode : Bool → B → Except Error (List Char)) (c : Client) (method urlStr : String)
    (body : Option B) (req : Request)
    (h : Client.NewRequest lib encode c method urlStr body = .ok req) :
    ∃ resolved u, URL.ParseRef lib c.BaseURL urlStr = .ok resolved ∧
      lib.Parse (lib.String resolved) = .ok u ∧
      req.URL = some { u with Host := removeEmptyPort u.Host } := by
  unfold Client.NewRequest at h
  split at h
  · cases h
  · cases h
  · rename_i resolved hres
    simp only [] at h
    split at h
    · cases h
    · split at h
      · cases h
      · rename_i req0 hreq0
        obtain ⟨u, hu, hurl⟩ := httpNewRequest_url _ _ _ _ _ hreq0
        cases h
        refine ⟨resolved, u, hres, hu, ?_⟩
        cases body <;> exact hurl

theorem segmentsAux_append_slash (a b : List Char) : ∀ (cur seg : List Char),
    seg ∈ segmentsAux cur (a ++ '/' :: b) →
      seg ∈ segmentsAux cur (a ++ ['/']) ∨ seg ∈ segmentsAux [] b := by
  induction a with
  | nil =>
    intro cur seg h
    simp only [List.nil_append, segmentsAux, if_true, List.mem_cons] at h ⊢
    rcases h with h | h
    · exact Or.inl (Or.inl h)
    · exact Or.inr h
  | cons x xs ih =>
    intro cur seg h
    have e1 : ∀ l, segmentsAux cur (x :: l) =
        if x = '/' then cur.reverse :: segmentsAux [] l else segmentsAux (x :: cur) l :=
      fun _ => rfl
    simp only [List.cons_append] at h ⊢
    rw [e1] at h ⊢
    split at h
    · rename_i hx
      rw [if_pos hx]
      rcases List.mem_cons.mp h with h | h
      · exact Or.inl (List.mem_cons.mpr (Or.inl h))
      · rcases ih [] seg h with h2 | h2
        · exact Or.inl (List.mem_cons_of_mem _ h2)
        · exact Or.inr h2
    · rename_i hx
      rw [if_neg hx]
      exact ih (x :: cur) seg h

/-- A path that ends in a slash followed by another path has no dot segment
when neither has one. -/
theorem noDotSegment_append (a b : List Char) (hlast : a.getLast? = some '/')
    (ha : noDotSegment a) (hb : noDotSegment b) : noDotSegment (a ++ b) := by
  obtain ⟨a0, rfl⟩ := List.getLast?_eq_some_iff.mp hlast
  intro seg hseg
  rw [List.append_assoc, List.singleton_append] at hseg
  rcases segmentsAux_append_slash a0 b [] seg hseg with h | h
  · exact ha seg h
  · exact hb seg h

/-! ### Escaped paths -/

theorem toOption_eq_some {α : Type} (e : Except Error α) (x : α) (h : e.toOption = some x) :
    e = .ok x := by
  cases e with
  | error _ => cases h
  | ok a =>
    have : a = x := by simpa [Except.toOption] using h
    rw [this]

theorem readablePath_iff (s : List Char) :
    readablePath s = true ↔ ∃ t, urlUnescape s .path = .ok t := by
  unfold readablePath
  cases urlUnescape s .path with
  | error e => simp [Except.toOption]
  | ok t => simp [Except.toOption]

/-- A path is readable when its parts before and after a slash are. -/
theorem readablePath_split (a b : List Char) :
    readablePath (a ++ '/' :: b) = (readablePath a && readablePath b) := by
  unfold readablePath
  rw [urlUnescape_split]
  cases (urlUnescape a .path).toOption <;> cases (urlUnescape b .path).toOption <;> rfl

theorem readablePath_slash (b : List Char) : readablePath ('/' :: b) = readablePath b := by
  have := readablePath_split [] b
  rw [List.nil_append] at this
  rw [this]
  rfl

/-- An escaped path is read back as the path. -/
theorem urlUnescape_EscapedPath (u : URL) :
    urlUnescape u.EscapedPath .path = .ok u.Path.toList := by
  unfold URL.EscapedPath
  split_ifs with h1 h2
  · exact toOption_eq_some _ _ h1.2.2
  · rw [h2]
    rfl
  · exact urlUnescape_escape .path (Or.inl rfl) _

theorem readablePath_EscapedPath (u : URL) : readablePath u.EscapedPath = true :=
  (readablePath_iff _).mpr ⟨_, urlUnescape_EscapedPath u⟩

/-- The characters of a text that `validEncoded` accepts as a path. -/
theorem validEncoded_iff (s : List Char) :
    validEncoded s .path = true ↔
      ∀ c ∈ s, c ∈ ['!', '$', '&', Char.ofNat 39, '(', ')', '*', '+', ',', ';', '=', ':', '@', '[',
        ']', '%'] ∨ shouldEscape c .path = false := by
  unfold validEncoded
  rw [List.all_eq_true]
  constructor
  · intro h c hc
    have := h c hc
    simpa using this
  · intro h c hc
    have := h c hc
    simpa using this

/-- An escaped path is one that `validEncoded` accepts. -/
theorem validEncoded_EscapedPath (u : URL) : validEncoded u.EscapedPath .path = true := by
  unfold URL.EscapedPath
  split_ifs with h1 h2
  · exact h1.2.1
  · decide
  · rw [validEncoded_iff]
    intro c hc
    rcases escape_mem _ _ c hc with h | h | ⟨k, h⟩ | ⟨_, h⟩
    · rw [h]
      exact Or.inl (by decide)
    · rw [h]
      exact Or.inl (by decide)
    · right
      have ha := upperHexDigit_alnum k
      rw [← h] at ha
      unfold shouldEscape
      rw [if_pos ha]
    · exact Or.inr h

theorem dirOf_cases (b : List Char) : dirOf b = [] ∨ ∃ x, dirOf b = x ++ ['/'] := by
  unfold dirOf
  cases h : List.dropWhile (fun c => c != '/') b.reverse with
  | nil => exact Or.inl rfl
  | cons y ys =>
    right
    have hy : (y != '/') = false := by
      have := List.head_dropWhile_not (fun c => c != '/') b.reverse
      simp only [h] at this
      simpa using this (by simp)
    have : y = '/' := by simpa using hy
    subst this
    exact ⟨ys.reverse, by simp⟩

theorem readablePath_dirOf (b : List Char) (h : readablePath b = true) :
    readablePath (dirOf b) = true := by
  obtain ⟨rest, hb, _⟩ := dirOf_split b
  rcases dirOf_cases b with h0 | ⟨x, hx⟩
  · rw [h0]
    rfl
  · rw [hx] at hb ⊢
    rw [hb, List.append_assoc, List.singleton_append, readablePath_split] at h
    rw [readablePath_split]
    simp only [Bool.and_eq_true] at h ⊢
    exact ⟨h.1, rfl⟩

theorem readablePath_mergePath (base ref : List Char) (hb : readablePath base = true)
    (hr : readablePath ref = true) : readablePath (mergePath base ref) = true := by
  unfold mergePath
  split_ifs
  · exact hb
  · exact hr
  · have hd := readablePath_dirOf base hb
    rcases dirOf_cases base with h0 | ⟨x, hx⟩
    · rw [h0]
      exact hr
    · rw [hx] at hd ⊢
      rw [readablePath_split] at hd
      rw [List.append_assoc, List.singleton_append, readablePath_split]
      simp only [Bool.and_eq_true] at hd ⊢
      exact ⟨hd.1, hr⟩

theorem readablePath_segments (p : List Char) : ∀ cur : List Char,
    readablePath (cur.reverse ++ p) = true → ∀ seg ∈ segmentsAux cur p, readablePath seg = true := by
  induction p with
  | nil =>
    intro cur h seg hseg
    simp only [segmentsAux, List.mem_singleton] at hseg
    subst hseg
    simpa using h
  | cons x xs ih =>
    intro cur h seg hseg
    unfold segmentsAux at hseg
    split at hseg
    · rename_i hx
      subst hx
      rw [readablePath_split] at h
      simp only [Bool.and_eq_true] at h
      rcases List.mem_cons.mp hseg with hs | hs
      · rw [hs]
        exact h.1
      · exact ih [] (by simpa using h.2) seg hs
    · exact ih (x :: cur) (by simpa using h) seg hseg

/-- The loop of `resolvePath` writes a readable path when the elements are
readable. -/
theorem readablePath_resolveElems (elems : List (List Char)) :
    ∀ (dst : List Char) (first : Bool), readablePath dst = true → dst.head? = some '/' →
      (first = true → dst = ['/']) → (∀ seg ∈ elems, readablePath seg = true) →
      readablePath (resolveElems dst first elems) = true := by
  induction elems with
  | nil =>
    intro dst first h _ _ _
    exact h
  | cons e es ih =>
    intro dst first hdst hhead hfirst helems
    have hes : ∀ seg ∈ es, readablePath seg = true :=
      fun seg h => helems seg (List.mem_cons_of_mem _ h)
    have he : readablePath e = true := helems e (List.mem_cons_self _ _)
    unfold resolveElems
    split
    · exact ih dst false hdst hhead (fun h => by cases h) hes
    · split
      · simp only []
        split
        · rename_i hmem
          have hf : first = false := by
            cases first with
            | false => rfl
            | true =>
              rw [hfirst rfl] at hmem
              simp at hmem
          subst hf
          refine ih _ false ?_ rfl (fun h => by cases h) hes
          rw [readablePath_slash]
          cases dst with
          | nil => cases hhead
          | cons d str =>
            have hd : d = '/' := by simpa using hhead
            subst hd
            rw [readablePath_slash] at hdst
            simp only [List.drop_succ_cons, List.drop_zero] at hmem ⊢
            have hdir := readablePath_dirOf str hdst
            rcases dirOf_cases str with h0 | ⟨x, hx⟩
            · rw [h0]
              rfl
            · rw [hx] at hdir ⊢
              rw [readablePath_split] at hdir
              simp only [Bool.and_eq_true] at hdir
              simpa using hdir.1
        · exact ih ['/'] true rfl rfl (fun _ => rfl) hes
      · refine ih _ false ?_ ?_ (fun h => by cases h) hes
        · cases first with
          | true =>
            rw [hfirst rfl]
            simp only [if_true, List.singleton_append]
            rw [readablePath_slash]
            exact he
          | false =>
            simp only [Bool.false_eq_true, if_false]
            rw [readablePath_split, hdst, he]
            rfl
        · cases dst with
          | nil => cases hhead
          | cons d ds => simpa using hhead

/-- A path resolved from readable paths is readable. -/
theorem readablePath_resolvePath (base ref : List Char) (hb : readablePath base = true)
    (hr : readablePath ref = true) : readablePath (resolvePath base ref) = true := by
  have hfull := readablePath_mergePath base ref hb hr
  unfold resolvePath
  simp only []
  generalize mergePath base ref = full at hfull
  split
  · rfl
  · have h1 := readablePath_resolveElems (segmentsAux [] full) ['/'] true rfl rfl (fun _ => rfl)
      (readablePath_segments full [] (by simpa using hfull))
    have hh := resolveElems_head (segmentsAux [] full) ['/'] true rfl
    have h2 : readablePath (if (segmentsAux [] full).getLast? = some ['.'] ∨
        (segmentsAux [] full).getLast? = some ['.', '.']
        then resolveElems ['/'] true (segmentsAux [] full) ++ ['/']
        else resolveElems ['/'] true (segmentsAux [] full)) = true := by
      split
      · rw [readablePath_split, h1]
        rfl
      · exact h1
    generalize (if (segmentsAux [] full).getLast? = some ['.'] ∨
        (segmentsAux [] full).getLast? = some ['.', '.']
        then resolveElems ['/'] true (segmentsAux [] full) ++ ['/']
        else resolveElems ['/'] true (segmentsAux [] full)) = dst at h2
    split
    · rename_i x r
      rw [readablePath_slash]
      cases hx : readablePath [x]
      · have := readablePath_split [x] r
        rw [List.singleton_append] at this
        rw [this, hx] at h2
        cases h2
      · have := readablePath_split [x] r
        rw [List.singleton_append] at this
        rw [this, hx] at h2
        simpa using h2
    · exact h2

/-- A path resolved from escaped paths is one that `validEncoded` accepts. -/
theorem validEncoded_resolvePath (base ref : List Char) (hb : validEncoded base .path = true)
    (hr : validEncoded ref .path = true) : validEncoded (resolvePath base ref) .path = true := by
  rw [validEncoded_iff] at hb hr ⊢
  exact resolvePath_chars _ (Or.inr (by decide)) base ref hb hr

/-- Setting a path that `validEncoded` accepts, empty or rooted, and readable:
`setPath` succeeds, and the escaped path of the result is that path. -/
theorem setPath_EscapedPath (u : URL) (r : List Char) (hv : validEncoded r .path = true)
    (hr : readablePath r = true) (hhead : r = [] ∨ r.head? = some '/') :
    ∃ P, urlUnescape r .path = .ok P ∧
      u.setPath r =
        .ok { u with Path := String.mk P
                     RawPath := if escape P .path = r then "" else String.mk r } ∧
      URL.EscapedPath { u with Path := String.mk P
                               RawPath := if escape P .path = r then "" else String.mk r } = r := by
  obtain ⟨P, hP⟩ := (readablePath_iff r).mp hr
  refine ⟨P, hP, ?_, ?_⟩
  · unfold URL.setPath
    rw [hP]
  · unfold URL.EscapedPath
    by_cases he : escape P .path = r
    · simp only [if_pos he, ne_eq, not_true_eq_false, false_and, if_false]
      have hstar : String.mk P ≠ "*" := by
        intro hs
        have hP2 : P = ['*'] := congrArg String.data hs
        rw [hP2] at he
        rw [← he] at hhead
        rcases hhead with h | h
        · revert h
          decide
        · revert h
          decide
      rw [if_neg hstar]
      exact he
    · have hne : r ≠ [] := by
        intro h0
        subst h0
        have : P = [] := by
          have : urlUnescape [] .path = .ok [] := rfl
          rw [this] at hP
          cases hP
          rfl
        subst this
        exact he rfl
      have hmk : String.mk r ≠ "" := fun h => hne ((mk_eq_empty r).mp h)
      have hcond : String.mk r ≠ "" ∧ validEncoded (String.mk r).toList .path = true ∧
          (urlUnescape (String.mk r).toList .path).toOption = some (String.mk P).toList := by
        refine ⟨hmk, hv, ?_⟩
        show (urlUnescape r .path).toOption = some P
        rw [hP]
        rfl
      simp only [if_neg he]
      rw [if_pos hcond]
      rfl

/-! ### The authority of a URL -/

/-- The characters that user information keeps unescaped: letters, digits and
these. -/
theorem shouldEscape_userPassword (c : Char) (h : shouldEscape c .userPassword = false) :
    c.isAlphanum = true ∨ c ∈ ['-', '_', '.', '~', '$', '&', '+', ',', ';', '='] := by
  by_cases ha : c.isAlphanum = true
  · exact Or.inl ha
  · right
    simp only [shouldEscape, ha] at h
    simp at h
    simp
    tauto

/-- A character outside ASCII is escaped in every mode. -/
theorem shouldEscape_nonascii (c : Char) (mode : Encoding) (h : 0x80 ≤ c.toNat) :
    shouldEscape c mode = true := by
  have ha : c.isAlphanum = false := by
    cases hc : c.isAlphanum with
    | false => rfl
    | true =>
      have := (alnum_ascii c hc).1
      omega
  have hne : ∀ d : Char, d.toNat < 0x80 → c ≠ d := by
    intro d hd e
    rw [e] at h
    omega
  have hnot : ∀ l : List Char, (∀ d ∈ l, d.toNat < 0x80) → c ∉ l := by
    intro l hl hm
    exact hne c (hl c hm) rfl
  have h1 := hnot ['!', '$', '&', Char.ofNat 39, '(', ')', '*', '+', ',', ';', '=', ':', '[', ']',
    '<', '>', '"'] (by decide)
  have h2 := hnot ['-', '_', '.', '~'] (by decide)
  have h3 := hnot ['$', '&', '+', ',', '/', ':', ';', '=', '?', '@'] (by decide)
  have h4 := hnot ['!', '(', ')', '*'] (by decide)
  unfold shouldEscape
  rw [ha]
  simp only [Bool.false_eq_true, if_false, h1, h2, h3, h4, and_false]

theorem hostChar_cases (c : Char) (h : hostChar c = true) :
    shouldEscape c .host = false ∨ c = '%' ∨ 0x80 ≤ c.toNat := by
  unfold hostChar at h
  simp only [Bool.or_eq_true, Bool.not_eq_true', decide_eq_true_eq] at h
  rcases h with (h | h) | h
  · exact Or.inl h
  · exact Or.inr (Or.inl h)
  · exact Or.inr (Or.inr h)

/-- An escaped host has none of `/ ? # @` and no control character. -/
theorem escape_host_chars (h : List Char) :
    ∀ c ∈ escape h .host, c ≠ '/' ∧ c ≠ '?' ∧ c ≠ '#' ∧ c ≠ '@' ∧ isCTL c = false := by
  intro c hc
  rcases escape_mem _ _ c hc with h1 | h1 | ⟨k, h1⟩ | ⟨_, h1⟩
  · rw [h1]
    decide
  · rw [h1]
    decide
  · have ha := upperHexDigit_alnum k
    rw [← h1] at ha
    refine ⟨?_, ?_, ?_, ?_, (alnum_ascii c ha).2⟩ <;> (intro hc; subst hc; revert ha; decide)
  · have := host_char_facts c h1
    exact ⟨this.1, this.2.1, this.2.2.1, this.2.2.2.1, this.2.2.2.2.2.1⟩

/-- Escaped user information has none of `/ ? # @ :`, no control character,
and only characters that `validUserinfo` accepts. -/
theorem escape_userPassword_chars (s : List Char) :
    ∀ c ∈ escape s .userPassword, c ≠ '/' ∧ c ≠ '?' ∧ c ≠ '#' ∧ c ≠ '@' ∧ c ≠ ':' ∧
      isCTL c = false ∧
      (c.isAlphanum ||
        decide (c ∈ ['-', '.', '_', ':', '~', '!', '$', '&', Char.ofNat 39, '(', ')', '*', '+', ',',
          ';', '=', '%', '@'])) = true := by
  have hlist : ∀ d ∈ ['-', '_', '.', '~', '$', '&', '+', ',', ';', '=', '%'],
      d ≠ '/' ∧ d ≠ '?' ∧ d ≠ '#' ∧ d ≠ '@' ∧ d ≠ ':' ∧ isCTL d = false ∧
      (d.isAlphanum ||
        decide (d ∈ ['-', '.', '_', ':', '~', '!', '$', '&', Char.ofNat 39, '(', ')', '*', '+', ',',
          ';', '=', '%', '@'])) = true := by decide
  have halnum : ∀ d : Char, d.isAlphanum = true →
      d ≠ '/' ∧ d ≠ '?' ∧ d ≠ '#' ∧ d ≠ '@' ∧ d ≠ ':' ∧ isCTL d = false ∧
      (d.isAlphanum ||
        decide (d ∈ ['-', '.', '_', ':', '~', '!', '$', '&', Char.ofNat 39, '(', ')', '*', '+', ',',
          ';', '=', '%', '@'])) = true := by
    intro d ha
    refine ⟨?_, ?_, ?_, ?_, ?_, (alnum_ascii d ha).2, by rw [ha]; rfl⟩ <;>
      (intro hc; subst hc; revert ha; decide)
  intro c hc
  rcases escape_mem _ _ c hc with h1 | h1 | ⟨k, h1⟩ | ⟨_, h1⟩
  · rw [h1]
    decide
  · rw [h1]
    decide
  · have ha := upperHexDigit_alnum k
    rw [← h1] at ha
    exact halnum c ha
  · rcases shouldEscape_userPassword c h1 with ha | hm
    · exact halnum c ha
    · exact hlist c (by
        simp only [List.mem_cons, List.mem_singleton, List.not_mem_nil, or_false] at hm ⊢
        tauto)

/-- An escape of a byte from 0x80 on, or `%25`, in a host. -/
theorem unescapeUnits_escape_host (a b : Char) (rest : List Char) (x y : Nat)
    (ha : hexVal a = some x) (hb : hexVal b = some y) (hx : 8 ≤ x ∨ (a = '2' ∧ b = '5')) :
    unescapeUnits ('%' :: a :: b :: rest) .host =
      (unescapeUnits rest .host).map fun units =>
        (if 16 * x + y < 128 then .inl (Char.ofNat (16 * x + y)) else .inr (16 * x + y)) :: units := by
  have hc : ¬ (x < 8 ∧ ¬ (a = '2' ∧ b = '5')) := by
    rintro ⟨h1, h2⟩
    rcases hx with h | h
    · omega
    · exact h2 h
  simp only [unescapeUnits, ha, hb, true_and, hc, if_false, reduceCtorEq, false_and]

/-- The escapes of a list of bytes from 0x80 on are read back in a host as
the bytes. -/
theorem unescapeUnits_bytes_host (rest : List Char) (bs : List Nat)
    (hbs : ∀ b ∈ bs, 128 ≤ b ∧ b < 256) :
    unescapeUnits
        ((bs.flatMap fun b => ['%', upperHexDigit (b / 16), upperHexDigit (b % 16)]) ++ rest)
        .host =
      (unescapeUnits rest .host).map fun units =>
        bs.map (fun b => if b < 128 then Sum.inl (Char.ofNat b) else Sum.inr b) ++ units := by
  induction bs with
  | nil =>
    simp only [List.flatMap_nil, List.nil_append, List.map_nil]
    cases unescapeUnits rest .host <;> rfl
  | cons b bs ih =>
    have hb := hbs b (List.mem_cons_self _ _)
    have ih2 := ih (fun c hc => hbs c (List.mem_cons_of_mem _ hc))
    have hval : 16 * (b / 16) + b % 16 = b := by omega
    simp only [List.flatMap_cons, List.cons_append, List.nil_append, List.append_assoc]
    rw [unescapeUnits_escape_host _ _ _ (b / 16) (b % 16)
      (hexVal_upperHexDigit _ (by omega)) (hexVal_upperHexDigit _ (by omega))
      (Or.inl (by omega)), ih2, hval]
    cases unescapeUnits rest .host <;> rfl

/-- The bytes of a character outside ASCII are all from 0x80 on. -/
theorem utf8Bytes_high (c : Char) (h : 0x80 ≤ c.toNat) : ∀ b ∈ utf8Bytes c, 128 ≤ b ∧ b < 256 := by
  intro b hb
  refine ⟨?_, utf8Bytes_lt c b hb⟩
  unfold utf8Bytes at hb
  simp only [] at hb
  split_ifs at hb <;> simp at hb <;> omega

/-- The escaping of a character of a host is read back as units that make the
character. -/
theorem unescapeUnits_escape_hostChar (c : Char) (hc : hostChar c = true) :
    ∃ vs : List (Char ⊕ Nat),
      (∀ rest, unescapeUnits (escape [c] .host ++ rest) .host =
        (unescapeUnits rest .host).map fun units => vs ++ units) ∧
      ∀ tail, assembleFrom none (vs ++ tail) = (assembleFrom none tail).map (c :: ·) := by
  rcases hostChar_cases c hc with hs | hs | hs
  · refine ⟨[.inl c], ?_, fun tail => assembleFrom_inl c tail⟩
    intro rest
    have he : escape [c] .host = [c] := escape_clean [c] .host (fun d hd => by
      rw [List.mem_singleton.mp hd]
      exact hs)
    have hcp : c ≠ '%' := (host_char_facts c hs).2.2.2.2.1
    rw [he]
    by_cases hp : c = '+'
    · subst hp
      rw [List.singleton_append, unescapeUnits_plus, if_neg (by decide)]
      rfl
    · rw [List.singleton_append, unescapeUnits_char c rest .host hcp hp, if_neg]
      · rfl
      · rintro ⟨_, _, h3⟩
        rw [hs] at h3
        cases h3
  · subst hs
    refine ⟨[.inl '%'], ?_, fun tail => assembleFrom_inl '%' tail⟩
    intro rest
    have he : escape ['%'] .host = ['%', '2', '5'] := by decide
    rw [he]
    have := unescapeUnits_escape_host '2' '5' rest 2 5 rfl rfl (Or.inr ⟨rfl, rfl⟩)
    simp only [List.cons_append, List.nil_append]
    rw [this]
    rfl
  · refine ⟨(utf8Bytes c).map (fun b => if b < 128 then Sum.inl (Char.ofNat b) else Sum.inr b),
      ?_, assemble_utf8Bytes c⟩
    intro rest
    have he : escape [c] .host =
        (utf8Bytes c).flatMap fun b => ['%', upperHexDigit (b / 16), upperHexDigit (b % 16)] := by
      unfold escape
      simp [shouldEscape_nonascii c .host hs]
    rw [he]
    exact unescapeUnits_bytes_host rest _ (utf8Bytes_high c hs)

/-- The escaping of a host is read back as units that make the host. -/
theorem unescapeUnits_escape_hostText (s : List Char) (hs : ∀ c ∈ s, hostChar c = true) :
    ∃ vs : List (Char ⊕ Nat),
      (∀ rest, unescapeUnits (escape s .host ++ rest) .host =
        (unescapeUnits rest .host).map fun units => vs ++ units) ∧
      ∀ tail, assembleFrom none (vs ++ tail) = (assembleFrom none tail).map (s ++ ·) := by
  induction s with
  | nil =>
    refine ⟨[], ?_, ?_⟩
    · intro rest
      show unescapeUnits rest .host = _
      cases unescapeUnits rest .host <;> rfl
    · intro tail
      cases h : assembleFrom none tail <;> simp [h]
  | cons c s ih =>
    obtain ⟨vs, h1, h2⟩ := ih (fun d hd => hs d (List.mem_cons_of_mem _ hd))
    obtain ⟨ws, k1, k2⟩ := unescapeUnits_escape_hostChar c (hs c (List.mem_cons_self _ _))
    refine ⟨ws ++ vs, ?_, ?_⟩
    · intro rest
      have he : escape (c :: s) .host = escape [c] .host ++ escape s .host := by
        unfold escape
        simp
      rw [he, List.append_assoc, k1, h1]
      cases unescapeUnits rest .host <;> simp [Except.map]
    · intro tail
      rw [List.append_assoc, k2, h2]
      cases assembleFrom none tail <;> rfl

/-- Escaping and unescaping a host gives the host. -/
theorem urlUnescape_escape_host (s : List Char) (hs : ∀ c ∈ s, hostChar c = true) :
    urlUnescape (escape s .host) .host = .ok s := by
  obtain ⟨vs, h1, h2⟩ := unescapeUnits_escape_hostText s hs
  have e1 := h1 []
  have e2 := h2 []
  simp only [List.append_nil] at e1 e2
  unfold urlUnescape assemble
  rw [e1]
  have : unescapeUnits [] .host = .ok [] := rfl
  have h0 : assembleFrom none ([] : List (Char ⊕ Nat)) = some [] := rfl
  simp only [h0, Option.map_some', List.append_nil] at e2
  simp only [this, Except.map, List.append_nil, e2]

theorem escape_singleton_ne_nil (c : Char) (mode : Encoding) : escape [c] mode ≠ [] := by
  unfold escape
  simp only [List.flatMap_cons, List.flatMap_nil, List.append_nil]
  split_ifs
  · exact List.cons_ne_nil _ _
  · unfold utf8Bytes
    simp only []
    split_ifs <;> simp
  · exact List.cons_ne_nil _ _

theorem escape_append (a b : List Char) (mode : Encoding) :
    escape (a ++ b) mode = escape a mode ++ escape b mode := by
  unfold escape
  rw [List.flatMap_append]

/-- A text with a colon, cut at its last colon. -/
theorem last_colon_split (h : List Char) (hm : ':' ∈ h) :
    ∃ pre, h = pre ++ ':' :: (h.reverse.takeWhile (· != ':')).reverse := by
  have hsplit := List.takeWhile_append_dropWhile (· != ':') h.reverse
  cases hd : h.reverse.dropWhile (· != ':') with
  | nil =>
    exfalso
    rw [hd, List.append_nil] at hsplit
    have hmem : ':' ∈ h.reverse.takeWhile (· != ':') := by
      rw [hsplit]
      exact List.mem_reverse.mpr hm
    have := List.mem_takeWhile_imp hmem
    simp at this
  | cons x xs =>
    have hx : x = ':' := by
      have := List.head_dropWhile_not (· != ':') h.reverse (by rw [hd]; exact List.cons_ne_nil _ _)
      simp only [hd, List.head_cons] at this
      simpa using this
    subst hx
    refine ⟨xs.reverse, ?_⟩
    rw [hd] at hsplit
    have := congrArg List.reverse hsplit
    rw [List.reverse_reverse] at this
    refine this.symm.trans ?_
    simp

/-- The text after the last colon of a text that ends in a colon and a text
without colons. -/
theorem after_last_colon (a p : List Char) (hp : ':' ∉ p) :
    ((a ++ ':' :: p).reverse.takeWhile (· != ':')).reverse = p := by
  have hrev : (a ++ ':' :: p).reverse = p.reverse ++ ':' :: a.reverse := by simp
  rw [hrev]
  have := takeWhile_dropWhile_append (· != ':') p.reverse (':' :: a.reverse)
    (fun c hc => by
      have : c ≠ ':' := fun e => hp (e ▸ List.mem_reverse.mp hc)
      simpa using this)
    (fun c hc => by
      simp only [List.head?_cons, Option.some.injEq] at hc
      rw [← hc]
      rfl)
  rw [this.1, List.reverse_reverse]

theorem validHost_facts (h : List Char) (hh : validHost h = true) :
    h ≠ [] ∧ h ≠ [':'] ∧ h.head? ≠ some '[' ∧ (∀ c ∈ h, hostChar c = true) ∧
      (':' ∈ h → validOptionalPort (':' :: (h.reverse.takeWhile (· != ':')).reverse) = true) := by
  unfold validHost at hh
  simp only [Bool.and_eq_true, Bool.or_eq_true, Bool.not_eq_true', decide_eq_false_iff_not,
    bne_iff_ne, ne_eq, List.isEmpty_eq_true, List.all_eq_true] at hh
  obtain ⟨⟨⟨⟨⟨h1, h0⟩, h2⟩, h3⟩, h4⟩, _⟩ := hh
  have h1' : h ≠ [] := by
    intro e
    rw [e] at h1
    cases h1
  refine ⟨h1', h0, h2, h3, ?_⟩
  intro hm
  rcases h4 with h4 | h4
  · exact absurd hm h4
  · exact h4

theorem digit_facts (c : Char) (h : c.isDigit = true) :
    c ≠ ':' ∧ shouldEscape c .host = false := by
  have ha : c.isAlphanum = true := by
    unfold Char.isAlphanum
    rw [h]
    simp
  constructor
  · intro e
    subst e
    revert h
    decide
  · unfold shouldEscape
    rw [ha]
    rfl

theorem escape_head (h : List Char) (mode : Encoding)
    (hh : (escape h mode).head? = some '[') : h.head? = some '[' := by
  cases h with
  | nil => cases hh
  | cons c t =>
    have he : escape (c :: t) mode = escape [c] mode ++ escape t mode := by
      rw [← escape_append]
      rfl
    rw [he] at hh
    by_cases hs : shouldEscape c mode = true
    · exfalso
      have h1 : escape [c] mode ≠ [] := escape_singleton_ne_nil c mode
      have hmem := escape_mem [c] mode
      cases hc : escape [c] mode with
      | nil => exact h1 hc
      | cons x xs =>
        rw [hc] at hh
        simp only [List.cons_append, List.head?_cons, Option.some.injEq] at hh
        subst hh
        rcases hmem '[' (by rw [hc]; exact List.mem_cons_self _ _) with h2 | h2 | ⟨k, h2⟩ | ⟨h2, h3⟩
        · cases h2
        · cases h2
        · have := upperHexDigit_alnum k
          rw [← h2] at this
          revert this
          decide
        · rw [List.mem_singleton] at h2
          subst h2
          rw [hs] at h3
          cases h3
    · have hc : escape [c] mode = [c] :=
        escape_clean [c] mode (fun d hd => by
          rw [List.mem_singleton.mp hd]
          simpa using hs)
      rw [hc] at hh
      simpa using hh

theorem colon_mem_escape (h : List Char) (mode : Encoding) (hm : ':' ∈ escape h mode) :
    ':' ∈ h := by
  rcases escape_mem h mode ':' hm with h1 | h1 | ⟨k, h1⟩ | ⟨h1, _⟩
  · cases h1
  · cases h1
  · have := upperHexDigit_alnum k
    rw [← h1] at this
    exact absurd this (by decide)
  · exact h1

/-- The text of a host as `(*URL).String` writes it is read back by
`url.parseHost` as the host. -/
theorem parseHost_escape (h : List Char) (hh : validHost h = true) :
    parseHost (escape h .host) = .ok h := by
  obtain ⟨_, _, hbr, hhc, hport⟩ := validHost_facts h hh
  have hbr2 : (escape h .host).head? ≠ some '[' := fun e => hbr (escape_head h .host e)
  have hp : ¬ (':' ∈ escape h .host ∧
      validOptionalPort (':' :: ((escape h .host).reverse.takeWhile (· != ':')).reverse) =
        false) := by
    rintro ⟨hm, hv⟩
    have hm2 := colon_mem_escape h .host hm
    have hvalid := hport hm2
    obtain ⟨pre, hsplit⟩ := last_colon_split h hm2
    generalize (h.reverse.takeWhile (· != ':')).reverse = P at hvalid hsplit
    have hdig : ∀ c ∈ P, c.isDigit = true := by
      unfold validOptionalPort at hvalid
      simp only [decide_True, Bool.true_and, List.all_eq_true] at hvalid
      exact hvalid
    have hclean : escape (':' :: P) .host = ':' :: P :=
      escape_clean _ .host (fun c hc => by
        rcases List.mem_cons.mp hc with h1 | h1
        · rw [h1]
          decide
        · exact (digit_facts c (hdig c h1)).2)
    have hesc : escape h .host = escape pre .host ++ ':' :: P := by
      rw [hsplit, escape_append, hclean]
    rw [hesc, after_last_colon _ P (fun hc => (digit_facts ':' (hdig _ hc)).1 rfl), hvalid] at hv
    cases hv
  unfold parseHost
  rw [if_neg hbr2, if_neg hp, urlUnescape_escape_host h hhc]

/-- The user information and the host as `(*URL).String` writes them have none
of `/ ? #` and no control character. -/
theorem authorityText_chars (user : Option (String × Option String)) (h : List Char) :
    ∀ c ∈ authorityText user h, c ≠ '/' ∧ c ≠ '?' ∧ c ≠ '#' ∧ isCTL c = false := by
  intro c hc
  unfold authorityText at hc
  rcases List.mem_append.mp hc with h1 | h1
  · cases user with
    | none => cases h1
    | some u =>
      simp only [userinfoString, List.append_assoc, List.mem_append, List.mem_singleton] at h1
      rcases h1 with h2 | h2 | h2
      · have := escape_userPassword_chars _ c h2
        exact ⟨this.1, this.2.1, this.2.2.1, this.2.2.2.2.2.1⟩
      · cases hp : u.2 with
        | none =>
          rw [hp] at h2
          cases h2
        | some p =>
          rw [hp] at h2
          rcases List.mem_cons.mp h2 with h3 | h3
          · rw [h3]
            decide
          · have := escape_userPassword_chars _ c h3
            exact ⟨this.1, this.2.1, this.2.2.1, this.2.2.2.2.2.1⟩
      · rw [h2]
        decide
  · have := escape_host_chars h c h1
    exact ⟨this.1, this.2.1, this.2.2.1, this.2.2.2.2⟩

/-- The user information and the host as `(*URL).String` writes them are read
back by `url.parseAuthority` as the user and the host. -/
theorem parseAuthority_authorityText (user : Option (String × Option String)) (h : List Char)
    (hh : validHost h = true) :
    parseAuthority (authorityText user h) = .ok (user, String.mk h) := by
  have hhost := parseHost_escape h hh
  have hat : '@' ∉ escape h .host := fun hm => (escape_host_chars h '@' hm).2.2.2.1 rfl
  cases user with
  | none =>
    have ha : authorityText none h = escape h .host := by
      unfold authorityText
      rfl
    rw [ha]
    unfold parseAuthority
    simp only [if_neg hat, hhost]
  | some u =>
    obtain ⟨name, pw⟩ := u
    have ha : authorityText (some (name, pw)) h =
        userinfoString (name, pw) ++ '@' :: escape h .host := by
      unfold authorityText
      simp
    have huat : '@' ∉ userinfoString (name, pw) := by
      intro hm
      unfold userinfoString at hm
      rcases List.mem_append.mp hm with h1 | h1
      · exact (escape_userPassword_chars _ '@' h1).2.2.2.1 rfl
      · cases pw with
        | none => cases h1
        | some p =>
          rcases List.mem_cons.mp h1 with h2 | h2
          · cases h2
          · exact (escape_userPassword_chars _ '@' h2).2.2.2.1 rfl
    have hmem : '@' ∈ userinfoString (name, pw) ++ '@' :: escape h .host := by simp
    have hrev : (userinfoString (name, pw) ++ '@' :: escape h .host).reverse =
        (escape h .host).reverse ++ '@' :: (userinfoString (name, pw)).reverse := by simp
    have hcut := takeWhile_dropWhile_append (· != '@') (escape h .host).reverse
      ('@' :: (userinfoString (name, pw)).reverse)
      (fun c hc => by
        have : c ≠ '@' := fun e => hat (e ▸ List.mem_reverse.mp hc)
        simpa using this)
      (fun c hc => by
        simp only [List.head?_cons, Option.some.injEq] at hc
        rw [← hc]
        rfl)
    have hvalid : validUserinfo (userinfoString (name, pw)) = true := by
      unfold validUserinfo
      rw [List.all_eq_true]
      intro c hc
      unfold userinfoString at hc
      rcases List.mem_append.mp hc with h1 | h1
      · exact (escape_userPassword_chars _ c h1).2.2.2.2.2.2
      · cases pw with
        | none => cases h1
        | some p =>
          rcases List.mem_cons.mp h1 with h2 | h2
          · rw [h2]
            decide
          · exact (escape_userPassword_chars _ c h2).2.2.2.2.2.2
    have hnc : ':' ∉ escape name.toList .userPassword :=
      fun hm => (escape_userPassword_chars _ ':' hm).2.2.2.2.1 rfl
    rw [ha]
    unfold parseAuthority
    simp only [if_pos hmem, hrev, hcut.1, hcut.2, List.reverse_reverse, hhost, List.drop_succ_cons,
      List.drop_zero, hvalid, Bool.not_true, Bool.false_eq_true, if_false]
    cases pw with
    | none =>
      have hu : userinfoString (name, none) = escape name.toList .userPassword := by
        unfold userinfoString
        simp
      rw [hu, if_neg hnc, urlUnescape_escape .userPassword (Or.inr (Or.inr rfl))]
      rfl
    | some p =>
      have hu : userinfoString (name, some p) =
          escape name.toList .userPassword ++ ':' :: escape p.toList .userPassword := by
        unfold userinfoString
        rfl
      have hcol : ':' ∈ escape name.toList .userPassword ++ ':' :: escape p.toList .userPassword := by
        simp
      have hcut2 := takeWhile_dropWhile_append (· != ':') (escape name.toList .userPassword)
        (':' :: escape p.toList .userPassword)
        (fun c hc => by
          have : c ≠ ':' := fun e => hnc (e ▸ hc)
          simpa using this)
        (fun c hc => by
          simp only [List.head?_cons, Option.some.injEq] at hc
          rw [← hc]
          rfl)
      rw [hu, if_pos hcol]
      simp only [hcut2.1, hcut2.2, List.drop_succ_cons, List.drop_zero,
        urlUnescape_escape .userPassword (Or.inr (Or.inr rfl))]
      rfl

/-! ### Parsing the text of an absolute URL -/

theorem schemeChar_facts (c : Char) (h : schemeChar c = true) :
    c ≠ ':' ∧ c ≠ '/' ∧ c ≠ '?' ∧ c ≠ '#' ∧ c ≠ '*' ∧ isCTL c = false ∧ c.toLower = c ∧
      (c.isAlpha = true ∨ c.isDigit = true ∨ c = '+' ∨ c = '-' ∨ c = '.') := by
  have hne : c ≠ ':' ∧ c ≠ '/' ∧ c ≠ '?' ∧ c ≠ '#' ∧ c ≠ '*' := by
    refine ⟨?_, ?_, ?_, ?_, ?_⟩ <;> (intro hc; subst hc; revert h; decide)
  have hcases : c.isLower = true ∨ c.isDigit = true ∨ c = '+' ∨ c = '-' ∨ c = '.' := by
    unfold schemeChar at h
    simp only [Bool.or_eq_true, decide_eq_true_eq] at h
    tauto
  have hrange : (97 ≤ c.toNat ∧ c.toNat ≤ 122) ∨ (48 ≤ c.toNat ∧ c.toNat ≤ 57) ∨
      c = '+' ∨ c = '-' ∨ c = '.' := by
    rcases hcases with h1 | h1 | h1
    · left
      simp only [Char.isLower, Bool.and_eq_true, decide_eq_true_eq, UInt32.le_def,
        BitVec.le_def] at h1
      exact h1
    · right
      left
      simp only [Char.isDigit, Bool.and_eq_true, decide_eq_true_eq, UInt32.le_def,
        BitVec.le_def] at h1
      exact h1
    · exact Or.inr (Or.inr h1)
  refine ⟨hne.1, hne.2.1, hne.2.2.1, hne.2.2.2.1, hne.2.2.2.2, ?_, ?_, ?_⟩
  · rcases hrange with h1 | h1 | h1 | h1 | h1
    · unfold isCTL
      simp
      omega
    · unfold isCTL
      simp
      omega
    · rw [h1]
      decide
    · rw [h1]
      decide
    · rw [h1]
      decide
  · have hup : ¬ (c.toNat ≥ 65 ∧ c.toNat ≤ 90) := by
      rcases hrange with h1 | h1 | h1 | h1 | h1
      · omega
      · omega
      · rw [h1]
        decide
      · rw [h1]
        decide
      · rw [h1]
        decide
    unfold Char.toLower
    simp only []
    rw [if_neg hup]
  · rcases hcases with h1 | h1
    · left
      unfold Char.isAlpha
      rw [h1]
      simp
    · exact Or.inr h1

theorem getSchemeLoop_scheme (raw rest : List Char) : ∀ (s acc : List Char), acc ≠ [] →
    (∀ c ∈ s, schemeChar c = true) →
    getSchemeLoop raw acc (s ++ ':' :: rest) = .ok (acc.reverse ++ s, rest) := by
  intro s
  induction s with
  | nil =>
    intro acc hacc _
    have h1 : Char.isAlpha ':' = false := by decide
    have h2 : ¬ (Char.isDigit ':' = true ∨ ':' = '+' ∨ ':' = '-' ∨ ':' = '.') := by decide
    simp only [List.nil_append, getSchemeLoop, h1, Bool.false_eq_true, if_false, if_neg h2,
      if_true, if_neg hacc, List.append_nil]
  | cons x xs ih =>
    intro acc hacc hs
    have hx := (schemeChar_facts x (hs x (List.mem_cons_self _ _))).2.2.2.2.2.2.2
    have ih2 := ih (x :: acc) (List.cons_ne_nil _ _)
      (fun c hc => hs c (List.mem_cons_of_mem _ hc))
    rw [List.cons_append]
    unfold getSchemeLoop
    by_cases ha : x.isAlpha = true
    · rw [if_pos ha, ih2]
      simp
    · rw [if_neg ha]
      have hx2 : x.isDigit = true ∨ x = '+' ∨ x = '-' ∨ x = '.' := by
        rcases hx with h | h
        · exact absurd h ha
        · exact h
      rw [if_pos hx2, if_neg hacc, ih2]
      simp

theorem getScheme_scheme (sch rest : List Char) (h : validScheme sch = true) :
    getScheme (sch ++ ':' :: rest) = .ok (sch, rest) ∧ sch.map Char.toLower = sch ∧ sch ≠ [] ∧
      ∀ c ∈ sch, schemeChar c = true := by
  cases sch with
  | nil => cases h
  | cons c t =>
    unfold validScheme at h
    simp only [Bool.and_eq_true] at h
    have hc : schemeChar c = true := by
      unfold schemeChar
      rw [h.1]
      rfl
    have hall : ∀ d ∈ c :: t, schemeChar d = true := by
      intro d hd
      rcases List.mem_cons.mp hd with h1 | h1
      · rw [h1]
        exact hc
      · exact List.all_eq_true.mp h.2 d h1
    refine ⟨?_, ?_, List.cons_ne_nil _ _, hall⟩
    · have ha : c.isAlpha = true := by
        unfold Char.isAlpha
        rw [h.1]
        simp
      unfold getScheme
      rw [List.cons_append]
      unfold getSchemeLoop
      rw [if_pos ha]
      have := getSchemeLoop_scheme (c :: (t ++ ':' :: rest)) rest t [c] (List.cons_ne_nil _ _)
        (fun d hd => hall d (List.mem_cons_of_mem _ hd))
      rw [this]
      rfl
    · have hid : ∀ d ∈ c :: t, Char.toLower d = id d :=
        fun d hd => (schemeChar_facts d (hall d hd)).2.2.2.2.2.2.1
      rw [List.map_congr_left hid, List.map_id]

/-- How `url.parse` splits the text after the scheme at its question mark. -/
theorem query_cut (a q : List Char) (fq : Bool) (ha : ∀ c ∈ a, c ≠ '?')
    (hfq : fq = true → q = []) :
    ((a ++ (if fq = true ∨ q ≠ [] then '?' :: q else [])).getLast? = some '?' &&
        (a ++ (if fq = true ∨ q ≠ [] then '?' :: q else [])).count '?' = 1) = fq ∧
      (a ++ (if fq = true ∨ q ≠ [] then '?' :: q else [])).takeWhile (· != '?') = a ∧
      (fq = true → (a ++ (if fq = true ∨ q ≠ [] then '?' :: q else [])).dropLast = a) ∧
      ((a ++ (if fq = true ∨ q ≠ [] then '?' :: q else [])).dropWhile (· != '?')).drop 1 = q := by
  have hcount : a.count '?' = 0 := List.count_eq_zero.mpr (fun hm => ha _ hm rfl)
  have hsplit := takeWhile_dropWhile_append (· != '?') a
    (if fq = true ∨ q ≠ [] then '?' :: q else [])
    (fun c hc => by simpa using ha c hc)
    (fun c hc => by
      split at hc
      · simp only [List.head?_cons, Option.some.injEq] at hc
        rw [← hc]
        rfl
      · cases hc)
  refine ⟨?_, hsplit.1, ?_, ?_⟩
  · cases fq with
    | true =>
      have hq0 := hfq rfl
      subst hq0
      simp [hcount]
    | false =>
      cases q with
      | nil => simp [hcount]
      | cons x xs =>
        simp only [Bool.false_eq_true, ne_eq, List.cons_ne_nil, not_false_eq_true, or_true,
          if_true, Bool.and_eq_false_imp, decide_eq_true_eq, decide_eq_false_iff_not,
          List.count_append, hcount, List.count_cons_self, Nat.zero_add]
        intro hlast
        have hmem : '?' ∈ x :: xs := by
          have : ('?' :: x :: xs).getLast? = some '?' := by
            rw [List.getLast?_append_of_ne_nil _ (List.cons_ne_nil _ _)] at hlast
            exact hlast
          have h2 : (x :: xs).getLast? = some '?' := by simpa using this
          exact List.mem_of_getLast?_eq_some h2
        have := List.count_pos_iff.mpr hmem
        omega
  · intro h1
    have hq0 := hfq h1
    subst hq0
    simp [h1]
  · rw [hsplit.2]
    split
    · rfl
    · rename_i hn
      have : q = [] := by
        by_contra hne
        exact hn (Or.inr hne)
      rw [this]
      rfl

/-- The text of a scheme, `://`, user information and host, a path that is
empty or rooted, and a query, as `url.parse` reads it. -/
theorem parse_absolute (sch : List Char) (user : Option (String × Option String))
    (h p q : List Char) (fq : Bool)
    (hsch : validScheme sch = true) (hh : validHost h = true)
    (hp : p = [] ∨ p.head? = some '/')
    (hpc : ∀ c ∈ p, c ≠ '?' ∧ isCTL c = false)
    (hq : ∀ c ∈ q, isCTL c = false) (hfq : fq = true → q = []) :
    parse (sch ++ ':' :: '/' :: '/' ::
        (authorityText user h ++ (p ++ (if fq = true ∨ q ≠ [] then '?' :: q else [])))) =
      URL.setPath { Scheme := String.mk sch, User := user, Host := String.mk h, ForceQuery := fq,
                    RawQuery := String.mk q } p := by
  have hac := authorityText_chars user h
  have hauthority := parseAuthority_authorityText user h hh
  generalize authorityText user h = a at hac hauthority ⊢
  obtain ⟨hget, hlow, hsne, hsc⟩ := getScheme_scheme sch
    ('/' :: '/' :: (a ++ (p ++ (if fq = true ∨ q ≠ [] then '?' :: q else [])))) hsch
  generalize hqp : (if fq = true ∨ q ≠ [] then '?' :: q else []) = qpart at hget ⊢
  have hqpc : ∀ c ∈ qpart, isCTL c = false := by
    intro c hc
    rw [← hqp] at hc
    split at hc
    · rcases List.mem_cons.mp hc with h1 | h1
      · rw [h1]
        decide
      · exact hq c h1
    · cases hc
  have hctl : (sch ++ ':' :: '/' :: '/' :: (a ++ (p ++ qpart))).any isCTL = false := by
    rw [List.any_eq_false]
    intro c hc
    simp only [List.mem_append, List.mem_cons] at hc
    have : isCTL c = false := by
      rcases hc with h1 | h1 | h1 | h1 | h1 | h1 | h1
      · exact (schemeChar_facts c (hsc c h1)).2.2.2.2.2.1
      · rw [h1]
        decide
      · rw [h1]
        decide
      · rw [h1]
        decide
      · exact (hac c h1).2.2.2
      · exact (hpc c h1).2
      · exact hqpc c h1
    rw [this]
    decide
  have hstar : sch ++ ':' :: '/' :: '/' :: (a ++ (p ++ qpart)) ≠ ['*'] := by
    intro hs
    have := congrArg List.length hs
    simp at this
    omega
  unfold parse
  rw [if_neg (by rw [hctl]; decide), if_neg hstar, hget]
  simp only [hlow]
  have hAq : ∀ c ∈ '/' :: '/' :: (a ++ p), c ≠ '?' := by
    intro c hc
    simp only [List.mem_cons, List.mem_append] at hc
    rcases hc with h1 | h1 | h1 | h1
    · rw [h1]
      decide
    · rw [h1]
      decide
    · exact (hac c h1).2.1
    · exact (hpc c h1).1
  have hA : '/' :: '/' :: (a ++ (p ++ qpart)) = ('/' :: '/' :: (a ++ p)) ++ qpart := by simp
  obtain ⟨c1, c2, c3, c4⟩ := query_cut ('/' :: '/' :: (a ++ p)) q fq hAq hfq
  rw [hqp] at c1 c2 c3 c4
  rw [hA]
  have hrest : (if fq = true then (('/' :: '/' :: (a ++ p)) ++ qpart).dropLast
      else (('/' :: '/' :: (a ++ p)) ++ qpart).takeWhile (· != '?')) = '/' :: '/' :: (a ++ p) := by
    split
    · rename_i h1
      exact c3 h1
    · exact c2
  have hquery : (if fq = true then []
      else ((('/' :: '/' :: (a ++ p)) ++ qpart).dropWhile (· != '?')).drop 1) = q := by
    split
    · rename_i h1
      exact (hfq h1).symm
    · exact c4
  simp only [c1, hrest, hquery]
  have hauth := takeWhile_dropWhile_append (· != '/') a p
    (fun c hc => by simpa using (hac c hc).1)
    (fun c hc => by
      rcases hp with h0 | h0
      · rw [h0] at hc
        cases hc
      · rw [h0] at hc
        cases hc
        rfl)
  simp only [List.head?_cons, ne_eq, not_true_eq_false, false_and, if_false, hsne,
    not_false_eq_true, true_or, List.take_succ_cons, List.take_zero, and_self, if_true,
    List.drop_succ_cons, List.drop_zero, hauth.1, hauth.2, hauthority]

/-! ### Printing an absolute URL and parsing it again -/

/-- The text of a scheme, `://`, user information and host, a path that is
empty or rooted, a query and a fragment, as `url.Parse` reads it. -/
theorem urlParse_absolute (sch : List Char) (user : Option (String × Option String))
    (h p q f : List Char) (fq : Bool)
    (hsch : validScheme sch = true) (hh : validHost h = true)
    (hp : p = [] ∨ p.head? = some '/')
    (hpc : ∀ c ∈ p, c ≠ '?' ∧ c ≠ '#' ∧ isCTL c = false)
    (hq : ∀ c ∈ q, c ≠ '#' ∧ isCTL c = false) (hfq : fq = true → q = []) :
    urlParse (String.mk (sch ++ ':' :: '/' :: '/' :: (authorityText user h ++ (p ++
        ((if fq = true ∨ q ≠ [] then '?' :: q else []) ++ (if f ≠ [] then '#' :: f else [])))))) =
      match URL.setPath { Scheme := String.mk sch, User := user, Host := String.mk h,
                          ForceQuery := fq, RawQuery := String.mk q } p with
      | .error e => .error e
      | .ok url => if f = [] then .ok url else url.setFragment f := by
  obtain ⟨_, _, _, hsc⟩ := getScheme_scheme sch [] hsch
  have hac := authorityText_chars user h
  have hpar := parse_absolute sch user h p q fq hsch hh hp (fun c hc => ⟨(hpc c hc).1, (hpc c hc).2.2⟩)
    (fun c hc => (hq c hc).2) hfq
  generalize authorityText user h = a at hac hpar ⊢
  have hassoc : sch ++ ':' :: '/' :: '/' :: (a ++ (p ++
      ((if fq = true ∨ q ≠ [] then '?' :: q else []) ++ (if f ≠ [] then '#' :: f else [])))) =
      (sch ++ ':' :: '/' :: '/' :: (a ++ (p ++ (if fq = true ∨ q ≠ [] then '?' :: q else [])))) ++
        (if f ≠ [] then '#' :: f else []) := by
    simp
  have hU : ∀ c ∈ sch ++ ':' :: '/' :: '/' :: (a ++ (p ++
      (if fq = true ∨ q ≠ [] then '?' :: q else []))), (c != '#') = true := by
    intro c hc
    simp only [List.mem_append, List.mem_cons] at hc
    have : c ≠ '#' := by
      rcases hc with h1 | h1 | h1 | h1 | h1 | h1 | h1
      · exact (schemeChar_facts c (hsc c h1)).2.2.2.1
      · rw [h1]
        decide
      · rw [h1]
        decide
      · rw [h1]
        decide
      · exact (hac c h1).2.2.1
      · exact (hpc c h1).2.1
      · split at h1
        · rcases List.mem_cons.mp h1 with h2 | h2
          · rw [h2]
            decide
          · exact (hq c h2).1
        · cases h1
    simpa using this
  have hsplit := takeWhile_dropWhile_append (· != '#') _ (if f ≠ [] then '#' :: f else []) hU
    (fun c hc => by
      split at hc
      · simp only [List.head?_cons, Option.some.injEq] at hc
        rw [← hc]
        rfl
      · cases hc)
  have hfrag : List.drop 1 (if f ≠ [] then '#' :: f else []) = f := by
    split
    · rfl
    · rename_i hn
      have : f = [] := by
        by_contra hne
        exact hn hne
      rw [this]
      rfl
  unfold urlParse
  simp only [String.toList, hassoc, hsplit.1, hsplit.2, hfrag, hpar]

theorem escape_ne_nil (s : List Char) (mode : Encoding) (h : s ≠ []) : escape s mode ≠ [] := by
  cases s with
  | nil => exact absurd rfl h
  | cons c t =>
    unfold escape
    rw [List.flatMap_cons]
    intro h0
    have h1 := (List.append_eq_nil.mp h0).1
    split_ifs at h1
    · unfold utf8Bytes at h1
      simp only [] at h1
      split_ifs at h1 <;> simp at h1

/-- An escaped fragment is read back as the fragment. -/
theorem urlUnescape_EscapedFragment (u : URL) :
    urlUnescape u.EscapedFragment .fragment = .ok u.Fragment.toList := by
  unfold URL.EscapedFragment
  split_ifs with h1
  · exact toOption_eq_some _ _ h1.2.2
  · exact urlUnescape_escape .fragment (Or.inr (Or.inl rfl)) _

theorem EscapedFragment_ne_nil (u : URL) (h : u.Fragment ≠ "") : u.EscapedFragment ≠ [] := by
  unfold URL.EscapedFragment
  split_ifs with h1
  · exact fun h0 => h1.1 ((mk_eq_empty _).mpr h0)
  · exact escape_ne_nil _ _ (fun h0 => h ((mk_eq_empty _).mpr h0))

/-- The text of a URL with a scheme and a host and without opaque part. -/
theorem String_absolute (u : URL) (hs0 : u.Scheme ≠ "") (hh1 : u.Host ≠ "")
    (ho : u.Opaque = "") :
    u.String = String.mk (u.Scheme.toList ++ ':' :: '/' :: '/' ::
      (authorityText u.User u.Host.toList ++
        (((if u.EscapedPath ≠ [] ∧ u.EscapedPath.head? ≠ some '/' then ['/'] else []) ++
            u.EscapedPath) ++
          ((if u.ForceQuery = true ∨ u.RawQuery.toList ≠ [] then '?' :: u.RawQuery.toList
              else []) ++
            (if u.Fragment ≠ "" then '#' :: u.EscapedFragment else []))))) := by
  have hq : (u.RawQuery ≠ "") = (u.RawQuery.toList ≠ []) := by
    apply propext
    constructor
    · intro h h0
      exact h ((mk_eq_empty _).mpr h0)
    · intro h h0
      exact h (congrArg String.data h0)
  unfold URL.String authorityText
  simp only [hs0, hh1, ho, hq, ne_eq, not_false_eq_true, if_true, true_or, or_true, and_true,
    not_true_eq_false, and_false, if_false, false_and, List.append_eq_nil, List.cons_ne_nil,
    List.append_nil, List.nil_append, List.append_assoc, List.cons_append]

/-- A URL with a scheme, a host and no opaque part, a query without `#` and
control characters, and a path as `setPath` stores it,
empty or rooted: printed and parsed again it is the same URL, but for the
flag `OmitHost` and the raw text of the fragment, which is kept only where it
is not the default escaping of the fragment. -/
theorem urlParse_String (u : URL) (hs : validScheme u.Scheme.toList = true)
    (hh : validHost u.Host.toList = true) (ho : u.Opaque = "")
    (hq : ∀ c ∈ u.RawQuery.toList, c ≠ '#' ∧ isCTL c = false)
    (hfq : u.ForceQuery = true → u.RawQuery = "")
    (hpath : u.EscapedPath = [] ∨ u.EscapedPath.head? = some '/')
    (hraw : u.RawPath =
      if escape u.Path.toList .path = u.EscapedPath then "" else String.mk u.EscapedPath) :
    urlParse u.String =
      .ok { u with OmitHost := false
                   RawFragment :=
                     if u.Fragment = "" ∨ escape u.Fragment.toList .fragment = u.EscapedFragment
                     then "" else String.mk u.EscapedFragment } := by
  have hslash : ¬ (u.EscapedPath ≠ [] ∧ u.EscapedPath.head? ≠ some '/') := by
    rintro ⟨h1, h2⟩
    rcases hpath with h | h
    · exact h1 h
    · exact h2 h
  obtain ⟨_, _, hsne, _⟩ := getScheme_scheme _ [] hs
  obtain ⟨hh0, _, _, _, _⟩ := validHost_facts _ hh
  have hstr := String_absolute u (fun h => hsne (congrArg String.data h))
    (fun h => hh0 (congrArg String.data h)) ho
  rw [if_neg hslash, List.nil_append] at hstr
  have hf : (if u.Fragment ≠ "" then '#' :: u.EscapedFragment else []) =
      (if (if u.Fragment ≠ "" then u.EscapedFragment else []) ≠ []
        then '#' :: (if u.Fragment ≠ "" then u.EscapedFragment else []) else []) := by
    by_cases hfr : u.Fragment = ""
    · simp [hfr]
    · simp [hfr, EscapedFragment_ne_nil u hfr]
  rw [hf] at hstr
  have hpar := urlParse_absolute u.Scheme.toList u.User u.Host.toList u.EscapedPath
    u.RawQuery.toList
    (if u.Fragment ≠ "" then u.EscapedFragment else []) u.ForceQuery hs hh hpath
    (EscapedPath_chars u) hq (fun h => congrArg String.data (hfq h))
  rw [hstr, hpar]
  have hset : URL.setPath
      { Scheme := String.mk u.Scheme.toList, User := u.User, Host := String.mk u.Host.toList,
        ForceQuery := u.ForceQuery, RawQuery := String.mk u.RawQuery.toList } u.EscapedPath =
      .ok { Scheme := u.Scheme, User := u.User, Host := u.Host, Path := u.Path,
            RawPath := u.RawPath, ForceQuery := u.ForceQuery, RawQuery := u.RawQuery } := by
    unfold URL.setPath
    rw [urlUnescape_EscapedPath, hraw]
    rfl
  rw [hset]
  simp only []
  by_cases hfr : u.Fragment = ""
  · simp only [hfr, ne_eq, not_true_eq_false, if_false, if_true, true_or]
    obtain ⟨sc, op, us, ho', pa, rp, om, fq, rq, fr, rf⟩ := u
    simp only at ho hfr
    subst ho hfr
    rfl
  · simp only [hfr, ne_eq, not_false_eq_true, if_true, EscapedFragment_ne_nil u hfr, if_false,
      false_or]
    unfold URL.setFragment
    rw [urlUnescape_EscapedFragment]
    obtain ⟨sc, op, us, ho', pa, rp, om, fq, rq, fr, rf⟩ := u
    simp only at ho
    subst ho
    rfl

/-! ### What `url.Parse` returns -/

theorem setPath_fields (u u2 : URL) (p : List Char) (h : u.setPath p = .ok u2) :
    u2.Scheme = u.Scheme ∧ u2.Opaque = u.Opaque ∧ u2.User = u.User ∧ u2.Host = u.Host ∧
      u2.OmitHost = u.OmitHost ∧ u2.ForceQuery = u.ForceQuery ∧ u2.RawQuery = u.RawQuery ∧
      u2.Fragment = u.Fragment ∧ u2.RawFragment = u.RawFragment := by
  unfold URL.setPath at h
  split at h
  · cases h
  · cases h
    exact ⟨rfl, rfl, rfl, rfl, rfl, rfl, rfl, rfl, rfl⟩

theorem setFragment_fields (u u2 : URL) (f : List Char) (h : u.setFragment f = .ok u2) :
    u2.Scheme = u.Scheme ∧ u2.Opaque = u.Opaque ∧ u2.User = u.User ∧ u2.Host = u.Host ∧
      u2.OmitHost = u.OmitHost ∧ u2.ForceQuery = u.ForceQuery ∧ u2.RawQuery = u.RawQuery ∧
      u2.Path = u.Path ∧ u2.RawPath = u.RawPath := by
  unfold URL.setFragment at h
  split at h
  · cases h
  · cases h
    exact ⟨rfl, rfl, rfl, rfl, rfl, rfl, rfl, rfl, rfl⟩

theorem getSchemeLoop_rest (raw : List Char) : ∀ (l acc sc rest : List Char),
    getSchemeLoop raw acc l = .ok (sc, rest) →
      (∀ c ∈ rest, c ∈ raw ∨ c ∈ l) := by
  intro l
  induction l with
  | nil =>
    intro acc sc rest h c hc
    simp only [getSchemeLoop, Except.ok.injEq, Prod.mk.injEq] at h
    rw [← h.2] at hc
    exact Or.inl hc
  | cons x xs ih =>
    intro acc sc rest h c hc
    unfold getSchemeLoop at h
    split_ifs at h
    · rcases ih _ _ _ h c hc with h1 | h1
      · exact Or.inl h1
      · exact Or.inr (List.mem_cons_of_mem _ h1)
    · cases h
      exact Or.inl hc
    · rcases ih _ _ _ h c hc with h1 | h1
      · exact Or.inl h1
      · exact Or.inr (List.mem_cons_of_mem _ h1)
    · cases h
      exact Or.inr (List.mem_cons_of_mem _ hc)
    · cases h
      exact Or.inl hc

/-- What `url.parse` returns: a query of characters of the text, empty when
the query is forced; and without a scheme no opaque part and no host to
omit. -/
theorem parse_facts (raw : List Char) (u : URL) (h : parse raw = .ok u) :
    (∀ c ∈ u.RawQuery.toList, c ∈ raw ∧ isCTL c = false) ∧
      (u.ForceQuery = true → u.RawQuery = "") ∧
      (u.Scheme = "" → u.Opaque = "" ∧ u.OmitHost = false) := by
  unfold parse at h
  split_ifs at h with hctl hstar
  · cases h
    exact ⟨fun c hc => (by cases hc), fun _ => rfl, fun _ => ⟨rfl, rfl⟩⟩
  · have hnoctl : ∀ c ∈ raw, isCTL c = false := by
      intro c hc
      cases hcc : isCTL c
      · rfl
      · exact absurd (List.any_eq_true.mpr ⟨c, hc, hcc⟩) hctl
    split at h
    · cases h
    · rename_i scheme rest hget
      have hrest : ∀ c ∈ rest, c ∈ raw := by
        intro c hc
        rcases getSchemeLoop_rest raw raw [] scheme rest hget c hc with h1 | h1 <;> exact h1
      simp only [] at h
      generalize hfq : (decide (rest.getLast? = some '?') && decide (rest.count '?' = 1)) = fq at h
      have hquery : ∀ c ∈ (if fq = true then [] else (rest.dropWhile (· != '?')).drop 1),
          c ∈ raw ∧ isCTL c = false := by
        intro c hc
        split at hc
        · cases hc
        · have := hrest c ((List.dropWhile_suffix _).subset (List.mem_of_mem_drop hc))
          exact ⟨this, hnoctl c this⟩
      have hforce : fq = true →
          String.mk (if fq = true then [] else (rest.dropWhile (· != '?')).drop 1) = "" := by
        intro h1
        rw [if_pos h1]
      generalize (if fq = true then [] else (rest.dropWhile (· != '?')).drop 1) = query
        at h hquery hforce
      generalize (if fq = true then rest.dropLast else rest.takeWhile (· != '?')) = rest2 at h
      split_ifs at h with h1 h2 h3
      · cases h
        refine ⟨hquery, hforce, ?_⟩
        intro hs
        exact absurd (congrArg String.data hs) h1.2
      · split at h
        · cases h
        · rename_i user host _
          obtain ⟨f1, f2, f3, f4, f5, f6, f7, f8, f9⟩ := setPath_fields _ _ _ h
          rw [f7, f6, f2, f5]
          exact ⟨hquery, hforce, fun _ => ⟨rfl, rfl⟩⟩
      · obtain ⟨f1, f2, f3, f4, f5, f6, f7, f8, f9⟩ := setPath_fields _ _ _ h
        rw [f7, f6, f2, f5, f1]
        refine ⟨hquery, hforce, ?_⟩
        intro hs
        have h0 : List.map Char.toLower scheme = [] := congrArg String.data hs
        refine ⟨rfl, ?_⟩
        simp [h0]

/-- What `url.Parse` returns: a query without `#` and control characters,
empty when the query is forced; and without a scheme no opaque part and no
host to omit. -/
theorem urlParse_facts (s : String) (u : URL) (h : urlParse s = .ok u) :
    (∀ c ∈ u.RawQuery.toList, c ≠ '#' ∧ isCTL c = false) ∧
      (u.ForceQuery = true → u.RawQuery = "") ∧
      (u.Scheme = "" → u.Opaque = "" ∧ u.OmitHost = false) := by
  unfold urlParse at h
  simp only [] at h
  split at h
  · cases h
  · rename_i url hpar
    obtain ⟨g1, g2, g3⟩ := parse_facts _ _ hpar
    have g1' : ∀ c ∈ url.RawQuery.toList, c ≠ '#' ∧ isCTL c = false := by
      intro c hc
      refine ⟨?_, (g1 c hc).2⟩
      have := List.mem_takeWhile_imp (g1 c hc).1
      simpa using this
    split_ifs at h
    · cases h
      exact ⟨g1', g2, g3⟩
    · obtain ⟨f1, f2, f3, f4, f5, f6, f7, f8, f9⟩ := setFragment_fields _ _ _ h
      rw [f7, f6, f2, f5, f1]
      exact ⟨g1', g2, g3⟩

/-! ### Resolving a reference against an absolute URL -/

theorem Absolute_facts (u : URL) (h : u.Absolute) :
    validScheme u.Scheme.toList = true ∧ validHost u.Host.toList = true ∧
      u.Opaque = "" ∧ (∀ c ∈ u.RawQuery.toList, c ≠ '#' ∧ isCTL c = false) ∧ u.Scheme ≠ "" ∧
      u.Host ≠ "" := by
  obtain ⟨h1, h2, h4, h5⟩ := h
  obtain ⟨_, _, hsne, _⟩ := getScheme_scheme _ [] h1
  obtain ⟨hh0, _, _, _, _⟩ := validHost_facts _ h2
  refine ⟨h1, h2, h4, ?_, fun h => hsne (congrArg String.data h),
    fun h => hh0 (congrArg String.data h)⟩
  intro c hc
  have := List.all_eq_true.mp h5 c hc
  simpa using this

/-- A reference without scheme, host, user and opaque part, resolved against
an absolute URL: scheme, user and host of the base; the path that `resolvePath`
makes of the two escaped paths, unescaped, with the raw path that `setPath`
keeps; the query of the reference, or that of the base when the reference has
no path and no query; the fragment of the reference, or that of the base when
the reference has neither path, query nor fragment. -/
theorem ResolveReference_relative (base ref : URL) (hb : base.Absolute)
    (hrel : ref.Scheme = "" ∧ ref.Host = "" ∧ ref.User = none) (ho : ref.Opaque = "") :
    ∃ P, urlUnescape (resolvePath base.EscapedPath ref.EscapedPath) .path = .ok P ∧
      URL.ResolveReference base ref =
        { Scheme := base.Scheme, User := base.User, Host := base.Host, Path := String.mk P,
          RawPath :=
            if escape P .path = resolvePath base.EscapedPath ref.EscapedPath then ""
            else String.mk (resolvePath base.EscapedPath ref.EscapedPath),
          OmitHost := ref.OmitHost, ForceQuery := ref.ForceQuery,
          RawQuery :=
            if ref.Path = "" ∧ ref.ForceQuery = false ∧ ref.RawQuery = "" then base.RawQuery
            else ref.RawQuery,
          Fragment :=
            if (ref.Path = "" ∧ ref.ForceQuery = false ∧ ref.RawQuery = "") ∧ ref.Fragment = ""
            then base.Fragment else ref.Fragment,
          RawFragment :=
            if (ref.Path = "" ∧ ref.ForceQuery = false ∧ ref.RawQuery = "") ∧ ref.Fragment = ""
            then base.RawFragment else ref.RawFragment } ∧
      (URL.ResolveReference base ref).EscapedPath =
        resolvePath base.EscapedPath ref.EscapedPath := by
  obtain ⟨_, _, hbo, _, _, _⟩ := Absolute_facts base hb
  have hv := validEncoded_resolvePath _ _ (validEncoded_EscapedPath base)
    (validEncoded_EscapedPath ref)
  have hr := readablePath_resolvePath _ _ (readablePath_EscapedPath base)
    (readablePath_EscapedPath ref)
  have hhead := resolvePath_head base.EscapedPath ref.EscapedPath
  obtain ⟨sc, op, us, ho', pa, rp, om, fq, rq, fr, rf⟩ := ref
  simp only at hrel ho ⊢
  obtain ⟨h1, h2, h3⟩ := hrel
  subst h1 h2 h3 ho
  unfold URL.ResolveReference
  simp only [ne_eq, not_true_eq_false, Option.isSome_none, Bool.false_eq_true, or_self, if_false,
    if_true, hbo, and_false]
  generalize resolvePath base.EscapedPath
    (URL.mk "" "" none "" pa rp om fq rq fr rf).EscapedPath = r at hv hr hhead ⊢
  have hres : ∀ pre : URL, ∃ P, urlUnescape r .path = .ok P ∧
      pre.withPath r = { pre with Path := String.mk P
                                  RawPath := if escape P .path = r then "" else String.mk r } ∧
      (pre.withPath r).EscapedPath = r := by
    intro pre
    obtain ⟨P, hP, hset, hesc⟩ := setPath_EscapedPath pre r hv hr hhead
    refine ⟨P, hP, ?_, ?_⟩
    · unfold URL.withPath
      rw [hset]
    · unfold URL.withPath
      rw [hset]
      exact hesc
  by_cases hin : pa = "" ∧ fq = false ∧ rq = ""
  · by_cases hfr : fr = ""
    · have hc : (pa = "" ∧ fq = false ∧ rq = "") ∧ fr = "" := ⟨hin, hfr⟩
      simp only [if_pos hin, if_pos hfr, if_pos hc]
      exact hres (URL.mk base.Scheme "" base.User base.Host pa rp om fq base.RawQuery base.Fragment
        base.RawFragment)
    · have hc : ¬ ((pa = "" ∧ fq = false ∧ rq = "") ∧ fr = "") := fun h => hfr h.2
      simp only [if_pos hin, if_neg hfr, if_neg hc]
      exact hres (URL.mk base.Scheme "" base.User base.Host pa rp om fq base.RawQuery fr rf)
  · have hc : ¬ ((pa = "" ∧ fq = false ∧ rq = "") ∧ fr = "") := fun h => hin h.1
    simp only [if_neg hin, if_neg hc]
    exact hres (URL.mk base.Scheme "" base.User base.Host pa rp om fq rq fr rf)

/-! ### The request of `NewRequest` for a relative reference -/

theorem removeEmptyPort_keeps (h : String) (hl : h.toList.getLast? ≠ some ':') :
    removeEmptyPort h = h := by
  unfold removeEmptyPort
  split
  · rename_i rest hrev
    exfalso
    apply hl
    have : h.toList = (':' :: rest).reverse := by
      rw [← hrev, List.reverse_reverse]
    rw [this]
    simp
  · rfl

/-- A reference that `url.Parse` returns without scheme, host and user,
resolved against an absolute URL, printed and parsed again: the resolved URL,
with the raw text of the fragment kept only where it is not its default
escaping. -/
theorem urlParse_resolved (base ref : URL) (urlStr : String) (hb : base.Absolute)
    (hparse : urlParse urlStr = .ok ref)
    (hrel : ref.Scheme = "" ∧ ref.Host = "" ∧ ref.User = none) :
    urlParse (URL.ResolveReference base ref).String =
      .ok { URL.ResolveReference base ref with
            RawFragment :=
              if (URL.ResolveReference base ref).Fragment = "" ∨
                  escape (URL.ResolveReference base ref).Fragment.toList .fragment =
                    (URL.ResolveReference base ref).EscapedFragment
              then "" else String.mk (URL.ResolveReference base ref).EscapedFragment } := by
  obtain ⟨hrq, hrfq, hrs⟩ := urlParse_facts urlStr ref hparse
  obtain ⟨hro, hrom⟩ := hrs hrel.1
  obtain ⟨hbs, hbh, _, hbq, _, _⟩ := Absolute_facts base hb
  obtain ⟨P, hP, heq, hesc⟩ := ResolveReference_relative base ref hb hrel hro
  generalize URL.ResolveReference base ref = R at heq hesc ⊢
  have hround := urlParse_String R (by rw [heq]; exact hbs) (by rw [heq]; exact hbh)
    (by rw [heq])
    (by
      rw [heq]
      simp only []
      split
      · exact hbq
      · exact hrq)
    (by
      rw [heq]
      simp only []
      intro hf
      have hq := hrfq hf
      rw [if_neg (fun h => by rw [hf] at h; exact Bool.noConfusion h.2.1)]
      exact hq)
    (by
      rw [hesc]
      exact resolvePath_head _ _)
    (by
      rw [hesc]
      rw [heq]
      simp only [String.toList])
  rw [hround]
  have hom : R.OmitHost = false := by
    rw [heq]
    exact hrom
  obtain ⟨sc, op, us, ho', pa, rp, om, fq, rq, fr, rf⟩ := R
  simp only at hom
  subst hom
  rfl

/-- The URL of a request built by `NewRequest` from an absolute base URL and
a reference without scheme, host and user: the resolved URL, with the host as
`http.NewRequest` keeps it. -/
theorem NewRequest_url_relative {B : Type} (encode : Bool → B → Except Error (List Char))
    (c : Client) (method urlStr : String) (body : Option B) (req : Request) (base ref : URL)
    (hbase : c.BaseURL = some base) (hb : base.Absolute) (hparse : urlParse urlStr = .ok ref)
    (hrel : ref.Scheme = "" ∧ ref.Host = "" ∧ ref.User = none)
    (h : Client.NewRequest plainURLLib encode c method urlStr body = .ok req) :
    req.URL = some
      { URL.ResolveReference base ref with
        Host := removeEmptyPort (URL.ResolveReference base ref).Host
        RawFragment :=
          if (URL.ResolveReference base ref).Fragment = "" ∨
              escape (URL.ResolveReference base ref).Fragment.toList .fragment =
                (URL.ResolveReference base ref).EscapedFragment
          then "" else String.mk (URL.ResolveReference base ref).EscapedFragment } := by
  obtain ⟨resolved, u, hres, hu, hurl⟩ := NewRequest_url plainURLLib encode c method urlStr body req h
  have hres2 : resolved = URL.ResolveReference base ref := by
    rw [hbase] at hres
    unfold URL.ParseRef at hres
    simp only [plainURLLib, hparse] at hres
    cases hres
    rfl
  subst hres2
  have hround := urlParse_resolved base ref urlStr hb hparse hrel
  have hu2 : urlParse (URL.ResolveReference base ref).String = .ok u := hu
  rw [hround] at hu2
  cases hu2
  exact hurl

/-- What `http.NewRequest` returns for a valid method and the text of a
reference resolved against an absolute URL. -/
theorem httpNewRequest_resolved (method urlStr : String) (base ref : URL)
    (buf : Option (List Char)) (hb : base.Absolute) (hparse : urlParse urlStr = .ok ref)
    (hrel : ref.Scheme = "" ∧ ref.Host = "" ∧ ref.User = none)
    (hm : method ≠ "") (hv : validMethod method = true) :
    httpNewRequest plainURLLib method (URL.ResolveReference base ref).String buf =
      .ok { Method := method,
            URL := some
              { URL.ResolveReference base ref with
                Host := removeEmptyPort (URL.ResolveReference base ref).Host
                RawFragment :=
                  if (URL.ResolveReference base ref).Fragment = "" ∨
                      escape (URL.ResolveReference base ref).Fragment.toList .fragment =
                        (URL.ResolveReference base ref).EscapedFragment
                  then "" else String.mk (URL.ResolveReference base ref).EscapedFragment },
            Header := [], Body := buf } := by
  have hround : plainURLLib.Parse (URL.ResolveReference base ref).String = _ :=
    urlParse_resolved base ref urlStr hb hparse hrel
  unfold httpNewRequest
  simp only [if_neg hm, hv, hround, Bool.not_true, Bool.false_eq_true, if_false]

/-- `NewRequest` succeeds for an absolute base URL, a reference without
scheme, host and user, a valid method and a body that can be encoded, and
builds the request to the resolved URL. -/
theorem NewRequest_relative_ok {B : Type} (encode : Bool → B → Except Error (List Char))
    (c : Client) (method urlStr : String) (body : Option B) (buf : Option (List Char))
    (base ref : URL) (hbase : c.BaseURL = some base) (hb : base.Absolute)
    (hparse : urlParse urlStr = .ok ref)
    (hrel : ref.Scheme = "" ∧ ref.Host = "" ∧ ref.User = none)
    (hm : method ≠ "") (hv : validMethod method = true)
    (hnone : body = none → buf = none)
    (hsome : ∀ b, body = some b → ∃ bytes, encode false b = .ok bytes ∧ buf = some bytes) :
    Client.NewRequest plainURLLib encode c method urlStr body =
      .ok (requestOf c method
        { URL.ResolveReference base ref with
          Host := removeEmptyPort (URL.ResolveReference base ref).Host
          RawFragment :=
            if (URL.ResolveReference base ref).Fragment = "" ∨
                escape (URL.ResolveReference base ref).Fragment.toList .fragment =
                  (URL.ResolveReference base ref).EscapedFragment
            then "" else String.mk (URL.ResolveReference base ref).EscapedFragment } buf) := by
  have hres : URL.ParseRef plainURLLib c.BaseURL urlStr =
      .ok (URL.ResolveReference base ref) := by
    rw [hbase]
    unfold URL.ParseRef
    simp only [plainURLLib, hparse]
  have hreq := httpNewRequest_resolved method urlStr base ref buf hb hparse hrel hm hv
  have hstr : plainURLLib.String (URL.ResolveReference base ref) =
      (URL.ResolveReference base ref).String := rfl
  unfold Client.NewRequest
  rw [hres]
  cases body with
  | none =>
    rw [hnone rfl] at hreq ⊢
    simp only [hstr, hreq]
    rfl
  | some b =>
    obtain ⟨bytes, henc, hbuf⟩ := hsome b rfl
    subst hbuf
    simp only [henc, hstr, hreq]
    rfl

/-! ### A path as a reference -/

theorem getSchemeLoop_none (raw : List Char) : ∀ (l acc : List Char), ':' ∉ l →
    getSchemeLoop raw acc l = .ok ([], raw) := by
  intro l
  induction l with
  | nil =>
    intro acc _
    rfl
  | cons x xs ih =>
    intro acc h
    have hx : x ≠ ':' := fun e => h (e ▸ List.mem_cons_self _ _)
    have hxs : ':' ∉ xs := fun hm => h (List.mem_cons_of_mem _ hm)
    unfold getSchemeLoop
    split_ifs
    · exact ih _ hxs
    · rfl
    · exact ih _ hxs
    · rfl

theorem plainPathChar_facts (c : Char) (h : plainPathChar c = true) :
    c ≠ ':' ∧ c ≠ '?' ∧ c ≠ '#' ∧ c ≠ '%' ∧ c ≠ '*' ∧ isCTL c = false ∧
      shouldEscape c .path = false := by
  have hne : c ≠ ':' ∧ c ≠ '?' ∧ c ≠ '#' ∧ c ≠ '%' ∧ c ≠ '*' := by
    refine ⟨?_, ?_, ?_, ?_, ?_⟩ <;> (intro hc; subst hc; revert h; decide)
  have hesc : shouldEscape c .path = false := by
    unfold plainPathChar at h
    simp only [Bool.or_eq_true, decide_eq_true_eq] at h
    rcases h with (((h | h) | h) | h) | h
    · simp [shouldEscape, h]
    · subst h
      decide
    · subst h
      decide
    · subst h
      decide
    · subst h
      decide
  exact ⟨hne.1, hne.2.1, hne.2.2.1, hne.2.2.2.1, hne.2.2.2.2, (path_char_facts c hesc).2.2.2.1, hesc⟩

/-- A path of letters, digits, `-`, `_`, `.` and `/` that does not begin with
two slashes is read by `url.Parse` as the reference with that path and
nothing else. -/
theorem urlParse_path (p : List Char) (hp : ∀ c ∈ p, plainPathChar c = true)
    (hhead : ∀ rest, p ≠ '/' :: '/' :: rest) :
    urlParse (String.mk p) = .ok { Path := String.mk p } := by
  have hsharp := takeWhile_dropWhile_append (fun c => c != '#') p []
    (fun c hc => by simpa using (plainPathChar_facts c (hp c hc)).2.2.1) (fun c hc => by cases hc)
  have hq := takeWhile_dropWhile_append (fun c => c != '?') p []
    (fun c hc => by simpa using (plainPathChar_facts c (hp c hc)).2.1) (fun c hc => by cases hc)
  rw [List.append_nil] at hsharp hq
  have hcolon : ':' ∉ p := fun hm => (plainPathChar_facts ':' (hp _ hm)).1 rfl
  have hctl : p.any isCTL = false := by
    rw [List.any_eq_false]
    intro c hc
    rw [(plainPathChar_facts c (hp c hc)).2.2.2.2.2.1]
    exact Bool.false_ne_true
  have hstar : p ≠ ['*'] := by
    intro e
    exact (plainPathChar_facts '*' (hp '*' (e ▸ List.mem_cons_self _ _))).2.2.2.2.1 rfl
  have hlast : p.getLast? ≠ some '?' := by
    intro e
    have := List.mem_of_getLast?_eq_some e
    exact (plainPathChar_facts '?' (hp _ this)).2.1 rfl
  have htake : p.take 2 ≠ ['/', '/'] := by
    intro e
    match p, e with
    | a :: b :: rest, e =>
      simp only [List.take_succ_cons, List.take_zero, List.cons.injEq, and_true] at e
      exact hhead rest (by rw [e.1, e.2])
  have hun : urlUnescape p .path = .ok p :=
    urlUnescape_plain p .path (by decide)
      (fun c hc => ⟨(plainPathChar_facts c (hp c hc)).2.2.2.1, fun h => by
        rcases h with h | h <;> cases h⟩)
  have hesc : escape p .path = p :=
    escape_clean p .path (fun c hc => (plainPathChar_facts c (hp c hc)).2.2.2.2.2.2)
  have hparse : parse p = .ok { Path := String.mk p } := by
    unfold parse
    rw [if_neg (by rw [hctl]; exact Bool.false_ne_true), if_neg hstar]
    unfold getScheme
    rw [getSchemeLoop_none p p [] hcolon]
    simp only [List.map_nil, hlast, decide_False, Bool.false_and, Bool.false_eq_true, if_false,
      hq.1, hq.2, ne_eq, not_true_eq_false, and_false, false_or, false_and, htake, List.drop_nil]
    rw [if_neg (by
      rintro ⟨_, hm⟩
      exact hcolon ((List.takeWhile_sublist _).subset hm))]
    unfold URL.setPath
    rw [hun]
    simp only [hesc, if_true]
  unfold urlParse
  simp only [String.toList, hsharp.1, hsharp.2, hparse, List.drop_nil, if_true]

theorem removeEmptyPort_facts (h : String) (hh : validHost h.toList = true) :
    removeEmptyPort h ≠ "" := by
  obtain ⟨h0, hcolon, _, _, _⟩ := validHost_facts _ hh
  unfold removeEmptyPort
  split
  · rename_i rest hrev
    have hl : h.toList = rest.reverse ++ [':'] := by
      have := congrArg List.reverse hrev
      rw [List.reverse_reverse] at this
      rw [this]
      simp
    intro e
    have : rest.reverse = [] := (mk_eq_empty _).mp e
    rw [this] at hl
    exact hcolon hl
  · exact fun e => h0 (congrArg String.data e)

theorem pathRef_EscapedPath (p : List Char) (hp : ∀ c ∈ p, plainPathChar c = true) :
    ({ Path := String.mk p } : URL).EscapedPath = p := by
  have hstar : String.mk p ≠ "*" := by
    intro e
    have : p = ['*'] := congrArg String.data e
    exact (plainPathChar_facts '*' (hp '*' (this ▸ List.mem_cons_self _ _))).2.2.2.2.1 rfl
  unfold URL.EscapedPath
  simp only [ne_eq, not_true_eq_false, false_and, if_false, hstar]
  exact escape_clean p .path (fun c hc => (plainPathChar_facts c (hp c hc)).2.2.2.2.2.2)

/-- The URL of a request for a path of plain characters that is not empty:
scheme and user of the base, its host without an empty port, no query and no
fragment; the path as written is `resolvePath` of the path of the base as
written and the path, and the text of the URL is scheme, user, host and that
path. -/
theorem requestURL_facts (base : URL) (p : List Char) (hb : base.Absolute)
    (hp : ∀ c ∈ p, plainPathChar c = true) (hp0 : p ≠ []) :
    (requestURL base (String.mk p)).Scheme = base.Scheme ∧
      (requestURL base (String.mk p)).Host = removeEmptyPort base.Host ∧
      (requestURL base (String.mk p)).User = base.User ∧
      (requestURL base (String.mk p)).RawQuery = "" ∧
      (requestURL base (String.mk p)).ForceQuery = false ∧
      (requestURL base (String.mk p)).Fragment = "" ∧
      (requestURL base (String.mk p)).RawFragment = "" ∧
      (requestURL base (String.mk p)).EscapedPath = resolvePath base.EscapedPath p ∧
      urlUnescape (resolvePath base.EscapedPath p) .path =
        .ok (requestURL base (String.mk p)).Path.toList ∧
      (requestURL base (String.mk p)).String =
        String.mk (base.Scheme.toList ++ ':' :: '/' :: '/' ::
          (authorityText base.User (removeEmptyPort base.Host).toList ++
            resolvePath base.EscapedPath p)) := by
  obtain ⟨_, hbh, _, _, hs0, _⟩ := Absolute_facts base hb
  have hh1 := removeEmptyPort_facts base.Host hbh
  obtain ⟨P, hP, heq, hesc⟩ := ResolveReference_relative base { Path := String.mk p } hb
    ⟨rfl, rfl, rfl⟩ rfl
  rw [pathRef_EscapedPath p hp] at hP heq hesc
  have hpne : String.mk p ≠ "" := fun h => hp0 ((mk_eq_empty p).mp h)
  simp only [hpne, false_and, if_false] at heq
  have hu : requestURL base (String.mk p) =
      { Scheme := base.Scheme, User := base.User, Host := removeEmptyPort base.Host,
        Path := String.mk P,
        RawPath := if escape P .path = resolvePath base.EscapedPath p then ""
          else String.mk (resolvePath base.EscapedPath p) } := by
    unfold requestURL
    rw [heq]
  have hep : (requestURL base (String.mk p)).EscapedPath = resolvePath base.EscapedPath p := by
    have : (requestURL base (String.mk p)).EscapedPath =
        (URL.ResolveReference base { Path := String.mk p }).EscapedPath := rfl
    rw [this, hesc]
  have hstr := String_absolute (requestURL base (String.mk p)) (by rw [hu]; exact hs0)
    (by rw [hu]; exact hh1) (by rw [hu])
  have hslash : ¬ (resolvePath base.EscapedPath p ≠ [] ∧
      (resolvePath base.EscapedPath p).head? ≠ some '/') := by
    rintro ⟨h1, h2⟩
    rcases resolvePath_head base.EscapedPath p with h | h
    · exact h1 h
    · exact h2 h
  rw [hep, if_neg hslash] at hstr
  refine ⟨by rw [hu], by rw [hu], by rw [hu], by rw [hu], by rw [hu], by rw [hu], by rw [hu],
    hep, ?_, ?_⟩
  · rw [hu]
    exact hP
  · rw [hstr, hu]
    simp

/-- `NewRequest` for a path of plain characters, not empty and not beginning
with two slashes, on an absolute base URL: the request to `requestURL`. -/
theorem NewRequest_path {B : Type} (encode : Bool → B → Except Error (List Char))
    (c : Client) (method : String) (p : List Char) (body : Option B) (buf : Option (List Char))
    (base : URL) (hbase : c.BaseURL = some base) (hb : base.Absolute)
    (hp : ∀ ch ∈ p, plainPathChar ch = true) (hp0 : p ≠ [])
    (hhead : ∀ rest, p ≠ '/' :: '/' :: rest)
    (hm : method ≠ "") (hv : validMethod method = true)
    (hnone : body = none → buf = none)
    (hsome : ∀ b, body = some b → ∃ bytes, encode false b = .ok bytes ∧ buf = some bytes) :
    Client.NewRequest plainURLLib encode c method (String.mk p) body =
      .ok (requestOf c method (requestURL base (String.mk p)) buf) := by
  rw [NewRequest_relative_ok encode c method (String.mk p) body buf base _ hbase hb
    (urlParse_path p hp hhead) ⟨rfl, rfl, rfl⟩ hm hv hnone hsome]
  obtain ⟨_, _, _, _, _, hfr, hrf, _, _, _⟩ := requestURL_facts base p hb hp hp0
  have hfr2 : (URL.ResolveReference base { Path := String.mk p }).Fragment = "" := hfr
  have hrf2 : (URL.ResolveReference base { Path := String.mk p }).RawFragment = "" := hrf
  have hhost : (URL.ResolveReference base { Path := String.mk p }).Host = base.Host := by
    obtain ⟨P, _, heq, _⟩ := ResolveReference_relative base { Path := String.mk p } hb
      ⟨rfl, rfl, rfl⟩ rfl
    rw [heq]
  unfold requestURL
  rw [hhost]
  simp only [hfr2, true_or, if_true]
  generalize URL.ResolveReference base { Path := String.mk p } = R at hrf2
  obtain ⟨sc, op, us, ho', pa, rp, om, fq, rq, fr, rf⟩ := R
  simp only at hrf2
  subst hrf2
  rfl

/-- On a base path that ends in a slash a relative path is resolved as the
two written one after the other, dot segments removed. -/
theorem resolvePath_written (b p : List Char) (hslash : b.getLast? = some '/') (hp0 : p ≠ [])
    (hrel : p.head? ≠ some '/') : resolvePath b p = resolvePath (b ++ p) [] := by
  have h1 : mergePath b p = b ++ p := by
    unfold mergePath
    rw [if_neg hp0, if_neg hrel, dirOf_trailing_slash _ hslash]
  have h2 : mergePath (b ++ p) [] = b ++ p := by
    unfold mergePath
    rw [if_pos rfl]
  unfold resolvePath
  rw [h1, h2]

theorem idChar_plain (c : Char) (h : idChar c = true) : plainPathChar c = true := by
  unfold idChar at h
  unfold plainPathChar
  simp only [Bool.or_eq_true, decide_eq_true_eq] at h ⊢
  rcases h with (h | h) | h
  · exact Or.inl (Or.inl (Or.inl (Or.inl h)))
  · exact Or.inl (Or.inl (Or.inl (Or.inr h)))
  · exact Or.inl (Or.inl (Or.inr h))

theorem noDotSegment_id (id : List Char) (hid : ∀ c ∈ id, idChar c = true) :
    noDotSegment id := by
  intro seg hseg
  have hchars := segmentsAux_chars (fun c => idChar c = true) id []
    (fun _ h => absurd h (List.not_mem_nil _)) hid seg hseg
  constructor
  · intro e
    subst e
    exact absurd (hchars '.' (List.mem_cons_self _ _)) (by decide)
  · intro e
    subst e
    exact absurd (hchars '.' (List.mem_cons_self _ _)) (by decide)

/-! ### A path written after the base URL -/

/-- A merged path that does not begin with a slash and has no dot segment is
resolved to itself after a slash. -/
theorem resolvePath_nodot_rootless (base ref : List Char) (hne : mergePath base ref ≠ [])
    (hhead : (mergePath base ref).head? ≠ some '/')
    (hnodot : ∀ seg ∈ segmentsAux [] (mergePath base ref), seg ≠ ['.'] ∧ seg ≠ ['.', '.']) :
    resolvePath base ref = '/' :: mergePath base ref := by
  unfold resolvePath
  simp only []
  generalize mergePath base ref = full at hne hhead hnodot
  have hjoin := segmentsAux_join full []
  rw [if_neg hne]
  cases hsegs : segmentsAux [] full with
  | nil =>
    rw [hsegs] at hjoin
    simp at hjoin
  | cons e es =>
    rw [hsegs] at hjoin hnodot
    have he := hnodot e (List.mem_cons_self _ _)
    have hes := resolveElems_nodot es (fun seg hs => hnodot seg (List.mem_cons_of_mem _ hs))
    have hdst : resolveElems ['/'] true (e :: es) = '/' :: full := by
      unfold resolveElems
      rw [if_neg he.1, if_neg he.2, hes]
      simpa using hjoin
    have hlast : ¬((e :: es).getLast? = some ['.'] ∨ (e :: es).getLast? = some ['.', '.']) := by
      intro hl
      rcases hl with hl | hl
      · exact (hnodot _ (List.mem_of_getLast?_eq_some hl)).1 rfl
      · exact (hnodot _ (List.mem_of_getLast?_eq_some hl)).2 rfl
    simp only [if_neg hlast, hdst]
    cases full with
    | nil => exact absurd rfl hne
    | cons f fs =>
      have hf : f ≠ '/' := by simpa using hhead
      split
      · rename_i heq
        injection heq with _ h2
        injection h2 with h3 _
        exact absurd h3 hf
      · rfl

/-- On a base path that ends in a slash and has no dot segment, a relative
path without dot segments is resolved to the two written one after the other,
after a slash when the base path begins with none. -/
theorem resolvePath_after (b p : List Char) (hslash : b.getLast? = some '/')
    (hnodot : noDotSegment b) (hp0 : p ≠ []) (hrel : p.head? ≠ some '/')
    (hpnodot : noDotSegment p) :
    resolvePath b p = (if b ≠ [] ∧ b.head? ≠ some '/' then ['/'] else []) ++ (b ++ p) := by
  have hmerge : mergePath b p = b ++ p := by
    unfold mergePath
    rw [if_neg hp0, if_neg hrel, dirOf_trailing_slash _ hslash]
  have hnd : noDotSegment (b ++ p) := noDotSegment_append _ _ hslash hnodot hpnodot
  have hb0 : b ≠ [] := by
    intro e
    rw [e] at hslash
    cases hslash
  by_cases hroot : b.head? = some '/'
  · rw [if_neg (fun h => h.2 hroot), List.nil_append, ← hmerge]
    apply resolvePath_nodot _ _ (mergePath_head _ _ hroot)
    rw [hmerge]
    exact hnd
  · rw [if_pos ⟨hb0, hroot⟩, List.singleton_append, ← hmerge]
    apply resolvePath_nodot_rootless
    · rw [hmerge]
      simp [hb0]
    · rw [hmerge]
      cases b with
      | nil => exact absurd rfl hb0
      | cons x xs => simpa using hroot
    · rw [hmerge]
      exact hnd

/-- The text `<base>` of an absolute base URL: scheme, user, host and the
path as written, after a slash when it is not empty and begins with none. -/
theorem baseText_absolute (base : URL) (hb : base.Absolute) :
    baseText base = String.mk (base.Scheme.toList ++ ':' :: '/' :: '/' ::
      (authorityText base.User (removeEmptyPort base.Host).toList ++
        ((if base.EscapedPath ≠ [] ∧ base.EscapedPath.head? ≠ some '/' then ['/'] else []) ++
          base.EscapedPath))) := by
  obtain ⟨_, hbh, hbo, _, hs0, _⟩ := Absolute_facts base hb
  have hh1 := removeEmptyPort_facts base.Host hbh
  have hstr := String_absolute
    { base with
      Host := removeEmptyPort base.Host, ForceQuery := false, RawQuery := "", Fragment := "",
      RawFragment := "" } hs0 hh1 hbo
  have hep : ({ base with
      Host := removeEmptyPort base.Host, ForceQuery := false, RawQuery := "", Fragment := "",
      RawFragment := "" } : URL).EscapedPath = base.EscapedPath := rfl
  unfold baseText
  rw [hstr, hep]
  simp

/-- The text of the URL of a request for a relative path of plain characters
on an absolute base URL whose path as written ends in a slash: scheme, user,
host, and the two paths written one after the other with the dot segments
removed;
without dot segments, the text `<base>` followed by the path. -/
theorem requestURL_text (base : URL) (p : List Char) (hb : base.Absolute)
    (hslash : base.EscapedPath.getLast? = some '/')
    (hp : ∀ c ∈ p, plainPathChar c = true) (hp0 : p ≠ []) (hrel : p.head? ≠ some '/')
    (hpnodot : noDotSegment p) :
    (requestURL base (String.mk p)).String =
        String.mk (base.Scheme.toList ++ ':' :: '/' :: '/' ::
          (authorityText base.User (removeEmptyPort base.Host).toList ++
            resolvePath (base.EscapedPath ++ p) [])) ∧
      (noDotSegment base.EscapedPath →
        (requestURL base (String.mk p)).String = String.mk ((baseText base).toList ++ p)) := by
  obtain ⟨_, _, _, _, _, _, _, _, _, hstr⟩ := requestURL_facts base p hb hp hp0
  constructor
  · rw [hstr, resolvePath_written _ _ hslash hp0 hrel]
  · intro hnodot
    rw [hstr, baseText_absolute base hb, resolvePath_after _ _ hslash hnodot hp0 hrel hpnodot]
    simp

/-! ### The URL of a request -/

/-- C17, as amended: for every absolute base URL and every path string that
`url.Parse` reads as a reference without scheme, host and user, the URL of the
request built by `Client.NewRequest` is the reference resolved against the
base URL (`ResolveReference`, not string concatenation), with the host as
`http.NewRequest` keeps it: scheme, user and host of the base; the path that
`resolvePath` makes of the two paths as written; the query of the reference,
the query of the base being kept only for a reference without path and query.
When the merged path is rooted and has no dot segment the resolved path is the
merged path itself: for a relative path the base path up to and including its
last slash, then the path, so the whole base path is a prefix exactly when it
ends in a slash. -/
theorem NewRequest_url_merged {B : Type} (encode : Bool → B → Except Error (List Char))
    (c : Client) (method urlStr : String) (body : Option B) (req : Request) (base ref : URL)
    (hbase : c.BaseURL = some base) (hb : base.Absolute) (hparse : urlParse urlStr = .ok ref)
    (hrel : ref.Scheme = "" ∧ ref.Host = "" ∧ ref.User = none)
    (h : Client.NewRequest plainURLLib encode c method urlStr body = .ok req) :
    req.URL = some
        { URL.ResolveReference base ref with
          Host := removeEmptyPort base.Host
          RawFragment :=
            if (URL.ResolveReference base ref).Fragment = "" ∨
                escape (URL.ResolveReference base ref).Fragment.toList .fragment =
                  (URL.ResolveReference base ref).EscapedFragment
            then "" else String.mk (URL.ResolveReference base ref).EscapedFragment } ∧
      (URL.ResolveReference base ref).Scheme = base.Scheme ∧
      (URL.ResolveReference base ref).Host = base.Host ∧
      (URL.ResolveReference base ref).User = base.User ∧
      (URL.ResolveReference base ref).Opaque = "" ∧
      (URL.ResolveReference base ref).EscapedPath =
        resolvePath base.EscapedPath ref.EscapedPath ∧
      urlUnescape (resolvePath base.EscapedPath ref.EscapedPath) .path =
        .ok (URL.ResolveReference base ref).Path.toList ∧
      (URL.ResolveReference base ref).RawQuery =
        (if ref.Path = "" ∧ ref.ForceQuery = false ∧ ref.RawQuery = "" then base.RawQuery
          else ref.RawQuery) ∧
      (URL.ResolveReference base ref).Fragment =
        (if (ref.Path = "" ∧ ref.ForceQuery = false ∧ ref.RawQuery = "") ∧ ref.Fragment = ""
          then base.Fragment else ref.Fragment) ∧
      ((mergePath base.EscapedPath ref.EscapedPath).head? = some '/' →
        noDotSegment (mergePath base.EscapedPath ref.EscapedPath) →
        resolvePath base.EscapedPath ref.EscapedPath =
          mergePath base.EscapedPath ref.EscapedPath) ∧
      (ref.EscapedPath ≠ [] → ref.EscapedPath.head? ≠ some '/' →
        mergePath base.EscapedPath ref.EscapedPath = dirOf base.EscapedPath ++ ref.EscapedPath ∧
          (base.EscapedPath.getLast? = some '/' →
            mergePath base.EscapedPath ref.EscapedPath =
              base.EscapedPath ++ ref.EscapedPath)) := by
  have hurl := NewRequest_url_relative encode c method urlStr body req base ref hbase hb hparse
    hrel h
  obtain ⟨_, _, hrs⟩ := urlParse_facts urlStr ref hparse
  obtain ⟨P, hP, heq, hesc⟩ := ResolveReference_relative base ref hb hrel (hrs hrel.1).1
  have hhost : (URL.ResolveReference base ref).Host = base.Host := by rw [heq]
  rw [hhost] at hurl
  refine ⟨hurl, by rw [heq], hhost, by rw [heq], by rw [heq], hesc, ?_, by rw [heq],
    by rw [heq], ?_, ?_⟩
  · rw [heq]
    exact hP
  · intro hhead hnodot
    exact resolvePath_nodot _ _ hhead hnodot
  · intro hne hrelp
    have hmerge : mergePath base.EscapedPath ref.EscapedPath =
        dirOf base.EscapedPath ++ ref.EscapedPath := by
      unfold mergePath
      rw [if_neg hne, if_neg hrelp]
    refine ⟨hmerge, ?_⟩
    intro hlast
    rw [hmerge, dirOf_trailing_slash _ hlast]

/-- The path `v2/incidents?page=2` on the base URL
`http://127.0.0.1:8080/api/?token=abc` of a test server: the request goes to
`http://127.0.0.1:8080/api/v2/incidents?page=2`. -/
theorem NewRequest_url_merged_witness :
    (localURLWith "/api/" "token=abc").Absolute ∧
      urlParse "http://127.0.0.1:8080/api/?token=abc" = .ok (localURLWith "/api/" "token=abc") ∧
      urlParse "v2/incidents?page=2" = .ok { Path := "v2/incidents", RawQuery := "page=2" } ∧
      Client.NewRequest plainURLLib encodeNothing (clientAt (localURLWith "/api/" "token=abc"))
          "GET" "v2/incidents?page=2" none =
        .ok { incidentsGetRequest with URL := some (localURLWith "/api/v2/incidents" "page=2") } ∧
      (localURLWith "/api/v2/incidents" "page=2").String =
        "http://127.0.0.1:8080/api/v2/incidents?page=2" ∧
      ({ incidentsGetRequest with
          URL := some (localURLWith "/api/v2/incidents" "page=2") } : Request).URL =
        some
          { URL.ResolveReference (localURLWith "/api/" "token=abc")
              { Path := "v2/incidents", RawQuery := "page=2" } with
            Host := removeEmptyPort (localURLWith "/api/" "token=abc").Host
            RawFragment :=
              if (URL.ResolveReference (localURLWith "/api/" "token=abc")
                    { Path := "v2/incidents", RawQuery := "page=2" }).Fragment = "" ∨
                  escape (URL.ResolveReference (localURLWith "/api/" "token=abc")
                    { Path := "v2/incidents", RawQuery := "page=2" }).Fragment.toList .fragment =
                    (URL.ResolveReference (localURLWith "/api/" "token=abc")
                      { Path := "v2/incidents", RawQuery := "page=2" }).EscapedFragment
              then "" else String.mk (URL.ResolveReference (localURLWith "/api/" "token=abc")
                { Path := "v2/incidents", RawQuery := "page=2" }).EscapedFragment } ∧
      noDotSegment (mergePath "/api/".toList "v2/incidents".toList) ∧
      mergePath "/api/".toList "v2/incidents".toList = "/api/v2/incidents".toList :=
  ⟨by decide, rfl, rfl, by decide, by decide,
    (NewRequest_url_merged encodeNothing (clientAt (localURLWith "/api/" "token=abc")) "GET"
      "v2/incidents?page=2" none _ (localURLWith "/api/" "token=abc")
      { Path := "v2/incidents", RawQuery := "page=2" } rfl (by decide) rfl ⟨rfl, rfl, rfl⟩
      (by decide)).1,
    by decide, by decide⟩

/-- C17, as stated, fails: the path and query of the base URL are no prefix
of the URL of the request. On the base URL `https://api.incident.io/api`,
without a slash at the end, the path `v2/incidents` gives the request of the
base URL `https://api.incident.io/`, to `/v2/incidents`; on a base URL with
the query `token=abc` the query is dropped; and `../v2/incidents` leaves the
path of the base. -/
theorem NewRequest_url_merged_counterexample :
    (Client.NewRequest plainURLLib encodeNothing (clientAt (baseURLWith "/api" "")) "GET"
        "v2/incidents" none = .ok incidentsGetRequest ∧
      incidentsGetRequest.URL.map URL.String = some "https://api.incident.io/v2/incidents") ∧
    (Client.NewRequest plainURLLib encodeNothing (clientAt (baseURLWith "/api/" "token=abc")) "GET"
        "v2/incidents" none =
      .ok { incidentsGetRequest with URL := some (baseURLWith "/api/v2/incidents" "") }) ∧
    (Client.NewRequest plainURLLib encodeNothing (clientAt (baseURLWith "/api/" "")) "GET"
        "../v2/incidents" none = .ok incidentsGetRequest) := by
  decide

/-- C18, as amended: for every absolute base URL and every path string that
`url.Parse` reads as a reference without scheme, host and user, the request
built by `Client.NewRequest` has the scheme and the host of the configured
base URL; of a host that ends in a colon without a port the colon is
dropped. -/
theorem NewRequest_relative_keeps_host {B : Type}
    (encode : Bool → B → Except Error (List Char)) (c : Client) (method urlStr : String)
    (body : Option B) (req : Request) (base ref : URL)
    (hbase : c.BaseURL = some base) (hb : base.Absolute) (hparse : urlParse urlStr = .ok ref)
    (hrel : ref.Scheme = "" ∧ ref.Host = "" ∧ ref.User = none)
    (h : Client.NewRequest plainURLLib encode c method urlStr body = .ok req) :
    ∃ u, req.URL = some u ∧ u.Scheme = base.Scheme ∧ u.Host = removeEmptyPort base.Host ∧
      (base.Host.toList.getLast? ≠ some ':' → u.Host = base.Host) := by
  have hurl := NewRequest_url_relative encode c method urlStr body req base ref hbase hb hparse
    hrel h
  obtain ⟨_, _, hrs⟩ := urlParse_facts urlStr ref hparse
  obtain ⟨P, _, heq, _⟩ := ResolveReference_relative base ref hb hrel (hrs hrel.1).1
  have hhost : (URL.ResolveReference base ref).Host = base.Host := by rw [heq]
  have hsch : (URL.ResolveReference base ref).Scheme = base.Scheme := by rw [heq]
  rw [hhost] at hurl
  exact ⟨_, hurl, hsch, rfl, fun hl => removeEmptyPort_keeps _ hl⟩

/-- The path `/v2/incidents` on the default base URL, and the path `users`
with an escaped query on the base URL of a test server, which has a port, and
on a base URL with user information and a host outside ASCII: scheme and host
are those of the base URL. -/
theorem NewRequest_relative_keeps_host_witness :
    ((baseURLWith "/" "").Absolute ∧
      urlParse "/v2/incidents" = .ok { Path := "/v2/incidents" } ∧
      Client.NewRequest plainURLLib encodeNothing (clientAt (baseURLWith "/" "")) "GET"
        "/v2/incidents" none = .ok incidentsGetRequest ∧
      ∃ u, incidentsGetRequest.URL = some u ∧ u.Scheme = (baseURLWith "/" "").Scheme ∧
        u.Host = removeEmptyPort (baseURLWith "/" "").Host ∧
        ((baseURLWith "/" "").Host.toList.getLast? ≠ some ':' →
          u.Host = (baseURLWith "/" "").Host)) ∧
    ((localURLWith "/v2/" "").Absolute ∧
      urlParse "http://127.0.0.1:8080/v2/" = .ok (localURLWith "/v2/" "") ∧
      Client.NewRequest plainURLLib encodeNothing (clientAt (localURLWith "/v2/" "")) "GET"
          "users?after=a%2Fb" none =
        .ok { incidentsGetRequest with URL := some (localURLWith "/v2/users" "after=a%2Fb") } ∧
      (localURLWith "/v2/users" "after=a%2Fb").String =
        "http://127.0.0.1:8080/v2/users?after=a%2Fb") ∧
    (userBaseURL.Absolute ∧
      urlParse "https://user:p%40w@bücher.example:8443/v2/" = .ok userBaseURL ∧
      userBaseURL.String = "https://user:p%40w@b%C3%BCcher.example:8443/v2/" ∧
      Client.NewRequest plainURLLib encodeNothing (clientAt userBaseURL) "GET"
          "users?after=a%2Fb" none =
        .ok { incidentsGetRequest with
              URL := some { userBaseURL with Path := "/v2/users", RawQuery := "after=a%2Fb" } }) :=
  ⟨⟨by decide, rfl, by decide,
    NewRequest_relative_keeps_host encodeNothing (clientAt (baseURLWith "/" "")) "GET"
      "/v2/incidents" none incidentsGetRequest (baseURLWith "/" "") { Path := "/v2/incidents" }
      rfl (by decide) rfl ⟨rfl, rfl, rfl⟩ (by decide)⟩,
    ⟨by decide, rfl, by decide, by decide⟩,
    ⟨by decide, rfl, by decide, by decide⟩⟩

/-- C18, as stated, fails: a path string that is an absolute URL, or that
begins with `//` and a host, is not resolved against the base URL. On the
default base URL `https://api.incident.io/` the strings
`https://evil.example/steal` and `//evil.example/steal` give a request to the
host `evil.example`, with the bearer credential of the client in its
`Authorization` header. -/
theorem NewRequest_absolute_counterexample :
    (Client.NewRequest plainURLLib encodeNothing exampleClient "GET" "https://evil.example/steal"
        none =
      .ok { incidentsGetRequest with
        URL := some { Scheme := "https", Host := "evil.example", Path := "/steal" } }) ∧
    (Client.NewRequest plainURLLib encodeNothing exampleClient "GET" "//evil.example/steal"
        none =
      .ok { incidentsGetRequest with
        URL := some { Scheme := "https", Host := "evil.example", Path := "/steal" } }) ∧
    exampleClient.BaseURL = some { Scheme := "https", Host := "api.incident.io", Path := "/" } ∧
    Header.Get incidentsGetRequest.Header "Authorization" = "Bearer test-key" := by
  decide

/-! ### An empty body on success -/

/-- Reading a value from a stream that ends at once without an error is
`io.EOF`, whatever the target. -/
theorem jsonDecode_empty {T : Type} (unmarshal : JSON → T → T × Option Error) (body : Body)
    (t : T) (hdata : body.data = []) (herr : body.readErr = none) :
    jsonDecode unmarshal body t = (t, some .eof) := by
  have hscan : scanValue [] = .incomplete := rfl
  unfold jsonDecode decoderReadValue
  rw [hdata, hscan, herr]
  rfl

/-- C30: for every status in [200, 299] other than 204, when the body of the
response is empty and the target is a structured one, `Client.Do` returns the
response and the error `io.EOF`, which is no `*ErrorResponse`, and leaves the
target as it was; with status 204 the same call returns a nil error. -/
theorem Do_empty_body_eof {W T : Type} (ops : TargetOps W T) (c : Client) (req : Request)
    (t : T) (resp : Response) (body : Body)
    (h : c.client.Do req = .received resp body)
    (hc : 200 ≤ resp.StatusCode ∧ resp.StatusCode ≤ 299)
    (hdata : body.data = []) (herr : body.readErr = none) :
    (resp.StatusCode ≠ 204 →
        Client.Do ops c req (.value t) = ⟨some resp, some .eof, .value t⟩) ∧
      (resp.StatusCode = 204 → Client.Do ops c req (.value t) = ⟨some resp, none, .value t⟩) ∧
      Error.isErrorResponse .eof = false := by
  refine ⟨?_, ?_, rfl⟩
  · intro h204
    rw [Do_of_success_status ops c req _ resp body h hc, if_pos h204]
    simp only [jsonDecode_empty ops.unmarshal body t hdata herr]
  · intro h204
    rw [Do_of_success_status ops c req _ resp body h hc, if_neg (by simpa using h204)]

/-- A 200 and a 201 with an empty body and the target of `UsersService.List`
give `io.EOF`; a 204 gives no error. -/
theorem Do_empty_body_eof_witness :
    Client.Do usersOps (clientOver (cannedHTTPClient 200 "")) usersRequest (.value {}) =
      ⟨some { StatusCode := 200, Request := some usersRequest }, some .eof, .value {}⟩ ∧
    Client.Do usersOps (clientOver (chunkedHTTPClient 201 [])) usersRequest (.value {}) =
      ⟨some { StatusCode := 201, Request := some usersRequest }, some .eof, .value {}⟩ ∧
    Client.Do usersOps (clientOver (cannedHTTPClient 204 "")) usersRequest (.value {}) =
      ⟨some { StatusCode := 204, Request := some usersRequest }, none, .value {}⟩ :=
  ⟨(Do_empty_body_eof usersOps (clientOver (cannedHTTPClient 200 "")) usersRequest {}
      { StatusCode := 200, Request := some usersRequest } ⟨["".toList], none⟩ rfl (by decide)
      rfl rfl).1 (by decide),
   (Do_empty_body_eof usersOps (clientOver (chunkedHTTPClient 201 [])) usersRequest {}
      { StatusCode := 201, Request := some usersRequest } ⟨[], none⟩ rfl (by decide)
      rfl rfl).1 (by decide),
   (Do_empty_body_eof usersOps (clientOver (cannedHTTPClient 204 "")) usersRequest {}
      { StatusCode := 204, Request := some usersRequest } ⟨["".toList], none⟩ rfl (by decide)
      rfl rfl).2.1 rfl⟩

/-! ### `Timestamp.UnmarshalJSON` on `null` and on errors -/

/-- C28: `Timestamp.UnmarshalJSON` on the literal `null` returns an error,
that of parsing the empty text as a time, and whenever it returns an error,
for `null` or any other input, the time of the receiver is as it was. -/
theorem UnmarshalJSON_null_and_errors (t : Timestamp) :
    Timestamp.UnmarshalJSON t "null".toList =
        (t, some (.foreign "parsing time: cannot parse as RFC3339")) ∧
      jsonUnmarshalString "null".toList "" = ("", none) ∧
      timeParseRFC3339 "".toList = none ∧
      ∀ data : List Char, (Timestamp.UnmarshalJSON t data).2 ≠ none →
        (Timestamp.UnmarshalJSON t data).1 = t := by
  refine ⟨rfl, rfl, rfl, ?_⟩
  intro data herr
  unfold Timestamp.UnmarshalJSON at herr ⊢
  split
  · rfl
  · rename_i s hs
    rw [hs] at herr
    simp only at herr ⊢
    split
    · rfl
    · rename_i parsed hp
      rw [hp] at herr
      exact absurd rfl herr

/-- The previous time stays on an error: the time of the tests as receiver,
on `null` and on a string that is no time. -/
theorem UnmarshalJSON_null_and_errors_witness :
    (Timestamp.UnmarshalJSON ⟨exampleInstant⟩ "null".toList).2 ≠ none ∧
      (Timestamp.UnmarshalJSON ⟨exampleInstant⟩ "null".toList).1 = ⟨exampleInstant⟩ ∧
      (Timestamp.UnmarshalJSON ⟨exampleInstant⟩ "\"not-a-timestamp\"".toList).1 =
        ⟨exampleInstant⟩ :=
  ⟨by decide,
    (UnmarshalJSON_null_and_errors ⟨exampleInstant⟩).2.2.2 "null".toList (by decide),
    (UnmarshalJSON_null_and_errors ⟨exampleInstant⟩).2.2.2 "\"not-a-timestamp\"".toList
      (by decide)⟩

/-! ### `NewClient` -/

/-- Options that set the HTTP client leave the other fields alone. -/
theorem foldl_WithHTTPClient (hs : List HTTPClient) : ∀ c : Client,
    ((hs.map WithHTTPClient).foldl (fun c o => o c) c).BaseURL = c.BaseURL ∧
      ((hs.map WithHTTPClient).foldl (fun c o => o c) c).UserAgent = c.UserAgent ∧
      ((hs.map WithHTTPClient).foldl (fun c o => o c) c).apiKey = c.apiKey := by
  induction hs with
  | nil =>
    intro c
    exact ⟨rfl, rfl, rfl⟩
  | cons h hs ih =>
    intro c
    exact ih (WithHTTPClient h c)

/-- Options that set the base URL leave the other fields alone. -/
theorem foldl_WithBaseURL (lib : URLLib) (ss : List String) : ∀ c : Client,
    ((ss.map (WithBaseURL lib)).foldl (fun c o => o c) c).client = c.client ∧
      ((ss.map (WithBaseURL lib)).foldl (fun c o => o c) c).UserAgent = c.UserAgent ∧
      ((ss.map (WithBaseURL lib)).foldl (fun c o => o c) c).apiKey = c.apiKey := by
  induction ss with
  | nil =>
    intro c
    exact ⟨rfl, rfl, rfl⟩
  | cons s ss ih =>
    intro c
    exact ih (WithBaseURL lib s c)

/-- C24: for every credential `k`, `NewClient(k)` without options has the base
URL `https://api.incident.io/`, the user agent `incidentio-go-client/1.0.0`,
the credential `k` and an HTTP client with a timeout of 30 seconds;
`WithBaseURL(s)` sets the base URL to what `url.Parse(s)` returns (nil when it
returns an error) and changes nothing else, `WithHTTPClient(h)` sets the HTTP
client to `h` and changes nothing else; and an option given after others, also
after options of its own kind, decides its field, whatever options of the
other kind follow it. -/
theorem NewClient_defaults_and_options (transport : Request → TransportResult) (k : String) :
    (NewClient plainURLLib transport k []).BaseURL =
        some { Scheme := "https", Host := "api.incident.io", Path := "/" } ∧
      (NewClient plainURLLib transport k []).BaseURL.map URL.String =
        some "https://api.incident.io/" ∧
      (∀ lib : URLLib,
        (NewClient lib transport k []).UserAgent = "incidentio-go-client/1.0.0" ∧
        (NewClient lib transport k []).apiKey = k ∧
        (NewClient lib transport k []).client = { Timeout := 30, Do := transport } ∧
        (NewClient lib transport k []).BaseURL = (lib.Parse defaultBaseURL).toOption) ∧
      (∀ (lib : URLLib) (s : String) (c : Client),
        (WithBaseURL lib s c).BaseURL = (lib.Parse s).toOption ∧
          (WithBaseURL lib s c).client = c.client ∧ (WithBaseURL lib s c).UserAgent = c.UserAgent ∧
          (WithBaseURL lib s c).apiKey = c.apiKey) ∧
      (∀ (h : HTTPClient) (c : Client),
        (WithHTTPClient h c).client = h ∧ (WithHTTPClient h c).BaseURL = c.BaseURL ∧
          (WithHTTPClient h c).UserAgent = c.UserAgent ∧ (WithHTTPClient h c).apiKey = c.apiKey) ∧
      (∀ (lib : URLLib) (opts : List ClientOption) (s : String) (later : List HTTPClient),
        (NewClient lib transport k
            (opts ++ [WithBaseURL lib s] ++ later.map WithHTTPClient)).BaseURL =
          (lib.Parse s).toOption) ∧
      (∀ (lib : URLLib) (opts : List ClientOption) (h : HTTPClient) (later : List String),
        (NewClient lib transport k
            (opts ++ [WithHTTPClient h] ++ later.map (WithBaseURL lib))).client = h) ∧
      (∀ (lib : URLLib) (s : String),
        (NewClient lib transport k [WithBaseURL lib s]).BaseURL = (lib.Parse s).toOption ∧
          (NewClient lib transport k [WithBaseURL lib defaultBaseURL, WithBaseURL lib s]).BaseURL
            = (lib.Parse s).toOption) := by
  have hwith : ∀ (lib : URLLib) (s : String) (c : Client),
      (WithBaseURL lib s c).BaseURL = (lib.Parse s).toOption := by
    intro lib s c
    unfold WithBaseURL
    cases lib.Parse s <;> rfl
  refine ⟨rfl, rfl, fun lib => ⟨rfl, rfl, rfl, ?_⟩, fun lib s c => ⟨hwith lib s c, rfl, rfl, rfl⟩,
    fun _ _ => ⟨rfl, rfl, rfl, rfl⟩, ?_, ?_, ?_⟩
  · unfold NewClient
    cases lib.Parse defaultBaseURL <;> rfl
  · intro lib opts s later
    unfold NewClient
    simp only [List.foldl_append]
    rw [(foldl_WithHTTPClient later _).1]
    exact hwith lib s _
  · intro lib opts h later
    unfold NewClient
    simp only [List.foldl_append]
    rw [(foldl_WithBaseURL lib later _).1]
    rfl
  · intro lib s
    exact ⟨hwith lib s _, hwith lib s _⟩

/-- C27 fails on the code: when `url.Parse` rejects the string given to
`WithBaseURL`, the option stores a nil base URL, whatever options came before
and whatever HTTP clients are set after it, and `Client.NewRequest` on that
client panics on every path string that parses to a reference without a
scheme, which is what every resource method passes. -/
theorem NewClient_nil_base_url {B : Type} (lib : URLLib)
    (transport : Request → TransportResult) (k s : String) (e : Error)
    (opts : List ClientOption) (later : List HTTPClient)
    (encode : Bool → B → Except Error (List Char)) (method urlStr : String) (body : Option B)
    (ref : URL) (hbad : lib.Parse s = .error e) (hparse : lib.Parse urlStr = .ok ref)
    (hrel : ref.Scheme = "") :
    (NewClient lib transport k (opts ++ [WithBaseURL lib s] ++ later.map WithHTTPClient)).BaseURL =
        none ∧
      Client.NewRequest lib encode
        (NewClient lib transport k (opts ++ [WithBaseURL lib s] ++ later.map WithHTTPClient))
        method urlStr body = .crash := by
  have hnil : (NewClient lib transport k
      (opts ++ [WithBaseURL lib s] ++ later.map WithHTTPClient)).BaseURL = none := by
    unfold NewClient
    simp only [List.foldl_append]
    rw [(foldl_WithHTTPClient later _).1]
    simp [WithBaseURL, hbad]
  refine ⟨hnil, ?_⟩
  unfold Client.NewRequest URL.ParseRef
  rw [hnil, hparse]
  simp [hrel]

/-- The string `:` has no scheme before its colon and `url.Parse` rejects
it: the client of `NewClient("test-key", WithBaseURL(":"))` has a nil base
URL, and the request of `IncidentsService.List` on it panics. -/
theorem NewClient_nil_base_url_witness :
    (∃ e, urlParse ":" = .error e) ∧
      urlParse "v2/incidents" = .ok { Path := "v2/incidents" } ∧
      (NewClient plainURLLib offlineHTTPClient.Do "test-key"
        [WithBaseURL plainURLLib ":"]).BaseURL = none ∧
      Client.NewRequest plainURLLib encodeNothing
        (NewClient plainURLLib offlineHTTPClient.Do "test-key" [WithBaseURL plainURLLib ":"])
        "GET" "v2/incidents" none = .crash :=
  ⟨⟨_, rfl⟩, rfl,
    NewClient_nil_base_url plainURLLib offlineHTTPClient.Do "test-key" ":" _ [] []
      encodeNothing "GET" "v2/incidents" none { Path := "v2/incidents" } rfl rfl rfl⟩

/-! ### Which errors `Do` returns -/

/-- C25, as amended: a transport failure is returned as the error of `Do`;
on a status in [200, 299] other than 204 with a structured target, every
error of the decoder is returned, be it an error of reading a value from the
stream, a failure of the stream itself included, or one of storing the value;
and on a status outside [200, 299] the error of `Do` is the `*ErrorResponse`,
which has empty fields when reading the body fails: that read failure is not
returned. -/
theorem Do_errors_returned {W T : Type} (ops : TargetOps W T) (c : Client) (req : Request) :
    (∀ (v : Target W T) (err : Error) (other : Option Response),
        c.client.Do req = .failed err other → (Client.Do ops c req v).err = some err) ∧
      (∀ (t : T) (resp : Response) (body : Body), c.client.Do req = .received resp body →
        (200 ≤ resp.StatusCode ∧ resp.StatusCode ≤ 299) → resp.StatusCode ≠ 204 →
        (∀ e, decoderReadValue body = .error e →
          (Client.Do ops c req (.value t)).err = some e) ∧
        (∀ msg, body.readErr = some msg → scanValue body.data = .incomplete →
          (Client.Do ops c req (.value t)).err = some (.foreign msg)) ∧
        (∀ j e, decoderReadValue body = .ok j → (ops.unmarshal j t).2 = some e →
          (Client.Do ops c req (.value t)).err = some e)) ∧
      (∀ (v : Target W T) (resp : Response) (body : Body),
        c.client.Do req = .received resp body →
        ¬(200 ≤ resp.StatusCode ∧ resp.StatusCode ≤ 299) →
        ∃ e, (Client.Do ops c req v).err = some (.api e) ∧
          (body.readErr ≠ none → e = { Response := .original })) := by
  refine ⟨?_, ?_, ?_⟩
  · intro v err other h
    rw [Do_of_failed ops c req v err other h]
  · intro t resp body h hc h204
    have hdo := Do_of_success_status ops c req (.value t) resp body h hc
    rw [if_pos h204] at hdo
    have hread : ∀ e, decoderReadValue body = .error e →
        (Client.Do ops c req (.value t)).err = some e := by
      intro e he
      rw [hdo]
      simp [jsonDecode, he]
    refine ⟨hread, ?_, ?_⟩
    · intro msg hmsg hscan
      apply hread
      unfold decoderReadValue
      rw [hscan, hmsg]
    · intro j e hj he
      rw [hdo]
      simp [jsonDecode, hj, he]
  · intro v resp body h hc
    obtain ⟨e, he, hdo⟩ := Do_of_error_status ops c req v resp body h hc
    refine ⟨e, by rw [hdo], ?_⟩
    intro hread
    unfold CheckResponse at he
    rw [if_neg hc] at he
    simp only [ioReadAll] at he
    cases hr : body.readErr with
    | none => exact absurd hr hread
    | some msg =>
      rw [hr] at he
      simp only [Option.map_some'] at he
      exact (Option.some.inj he).symm

/-- A transport that fails; a 200 whose body breaks off inside a value; a 200
whose value does not fit the target; and a 500 whose body breaks off. -/
theorem Do_errors_returned_witness :
    (Client.Do usersOps exampleClient usersRequest (.value {})).err =
        some (.foreign "dial tcp: connection refused") ∧
      (Client.Do usersOps (clientOver (brokenHTTPClient 200 ["\x7b\"users\":["] "connection reset"))
        usersRequest (.value {})).err = some (.foreign "connection reset") ∧
      (Client.Do usersOps (clientOver (cannedHTTPClient 200 "\x7b\"users\":7\x7d"))
        usersRequest (.value {})).err =
          some (.unmarshal "json: cannot unmarshal value into Go struct field") ∧
      ∃ e, (Client.Do usersOps (clientOver (brokenHTTPClient 500 [body404] "connection reset"))
          usersRequest (.value {})).err = some (.api e) ∧
        ((some "connection reset" : Option String) ≠ none → e = { Response := .original }) :=
  ⟨(Do_errors_returned usersOps exampleClient usersRequest).1 (.value {}) _ none rfl,
   ((Do_errors_returned usersOps
      (clientOver (brokenHTTPClient 200 ["\x7b\"users\":["] "connection reset")) usersRequest).2.1
      {} { StatusCode := 200, Request := some usersRequest }
      ⟨["\x7b\"users\":[".toList], some "connection reset"⟩ rfl (by decide) (by decide)).2.1
      "connection reset" rfl rfl,
   ((Do_errors_returned usersOps (clientOver (cannedHTTPClient 200 "\x7b\"users\":7\x7d"))
      usersRequest).2.1 {} { StatusCode := 200, Request := some usersRequest }
      ⟨["\x7b\"users\":7\x7d".toList], none⟩ rfl (by decide) (by decide)).2.2
      (.obj [("users", .num "7")]) _ rfl rfl,
   (Do_errors_returned usersOps (clientOver (brokenHTTPClient 500 [body404] "connection reset"))
      usersRequest).2.2 (.value {}) { StatusCode := 500, Request := some usersRequest }
      ⟨[body404.toList], some "connection reset"⟩ rfl (by decide)⟩

/-- C25, as stated, fails: the body of a response with status 500 breaks off
with a read error, and the error that `Do` returns is an `*ErrorResponse`
with empty fields, not that read error, which `CheckResponse` drops. -/
theorem Do_read_error_counterexample :
    Client.Do usersOps (clientOver (brokenHTTPClient 500 [body404] "connection reset"))
        usersRequest (.value {}) =
      ⟨some { StatusCode := 500, Request := some usersRequest },
       some (.api { Response := .original }), .value {}⟩ ∧
    ioReadAll ⟨[body404.toList], some "connection reset"⟩ =
      (body404.toList, some (.foreign "connection reset")) :=
  ⟨by decide, rfl⟩

/-- With a writer as target `Do` calls `io.Copy` and does not look at what it
returns: a sink whose `Write` fails, and a stream that breaks off while it is
copied, both end in a nil error. -/
theorem Do_copy_error_example :
    ioCopy fullSinkOps.write [] ["<html>".toList] none =
        ([], some (.foreign "write: no space left on device")) ∧
      Client.Do fullSinkOps (clientOver (cannedHTTPClient 200 "<html>")) usersRequest
          (.writer []) =
        ⟨some { StatusCode := 200, Request := some usersRequest }, none, .writer []⟩ ∧
      Client.Do usersOps (clientOver (brokenHTTPClient 200 ["<ht"] "connection reset"))
          usersRequest (.writer []) =
        ⟨some { StatusCode := 200, Request := some usersRequest }, none,
         .writer "<ht".toList⟩ := by
  decide

/-! ### A body that addresses the field `Response` -/

/-- C26 fails on the code: the field `Response` of `ErrorResponse` has no
`json` tag, so a member `response` of the body is stored into it. For a
response with status 404 and an originating request, the body
`{"response":null}` makes the back-reference nil, and the body
`{"Response":{"StatusCode":200,"Header":..,"Request":null}}` overwrites the
status code, the headers and the request of the response itself; on both,
`Error()` panics. A body without such a member leaves all of them alone. -/
theorem CheckResponse_body_reaches_response :
    (CheckResponse { StatusCode := 404, Request := some usersRequest }
          ⟨["\x7b\"response\":null\x7d".toList], none⟩ =
        ({ StatusCode := 404, Request := some usersRequest }, some { Response := .null }) ∧
      ErrorResponse.Error plainURLLib { Response := .null }
        { StatusCode := 404, Request := some usersRequest } = .crash) ∧
    (CheckResponse { StatusCode := 404, Request := some usersRequest }
          ⟨["\x7b\"Response\":\x7b\"StatusCode\":200,\"Header\":\x7b\"X-Injected\":[\"1\"]\x7d,\"Request\":null\x7d\x7d".toList],
            none⟩ =
        ({ StatusCode := 200, Header := [("X-Injected", ["1"])], Request := none },
         some { Response := .original }) ∧
      ErrorResponse.Error plainURLLib { Response := .original }
        { StatusCode := 200, Header := [("X-Injected", ["1"])], Request := none } = .crash) ∧
    (CheckResponse { StatusCode := 404, Request := some usersRequest }
          ⟨["\x7b\"detail\":\"Incident not found\"\x7d".toList], none⟩ =
        ({ StatusCode := 404, Request := some usersRequest },
         some { Response := .original, Detail := "Incident not found" }) ∧
      ErrorResponse.Error plainURLLib { Response := .original, Detail := "Incident not found" }
          { StatusCode := 404, Request := some usersRequest } =
        .ok "GET https://api.incident.io/v2/users: 404 Incident not found") := by
  decide

/-! ### List options -/

/-- The method of a request that `http.NewRequest` returns. -/
theorem httpNewRequest_method (lib : URLLib) (method url : String) (body : Option (List Char))
    (req : Request) (h : httpNewRequest lib method url body = .ok req) :
    req.Method = if method = "" then "GET" else method := by
  unfold httpNewRequest at h
  simp only [] at h
  generalize (if method = "" then "GET" else method) = m at h ⊢
  cases hv : validMethod m
  · simp [hv] at h
  · cases hp : lib.Parse url with
    | error e => simp [hv, hp] at h
    | ok u =>
      simp only [hv, hp, Bool.not_true, Bool.false_eq_true, if_false] at h
      cases h
      rfl

/-- A request built by `NewRequest` without a body has the method given and
no body. -/
theorem NewRequest_no_body {B : Type} (lib : URLLib)
    (encode : Bool → B → Except Error (List Char)) (c : Client) (method urlStr : String)
    (req : Request) (h : Client.NewRequest lib encode c method urlStr none = .ok req) :
    req.Method = (if method = "" then "GET" else method) ∧ req.Body = none := by
  unfold Client.NewRequest at h
  split at h
  · cases h
  · cases h
  · simp only [] at h
    split at h
    · cases h
    · rename_i req0 hreq0
      have h0 := httpNewRequest_body _ _ _ _ _ hreq0
      have h1 := httpNewRequest_method _ _ _ _ _ hreq0
      cases h
      exact ⟨h1, h0⟩

/-- C29: `IncidentsService.List`, `UsersService.List` and
`SchedulesService.List` do not look at their options: for every client,
whatever its transport does with a request, and every two option values, nil
included, each method gives the same outcome, that of the request
`NewRequest("GET", path, nil)`, which has the method GET and no body and is
built from the client and the path alone. -/
theorem list_options_ignored {I S : Type} (lib : URLLib) (c : Client)
    (unmarshalI : JSON → IncidentsResult I → IncidentsResult I × Option Error)
    (unmarshalS : JSON → SchedulesResult S → SchedulesResult S × Option Error)
    (o1 o2 : Option ListOptions) (s1 s2 : Option ScheduleListOptions) :
    IncidentsService.List lib unmarshalI c o1 = IncidentsService.List lib unmarshalI c o2 ∧
      UsersService.List lib c o1 = UsersService.List lib c o2 ∧
      SchedulesService.List lib unmarshalS c s1 = SchedulesService.List lib unmarshalS c s2 ∧
      (∀ req, Client.NewRequest lib encodeNothing c "GET" "v2/incidents" none = .ok req →
        req.Method = "GET" ∧ req.Body = none ∧
        IncidentsService.List lib unmarshalI c o1 =
          .returned (afterDo [] (·.Incidents)
            (Client.Do (structOps unmarshalI) c req (.value {})))) ∧
      (∀ req, Client.NewRequest lib encodeNothing c "GET" "v2/users" none = .ok req →
        req.Method = "GET" ∧ req.Body = none) ∧
      (∀ req, Client.NewRequest lib encodeNothing c "GET" "v2/schedules" none = .ok req →
        req.Method = "GET" ∧ req.Body = none ∧
        SchedulesService.List lib unmarshalS c s1 =
          .returned (afterDo [] (·.Schedules)
            (Client.Do (structOps unmarshalS) c req (.value {})))) := by
  refine ⟨rfl, rfl, rfl, ?_, ?_, ?_⟩
  · intro req h
    have hb := NewRequest_no_body lib encodeNothing c "GET" "v2/incidents" req h
    refine ⟨hb.1, hb.2, ?_⟩
    simp only [IncidentsService.List, h]
  · intro req h
    exact NewRequest_no_body lib encodeNothing c "GET" "v2/users" req h
  · intro req h
    have hb := NewRequest_no_body lib encodeNothing c "GET" "v2/schedules" req h
    refine ⟨hb.1, hb.2, ?_⟩
    simp only [SchedulesService.List, h]

/-- A page size of 50 after the cursor `abc`, and no options: the same request
`GET https://api.incident.io/v2/users` without a query, and the same outcome,
on a transport that sends the request back with its answer. -/
theorem list_options_ignored_witness :
    UsersService.List plainURLLib (clientOver (cannedHTTPClient 200 bodyUserAndIncident))
        (some { PageSize := 50, After := "abc" }) =
      UsersService.List plainURLLib (clientOver (cannedHTTPClient 200 bodyUserAndIncident)) none ∧
    Client.NewRequest plainURLLib encodeNothing
        (clientOver (cannedHTTPClient 200 bodyUserAndIncident)) "GET" "v2/users" none =
      .ok usersRequest ∧
    usersRequest.Method = "GET" ∧ usersRequest.Body = none ∧
    usersRequest.URL.map URL.String = some "https://api.incident.io/v2/users" :=
  ⟨(list_options_ignored (I := IncidentHead) (S := IncidentHead) plainURLLib
      (clientOver (cannedHTTPClient 200 bodyUserAndIncident)) (fun _ r => (r, none))
      (fun _ r => (r, none)) (some { PageSize := 50, After := "abc" }) none none none).2.1,
    rfl,
    ((list_options_ignored (I := IncidentHead) (S := IncidentHead) plainURLLib
      (clientOver (cannedHTTPClient 200 bodyUserAndIncident)) (fun _ r => (r, none))
      (fun _ r => (r, none)) none none none none).2.2.2.2.1 usersRequest rfl).1,
    ((list_options_ignored (I := IncidentHead) (S := IncidentHead) plainURLLib
      (clientOver (cannedHTTPClient 200 bodyUserAndIncident)) (fun _ r => (r, none))
      (fun _ r => (r, none)) none none none none).2.2.2.2.1 usersRequest rfl).2,
    by decide⟩

/-! ### The requests of `IncidentsService` -/

theorem incidents_path_facts :
    (∀ c ∈ "v2/incidents".toList, plainPathChar c = true) ∧
      noDotSegment "v2/incidents".toList ∧ noDotSegment "v2/incidents/".toList ∧
      (∀ c ∈ "v2/incidents/".toList, plainPathChar c = true) := by
  decide

/-- The path `v2/incidents/<id>` for an identifier of unreserved characters:
plain, and without dot segments. -/
theorem incident_path_facts (id : List Char) (hid : ∀ c ∈ id, idChar c = true) :
    (∀ c ∈ "v2/incidents/".toList ++ id, plainPathChar c = true) ∧
      noDotSegment ("v2/incidents/".toList ++ id) := by
  constructor
  · intro c hc
    rcases List.mem_append.mp hc with h | h
    · exact incidents_path_facts.2.2.2 c h
    · exact idChar_plain c (hid c h)
  · exact noDotSegment_append _ _ rfl incidents_path_facts.2.2.1 (noDotSegment_id id hid)

/-- The request of a call on `v2/incidents`. -/
theorem NewRequest_incidents {B : Type} (encode : Bool → B → Except Error (List Char))
    (c : Client) (method : String) (body : Option B) (buf : Option (List Char)) (base : URL)
    (hbase : c.BaseURL = some base) (hb : base.Absolute)
    (hm : method ≠ "") (hv : validMethod method = true)
    (hnone : body = none → buf = none)
    (hsome : ∀ b, body = some b → ∃ bytes, encode false b = .ok bytes ∧ buf = some bytes) :
    Client.NewRequest plainURLLib encode c method "v2/incidents" body =
      .ok (requestOf c method (incidentsURL base) buf) :=
  NewRequest_path encode c method "v2/incidents".toList body buf base hbase hb
    incidents_path_facts.1 (by decide) (fun rest h => by cases h) hm hv hnone hsome

/-- The request of a call on `v2/incidents/<id>`. -/
theorem NewRequest_incident {B : Type} (encode : Bool → B → Except Error (List Char))
    (c : Client) (method id : String) (body : Option B) (buf : Option (List Char)) (base : URL)
    (hbase : c.BaseURL = some base) (hb : base.Absolute)
    (hid : ∀ ch ∈ id.toList, idChar ch = true)
    (hm : method ≠ "") (hv : validMethod method = true)
    (hnone : body = none → buf = none)
    (hsome : ∀ b, body = some b → ∃ bytes, encode false b = .ok bytes ∧ buf = some bytes) :
    Client.NewRequest plainURLLib encode c method ("v2/incidents/" ++ id) body =
      .ok (requestOf c method (incidentURL base id) buf) :=
  NewRequest_path encode c method ("v2/incidents/".toList ++ id.toList) body buf base hbase hb
    (incident_path_facts id.toList hid).1 (by simp) (fun rest h => by cases h) hm hv hnone hsome

/-- C21, as amended: with an absolute base URL whose path as written ends in a
slash, for every identifier made of letters, digits, `-` and `_` and options
that the encoder can encode, `IncidentsService` hands these requests to `Do`:
`List` a GET of `<base>v2/incidents` without a body; `Create` a POST of
`<base>v2/incidents` with the encoded options as body; `Get` a GET, `Update` a
PUT with the encoded options as body and `Delete` a DELETE without a body and
without a decode target, of `<base>v2/incidents/<id>`. The URL is the path
resolved against the base URL: its text is scheme, user and host of the base
URL and the path of the base as written followed by `v2/incidents` or
`v2/incidents/<id>`, with the dot segments removed; when the path of the base
has no dot segment it is the text `<base>` of the base URL without query and
fragment, followed by `v2/incidents` or `v2/incidents/<id>`. -/
theorem IncidentsService_requests {O I : Type}
    (encode : Bool → Option O → Except Error (List Char))
    (unmarshalL : JSON → IncidentsResult I → IncidentsResult I × Option Error)
    (unmarshalI : JSON → IncidentResult I → IncidentResult I × Option Error)
    (c : Client) (base : URL) (id : String) (listOpts : Option ListOptions) (opts : Option O)
    (bytes : List Char)
    (hbase : c.BaseURL = some base) (hb : base.Absolute)
    (hslash : base.EscapedPath.getLast? = some '/')
    (hid : ∀ ch ∈ id.toList, idChar ch = true)
    (henc : encode false opts = .ok bytes) :
    (IncidentsService.List plainURLLib unmarshalL c listOpts =
        .returned (afterDo [] (·.Incidents)
          (Client.Do (structOps unmarshalL) c (requestOf c "GET" (incidentsURL base) none)
            (.value {}))) ∧
      IncidentsService.Create plainURLLib encode unmarshalI c opts =
        .returned (afterDo none (·.Incident)
          (Client.Do (structOps unmarshalI) c
            (requestOf c "POST" (incidentsURL base) (some bytes)) (.value {}))) ∧
      IncidentsService.Get plainURLLib unmarshalI c id =
        .returned (afterDo none (·.Incident)
          (Client.Do (structOps unmarshalI) c (requestOf c "GET" (incidentURL base id) none)
            (.value {}))) ∧
      IncidentsService.Update plainURLLib encode unmarshalI c id opts =
        .returned (afterDo none (·.Incident)
          (Client.Do (structOps unmarshalI) c
            (requestOf c "PUT" (incidentURL base id) (some bytes)) (.value {}))) ∧
      IncidentsService.Delete plainURLLib c id =
        .returned
          ((Client.Do noTargetOps c (requestOf c "DELETE" (incidentURL base id) none) .absent).resp,
           (Client.Do noTargetOps c (requestOf c "DELETE" (incidentURL base id) none) .absent).err)) ∧
      ((incidentsURL base).String =
          String.mk (base.Scheme.toList ++ ':' :: '/' :: '/' ::
            (authorityText base.User (removeEmptyPort base.Host).toList ++
              resolvePath (base.EscapedPath ++ "v2/incidents".toList) [])) ∧
        (incidentURL base id).String =
          String.mk (base.Scheme.toList ++ ':' :: '/' :: '/' ::
            (authorityText base.User (removeEmptyPort base.Host).toList ++
              resolvePath (base.EscapedPath ++ ("v2/incidents/" ++ id).toList) []))) ∧
      (noDotSegment base.EscapedPath →
        (incidentsURL base).String = baseText base ++ "v2/incidents" ∧
          (incidentURL base id).String = baseText base ++ ("v2/incidents/" ++ id)) := by
  have hsome : ∀ b, some opts = some b → ∃ bs, encode false b = .ok bs ∧ some bytes = some bs := by
    intro b hbo
    cases hbo
    exact ⟨bytes, henc, rfl⟩
  have hList := NewRequest_incidents encodeNothing c "GET" none none base hbase hb
    (by decide) (by decide) (fun _ => rfl) (fun b hbo => by cases hbo)
  have hCreate := NewRequest_incidents encode c "POST" (some opts) (some bytes) base hbase hb
    (by decide) (by decide) (fun h => by cases h) hsome
  have hGet := NewRequest_incident encodeNothing c "GET" id none none base hbase hb
    hid (by decide) (by decide) (fun _ => rfl) (fun b hbo => by cases hbo)
  have hUpdate := NewRequest_incident encode c "PUT" id (some opts) (some bytes) base hbase hb
    hid (by decide) (by decide) (fun h => by cases h) hsome
  have hDelete := NewRequest_incident encodeNothing c "DELETE" id none none base hbase hb
    hid (by decide) (by decide) (fun _ => rfl) (fun b hbo => by cases hbo)
  obtain ⟨hchars, hnd⟩ := incident_path_facts id.toList hid
  obtain ⟨ht1, ht2⟩ := requestURL_text base "v2/incidents".toList hb hslash incidents_path_facts.1
    (by decide) (by decide) incidents_path_facts.2.1
  obtain ⟨ht3, ht4⟩ := requestURL_text base ("v2/incidents/".toList ++ id.toList) hb hslash hchars
    (by simp) (by simp) hnd
  refine ⟨⟨?_, ?_, ?_, ?_, ?_⟩, ⟨?_, ?_⟩, ?_⟩
  · simp only [IncidentsService.List, hList]
  · simp only [IncidentsService.Create, hCreate]
  · simp only [IncidentsService.Get, hGet]
    have hops : incidentOps unmarshalI = structOps unmarshalI := rfl
    rw [hops]
    generalize Client.Do (structOps unmarshalI) c
      (requestOf c "GET" (incidentURL base id) none) (.value {}) = d
    obtain ⟨resp, err, target⟩ := d
    cases err <;> cases target <;> rfl
  · simp only [IncidentsService.Update, hUpdate]
  · simp only [IncidentsService.Delete, hDelete]
  · exact ht1
  · exact ht3
  · intro hnodot
    exact ⟨ht2 hnodot, ht4 hnodot⟩

/-- The five calls on the base URL `http://127.0.0.1:8080/` of a test server
with the identifier `I1` and the options `{"name":"a<b"}`: the request of
`Delete` is `DELETE http://127.0.0.1:8080/v2/incidents/I1`, that of `Create`
has the encoded options as its body. -/
theorem IncidentsService_requests_witness :
    (localURLWith "/" "").Absolute ∧
      urlParse "http://127.0.0.1:8080/" = .ok (localURLWith "/" "") ∧
      (localURLWith "/" "").EscapedPath.getLast? = some '/' ∧
      IncidentsService.Delete plainURLLib (echoClientAt (localURLWith "/" "")) "I1" =
        .returned
          ((Client.Do noTargetOps (echoClientAt (localURLWith "/" ""))
              (requestOf (echoClientAt (localURLWith "/" "")) "DELETE"
                (incidentURL (localURLWith "/" "") "I1") none) .absent).resp,
           (Client.Do noTargetOps (echoClientAt (localURLWith "/" ""))
              (requestOf (echoClientAt (localURLWith "/" "")) "DELETE"
                (incidentURL (localURLWith "/" "") "I1") none) .absent).err) ∧
      IncidentsService.Delete plainURLLib (echoClientAt (localURLWith "/" "")) "I1" =
        .returned
          (some { StatusCode := 204,
                  Request := some { incidentDeleteRequest with
                    URL := some (localURLWith "/v2/incidents/I1" "") } }, none) ∧
      (incidentURL (localURLWith "/" "") "I1").String = "http://127.0.0.1:8080/v2/incidents/I1" ∧
      baseText (localURLWith "/" "") = "http://127.0.0.1:8080/" ∧
      requestOf (echoClientAt (localURLWith "/" "")) "POST" (incidentsURL (localURLWith "/" ""))
          (some "\x7b\"name\":\"a<b\"\x7d\n".toList) =
        { incidentsPostRequest with
          URL := some (localURLWith "/v2/incidents" "")
          Body := some "\x7b\"name\":\"a<b\"\x7d\n".toList } :=
  ⟨by decide, rfl, by decide,
    (IncidentsService_requests (I := IncidentHead) (encodePtr encodeJSON)
      (fun _ r => (r, none)) (fun _ r => (r, none)) (echoClientAt (localURLWith "/" ""))
      (localURLWith "/" "") "I1" none (some (.obj [("name", .str "a<b")]))
      "\x7b\"name\":\"a<b\"\x7d\n".toList rfl (by decide) (by decide) (by decide) rfl).1.2.2.2.2,
    by decide, by decide, by decide, by decide⟩

/-- C21, as stated, fails for a base URL whose path ends in an escaped slash:
`url.Parse` reads `https://api.incident.io/api%2F` as the base URL with the
path `/api/`, which ends in a slash, and on it `Delete` of `I1` sends its
request to `https://api.incident.io/v2/incidents/I1`, the URL it has on the
base URL `https://api.incident.io/`, not to a URL that begins with the text or
the path of the base URL. -/
theorem IncidentsService_requests_counterexample :
    urlParse "https://api.incident.io/api%2F" = .ok escapedSlashBaseURL ∧
      escapedSlashBaseURL.Absolute ∧
      escapedSlashBaseURL.Path = "/api/" ∧
      escapedSlashBaseURL.Path.toList.getLast? = some '/' ∧
      escapedSlashBaseURL.String = "https://api.incident.io/api%2F" ∧
      IncidentsService.Delete plainURLLib (echoClientAt escapedSlashBaseURL) "I1" =
        .returned (some { StatusCode := 204, Request := some incidentDeleteRequest }, none) ∧
      IncidentsService.Delete plainURLLib (echoClientAt (baseURLWith "/" "")) "I1" =
        .returned (some { StatusCode := 204, Request := some incidentDeleteRequest }, none) ∧
      incidentDeleteRequest.URL.map URL.String = some "https://api.incident.io/v2/incidents/I1" ∧
      escapedSlashBaseURL.EscapedPath.getLast? = some 'F' :=
  ⟨rfl, by decide, by decide, by decide, by decide, by decide, by decide, by decide, by decide⟩

/-! ### The query of `ListEntries` -/

/-- The two parameters of a window, encoded: the keys in sorted order, `end_at`
first, brackets and values escaped. -/
theorem entryWindowValues_encode (window : TimeWindow) :
    Values.Encode (entryWindowValues window) =
      "entry_window%5Bend_at%5D=".toList ++ (QueryEscape window.EndAt.formatRFC3339 ++
        ("&entry_window%5Bstart_at%5D=".toList ++ QueryEscape window.StartAt.formatRFC3339)) := by
  have hsort : sortByKey (entryWindowValues window) =
      [("entry_window[end_at]", [String.mk window.EndAt.formatRFC3339]),
       ("entry_window[start_at]", [String.mk window.StartAt.formatRFC3339])] := by
    have hle : keyLE "entry_window[start_at]".toList "entry_window[end_at]".toList = false := by
      decide
    simp only [sortByKey, entryWindowValues, List.foldr, insertByKey, hle]
    rfl
  have hk1 : QueryEscape "entry_window[end_at]".toList = "entry_window%5Bend_at%5D".toList := by
    decide
  have hk2 : QueryEscape "entry_window[start_at]".toList =
      "entry_window%5Bstart_at%5D".toList := by
    decide
  unfold Values.Encode
  rw [hsort]
  simp only [List.flatMap_cons, List.flatMap_nil, List.map_cons, List.map_nil, List.append_nil,
    List.singleton_append, joinAmp]
  rw [hk1, hk2]
  simp only [String.toList, List.append_assoc, List.cons_append, List.nil_append]

/-- Adding the two parameters to the empty query. -/
theorem add_entryWindow_empty (window : TimeWindow) :
    Values.Add (Values.Add [] "entry_window[start_at]" (String.mk window.StartAt.formatRFC3339))
        "entry_window[end_at]" (String.mk window.EndAt.formatRFC3339) =
      entryWindowValues window := by
  simp [Values.Add, entryWindowValues]

/-- The request that `ListEntries` builds first, for a schedule identifier of
unreserved characters on an absolute base URL: a GET of the path resolved
against the base URL, whose URL has no query. -/
theorem NewRequest_entries (c : Client) (base : URL) (scheduleID : String)
    (hbase : c.BaseURL = some base) (hb : base.Absolute)
    (hid : ∀ ch ∈ scheduleID.toList, idChar ch = true) :
    Client.NewRequest plainURLLib encodeNothing c "GET"
        ("v2/schedules/" ++ scheduleID ++ "/entries") none =
      .ok (requestOf c "GET" (entriesURL base scheduleID) none) ∧
    (entriesURL base scheduleID).RawQuery = "" ∧
    (entriesURL base scheduleID).ForceQuery = false ∧
    (entriesURL base scheduleID).Scheme = base.Scheme ∧
    (entriesURL base scheduleID).Host = removeEmptyPort base.Host ∧
    (entriesURL base scheduleID).String =
      String.mk (base.Scheme.toList ++ ':' :: '/' :: '/' ::
        (authorityText base.User (removeEmptyPort base.Host).toList ++
          resolvePath base.EscapedPath ("v2/schedules/" ++ scheduleID ++ "/entries").toList)) := by
  have hchars : ∀ ch ∈ "v2/schedules/".toList ++ scheduleID.toList ++ "/entries".toList,
      plainPathChar ch = true := by
    have h1 : ∀ ch ∈ "v2/schedules/".toList, plainPathChar ch = true := by decide
    have h2 : ∀ ch ∈ "/entries".toList, plainPathChar ch = true := by decide
    intro ch hc
    rcases List.mem_append.mp hc with h | h
    · rcases List.mem_append.mp h with h | h
      · exact h1 ch h
      · exact idChar_plain ch (hid ch h)
    · exact h2 ch h
  have hne : "v2/schedules/".toList ++ scheduleID.toList ++ "/entries".toList ≠ [] := by simp
  obtain ⟨hs, hh, _, hq, hfq, _, _, _, _, hstr⟩ := requestURL_facts base _ hb hchars hne
  exact ⟨NewRequest_path encodeNothing c "GET" _ none none base hbase hb hchars hne
    (fun rest h => by cases h) (by decide) (by decide) (fun _ => rfl)
    (fun b hbo => by cases hbo), hq, hfq, hs, hh, hstr⟩

/-- C22, as amended: for a schedule identifier made of letters, digits, `-`
and `_`, on an absolute base URL, `SchedulesService.ListEntries` sends a GET
whose URL has no query when the options are nil or their window is nil; when
both are not nil, the query is the encoding of exactly the two parameters
`entry_window[start_at]` and `entry_window[end_at]`, whose values are the
start and the end of the window formatted with the layout `time.RFC3339`:
`entry_window%5Bend_at%5D=` and the escaped end, `&`,
`entry_window%5Bstart_at%5D=` and the escaped start. The URL is that of the
path `v2/schedules/<id>/entries` resolved against the base URL. -/
theorem ListEntries_query {E : Type}
    (unmarshal : JSON → ScheduleEntriesResult E → ScheduleEntriesResult E × Option Error)
    (c : Client) (base : URL) (scheduleID : String) (opts : Option ScheduleEntriesOptions)
    (hbase : c.BaseURL = some base) (hb : base.Absolute)
    (hid : ∀ ch ∈ scheduleID.toList, idChar ch = true) :
    ((entriesURL base scheduleID).RawQuery = "" ∧
        (entriesURL base scheduleID).ForceQuery = false ∧
        (entriesURL base scheduleID).Query = [] ∧
        (entriesURL base scheduleID).String =
          String.mk (base.Scheme.toList ++ ':' :: '/' :: '/' ::
            (authorityText base.User (removeEmptyPort base.Host).toList ++
              resolvePath base.EscapedPath
                ("v2/schedules/" ++ scheduleID ++ "/entries").toList))) ∧
      ((opts = none ∨ ∃ o, opts = some o ∧ o.EntryWindow = none) →
        SchedulesService.ListEntries plainURLLib unmarshal c scheduleID opts =
          .returned (afterDo [] (·.ScheduleEntries)
            (Client.Do (structOps unmarshal) c
              (requestOf c "GET" (entriesURL base scheduleID) none) (.value {})))) ∧
      (∀ o window, opts = some o → o.EntryWindow = some window →
        SchedulesService.ListEntries plainURLLib unmarshal c scheduleID opts =
          .returned (afterDo [] (·.ScheduleEntries)
            (Client.Do (structOps unmarshal) c
              (requestOf c "GET"
                { entriesURL base scheduleID with
                  RawQuery := String.mk (Values.Encode (entryWindowValues window)) } none)
              (.value {}))) ∧
        Values.Encode (entryWindowValues window) =
          "entry_window%5Bend_at%5D=".toList ++ (QueryEscape window.EndAt.formatRFC3339 ++
            ("&entry_window%5Bstart_at%5D=".toList ++
              QueryEscape window.StartAt.formatRFC3339))) := by
  obtain ⟨hreq, hq, hfq, _, _, hstr⟩ := NewRequest_entries c base scheduleID hbase hb hid
  have hquery : (entriesURL base scheduleID).Query = [] := by
    unfold URL.Query
    rw [hq]
    rfl
  refine ⟨⟨hq, hfq, hquery, hstr⟩, ?_, ?_⟩
  · intro hnone
    have hbind : opts.bind (·.EntryWindow) = none := by
      rcases hnone with h | ⟨o, h, hw⟩
      · rw [h]
        rfl
      · rw [h]
        exact hw
    simp only [SchedulesService.ListEntries, hreq, addEntryWindow, hbind]
  · intro o window ho hw
    have hbind : opts.bind (·.EntryWindow) = some window := by
      rw [ho]
      exact hw
    refine ⟨?_, entryWindowValues_encode window⟩
    simp only [SchedulesService.ListEntries, hreq, addEntryWindow, hbind, requestOf, hquery,
      add_entryWindow_empty]

/-- The schedule and the week of the test of `ListEntries`, on the base URL
`http://127.0.0.1:8080/` of a test server: the query written is that of the
two parameters, and read back as the test server reads it, the parameters are
the formatted start and end. -/
theorem ListEntries_query_witness :
    (localURLWith "/" "").Absolute ∧
      (SchedulesService.ListEntries plainURLLib
            (fun _ (r : ScheduleEntriesResult IncidentHead) => (r, none))
            (echoClientAt (localURLWith "/" "")) "01G0J1EXE7AXZ2C93K61WBPYEH"
            (some { EntryWindow := some exampleWindow }) =
          .returned (afterDo [] (·.ScheduleEntries)
            (Client.Do (structOps (fun _ (r : ScheduleEntriesResult IncidentHead) => (r, none)))
              (echoClientAt (localURLWith "/" ""))
              (requestOf (echoClientAt (localURLWith "/" "")) "GET"
                { entriesURL (localURLWith "/" "") "01G0J1EXE7AXZ2C93K61WBPYEH" with
                  RawQuery := String.mk (Values.Encode (entryWindowValues exampleWindow)) } none)
              (.value {}))) ∧
        Values.Encode (entryWindowValues exampleWindow) =
          "entry_window%5Bend_at%5D=".toList ++ (QueryEscape exampleWindow.EndAt.formatRFC3339 ++
            ("&entry_window%5Bstart_at%5D=".toList ++
              QueryEscape exampleWindow.StartAt.formatRFC3339))) ∧
      Values.Encode (entryWindowValues exampleWindow) =
        "entry_window%5Bend_at%5D=2021-08-24T00%3A00%3A00Z&entry_window%5Bstart_at%5D=2021-08-17T00%3A00%3A00Z".toList ∧
      Values.Get (parseQuery (Values.Encode (entryWindowValues exampleWindow)))
          "entry_window[start_at]" = "2021-08-17T00:00:00Z" ∧
      Values.Get (parseQuery (Values.Encode (entryWindowValues exampleWindow)))
          "entry_window[end_at]" = "2021-08-24T00:00:00Z" ∧
      (entriesURL (localURLWith "/" "") "01G0J1EXE7AXZ2C93K61WBPYEH").String =
        "http://127.0.0.1:8080/v2/schedules/01G0J1EXE7AXZ2C93K61WBPYEH/entries" ∧
      ({ entriesURL (localURLWith "/" "") "01G0J1EXE7AXZ2C93K61WBPYEH" with
          RawQuery := String.mk (Values.Encode (entryWindowValues exampleWindow)) } : URL).String =
        "http://127.0.0.1:8080/v2/schedules/01G0J1EXE7AXZ2C93K61WBPYEH/entries?entry_window%5Bend_at%5D=2021-08-24T00%3A00%3A00Z&entry_window%5Bstart_at%5D=2021-08-17T00%3A00%3A00Z" :=
  ⟨by decide,
    (ListEntries_query (fun _ (r : ScheduleEntriesResult IncidentHead) => (r, none))
      (echoClientAt (localURLWith "/" "")) (localURLWith "/" "") "01G0J1EXE7AXZ2C93K61WBPYEH"
      (some { EntryWindow := some exampleWindow }) rfl (by decide) (by decide)).2.2
      { EntryWindow := some exampleWindow } exampleWindow rfl rfl,
    rfl, rfl, rfl, rfl, rfl⟩

/-- C22, as stated, fails for a schedule identifier with a question mark:
`ListEntries` with the identifier `S1?x=1` and nil options sends
`GET https://api.incident.io/v2/schedules/S1?x=1/entries`, whose URL carries
the query parameter `x`. -/
theorem ListEntries_query_counterexample :
    Client.NewRequest plainURLLib encodeNothing (echoClientAt (baseURLWith "/" "")) "GET"
        ("v2/schedules/" ++ "S1?x=1" ++ "/entries") none = .ok entriesRequestWithQuery ∧
      SchedulesService.ListEntries plainURLLib
          (fun _ (r : ScheduleEntriesResult IncidentHead) => (r, none))
          (echoClientAt (baseURLWith "/" "")) "S1?x=1" none =
        .returned ⟨[], some { StatusCode := 204, Request := some entriesRequestWithQuery }, none⟩ ∧
      entriesRequestWithQuery.URL.map URL.Query = some [("x", ["1/entries"])] ∧
      entriesRequestWithQuery.URL.map URL.String =
        some "https://api.incident.io/v2/schedules/S1?x=1/entries" := by
  decide

/-! ### String literals of any characters -/

theorem hexVal_hexDigit (k : Nat) (h : k < 16) : hexVal (hexDigit k) = some k := by
  interval_cases k <;> rfl

theorem combineUnits_unit (n : Nat) (tail : List StrUnit) (h : isSurrogate n = false) :
    combineUnits (.unit n :: tail) = Char.ofNat n :: combineUnits tail := by
  cases tail with
  | nil => simp [combineUnits, h]
  | cons u t => cases u <;> simp [combineUnits, h]

theorem unescape_char (c : Char) (rest : List Char) (h : c ≠ '\\') :
    unescape (c :: rest) = .char c :: unescape rest := by
  conv_lhs => unfold unescape
  split
  · rename_i heq
    cases heq
  · rename_i heq
    cases heq
    exact absurd rfl h
  · rename_i heq
    cases heq
    exact absurd rfl h
  · rename_i heq
    cases heq
    rfl

theorem unescape_short (x : Char) (rest : List Char) (h : x ≠ 'u') :
    unescape ('\\' :: x :: rest) =
      .char (if x = 'b' then Char.ofNat 8 else if x = 'f' then Char.ofNat 12
        else if x = 'n' then '\n' else if x = 'r' then '\r' else if x = 't' then '\t'
        else x) :: unescape rest := by
  conv_lhs => unfold unescape
  split
  · rename_i heq
    cases heq
  · rename_i heq
    cases heq
    exact absurd rfl h
  · rename_i heq
    cases heq
    rfl
  · rename_i h1 h2 heq
    cases heq
    exact (h2 _ _ rfl rfl).elim

theorem unescape_hex (a b c d : Char) (rest : List Char) :
    unescape ('\\' :: 'u' :: a :: b :: c :: d :: rest) =
      .unit ((((hexVal a).getD 0 * 16 + (hexVal b).getD 0) * 16 + (hexVal c).getD 0) * 16
        + (hexVal d).getD 0) :: unescape rest := by
  conv_lhs => unfold unescape
  split
  · rename_i heq
    cases heq
  · rename_i heq
    cases heq
    rfl
  · rename_i h2 heq
    cases heq
    exact (h2 _ _ _ _ _ rfl rfl).elim
  · rename_i h1 h2 heq
    cases heq
    exact (h2 _ _ rfl rfl).elim

theorem Char_ofNat_toNat (c : Char) : Char.ofNat c.toNat = c := by
  exact Char.ofNat_toNat c

theorem scan_encodeRune (e : Bool) (c : Char) (stack : List Frame) (acc cs : List Char) :
    scan ⟨stack, .inString acc⟩ (encodeRune e c ++ cs) =
      scan ⟨stack, .inString ((encodeRune e c).reverse ++ acc)⟩ cs := by
  unfold encodeRune
  split_ifs with h1 h2 h3 h4 h5 h6 h7 h8
  · rcases h1 with rfl | rfl <;> simp [scan, step]
  · simp [scan, step]
  · simp [scan, step]
  · simp [scan, step]
  · simp [scan, step]
  · simp [scan, step]
  · have hlt : c.toNat < 256 := by
      rcases h7 with h | ⟨_, rfl | rfl | rfl⟩
      · omega
      · decide
      · decide
      · decide
    have k1 := hexVal_hexDigit (c.toNat / 16) (by omega)
    have k2 := hexVal_hexDigit (c.toNat % 16) (by omega)
    have z0 : hexVal '0' = some 0 := rfl
    simp [scan, step, k1, k2, z0]
  · have k2 := hexVal_hexDigit (c.toNat % 16) (by omega)
    have z0 : hexVal '0' = some 0 := rfl
    have z2 : hexVal '2' = some 2 := rfl
    simp [scan, step, k2, z0, z2]
  · have hq : c ≠ '"' := fun h => h1 (Or.inl h)
    have hb : c ≠ '\\' := fun h => h1 (Or.inr h)
    have hn : ¬ c.toNat < 32 := fun h => h7 (Or.inl h)
    simp [scan, step, hq, hb, hn]

theorem Char_eq_of_toNat (c : Char) (n : Nat) (h : c.toNat = n) : c = Char.ofNat n := by
  rw [← h, Char_ofNat_toNat]

theorem combineUnits_char (c : Char) (tail : List StrUnit) :
    combineUnits (.char c :: tail) = c :: combineUnits tail := by
  simp [combineUnits]

theorem unquote_encodeRune (e : Bool) (c : Char) (rest : List Char) :
    combineUnits (unescape (encodeRune e c ++ rest)) = c :: combineUnits (unescape rest) := by
  unfold encodeRune
  split_ifs with h1 h2 h3 h4 h5 h6 h7 h8
  · rcases h1 with rfl | rfl
    · rw [List.cons_append, List.cons_append, List.nil_append, unescape_short _ _ (by decide),
        combineUnits_char]
      rfl
    · rw [List.cons_append, List.cons_append, List.nil_append, unescape_short _ _ (by decide),
        combineUnits_char]
      rfl
  · rw [List.cons_append, List.cons_append, List.nil_append, unescape_short _ _ (by decide),
      combineUnits_char, Char_eq_of_toNat c 8 h2]
    rfl
  · rw [List.cons_append, List.cons_append, List.nil_append, unescape_short _ _ (by decide),
      combineUnits_char, Char_eq_of_toNat c 12 h3]
    rfl
  · subst h4
    rw [List.cons_append, List.cons_append, List.nil_append, unescape_short _ _ (by decide),
      combineUnits_char]
    rfl
  · subst h5
    rw [List.cons_append, List.cons_append, List.nil_append, unescape_short _ _ (by decide),
      combineUnits_char]
    rfl
  · subst h6
    rw [List.cons_append, List.cons_append, List.nil_append, unescape_short _ _ (by decide),
      combineUnits_char]
    rfl
  · have hlt : c.toNat < 256 := by
      rcases h7 with h | ⟨_, rfl | rfl | rfl⟩
      · omega
      · decide
      · decide
      · decide
    have k1 := hexVal_hexDigit (c.toNat / 16) (by omega)
    have k2 := hexVal_hexDigit (c.toNat % 16) (by omega)
    have z0 : hexVal '0' = some 0 := rfl
    simp only [List.cons_append, List.nil_append]
    rw [unescape_hex, k1, k2, z0]
    have hval : (((Option.getD (some 0) 0 * 16 + Option.getD (some 0) 0) * 16
        + Option.getD (some (c.toNat / 16)) 0) * 16 + Option.getD (some (c.toNat % 16)) 0)
        = c.toNat := by
      simp only [Option.getD_some]
      omega
    rw [hval, combineUnits_unit _ _ (by simp [isSurrogate]; omega), Char_ofNat_toNat]
  · have k2 := hexVal_hexDigit (c.toNat % 16) (by omega)
    have z0 : hexVal '0' = some 0 := rfl
    have z2 : hexVal '2' = some 2 := rfl
    simp only [List.cons_append, List.nil_append]
    rw [unescape_hex, k2, z0, z2]
    have hval : (((Option.getD (some 2) 0 * 16 + Option.getD (some 0) 0) * 16
        + Option.getD (some 2) 0) * 16 + Option.getD (some (c.toNat % 16)) 0)
        = c.toNat := by
      simp only [Option.getD_some]
      omega
    rw [hval, combineUnits_unit _ _ (by simp [isSurrogate]; omega), Char_ofNat_toNat]
  · have hb : c ≠ '\\' := fun h => h1 (Or.inr h)
    rw [List.cons_append, List.nil_append, unescape_char c rest hb, combineUnits_char]

/-- The content of the literal that the encoder writes for a string is the
string. -/
theorem unquote_encoded (e : Bool) (s : List Char) :
    unquote (s.flatMap (encodeRune e)) = String.mk s := by
  have h : ∀ rest, combineUnits (unescape (s.flatMap (encodeRune e) ++ rest))
      = s ++ combineUnits (unescape rest) := by
    induction s with
    | nil => intro rest; rfl
    | cons c tail ih =>
      intro rest
      rw [List.flatMap_cons, List.append_assoc, unquote_encodeRune, ih, List.cons_append]
  have h0 := h []
  simp only [List.append_nil] at h0
  unfold unquote
  rw [h0]
  simp [unescape, combineUnits]

/-- Inside a string literal the scanner takes the text that the encoder writes
for the characters of a string. -/
theorem scan_encoded_chars (e : Bool) (s : List Char) (stack : List Frame)
    (acc cs : List Char) :
    scan ⟨stack, .inString acc⟩ (s.flatMap (encodeRune e) ++ cs) =
      scan ⟨stack, .inString ((s.flatMap (encodeRune e)).reverse ++ acc)⟩ cs := by
  induction s generalizing acc with
  | nil => rfl
  | cons c tail ih =>
    rw [List.flatMap_cons, List.append_assoc, scan_encodeRune, ih]
    simp [List.append_assoc]

theorem resume_complete (stack : List Frame) (v : JSON) (c : Char) (cs : List Char) :
    (match complete stack v true with
      | .next s2 => scan s2 cs
      | .done w true => .value w cs
      | .done w false => .value w (c :: cs)
      | .fail msg => .invalid msg) = resume (complete stack v true) cs := by
  cases stack with
  | nil => rfl
  | cons f st =>
    cases f with
    | key ms => cases v <;> rfl
    | _ => rfl

/-- From a quote on, the scanner reads the literal that the encoder writes for
a string and completes the string. -/
theorem scan_encodeString (e : Bool) (s : List Char) (stack : List Frame) (cs : List Char) :
    scan ⟨stack, .inString []⟩ (s.flatMap (encodeRune e) ++ '"' :: cs) =
      resume (complete stack (.str (String.mk s)) true) cs := by
  rw [scan_encoded_chars]
  simp only [scan, step, if_true, List.append_nil, List.reverse_reverse, unquote_encoded]
  exact resume_complete stack _ '"' cs

theorem scan_word (stack : List Frame) (b : Bool) (cs : List Char) :
    scan ⟨stack, .beginValue b⟩ ('n' :: 'u' :: 'l' :: 'l' :: cs)
        = resume (complete stack .null true) cs ∧
      scan ⟨stack, .beginValue b⟩ ('t' :: 'r' :: 'u' :: 'e' :: cs)
        = resume (complete stack (.bool true) true) cs ∧
      scan ⟨stack, .beginValue b⟩ ('f' :: 'a' :: 'l' :: 's' :: 'e' :: cs)
        = resume (complete stack (.bool false) true) cs := by
  refine ⟨?_, ?_, ?_⟩
  · simp only [scan, step, stepBeginValue, isSpace]
    simp
    exact resume_complete stack _ 'l' cs
  · simp only [scan, step, stepBeginValue, isSpace]
    simp
    exact resume_complete stack _ 'e' cs
  · simp only [scan, step, stepBeginValue, isSpace]
    simp
    exact resume_complete stack _ 'e' cs

theorem scan_open_string (stack : List Frame) (b : Bool) (cs : List Char) :
    scan ⟨stack, .beginValue b⟩ ('"' :: cs) = scan ⟨stack, .inString []⟩ cs ∧
      scan ⟨stack, .beginKey b⟩ ('"' :: cs) = scan ⟨stack, .inString []⟩ cs := by
  constructor <;> simp [scan, step, stepBeginValue, isSpace]

theorem scan_open_container (stack : List Frame) (b : Bool) (cs : List Char)
    (h : stack.length + 1 ≤ maxNestingDepth) :
    scan ⟨stack, .beginValue b⟩ ('[' :: cs) = scan ⟨.arr [] :: stack, .beginValue true⟩ cs ∧
      scan ⟨stack, .beginValue b⟩ ('\x7b' :: cs) = scan ⟨.key [] :: stack, .beginKey true⟩ cs := by
  constructor <;> simp [scan, step, stepBeginValue, isSpace, push, h]

theorem scan_empty_container (stack : List Frame) (cs : List Char) :
    scan ⟨.arr [] :: stack, .beginValue true⟩ (']' :: cs)
        = resume (complete stack (.arr []) true) cs ∧
      scan ⟨.key [] :: stack, .beginKey true⟩ ('\x7d' :: cs)
        = resume (complete stack (.obj []) true) cs := by
  constructor
  · simp only [scan, step, isSpace]
    simp
    exact resume_complete stack _ ']' cs
  · simp only [scan, step, isSpace]
    simp
    exact resume_complete stack _ '\x7d' cs

theorem scan_after_elem (stack : List Frame) (es : List JSON) (cs : List Char) :
    scan ⟨.arr es :: stack, .endValue⟩ (',' :: cs)
        = scan ⟨.arr es :: stack, .beginValue false⟩ cs ∧
      scan ⟨.arr es :: stack, .endValue⟩ (']' :: cs)
        = resume (complete stack (.arr es.reverse) true) cs := by
  constructor
  · simp [scan, step, stepEndValue, isSpace]
  · simp only [scan, step, stepEndValue, isSpace]
    simp
    exact resume_complete stack _ ']' cs

theorem scan_after_key (stack : List Frame) (ms : List (String × JSON)) (k : String)
    (cs : List Char) :
    scan ⟨.colon ms k :: stack, .endValue⟩ (':' :: cs)
      = scan ⟨.value ms k :: stack, .beginValue false⟩ cs := by
  simp [scan, step, stepEndValue, isSpace]

theorem scan_after_pair (stack : List Frame) (ms : List (String × JSON)) (cs : List Char) :
    scan ⟨.pair ms :: stack, .endValue⟩ (',' :: cs)
        = scan ⟨.key ms :: stack, .beginKey false⟩ cs ∧
      scan ⟨.pair ms :: stack, .endValue⟩ ('\x7d' :: cs)
        = resume (complete stack (.obj ms.reverse) true) cs := by
  constructor
  · simp [scan, step, stepEndValue, isSpace]
  · simp only [scan, step, stepEndValue, isSpace]
    simp
    exact resume_complete stack _ '\x7d' cs

theorem nests_num (n : Nat) (lit : String) :
    JSON.nests n (.num lit) = numberLiteral lit.toList := by
  cases n <;> simp [JSON.nests]

/-! ### Number literals -/

theorem endNumber_resume (stack : List Frame) (acc : List Char) (d : Char) (cs : List Char) :
    (match endNumber stack acc d with
      | .next s2 => scan s2 cs
      | .done w true => .value w cs
      | .done w false => .value w (d :: cs)
      | .fail msg => .invalid msg)
      = resume (complete stack (.num (String.mk acc.reverse)) true) (d :: cs) := by
  cases stack with
  | nil => rfl
  | cons f st =>
    cases f <;> simp [endNumber, complete, resume, scan, step]

theorem step_number (stack : List Frame) (st st2 : NumState) (acc : List Char) (c : Char)
    (hst : st ≠ .start) (h : numStep st c = some st2) :
    step ⟨stack, lexOf st acc⟩ c = .next ⟨stack, lexOf st2 (c :: acc)⟩ := by
  cases st <;> simp only [numStep] at h <;>
    first
    | exact absurd rfl hst
    | (split_ifs at h <;> cases h <;> simp [step, lexOf, *])

theorem numStep_ne_start (st st2 : NumState) (c : Char) (h : numStep st c = some st2) :
    st2 ≠ .start := by
  cases st <;> simp only [numStep] at h <;> split_ifs at h <;> cases h <;> decide

theorem scan_number_run (stack : List Frame) (d : Char) (cs : List Char) :
    ∀ (s : List Char) (st st2 : NumState) (acc : List Char), st ≠ .start →
      numRun st s = some st2 →
      scan ⟨stack, lexOf st acc⟩ (s ++ d :: cs)
        = scan ⟨stack, lexOf st2 (s.reverse ++ acc)⟩ (d :: cs) := by
  intro s
  induction s with
  | nil =>
    intro st st2 acc _ h
    simp only [numRun, Option.some.injEq] at h
    subst h
    rfl
  | cons c rest ih =>
    intro st st2 acc hst h
    simp only [numRun] at h
    cases hs : numStep st c with
    | none => rw [hs] at h; cases h
    | some st1 =>
      rw [hs] at h
      simp only [] at h
      have h1 := step_number stack st st1 acc c hst hs
      have h2 := ih st1 st2 (c :: acc) (numStep_ne_start _ _ _ hs) h
      rw [List.cons_append, scan, h1]
      simp only []
      rw [h2]
      simp

theorem step_number_start (stack : List Frame) (b : Bool) (st2 : NumState) (c : Char)
    (h : numStep .start c = some st2) :
    step ⟨stack, .beginValue b⟩ c = .next ⟨stack, lexOf st2 [c]⟩ := by
  simp only [numStep] at h
  split_ifs at h with h1 h2 h3
  · cases h
    subst h1
    simp [step, stepBeginValue, isSpace, lexOf]
  · cases h
    subst h2
    simp [step, stepBeginValue, isSpace, lexOf]
  · cases h
    have e1 : c ≠ '\x7b' := by rintro rfl; exact absurd h3.2 (by decide)
    have e2 : c ≠ '[' := by rintro rfl; exact absurd h3.2 (by decide)
    have e3 : c ≠ '"' := by rintro rfl; exact absurd h3.1 (by decide)
    have e4 : c ≠ ']' := by rintro rfl; exact absurd h3.2 (by decide)
    have e5 : c ≠ 't' := by rintro rfl; exact absurd h3.2 (by decide)
    have e6 : c ≠ 'f' := by rintro rfl; exact absurd h3.2 (by decide)
    have e7 : c ≠ 'n' := by rintro rfl; exact absurd h3.2 (by decide)
    have e8 : c ≠ ' ' := by rintro rfl; exact absurd h3.1 (by decide)
    have e9 : c ≠ '\t' := by rintro rfl; exact absurd h3.1 (by decide)
    have e10 : c ≠ '\r' := by rintro rfl; exact absurd h3.1 (by decide)
    have e11 : c ≠ '\n' := by rintro rfl; exact absurd h3.1 (by decide)
    simp [step, stepBeginValue, isSpace, lexOf, h1, h2, h3, e1, e2, e3, e4, e5, e6, e7, e8, e9,
      e10, e11]

theorem step_number_end (stack : List Frame) (st : NumState) (acc : List Char) (d : Char)
    (hacc : st = .zero ∨ st = .int ∨ st = .dot0 ∨ st = .exp0) (hd : endsNumber d = true) :
    step ⟨stack, lexOf st acc⟩ d = endNumber stack acc d := by
  simp only [endsNumber, Bool.not_eq_true', Bool.or_eq_false_iff, decide_eq_false_iff_not] at hd
  obtain ⟨⟨⟨h1, h2⟩, h3⟩, h4⟩ := hd
  rcases hacc with rfl | rfl | rfl | rfl <;> simp [step, lexOf, h1, h2, h3, h4]

/-- The scanner reads a JSON number that a character ending it follows, as
the number of that literal. -/
theorem scan_number (stack : List Frame) (b : Bool) (lit : List Char) (d : Char)
    (cs : List Char) (hlit : numberLiteral lit = true) (hd : endsNumber d = true) :
    scan ⟨stack, .beginValue b⟩ (lit ++ d :: cs)
      = resume (complete stack (.num (String.mk lit)) true) (d :: cs) := by
  cases lit with
  | nil => simp [numberLiteral, numRun] at hlit
  | cons c rest =>
    unfold numberLiteral at hlit
    simp only [numRun] at hlit
    cases hs : numStep .start c with
    | none => rw [hs] at hlit; simp at hlit
    | some st1 =>
      rw [hs] at hlit
      simp only [] at hlit
      cases hr : numRun st1 rest with
      | none => rw [hr] at hlit; simp at hlit
      | some st2 =>
        rw [hr] at hlit
        have hacc : st2 = .zero ∨ st2 = .int ∨ st2 = .dot0 ∨ st2 = .exp0 := by
          cases st2 <;> simp at hlit <;> simp
        rw [List.cons_append, scan, step_number_start stack b st1 c hs]
        simp only []
        rw [scan_number_run stack d cs rest st1 st2 [c] (numStep_ne_start _ _ _ hs) hr, scan,
          step_number_end stack st2 _ d hacc hd]
        have := endNumber_resume stack (rest.reverse ++ [c]) d cs
        simpa using this

theorem nests_zero (es : List JSON) (ms : List (String × JSON)) :
    JSON.nests 0 (.arr es) = false ∧ JSON.nests 0 (.obj ms) = false := by
  simp [JSON.nests]

theorem nests_succ (n : Nat) (es : List JSON) (ms : List (String × JSON)) :
    JSON.nests (n + 1) (.arr es) = elemsNest n es ∧
      JSON.nests (n + 1) (.obj ms) = membersNest n ms := by
  simp [JSON.nests]

theorem elemsNest_cons (n : Nat) (v : JSON) (vs : List JSON) (h : elemsNest n (v :: vs) = true) :
    JSON.nests n v = true ∧ elemsNest n vs = true := by
  simpa [elemsNest] using h

theorem membersNest_cons (n : Nat) (k : String) (v : JSON) (ms : List (String × JSON))
    (h : membersNest n ((k, v) :: ms) = true) :
    JSON.nests n v = true ∧ membersNest n ms = true := by
  simpa [membersNest] using h

mutual
/-- The scanner reads the text that the encoder writes for a value, nested no
deeper than the scanner allows and followed by a character that ends a
number, as that value. -/
theorem scan_render (e : Bool) : ∀ (j : JSON) (n : Nat) (stack : List Frame) (b : Bool)
    (d : Char) (cs : List Char), j.nests n = true → stack.length + n ≤ maxNestingDepth →
    endsNumber d = true →
    scan ⟨stack, .beginValue b⟩ (JSON.render e j ++ d :: cs)
      = resume (complete stack j true) (d :: cs)
  | .null, n, stack, b, d, cs, _, _, _ => (scan_word stack b (d :: cs)).1
  | .bool true, n, stack, b, d, cs, _, _, _ => (scan_word stack b (d :: cs)).2.1
  | .bool false, n, stack, b, d, cs, _, _, _ => (scan_word stack b (d :: cs)).2.2
  | .num lit, n, stack, b, d, cs, h, _, hd => by
    rw [nests_num] at h
    exact scan_number stack b lit.toList d cs h hd
  | .str s, n, stack, b, d, cs, _, _, _ => by
    simp only [JSON.render, encodeString, List.cons_append, List.append_assoc,
      List.nil_append]
    rw [(scan_open_string stack b _).1]
    exact scan_encodeString e s.toList stack (d :: cs)
  | .arr [], 0, stack, b, d, cs, h, _, _ => by
    rw [(nests_zero [] []).1] at h
    exact absurd h (by decide)
  | .arr [], n + 1, stack, b, d, cs, _, hlen, _ => by
    simp only [JSON.render, renderElems, List.cons_append, List.nil_append]
    rw [(scan_open_container stack b _ (by omega)).1]
    exact (scan_empty_container stack (d :: cs)).1
  | .arr (v :: vs), 0, stack, b, d, cs, h, _, _ => by
    rw [(nests_zero _ []).1] at h
    exact absurd h (by decide)
  | .arr (v :: vs), n + 1, stack, b, d, cs, h, hlen, _ => by
    simp only [JSON.render, List.cons_append, List.append_assoc, List.nil_append]
    rw [(scan_open_container stack b _ (by omega)).1]
    rw [(nests_succ n _ []).1] at h
    have := scan_renderElems e (v :: vs) n stack [] true (d :: cs) (by simp) h (by omega)
    simpa using this
  | .obj [], 0, stack, b, d, cs, h, _, _ => by
    rw [(nests_zero [] []).2] at h
    exact absurd h (by decide)
  | .obj [], n + 1, stack, b, d, cs, _, hlen, _ => by
    simp only [JSON.render, renderMembers, List.cons_append, List.nil_append]
    rw [(scan_open_container stack b _ (by omega)).2]
    exact (scan_empty_container stack (d :: cs)).2
  | .obj (m :: ms), 0, stack, b, d, cs, h, _, _ => by
    rw [(nests_zero [] _).2] at h
    exact absurd h (by decide)
  | .obj (m :: ms), n + 1, stack, b, d, cs, h, hlen, _ => by
    simp only [JSON.render, List.cons_append, List.append_assoc, List.nil_append]
    rw [(scan_open_container stack b _ (by omega)).2]
    rw [(nests_succ n [] _).2] at h
    have := scan_renderMembers e (m :: ms) n stack [] true (d :: cs) (by simp) h (by omega)
    simpa using this
/-- The same for the elements of an array up to its closing bracket. -/
theorem scan_renderElems (e : Bool) : ∀ (es : List JSON) (n : Nat) (stack : List Frame)
    (acc : List JSON) (b : Bool) (cs : List Char), es ≠ [] → elemsNest n es = true →
    stack.length + 1 + n ≤ maxNestingDepth →
    scan ⟨.arr acc :: stack, .beginValue b⟩ (renderElems e es ++ ']' :: cs)
      = resume (complete stack (.arr (acc.reverse ++ es)) true) cs
  | [], n, stack, acc, b, cs, hne, _, _ => absurd rfl hne
  | [v], n, stack, acc, b, cs, _, h, hlen => by
    have h := (elemsNest_cons n v [] h).1
    simp only [renderElems]
    rw [scan_render e v n (.arr acc :: stack) b ']' _ h (by simpa using hlen) (by decide)]
    show scan ⟨.arr (v :: acc) :: stack, .endValue⟩ (']' :: cs) = _
    rw [(scan_after_elem stack _ cs).2]
    simp
  | v :: w :: rest, n, stack, acc, b, cs, _, h, hlen => by
    have h := elemsNest_cons n v _ h
    simp only [renderElems, List.append_assoc, List.cons_append]
    rw [scan_render e v n (.arr acc :: stack) b ',' _ h.1 (by simpa using hlen) (by decide)]
    show scan ⟨.arr (v :: acc) :: stack, .endValue⟩ (',' :: _) = _
    rw [(scan_after_elem stack _ _).1]
    have := scan_renderElems e (w :: rest) n stack (v :: acc) false cs (by simp)
      h.2 hlen
    simpa using this
/-- The same for the members of an object up to its closing brace. -/
theorem scan_renderMembers (e : Bool) : ∀ (ms : List (String × JSON)) (n : Nat)
    (stack : List Frame) (acc : List (String × JSON)) (b : Bool) (cs : List Char), ms ≠ [] →
    membersNest n ms = true → stack.length + 1 + n ≤ maxNestingDepth →
    scan ⟨.key acc :: stack, .beginKey b⟩ (renderMembers e ms ++ '\x7d' :: cs)
      = resume (complete stack (.obj (acc.reverse ++ ms)) true) cs
  | [], n, stack, acc, b, cs, hne, _, _ => absurd rfl hne
  | [(k, v)], n, stack, acc, b, cs, _, h, hlen => by
    have h := (membersNest_cons n k v [] h).1
    simp only [renderMembers, encodeString, List.append_assoc, List.cons_append,
      List.nil_append]
    rw [(scan_open_string _ b _).2, scan_encodeString e k.toList (.key acc :: stack)]
    show scan ⟨.colon acc k :: stack, .endValue⟩ (':' :: _) = _
    rw [scan_after_key, scan_render e v n (.value acc k :: stack) false '\x7d' _ h
      (by simpa using hlen) (by decide)]
    show scan ⟨.pair ((k, v) :: acc) :: stack, .endValue⟩ ('\x7d' :: cs) = _
    rw [(scan_after_pair stack _ cs).2]
    simp
  | (k, v) :: m :: rest, n, stack, acc, b, cs, _, h, hlen => by
    have h := membersNest_cons n k v _ h
    simp only [renderMembers, encodeString, List.append_assoc, List.cons_append,
      List.nil_append]
    rw [(scan_open_string _ b _).2, scan_encodeString e k.toList (.key acc :: stack)]
    show scan ⟨.colon acc k :: stack, .endValue⟩ (':' :: _) = _
    rw [scan_after_key, scan_render e v n (.value acc k :: stack) false ',' _ h.1
      (by simpa using hlen) (by decide)]
    show scan ⟨.pair ((k, v) :: acc) :: stack, .endValue⟩ (',' :: _) = _
    rw [(scan_after_pair stack _ _).1]
    have := scan_renderMembers e (m :: rest) n stack ((k, v) :: acc) false cs (by simp)
      h.2 hlen
    simpa using this
end

/-! ### Maps and values of any type -/

theorem keyLE_refl (a : List Char) : keyLE a a = true := by
  induction a with
  | nil => rfl
  | cons c rest ih => simp [keyLE, ih]

theorem mapSet_append {α : Type} (k : String) (v : α) (m : List (String × α))
    (h : ∀ x ∈ m, keyLT x.1 k = true) : mapSet k v m = m ++ [(k, v)] := by
  induction m with
  | nil => rfl
  | cons x xs ih =>
    have hx := h x (List.mem_cons_self _ _)
    simp only [keyLT, Bool.and_eq_true, Bool.not_eq_true'] at hx
    have hne : k ≠ x.1 := by
      intro heq
      rw [heq, keyLE_refl] at hx
      exact absurd hx.2 (by decide)
    simp only [mapSet, if_neg hne, hx.2, Bool.false_eq_true, if_false, List.cons_append]
    rw [ih (fun y hy => h y (List.mem_cons_of_mem _ hy))]

theorem foldl_mapSet {α : Type} (ms : List (String × α)) :
    ∀ acc : List (String × α), (∀ a ∈ acc, ∀ m ∈ ms, keyLT a.1 m.1 = true) →
      ascending ms = true → ms.foldl (fun m kv => mapSet kv.1 kv.2 m) acc = acc ++ ms := by
  induction ms with
  | nil => intro acc _ _; simp
  | cons x xs ih =>
    intro acc hacc hasc
    simp only [ascending, Bool.and_eq_true, List.all_eq_true] at hasc
    rw [List.foldl_cons, mapSet_append x.1 x.2 acc (fun a ha => hacc a ha x (List.mem_cons_self _ _)),
      ih _ _ hasc.2]
    · simp
    · intro a ha m hm
      rcases List.mem_append.mp ha with ha | ha
      · exact hacc a ha m (List.mem_cons_of_mem _ hm)
      · simp only [List.mem_singleton] at ha
        subst ha
        exact hasc.1 m hm

theorem sortMembers_ascending {α : Type} (ms : List (String × α)) (h : ascending ms = true) :
    sortMembers ms = ms := by
  induction ms with
  | nil => rfl
  | cons x xs ih =>
    simp only [ascending, Bool.and_eq_true, List.all_eq_true] at h
    have ih2 := ih h.2
    unfold sortMembers at ih2 ⊢
    rw [List.foldr_cons, ih2]
    cases xs with
    | nil => rfl
    | cons y ys =>
      have hy := h.1 y (List.mem_cons_self _ _)
      simp only [keyLT, Bool.and_eq_true] at hy
      simp only [insertMember, hy.1, if_true]

theorem toMembers_keys (ms : List (String × Dyn)) :
    (Dyn.toMembers ms).map Prod.fst = ms.map Prod.fst := by
  induction ms with
  | nil => rfl
  | cons x xs ih =>
    obtain ⟨k, d⟩ := x
    simp [Dyn.toMembers, ih]

theorem all_keys {α : Type} (p : String → Bool) (xs : List (String × α)) :
    (xs.all fun m => p m.1) = (xs.map Prod.fst).all p := by
  induction xs with
  | nil => rfl
  | cons x rest ih => simp only [List.all_cons, List.map_cons, ih]

theorem ascending_keys {α β : Type} (ms : List (String × α)) (ns : List (String × β))
    (h : ms.map Prod.fst = ns.map Prod.fst) : ascending ms = ascending ns := by
  induction ms generalizing ns with
  | nil =>
    cases ns with
    | nil => rfl
    | cons y ys => simp at h
  | cons x xs ih =>
    cases ns with
    | nil => simp at h
    | cons y ys =>
      simp only [List.map_cons, List.cons.injEq] at h
      have hall : (xs.all fun m => keyLT x.1 m.1) = (ys.all fun m => keyLT y.1 m.1) := by
        have e1 := all_keys (keyLT x.1) xs
        have e2 := all_keys (keyLT y.1) ys
        rw [e1, e2, h.1, h.2]
      simp only [ascending, hall, ih ys h.2]

theorem plain_facts (n : Nat) (k : Int) (lit : String) (es : List Dyn)
    (ms : List (String × Dyn)) :
    Dyn.plain n (.int k) = false ∧
      Dyn.plain n (.float64 lit) = numberLiteral lit.toList ∧
      Dyn.plain 0 (.slice es) = false ∧ Dyn.plain 0 (.map ms) = false ∧
      Dyn.plain (n + 1) (.slice es) = Dyn.elemsPlain n es ∧
      Dyn.plain (n + 1) (.map ms) = (ascending ms && Dyn.entriesPlain n ms) ∧
      Dyn.plain n .nilSlice = false ∧ Dyn.plain n .nilMap = false := by
  cases n <;> simp [Dyn.plain]

theorem elemsPlain_cons (n : Nat) (d : Dyn) (ds : List Dyn)
    (h : Dyn.elemsPlain n (d :: ds) = true) :
    Dyn.plain n d = true ∧ Dyn.elemsPlain n ds = true := by
  simpa [Dyn.elemsPlain] using h

theorem entriesPlain_cons (n : Nat) (k : String) (d : Dyn) (ms : List (String × Dyn))
    (h : Dyn.entriesPlain n ((k, d) :: ms) = true) :
    Dyn.plain n d = true ∧ Dyn.entriesPlain n ms = true := by
  simpa [Dyn.entriesPlain] using h

theorem plain_map (n : Nat) (ms : List (String × Dyn)) (h : Dyn.plain (n + 1) (.map ms) = true) :
    ascending ms = true ∧ Dyn.entriesPlain n ms = true := by
  rw [(plain_facts n 0 "" [] ms).2.2.2.2.2.1] at h
  simpa using h

theorem ofJSON_map (ms : List (String × Dyn)) (h : ascending ms = true)
    (hm : ∀ acc, Dyn.ofMembers (Dyn.toMembers ms) acc
      = ms.foldl (fun m kv => mapSet kv.1 kv.2 m) acc) :
    Dyn.ofJSON (Dyn.toJSON (.map ms)) = .map ms := by
  have hs : sortMembers (Dyn.toMembers ms) = Dyn.toMembers ms :=
    sortMembers_ascending _ (by rw [ascending_keys _ ms (toMembers_keys ms)]; exact h)
  simp only [Dyn.toJSON, Dyn.ofJSON, hs, hm]
  rw [foldl_mapSet ms [] (by simp) h]
  rfl

mutual
/-- Decoding what the encoder writes for a plain value gives the value. -/
theorem ofJSON_toJSON : ∀ (d : Dyn) (n : Nat), Dyn.plain n d = true →
    Dyn.ofJSON (Dyn.toJSON d) = d
  | .null, _, _ => rfl
  | .bool _, _, _ => rfl
  | .str _, _, _ => rfl
  | .int k, n, h => by
    rw [(plain_facts n k "" [] []).1] at h
    exact absurd h (by decide)
  | .float64 _, _, _ => rfl
  | .nilSlice, n, h => by
    rw [(plain_facts n 0 "" [] []).2.2.2.2.2.2.1] at h
    exact absurd h (by decide)
  | .nilMap, n, h => by
    rw [(plain_facts n 0 "" [] []).2.2.2.2.2.2.2] at h
    exact absurd h (by decide)
  | .slice es, 0, h => by
    rw [(plain_facts 0 0 "" es []).2.2.1] at h
    exact absurd h (by decide)
  | .slice es, n + 1, h => by
    rw [(plain_facts n 0 "" es []).2.2.2.2.1] at h
    have := ofElems_toElems es n h
    simp only [Dyn.toJSON, Dyn.ofJSON, this]
  | .map ms, 0, h => by
    rw [(plain_facts 0 0 "" [] ms).2.2.2.1] at h
    exact absurd h (by decide)
  | .map ms, n + 1, h =>
    ofJSON_map ms (plain_map n ms h).1 (ofMembers_toMembers ms n (plain_map n ms h).2)
/-- The same for the elements of a slice. -/
theorem ofElems_toElems : ∀ (ds : List Dyn) (n : Nat), Dyn.elemsPlain n ds = true →
    Dyn.ofElems (Dyn.toElems ds) = ds
  | [], _, _ => rfl
  | d :: ds, n, h => by
    have h2 := elemsPlain_cons n d ds h
    have e1 := ofJSON_toJSON d n h2.1
    have e2 := ofElems_toElems ds n h2.2
    simp only [Dyn.toElems, Dyn.ofElems, e1, e2]
/-- The same for the entries of a map, assigned one after another. -/
theorem ofMembers_toMembers : ∀ (ms : List (String × Dyn)) (n : Nat),
    Dyn.entriesPlain n ms = true →
    ∀ acc, Dyn.ofMembers (Dyn.toMembers ms) acc = ms.foldl (fun m kv => mapSet kv.1 kv.2 m) acc
  | [], _, _ => fun _ => rfl
  | (k, d) :: ms, n, h => by
    intro acc
    have h2 := entriesPlain_cons n k d ms h
    have e1 := ofJSON_toJSON d n h2.1
    have e2 := ofMembers_toMembers ms n h2.2
    simp only [Dyn.toMembers, Dyn.ofMembers, e1, e2, List.foldl_cons]
end

theorem ofMembers_sorted (ms : List (String × Dyn)) (n : Nat) (hasc : ascending ms = true)
    (hplain : Dyn.entriesPlain n ms = true) :
    Dyn.ofMembers (sortMembers (Dyn.toMembers ms)) [] = ms := by
  rw [sortMembers_ascending _ (by rw [ascending_keys _ ms (toMembers_keys ms)]; exact hasc),
    ofMembers_toMembers ms n hplain, foldl_mapSet ms [] (by simp) hasc]
  rfl

mutual
/-- What the encoder writes for a plain value has no number and nests as
deep as the value. -/
theorem toJSON_nests : ∀ (d : Dyn) (n : Nat), Dyn.plain n d = true →
    JSON.nests n (Dyn.toJSON d) = true
  | .null, n, _ => by cases n <;> rfl
  | .bool _, n, _ => by cases n <;> rfl
  | .str _, n, _ => by cases n <;> rfl
  | .int k, n, h => by
    rw [(plain_facts n k "" [] []).1] at h
    exact absurd h (by decide)
  | .float64 lit, n, h => by
    rw [(plain_facts n 0 lit [] []).2.1] at h
    rw [Dyn.toJSON, nests_num]
    exact h
  | .nilSlice, n, h => by
    rw [(plain_facts n 0 "" [] []).2.2.2.2.2.2.1] at h
    exact absurd h (by decide)
  | .nilMap, n, h => by
    rw [(plain_facts n 0 "" [] []).2.2.2.2.2.2.2] at h
    exact absurd h (by decide)
  | .slice es, 0, h => by
    rw [(plain_facts 0 0 "" es []).2.2.1] at h
    exact absurd h (by decide)
  | .slice es, n + 1, h => by
    rw [(plain_facts n 0 "" es []).2.2.2.2.1] at h
    have := toElems_nests es n h
    rw [Dyn.toJSON, (nests_succ n _ []).1]
    exact this
  | .map ms, 0, h => by
    rw [(plain_facts 0 0 "" [] ms).2.2.2.1] at h
    exact absurd h (by decide)
  | .map ms, n + 1, h => by
    have h2 := plain_map n ms h
    have := toMembers_nests ms n h2.2
    rw [Dyn.toJSON, (nests_succ n [] _).2, sortMembers_ascending _
      (by rw [ascending_keys _ ms (toMembers_keys ms)]; exact h2.1)]
    exact this
/-- The same for the elements of a slice. -/
theorem toElems_nests : ∀ (ds : List Dyn) (n : Nat), Dyn.elemsPlain n ds = true →
    elemsNest n (Dyn.toElems ds) = true
  | [], _, _ => by rw [Dyn.toElems, elemsNest]
  | d :: ds, n, h => by
    have h2 := elemsPlain_cons n d ds h
    have e1 := toJSON_nests d n h2.1
    have e2 := toElems_nests ds n h2.2
    rw [Dyn.toElems, elemsNest, e1, e2]
    rfl
/-- The same for the entries of a map. -/
theorem toMembers_nests : ∀ (ms : List (String × Dyn)) (n : Nat),
    Dyn.entriesPlain n ms = true → membersNest n (Dyn.toMembers ms) = true
  | [], _, _ => by rw [Dyn.toMembers, membersNest]
  | (k, d) :: ms, n, h => by
    have h2 := entriesPlain_cons n k d ms h
    have e1 := toJSON_nests d n h2.1
    have e2 := toMembers_nests ms n h2.2
    rw [Dyn.toMembers, membersNest, e1, e2]
    rfl
end

/-! ### The request options read back -/

theorem decode_assignment (a : CreateRoleAssignment) :
    decodeStruct CreateRoleAssignment.field a.toJSON {} = a ∧
      fitsStruct CreateRoleAssignment.fits a.toJSON = true ∧
      ∀ n, JSON.nests (n + 1) a.toJSON = true := by
  refine ⟨rfl, rfl, fun n => ?_⟩
  cases n <;> rfl

theorem decode_assignments (as : List CreateRoleAssignment) :
    decodeElems {} (decodeStruct CreateRoleAssignment.field)
        (as.map CreateRoleAssignment.toJSON) [] = as ∧
      (as.map CreateRoleAssignment.toJSON).all (fitsStruct CreateRoleAssignment.fits) = true ∧
      ∀ n, elemsNest (n + 1) (as.map CreateRoleAssignment.toJSON) = true := by
  induction as with
  | nil => exact ⟨rfl, rfl, fun n => by rw [List.map_nil, elemsNest]⟩
  | cons a rest ih =>
    refine ⟨?_, ?_, fun n => ?_⟩
    · rw [List.map_cons, decodeElems, (decode_assignment a).1, ih.1]
    · rw [List.map_cons, List.all_cons, (decode_assignment a).2.1, ih.2.1]
      rfl
    · rw [List.map_cons, elemsNest, (decode_assignment a).2.2 n, ih.2.2 n]
      rfl

theorem create_string_fields (v : String) (acc : CreateIncidentOptions) :
    CreateIncidentOptions.field "name" (.str v) acc = { acc with Name := v } ∧
    CreateIncidentOptions.field "summary" (.str v) acc = { acc with Summary := v } ∧
    CreateIncidentOptions.field "incident_type_id" (.str v) acc
      = { acc with IncidentTypeID := v } ∧
    CreateIncidentOptions.field "severity_id" (.str v) acc = { acc with SeverityID := v } ∧
    CreateIncidentOptions.field "mode" (.str v) acc = { acc with Mode := v } ∧
    CreateIncidentOptions.field "visibility" (.str v) acc = { acc with Visibility := v } ∧
    CreateIncidentOptions.field "slack_channel_name_override" (.str v) acc
      = { acc with SlackChannelNameOverride := v } :=
  ⟨rfl, rfl, rfl, rfl, rfl, rfl, rfl⟩

theorem create_omitted_strings (v : String) (acc : CreateIncidentOptions) :
    (acc.Summary = "" → (omitEmptyString "summary" v).foldl
      (fun a m => CreateIncidentOptions.field m.1 m.2 a) acc = { acc with Summary := v }) ∧
    (acc.SeverityID = "" → (omitEmptyString "severity_id" v).foldl
      (fun a m => CreateIncidentOptions.field m.1 m.2 a) acc = { acc with SeverityID := v }) ∧
    (acc.Mode = "" → (omitEmptyString "mode" v).foldl
      (fun a m => CreateIncidentOptions.field m.1 m.2 a) acc = { acc with Mode := v }) ∧
    (acc.Visibility = "" → (omitEmptyString "visibility" v).foldl
      (fun a m => CreateIncidentOptions.field m.1 m.2 a) acc = { acc with Visibility := v }) ∧
    (acc.SlackChannelNameOverride = "" → (omitEmptyString "slack_channel_name_override" v).foldl
      (fun a m => CreateIncidentOptions.field m.1 m.2 a) acc
        = { acc with SlackChannelNameOverride := v }) := by
  obtain ⟨f1, f2, f3, f4, f5, f6, f7, f8, f9⟩ := acc
  refine ⟨?_, ?_, ?_, ?_, ?_⟩ <;>
  · intro h
    simp only at h
    subst h
    unfold omitEmptyString
    split
    · rename_i hv
      subst hv
      rfl
    · rfl

theorem decodeNilSlice_assignments (as : Option (List CreateRoleAssignment))
    (h : as ≠ some []) :
    (∀ x ∈ omitEmptyAssignments "incident_role_assignments" as,
      x.1 = "incident_role_assignments" ∧
        decodeNilSlice {} (decodeStruct CreateRoleAssignment.field) x.2 none = as ∧
        fitsSlice (fitsStruct CreateRoleAssignment.fits) x.2 = true ∧
        ∀ n, JSON.nests (n + 2) x.2 = true) ∧
      (omitEmptyAssignments "incident_role_assignments" as = [] → as = none) := by
  cases as with
  | none => exact ⟨by simp [omitEmptyAssignments], fun _ => rfl⟩
  | some l =>
    cases l with
    | nil => exact absurd rfl h
    | cons a rest =>
      refine ⟨?_, by simp [omitEmptyAssignments]⟩
      intro x hx
      simp only [omitEmptyAssignments, List.mem_singleton] at hx
      subst hx
      refine ⟨rfl, ?_, ?_, fun n => ?_⟩
      · simp only [decodeNilSlice, Option.getD_none]
        rw [(decode_assignments (a :: rest)).1]
      · simp only [fitsSlice]
        exact (decode_assignments (a :: rest)).2.1
      · simp only []
        rw [(nests_succ (n + 1) _ []).1]
        exact (decode_assignments (a :: rest)).2.2 n

theorem decodeAnyMap_values (m : Option (List (String × Dyn))) (n : Nat) (h : m ≠ some [])
    (hplain : ∀ ms, m = some ms → ascending ms = true ∧ Dyn.entriesPlain n ms = true) :
    (∀ x ∈ omitEmptyMap "custom_field_values" m,
      x.1 = "custom_field_values" ∧ decodeAnyMap x.2 none = m ∧ fitsAnyMap x.2 = true ∧
        JSON.nests (n + 1) x.2 = true) ∧
      (omitEmptyMap "custom_field_values" m = [] → m = none) := by
  cases m with
  | none => exact ⟨by simp [omitEmptyMap], fun _ => rfl⟩
  | some l =>
    cases l with
    | nil => exact absurd rfl h
    | cons a rest =>
      obtain ⟨hasc, hpl⟩ := hplain _ rfl
      refine ⟨?_, by simp [omitEmptyMap]⟩
      intro x hx
      simp only [omitEmptyMap, List.mem_singleton] at hx
      subst hx
      refine ⟨rfl, ?_, rfl, ?_⟩
      · simp only [decodeAnyMap, Option.getD_none]
        rw [ofMembers_sorted _ n hasc hpl]
      · simp only []
        rw [(nests_succ n [] _).2, sortMembers_ascending _
          (by rw [ascending_keys _ _ (toMembers_keys _)]; exact hasc)]
        exact toMembers_nests _ n hpl

theorem create_containers (acc : CreateIncidentOptions)
    (as : Option (List CreateRoleAssignment)) (m : Option (List (String × Dyn))) (n : Nat)
    (has : as ≠ some []) (hm : m ≠ some [])
    (hplain : ∀ ms, m = some ms → ascending ms = true ∧ Dyn.entriesPlain n ms = true) :
    (acc.IncidentRoleAssignments = none →
      (omitEmptyAssignments "incident_role_assignments" as).foldl
        (fun a x => CreateIncidentOptions.field x.1 x.2 a) acc
          = { acc with IncidentRoleAssignments := as }) ∧
    (acc.CustomFieldValues = none →
      (omitEmptyMap "custom_field_values" m).foldl
        (fun a x => CreateIncidentOptions.field x.1 x.2 a) acc
          = { acc with CustomFieldValues := m }) := by
  obtain ⟨f1, f2, f3, f4, f5, f6, f7, f8, f9⟩ := acc
  constructor
  · intro h
    simp only at h
    subst h
    have hd := decodeNilSlice_assignments as has
    cases hl : omitEmptyAssignments "incident_role_assignments" as with
    | nil => rw [hd.2 hl]; rfl
    | cons x rest =>
      have hrest : rest = [] := by
        cases as with
        | none => simp [omitEmptyAssignments] at hl
        | some l =>
          cases l with
          | nil => simp [omitEmptyAssignments] at hl
          | cons a r =>
            simp only [omitEmptyAssignments, List.cons.injEq] at hl
            exact hl.2.symm
      subst hrest
      obtain ⟨hk, hdec, _, _⟩ := hd.1 x (by rw [hl]; exact List.mem_cons_self _ _)
      obtain ⟨k, v⟩ := x
      simp only at hk hdec
      subst hk
      simp only [List.foldl_cons, List.foldl_nil]
      rw [← hdec]
      rfl
  · intro h
    simp only at h
    subst h
    have hd := decodeAnyMap_values m n hm hplain
    cases hl : omitEmptyMap "custom_field_values" m with
    | nil => rw [hd.2 hl]; rfl
    | cons x rest =>
      have hrest : rest = [] := by
        cases m with
        | none => simp [omitEmptyMap] at hl
        | some l =>
          cases l with
          | nil => simp [omitEmptyMap] at hl
          | cons a r =>
            simp only [omitEmptyMap, List.cons.injEq] at hl
            exact hl.2.symm
      subst hrest
      obtain ⟨hk, hdec, _, _⟩ := hd.1 x (by rw [hl]; exact List.mem_cons_self _ _)
      obtain ⟨k, v⟩ := x
      simp only at hk hdec
      subst hk
      simp only [List.foldl_cons, List.foldl_nil]
      rw [← hdec]
      rfl

/-- Storing what the encoder writes for create options into the zero value
gives the options, when no slice or map of them is empty without being nil
and the custom field values are plain. -/
theorem decode_create (o : CreateIncidentOptions) (n : Nat)
    (has : o.IncidentRoleAssignments ≠ some []) (hm : o.CustomFieldValues ≠ some [])
    (hplain : ∀ ms, o.CustomFieldValues = some ms →
      ascending ms = true ∧ Dyn.entriesPlain n ms = true) :
    decodeStruct CreateIncidentOptions.field o.toJSON {} = o := by
  obtain ⟨f1, f2, f3, f4, f5, f6, f7, f8, f9⟩ := o
  simp only [CreateIncidentOptions.toJSON, decodeStruct, List.foldl_append, List.foldl_cons,
    List.foldl_nil]
  rw [(create_string_fields f1 _).1, (create_omitted_strings f2 _).1 rfl,
    (create_string_fields f3 _).2.2.1, (create_omitted_strings f4 _).2.1 rfl,
    (create_containers _ f5 f6 n has hm hplain).1 rfl,
    (create_containers _ f5 f6 n has hm hplain).2 rfl,
    (create_omitted_strings f7 _).2.2.1 rfl, (create_omitted_strings f8 _).2.2.2.1 rfl,
    (create_omitted_strings f9 _).2.2.2.2 rfl]

theorem membersNest_of_forall (n : Nat) (ms : List (String × JSON))
    (h : ∀ x ∈ ms, JSON.nests n x.2 = true) : membersNest n ms = true := by
  induction ms with
  | nil => rw [membersNest]
  | cons x rest ih =>
    obtain ⟨k, v⟩ := x
    rw [membersNest, h (k, v) (List.mem_cons_self _ _),
      ih (fun y hy => h y (List.mem_cons_of_mem _ hy))]
    rfl

theorem nests_str (n : Nat) (s : String) : JSON.nests n (.str s) = true := by
  cases n <;> rfl

theorem mem_omitEmptyString (name s : String) (x : String × JSON)
    (h : x ∈ omitEmptyString name s) : x = (name, .str s) := by
  unfold omitEmptyString at h
  split at h
  · simp at h
  · simpa using h

theorem mem_omitNilString (name : String) (s : Option String) (x : String × JSON)
    (h : x ∈ omitNilString name s) : ∃ v, x = (name, .str v) := by
  cases s with
  | none => simp [omitNilString] at h
  | some v => exact ⟨v, by simpa [omitNilString] using h⟩

/-- Every member that the encoder writes for create options can be stored
into the options, and nests within the depth of the custom field values. -/
theorem create_members (o : CreateIncidentOptions) (n : Nat)
    (has : o.IncidentRoleAssignments ≠ some []) (hm : o.CustomFieldValues ≠ some [])
    (hplain : ∀ ms, o.CustomFieldValues = some ms →
      ascending ms = true ∧ Dyn.entriesPlain (n + 1) ms = true) :
    fitsStruct CreateIncidentOptions.fits o.toJSON = true ∧
      JSON.nests (n + 3) o.toJSON = true := by
  have hall : ∀ x ∈ [("name", JSON.str o.Name)] ++ omitEmptyString "summary" o.Summary
      ++ [("incident_type_id", .str o.IncidentTypeID)]
      ++ omitEmptyString "severity_id" o.SeverityID
      ++ omitEmptyAssignments "incident_role_assignments" o.IncidentRoleAssignments
      ++ omitEmptyMap "custom_field_values" o.CustomFieldValues
      ++ omitEmptyString "mode" o.Mode
      ++ omitEmptyString "visibility" o.Visibility
      ++ omitEmptyString "slack_channel_name_override" o.SlackChannelNameOverride,
      CreateIncidentOptions.fits x.1 x.2 = true ∧ JSON.nests (n + 2) x.2 = true := by
    intro x hx
    simp only [List.mem_append, List.mem_singleton] at hx
    rcases hx with (((((((hx | hx) | hx) | hx) | hx) | hx) | hx) | hx) | hx
    · subst hx
      exact ⟨rfl, nests_str _ _⟩
    · rw [mem_omitEmptyString _ _ _ hx]
      exact ⟨rfl, nests_str _ _⟩
    · subst hx
      exact ⟨rfl, nests_str _ _⟩
    · rw [mem_omitEmptyString _ _ _ hx]
      exact ⟨rfl, nests_str _ _⟩
    · obtain ⟨hk, _, hfit, hn⟩ := (decodeNilSlice_assignments _ has).1 x hx
      obtain ⟨k, v⟩ := x
      simp only at hk hfit hn
      subst hk
      exact ⟨hfit, hn n⟩
    · obtain ⟨hk, _, hfit, hn⟩ := (decodeAnyMap_values _ (n + 1) hm hplain).1 x hx
      obtain ⟨k, v⟩ := x
      simp only at hk hfit hn
      subst hk
      exact ⟨hfit, hn⟩
    · rw [mem_omitEmptyString _ _ _ hx]
      exact ⟨rfl, nests_str _ _⟩
    · rw [mem_omitEmptyString _ _ _ hx]
      exact ⟨rfl, nests_str _ _⟩
    · rw [mem_omitEmptyString _ _ _ hx]
      exact ⟨rfl, nests_str _ _⟩
  constructor
  · simp only [CreateIncidentOptions.toJSON, fitsStruct, List.all_eq_true]
    exact fun x hx => (hall x hx).1
  · rw [CreateIncidentOptions.toJSON, (nests_succ (n + 2) [] _).2]
    exact membersNest_of_forall _ _ (fun x hx => (hall x hx).2)

theorem update_omitted_strings (v : Option String) (acc : UpdateIncidentOptions) :
    (acc.Name = none → (omitNilString "name" v).foldl
      (fun a m => UpdateIncidentOptions.field m.1 m.2 a) acc = { acc with Name := v }) ∧
    (acc.Summary = none → (omitNilString "summary" v).foldl
      (fun a m => UpdateIncidentOptions.field m.1 m.2 a) acc = { acc with Summary := v }) ∧
    (acc.Status = none → (omitNilString "status" v).foldl
      (fun a m => UpdateIncidentOptions.field m.1 m.2 a) acc = { acc with Status := v }) ∧
    (acc.SeverityID = none → (omitNilString "severity_id" v).foldl
      (fun a m => UpdateIncidentOptions.field m.1 m.2 a) acc = { acc with SeverityID := v }) := by
  obtain ⟨f1, f2, f3, f4, f5, f6⟩ := acc
  refine ⟨?_, ?_, ?_, ?_⟩ <;>
  · intro h
    simp only at h
    subst h
    cases v <;> rfl

theorem update_containers (acc : UpdateIncidentOptions)
    (as : Option (List CreateRoleAssignment)) (m : Option (List (String × Dyn))) (n : Nat)
    (has : as ≠ some []) (hm : m ≠ some [])
    (hplain : ∀ ms, m = some ms → ascending ms = true ∧ Dyn.entriesPlain n ms = true) :
    (acc.IncidentRoleAssignments = none →
      (omitEmptyAssignments "incident_role_assignments" as).foldl
        (fun a x => UpdateIncidentOptions.field x.1 x.2 a) acc
          = { acc with IncidentRoleAssignments := as }) ∧
    (acc.CustomFieldValues = none →
      (omitEmptyMap "custom_field_values" m).foldl
        (fun a x => UpdateIncidentOptions.field x.1 x.2 a) acc
          = { acc with CustomFieldValues := m }) := by
  obtain ⟨f1, f2, f3, f4, f5, f6⟩ := acc
  constructor
  · intro h
    simp only at h
    subst h
    have hd := decodeNilSlice_assignments as has
    cases hl : omitEmptyAssignments "incident_role_assignments" as with
    | nil => rw [hd.2 hl]; rfl
    | cons x rest =>
      have hrest : rest = [] := by
        cases as with
        | none => simp [omitEmptyAssignments] at hl
        | some l =>
          cases l with
          | nil => simp [omitEmptyAssignments] at hl
          | cons a r =>
            simp only [omitEmptyAssignments, List.cons.injEq] at hl
            exact hl.2.symm
      subst hrest
      obtain ⟨hk, hdec, _, _⟩ := hd.1 x (by rw [hl]; exact List.mem_cons_self _ _)
      obtain ⟨k, v⟩ := x
      simp only at hk hdec
      subst hk
      simp only [List.foldl_cons, List.foldl_nil]
      rw [← hdec]
      rfl
  · intro h
    simp only at h
    subst h
    have hd := decodeAnyMap_values m n hm hplain
    cases hl : omitEmptyMap "custom_field_values" m with
    | nil => rw [hd.2 hl]; rfl
    | cons x rest =>
      have hrest : rest = [] := by
        cases m with
        | none => simp [omitEmptyMap] at hl
        | some l =>
          cases l with
          | nil => simp [omitEmptyMap] at hl
          | cons a r =>
            simp only [omitEmptyMap, List.cons.injEq] at hl
            exact hl.2.symm
      subst hrest
      obtain ⟨hk, hdec, _, _⟩ := hd.1 x (by rw [hl]; exact List.mem_cons_self _ _)
      obtain ⟨k, v⟩ := x
      simp only at hk hdec
      subst hk
      simp only [List.foldl_cons, List.foldl_nil]
      rw [← hdec]
      rfl

/-- Storing what the encoder writes for update options into the zero value
gives the options, when no slice or map of them is empty without being nil
and the custom field values are plain. -/
theorem decode_update (o : UpdateIncidentOptions) (n : Nat)
    (has : o.IncidentRoleAssignments ≠ some []) (hm : o.CustomFieldValues ≠ some [])
    (hplain : ∀ ms, o.CustomFieldValues = some ms →
      ascending ms = true ∧ Dyn.entriesPlain n ms = true) :
    decodeStruct UpdateIncidentOptions.field o.toJSON {} = o := by
  obtain ⟨f1, f2, f3, f4, f5, f6⟩ := o
  simp only [UpdateIncidentOptions.toJSON, decodeStruct, List.foldl_append]
  rw [(update_omitted_strings f1 _).1 rfl, (update_omitted_strings f2 _).2.1 rfl,
    (update_omitted_strings f3 _).2.2.1 rfl, (update_omitted_strings f4 _).2.2.2 rfl,
    (update_containers _ f5 f6 n has hm hplain).1 rfl,
    (update_containers _ f5 f6 n has hm hplain).2 rfl]

/-- Every member that the encoder writes for update options can be stored
into the options, and nests within the depth of the custom field values. -/
theorem update_members (o : UpdateIncidentOptions) (n : Nat)
    (has : o.IncidentRoleAssignments ≠ some []) (hm : o.CustomFieldValues ≠ some [])
    (hplain : ∀ ms, o.CustomFieldValues = some ms →
      ascending ms = true ∧ Dyn.entriesPlain (n + 1) ms = true) :
    fitsStruct UpdateIncidentOptions.fits o.toJSON = true ∧
      JSON.nests (n + 3) o.toJSON = true := by
  have hall : ∀ x ∈ omitNilString "name" o.Name ++ omitNilString "summary" o.Summary
      ++ omitNilString "status" o.Status ++ omitNilString "severity_id" o.SeverityID
      ++ omitEmptyAssignments "incident_role_assignments" o.IncidentRoleAssignments
      ++ omitEmptyMap "custom_field_values" o.CustomFieldValues,
      UpdateIncidentOptions.fits x.1 x.2 = true ∧ JSON.nests (n + 2) x.2 = true := by
    intro x hx
    simp only [List.mem_append] at hx
    rcases hx with ((((hx | hx) | hx) | hx) | hx) | hx
    · obtain ⟨v, hv⟩ := mem_omitNilString _ _ _ hx
      rw [hv]
      exact ⟨rfl, nests_str _ _⟩
    · obtain ⟨v, hv⟩ := mem_omitNilString _ _ _ hx
      rw [hv]
      exact ⟨rfl, nests_str _ _⟩
    · obtain ⟨v, hv⟩ := mem_omitNilString _ _ _ hx
      rw [hv]
      exact ⟨rfl, nests_str _ _⟩
    · obtain ⟨v, hv⟩ := mem_omitNilString _ _ _ hx
      rw [hv]
      exact ⟨rfl, nests_str _ _⟩
    · obtain ⟨hk, _, hfit, hn⟩ := (decodeNilSlice_assignments _ has).1 x hx
      obtain ⟨k, v⟩ := x
      simp only at hk hfit hn
      subst hk
      exact ⟨hfit, hn n⟩
    · obtain ⟨hk, _, hfit, hn⟩ := (decodeAnyMap_values _ (n + 1) hm hplain).1 x hx
      obtain ⟨k, v⟩ := x
      simp only at hk hfit hn
      subst hk
      exact ⟨hfit, hn⟩
  constructor
  · simp only [UpdateIncidentOptions.toJSON, fitsStruct, List.all_eq_true]
    exact fun x hx => (hall x hx).1
  · rw [UpdateIncidentOptions.toJSON, (nests_succ (n + 2) [] _).2]
    exact membersNest_of_forall _ _ (fun x hx => (hall x hx).2)

/-- The decoder reads the text that the encoder writes for an object, however
the stream delivers it, and stores the object. -/
theorem jsonDecode_encoded {T : Type} (unmarshal : JSON → T → T × Option Error)
    (ms : List (String × JSON)) (b : Body) (t : T)
    (hn : JSON.nests maxNestingDepth (.obj ms) = true)
    (hb : b.data = JSON.render false (.obj ms) ++ ['\n']) :
    jsonDecode unmarshal b t = unmarshal (.obj ms) t := by
  have hs := scan_render false (.obj ms) maxNestingDepth [] false '\n' [] hn (by simp)
    (by decide)
  simp only [jsonDecode, decoderReadValue, scanValue, hb, hs, complete, resume]

theorem plainMap_facts (n : Nat) (m : Option (List (String × Dyn)))
    (h : plainMap n m = true) :
    m ≠ some [] ∧ ∀ ms, m = some ms → ascending ms = true ∧ Dyn.entriesPlain n ms = true := by
  cases m with
  | none => exact ⟨by simp, fun ms hms => by cases hms⟩
  | some l =>
    cases l with
    | nil => exact absurd h (by simp [plainMap])
    | cons a rest =>
      refine ⟨by simp, fun ms hms => ?_⟩
      cases hms
      simpa [plainMap] using h

theorem nilOrNonEmpty_ne {α : Type} (s : Option (List α)) (h : nilOrNonEmpty s = true) :
    s ≠ some [] := by
  intro hs
  subst hs
  exact absurd h (by simp [nilOrNonEmpty])

/-- C23 (amended): for create options and update options whose
`IncidentRoleAssignments` and `CustomFieldValues` are each nil or not empty,
and whose custom field values are built from nil, booleans, finite `float64`
numbers, strings, and `[]interface{}` and `map[string]interface{}` values that
are not nil, with at most 9998 of these inside one another, the body of the
request that `NewRequest` builds for them, read by a JSON decoder into a fresh
value of the same type, gives no error and a value equal to the options. The
strings are text (valid UTF-8), with any characters. -/
theorem request_body_round_trip (lib : URLLib) (c : Client)
    (methodO urlO methodU urlU : String)
    (o : CreateIncidentOptions) (u : UpdateIncidentOptions) (reqO reqU : Request)
    (hoS : nilOrNonEmpty o.IncidentRoleAssignments = true)
    (hoM : plainMap 9998 o.CustomFieldValues = true)
    (huS : nilOrNonEmpty u.IncidentRoleAssignments = true)
    (huM : plainMap 9998 u.CustomFieldValues = true)
    (hreqO : Client.NewRequest lib (encodePtr CreateIncidentOptions.encode) c methodO urlO
      (some (some o)) = .ok reqO)
    (hreqU : Client.NewRequest lib (encodePtr UpdateIncidentOptions.encode) c methodU urlU
      (some (some u)) = .ok reqU) :
    (∃ bytes, reqO.Body = some bytes ∧ ∀ b : Body, b.data = bytes →
      jsonDecode (unmarshalStruct CreateIncidentOptions.field CreateIncidentOptions.fits) b {}
        = (o, none)) ∧
    (∃ bytes, reqU.Body = some bytes ∧ ∀ b : Body, b.data = bytes →
      jsonDecode (unmarshalStruct UpdateIncidentOptions.field UpdateIncidentOptions.fits) b {}
        = (u, none)) := by
  constructor
  · obtain ⟨bytes, henc, hbody⟩ := NewRequest_body lib _ c methodO urlO (some o) reqO hreqO
    simp only [encodePtr, CreateIncidentOptions.encode, encodeJSON, Except.ok.injEq] at henc
    refine ⟨bytes, hbody, fun b hb => ?_⟩
    have hs := nilOrNonEmpty_ne _ hoS
    obtain ⟨hm, hp⟩ := plainMap_facts _ _ hoM
    obtain ⟨hfit, hnest⟩ := create_members o 9997 hs hm hp
    have hdec := decode_create o 9998 hs hm hp
    have hobj : ∃ ms, o.toJSON = .obj ms := ⟨_, rfl⟩
    obtain ⟨ms, hms⟩ := hobj
    rw [hms] at hfit hnest hdec henc
    rw [jsonDecode_encoded _ ms b _ hnest (by rw [hb, ← henc])]
    simp only [unmarshalStruct, hfit, hdec, if_true]
  · obtain ⟨bytes, henc, hbody⟩ := NewRequest_body lib _ c methodU urlU (some u) reqU hreqU
    simp only [encodePtr, UpdateIncidentOptions.encode, encodeJSON, Except.ok.injEq] at henc
    refine ⟨bytes, hbody, fun b hb => ?_⟩
    have hs := nilOrNonEmpty_ne _ huS
    obtain ⟨hm, hp⟩ := plainMap_facts _ _ huM
    obtain ⟨hfit, hnest⟩ := update_members u 9997 hs hm hp
    have hdec := decode_update u 9998 hs hm hp
    have hobj : ∃ ms, u.toJSON = .obj ms := ⟨_, rfl⟩
    obtain ⟨ms, hms⟩ := hobj
    rw [hms] at hfit hnest hdec henc
    rw [jsonDecode_encoded _ ms b _ hnest (by rw [hb, ← henc])]
    simp only [unmarshalStruct, hfit, hdec, if_true]

/-- The options of the tests of `Create` and `Update`, and create options with
a quote in the name and custom field values of every kind: the bodies of their
requests decode to the options. -/
theorem request_body_round_trip_witness :
    (plainMap 9998 mixedValueOptions.CustomFieldValues = true ∧
      Client.NewRequest plainURLLib (encodePtr CreateIncidentOptions.encode) exampleClient
        "POST" "v2/incidents" (some (some mixedValueOptions)) = .ok mixedValueRequest ∧
      ∃ bytes, mixedValueRequest.Body = some bytes ∧ ∀ b : Body, b.data = bytes →
        jsonDecode (unmarshalStruct CreateIncidentOptions.field CreateIncidentOptions.fits) b {}
          = (mixedValueOptions, none)) ∧
    nilOrNonEmpty testCreateOptions.IncidentRoleAssignments = true ∧
    plainMap 9998 testCreateOptions.CustomFieldValues = true ∧
    nilOrNonEmpty testUpdateOptions.IncidentRoleAssignments = true ∧
    plainMap 9998 testUpdateOptions.CustomFieldValues = true ∧
    Client.NewRequest plainURLLib (encodePtr CreateIncidentOptions.encode) exampleClient
      "POST" "v2/incidents" (some (some testCreateOptions)) = .ok testCreateRequest ∧
    Client.NewRequest plainURLLib (encodePtr UpdateIncidentOptions.encode) exampleClient
      "PUT" "v2/incidents/01FDAG4SAP5TYPT98WGR2N7W91" (some (some testUpdateOptions))
        = .ok testUpdateRequest ∧
    ((∃ bytes, testCreateRequest.Body = some bytes ∧ ∀ b : Body, b.data = bytes →
      jsonDecode (unmarshalStruct CreateIncidentOptions.field CreateIncidentOptions.fits) b {}
        = (testCreateOptions, none)) ∧
    (∃ bytes, testUpdateRequest.Body = some bytes ∧ ∀ b : Body, b.data = bytes →
      jsonDecode (unmarshalStruct UpdateIncidentOptions.field UpdateIncidentOptions.fits) b {}
        = (testUpdateOptions, none))) :=
  ⟨⟨rfl, rfl,
    (request_body_round_trip plainURLLib exampleClient "POST" "v2/incidents" "PUT"
      "v2/incidents/01FDAG4SAP5TYPT98WGR2N7W91" mixedValueOptions testUpdateOptions
      mixedValueRequest testUpdateRequest rfl rfl rfl rfl rfl rfl).1⟩,
   rfl, rfl, rfl, rfl, rfl, rfl,
   request_body_round_trip plainURLLib exampleClient "POST" "v2/incidents" "PUT"
     "v2/incidents/01FDAG4SAP5TYPT98WGR2N7W91" testCreateOptions testUpdateOptions
     testCreateRequest testUpdateRequest rfl rfl rfl rfl rfl rfl⟩

theorem render_deep (v : JSON) :
    JSON.render false (.obj [("name", .str "x"), ("incident_type_id", .str ""),
      ("custom_field_values", .obj [("k", v)])]) ++ ['\n'] =
    ("\x7b\"name\":\"x\",\"incident_type_id\":\"\"," ++
      "\"custom_field_values\":\x7b\"k\":").toList ++
        (JSON.render false v ++ ['\x7d', '\x7d', '\n']) := by
  simp [JSON.render, renderMembers, encodeString, encodeRune]

theorem render_nestedSlices (n : Nat) :
    JSON.render false (Dyn.toJSON (nestedSlices n))
      = List.replicate (n + 1) '[' ++ List.replicate (n + 1) ']' := by
  induction n with
  | zero => rfl
  | succ k ih =>
    simp only [nestedSlices, Dyn.toJSON, Dyn.toElems, JSON.render, renderElems, ih]
    rw [List.replicate_succ (n := k + 1), List.replicate_succ' (n := k + 1)]
    simp

theorem scan_too_deep (n : Nat) : ∀ (stack : List Frame) (b : Bool) (cs : List Char),
    stack.length + n = maxNestingDepth →
    scan ⟨stack, .beginValue b⟩ (List.replicate (n + 1) '[' ++ cs)
      = .invalid "exceeded max depth" := by
  induction n with
  | zero =>
    intro stack b cs h
    have hlen : ¬ stack.length + 1 ≤ maxNestingDepth := by omega
    simp [scan, step, stepBeginValue, isSpace, push, hlen]
  | succ k ih =>
    intro stack b cs h
    rw [List.replicate_succ, List.cons_append, (scan_open_container stack b _ (by omega)).1]
    exact ih (.arr [] :: stack) true cs (by simp; omega)

theorem scan_deep_opening (tail : List Char) :
    scanValue (("\x7b\"name\":\"x\",\"incident_type_id\":\"\"," ++
      "\"custom_field_values\":\x7b\"k\":").toList ++ tail)
        = scan ⟨[.value [] "k", .value [("incident_type_id", .str ""), ("name", .str "x")]
            "custom_field_values"], .beginValue false⟩ tail := by
  rfl

theorem decode_too_deep (n : Nat) (bytes tail : List Char) (hn : n + 2 = maxNestingDepth)
    (hb : bytes = ("\x7b\"name\":\"x\",\"incident_type_id\":\"\"," ++
      "\"custom_field_values\":\x7b\"k\":").toList ++ (List.replicate (n + 1) '[' ++ tail)) :
    jsonDecode (unmarshalStruct CreateIncidentOptions.field CreateIncidentOptions.fits)
      ⟨[bytes], none⟩ {} = ({}, some (.malformed "exceeded max depth")) := by
  have hd : (⟨[bytes], none⟩ : Body).data = bytes := by simp [Body.data]
  simp only [jsonDecode, decoderReadValue, hd]
  rw [hb, scan_deep_opening, scan_too_deep n _ _ _ (by simp; omega)]

theorem deep_body :
    JSON.render false deepValueOptions.toJSON ++ ['\n'] =
      ("\x7b\"name\":\"x\",\"incident_type_id\":\"\"," ++
        "\"custom_field_values\":\x7b\"k\":").toList ++
          (List.replicate (9998 + 1) '[' ++
            (List.replicate (9998 + 1) ']' ++ ['\x7d', '\x7d', '\n'])) := by
  have hj : deepValueOptions.toJSON = .obj [("name", .str "x"), ("incident_type_id", .str ""),
      ("custom_field_values", .obj [("k", Dyn.toJSON (nestedSlices 9998))])] := rfl
  rw [hj, render_deep, render_nestedSlices, List.append_assoc]

/-- C23 as stated fails: an empty slice or map that is not nil is left out of
the body and comes back nil, an `int` among the custom field values comes
back as a `float64`, a nil `[]interface{}` among them is written as `null` and
comes back as the nil interface, and a value of 9999 slices inside one another
is refused by the decoder. -/
theorem request_body_round_trip_counterexample :
    (Client.NewRequest plainURLLib (encodePtr CreateIncidentOptions.encode) exampleClient
        "POST" "v2/incidents" (some (some emptySliceOptions))
      = .ok { incidentsPostRequest with
          Body := some "\x7b\"name\":\"x\",\"incident_type_id\":\"\"\x7d\n".toList } ∧
      jsonDecode (unmarshalStruct CreateIncidentOptions.field CreateIncidentOptions.fits)
        ⟨["\x7b\"name\":\"x\",\"incident_type_id\":\"\"\x7d\n".toList], none⟩ {}
          = ({ Name := "x" }, none) ∧
      ({ Name := "x" } : CreateIncidentOptions) ≠ emptySliceOptions) ∧
    (Client.NewRequest plainURLLib (encodePtr CreateIncidentOptions.encode) exampleClient
        "POST" "v2/incidents" (some (some intValueOptions))
      = .ok { incidentsPostRequest with
          Body := some ("\x7b\"name\":\"x\",\"incident_type_id\":\"\"," ++
            "\"custom_field_values\":\x7b\"priority\":1\x7d\x7d\n").toList } ∧
      jsonDecode (unmarshalStruct CreateIncidentOptions.field CreateIncidentOptions.fits)
        ⟨[("\x7b\"name\":\"x\",\"incident_type_id\":\"\"," ++
            "\"custom_field_values\":\x7b\"priority\":1\x7d\x7d\n").toList], none⟩ {}
          = ({ Name := "x", CustomFieldValues := some [("priority", .float64 "1")] }, none) ∧
      ({ Name := "x", CustomFieldValues := some [("priority", .float64 "1")] }
        : CreateIncidentOptions) ≠ intValueOptions) ∧
    (Client.NewRequest plainURLLib (encodePtr UpdateIncidentOptions.encode) exampleClient
        "PUT" "v2/incidents/01FDAG4SAP5TYPT98WGR2N7W91" (some (some emptyMapOptions))
      = .ok { testUpdateRequest with
          Body := some "\x7b\"status\":\"resolved\"\x7d\n".toList } ∧
      jsonDecode (unmarshalStruct UpdateIncidentOptions.field UpdateIncidentOptions.fits)
        ⟨["\x7b\"status\":\"resolved\"\x7d\n".toList], none⟩ {}
          = ({ Status := some "resolved" }, none) ∧
      ({ Status := some "resolved" } : UpdateIncidentOptions) ≠ emptyMapOptions) ∧
    (Client.NewRequest plainURLLib (encodePtr CreateIncidentOptions.encode) exampleClient
        "POST" "v2/incidents" (some (some nilSliceValueOptions))
      = .ok { incidentsPostRequest with
          Body := some ("\x7b\"name\":\"x\",\"incident_type_id\":\"\"," ++
            "\"custom_field_values\":\x7b\"tags\":null\x7d\x7d\n").toList } ∧
      jsonDecode (unmarshalStruct CreateIncidentOptions.field CreateIncidentOptions.fits)
        ⟨[("\x7b\"name\":\"x\",\"incident_type_id\":\"\"," ++
            "\"custom_field_values\":\x7b\"tags\":null\x7d\x7d\n").toList], none⟩ {}
          = ({ Name := "x", CustomFieldValues := some [("tags", .null)] }, none) ∧
      ({ Name := "x", CustomFieldValues := some [("tags", .null)] }
        : CreateIncidentOptions) ≠ nilSliceValueOptions) ∧
    (Client.NewRequest plainURLLib (encodePtr CreateIncidentOptions.encode) exampleClient
        "POST" "v2/incidents" (some (some deepValueOptions))
      = .ok { incidentsPostRequest with
          Body := some (JSON.render false deepValueOptions.toJSON ++ ['\n']) } ∧
      jsonDecode (unmarshalStruct CreateIncidentOptions.field CreateIncidentOptions.fits)
        ⟨[JSON.render false deepValueOptions.toJSON ++ ['\n']], none⟩ {}
          = ({}, some (.malformed "exceeded max depth"))) :=
  ⟨⟨rfl, rfl, by simp [emptySliceOptions]⟩, ⟨rfl, rfl, by simp [intValueOptions]⟩,
   ⟨rfl, rfl, by simp [emptyMapOptions]⟩, ⟨rfl, rfl, by simp [nilSliceValueOptions]⟩,
   ⟨rfl, decode_too_deep 9998 _ _ rfl deep_body⟩⟩

end Incidentio
